import Mathlib

/-!
# bcpfs-perms: organization builder, acceptance filter and tree planner

A shallow embedding of the pure core of `cmd/bcpfs-perms` (packages `grp`,
`bcpcfg`, `bcp`, `bcpfilter`, `fsck` and the path computations of `fsapply`)
together with theorems about it.

Conventions of the embedding:

* Go `string` is `String`; byte-indexed operations (`strings.HasPrefix`,
  `s[len(p):]`, `p[0]`) are expressed on the character list `String.data`.
  Every index the code uses is either the length of a matched prefix/suffix
  or the position of an ASCII byte, so bytes and characters agree.
* Go `int` (gids, uids) is `Int`.
* Go `map[K]V` is an association list `GoMap K V`; a later assignment to a
  key shadows an earlier one.
* A Go function that may return an `error` or `panic` returns `Result`.
* Logging is dropped; it does not influence any returned value.
-/

set_option autoImplicit false

namespace Bcpfs

/-! ## Go runtime helpers -/

/-- Outcome of a Go call that can return a value, return an `error`, or panic. -/
inductive Result (α : Type) where
  | ok (a : α)
  | error (msg : String)
  | panic (msg : String)
  deriving DecidableEq, Repr

/-- Association-list model of a Go `map[K]V`. -/
abbrev GoMap (K V : Type) := List (K × V)

/-- Assignment `m[k] = v`. -/
def GoMap.set {K V : Type} (m : GoMap K V) (k : K) (v : V) : GoMap K V :=
  (k, v) :: m

/-- Lookup `v, ok := m[k]`. -/
def GoMap.get {K V : Type} [DecidableEq K] (m : GoMap K V) (k : K) : Option V :=
  match m with
  | [] => none
  | (k', v) :: rest => if k' = k then some v else GoMap.get rest k

/-- Go `strings.HasPrefix(s, p)`. -/
def HasPrefix (s p : String) : Bool := p.data.isPrefixOf s.data

/-- Go `strings.HasSuffix(s, p)`. -/
def HasSuffix (s p : String) : Bool := p.data.isSuffixOf s.data

/-- Go `s[n:]` where `n` is the length of a prefix of `s`. -/
def sliceFrom (s : String) (n : Nat) : String := String.mk (s.data.drop n)

/-- Go `s[:len(s)-n]` where `n` is the length of a suffix of `s`. -/
def sliceDropRight (s : String) (n : Nat) : String :=
  String.mk (s.data.take (s.data.length - n))

/-- Go `strings.TrimSuffix(s, suf)`. -/
def TrimSuffix (s suf : String) : String :=
  if HasSuffix s suf then sliceDropRight s suf.data.length else s

/-- Go `strings.Join(list, sep)`. -/
def Join (list : List String) (sep : String) : String := sep.intercalate list

/-- Character-list form of `Join`: the pieces with `sep` between them. -/
def joinData (sep : List Char) : List (List Char) → List Char
  | [] => []
  | [a] => a
  | a :: b :: rest => a ++ sep ++ joinData sep (b :: rest)

/-- Lexicographic order on character lists by code point. -/
def lessChars : List Char → List Char → Bool
  | _, [] => false
  | [], _ :: _ => true
  | a :: as, b :: bs =>
    decide (a.toNat < b.toNat) || (decide (a = b) && lessChars as bs)

/-- Go string comparison `s < t`: bytewise lexicographic, which on UTF-8 text
is the lexicographic order of the code points. -/
def stringLess (s t : String) : Bool := lessChars s.data t.data

/-- Go `fmt.Sprintf("%d", n)` for an `int`: the decimal digits, with a leading
`-` for a negative number (it is `toString n`). -/
def fmtInt (n : Int) : String :=
  match n with
  | Int.ofNat m => String.mk (Nat.toDigits 10 m)
  | Int.negSucc m => String.mk ('-' :: Nat.toDigits 10 (m + 1))

/-- Go `strings.Split(s, sep)` for a one-character separator, on character
lists: the pieces between the separators. -/
def splitOnChar (sep : Char) : List Char → List (List Char)
  | [] => [[]]
  | c :: cs =>
    if c = sep then [] :: splitOnChar sep cs
    else
      match splitOnChar sep cs with
      | [] => [[c]]
      | w :: ws => (c :: w) :: ws

/-- Go `unicode.IsSpace`. -/
def isSpace (c : Char) : Bool :=
  c = '\t' || c = '\n' || c = Char.ofNat 0x0B || c = Char.ofNat 0x0C ||
    c = '\r' || c = ' ' || c = Char.ofNat 0x85 || c = Char.ofNat 0xA0 ||
    c = Char.ofNat 0x1680 || (decide (0x2000 ≤ c.toNat) && decide (c.toNat ≤ 0x200A)) ||
    c = Char.ofNat 0x2028 || c = Char.ofNat 0x2029 || c = Char.ofNat 0x202F ||
    c = Char.ofNat 0x205F || c = Char.ofNat 0x3000

/-- Go `strings.TrimSpace`. -/
def TrimSpace (s : String) : String :=
  String.mk ((s.data.dropWhile isSpace).reverse.dropWhile isSpace).reverse

/-- Go `sort.Ints`. -/
def sortInts (l : List Int) : List Int := l.insertionSort (fun a b => a ≤ b)

/-- A raw string literal that consists of a newline, the given lines separated
by newlines, and a final newline (the shape of the `Sprintf` templates of
package `fsck`). -/
def templateText (lines : List String) : String :=
  "\n" ++ Join lines "\n" ++ "\n"

/-! ## Package `grp` -/

namespace grp

/-- Unix group as reported by `getent`. -/
structure Group where
  Name : String
  Gid : Int
  deriving DecidableEq, Repr

instance : Inhabited Group := ⟨⟨"", 0⟩⟩

/-- Function `SelectGroups`. -/
def SelectGroups (groups : List Group) (prefixes equals : List String) : List Group :=
  groups.filter (fun g =>
    equals.any (fun e => decide (e = g.Name)) ||
      prefixes.any (fun p => HasPrefix g.Name p))

/-- Closure `errConflict` of `DedupGroups`. -/
def errConflict (a b : Group) : String :=
  "conflicting groups " ++ fmtInt a.Gid ++ "(" ++ a.Name ++ ") and " ++
    fmtInt b.Gid ++ "(" ++ b.Name ++ ")"

/-- Closure `isDuplicate` of `DedupGroups`: the flag and the error, if any. -/
def isDuplicate (byName : GoMap String Group) (byGid : GoMap Int Group) (g : Group) :
    Bool × Option String :=
  match byName.get g.Name with
  | some seen => if g ≠ seen then (true, some (errConflict seen g)) else (true, none)
  | none =>
    match byGid.get g.Gid with
    | some seen => if g ≠ seen then (true, some (errConflict seen g)) else (true, none)
    | none => (false, none)

/-- Loop of `DedupGroups`. -/
def dedupLoop :
    List Group → GoMap String Group → GoMap Int Group → List Group →
      Except String (List Group)
  | [], _, _, res => Except.ok res
  | g :: rest, byName, byGid, res =>
    match isDuplicate byName byGid g with
    | (_, some err) => Except.error err
    | (true, none) => dedupLoop rest byName byGid res
    | (false, none) =>
      dedupLoop rest (byName.set g.Name g) (byGid.set g.Gid g) (res ++ [g])

/-- Function `DedupGroups`. -/
def DedupGroups (groups : List Group) : Except String (List Group) :=
  dedupLoop groups [] [] []

/-- The call `sort.SliceStable(gs, ...)` of `MustLoadGroups`: a stable sort by
name (insertion sort places an element before the later elements of equal
name). -/
def sortByName (gs : List Group) : List Group :=
  gs.insertionSort (fun a b => stringLess b.Name a.Name = false)

end grp

/-! ## Package `bcpcfg` -/

namespace bcpcfg

structure Facility where
  Name : String
  Services : List String
  Access : String
  deriving DecidableEq, Repr

structure DirWithPolicy where
  Name : String
  Policy : String
  deriving DecidableEq, Repr

structure OrgUnit where
  Name : String
  Subdirs : List DirWithPolicy
  ExtraDirs : List String
  deriving DecidableEq, Repr

structure FilterRule where
  Services : List String
  OrgUnits : List String
  Action : String
  deriving DecidableEq, Repr

/-- The fields of `bcpcfg.Root` that the organization builder, the filter and
the tree planner read. -/
structure Root where
  Rootdir : String
  ServiceDir : String
  OrgUnitDir : String
  SuperGroup : String
  OrgUnitPrefix : String
  ServicePrefix : String
  OpsSuffix : String
  FacilitySuffix : String
  Facilities : List Facility
  OrgUnits : List OrgUnit
  Filter : List FilterRule
  deriving Repr

end bcpcfg

/-! ## Package `bcp`: data model -/

namespace bcp

inductive AccessPolicy where
  | AccessUnspecified
  | AccessPerService
  | AccessAllOrgUnits
  deriving DecidableEq, Repr

def AccessPolicy.IsPerService (a : AccessPolicy) : Bool :=
  if a = AccessPolicy.AccessPerService then true else false

def AccessPolicy.IsAllOrgUnits (a : AccessPolicy) : Bool :=
  if a = AccessPolicy.AccessAllOrgUnits then true else false

structure Service where
  Name : String
  Facility : String
  Access : AccessPolicy
  SuperGroup : grp.Group
  ServiceGroup : grp.Group
  ServiceOpsGroup : grp.Group
  deriving DecidableEq, Repr

/-- Directory policy; the Go type is a string with three named constants. -/
abbrev DirPolicy := String

def GroupPolicy : DirPolicy := "group"
def OwnerPolicy : DirPolicy := "owner"
def ManagerPolicy : DirPolicy := "manager"

structure DirWithPolicy where
  Name : String
  Policy : DirPolicy
  deriving DecidableEq, Repr

structure OrgUnit where
  Name : String
  Subdirs : List DirWithPolicy
  ExtraDirs : List String
  IsFacility : Bool
  Facility : String
  OrgUnitGroup : grp.Group
  deriving DecidableEq, Repr

structure Facility where
  Name : String
  deriving DecidableEq, Repr

structure FacilityAccess where
  Name : String
  Access : String
  deriving DecidableEq, Repr

structure Names where
  OrgUnits : List String
  Services : List String
  Facilities : List String
  deriving DecidableEq, Repr

structure Organization where
  OrgUnits : List OrgUnit
  Facilities : List Facility
  Services : List Service
  deriving DecidableEq, Repr

end bcp

/-! ## Package `bcp`: the organization builder `New` -/

namespace bcp

/-- Function `MustDirPolicy`; it panics on an invalid policy name. -/
def MustDirPolicy (s : String) : Result DirPolicy :=
  if s = OwnerPolicy then Result.ok OwnerPolicy
  else if s = GroupPolicy then Result.ok GroupPolicy
  else if s = ManagerPolicy then Result.ok ManagerPolicy
  else Result.panic ("invalid DirPolicy from `" ++ s ++ "`")

/-- Function `AccessPolicyFromString`. -/
def AccessPolicyFromString (name : String) : Except String AccessPolicy :=
  if name = "perService" then Except.ok AccessPolicy.AccessPerService
  else if name = "allOrgUnits" then Except.ok AccessPolicy.AccessAllOrgUnits
  else if name = "" then Except.ok AccessPolicy.AccessPerService
  else Except.error ("invalid Access name `" ++ name ++ "`")

/-- Struct `GroupMap`. -/
structure GroupMap where
  byName : GoMap String grp.Group
  servicePrefix : String
  orgUnitPrefix : String
  opsSuffix : String

/-- Function `NewGroupMap`. -/
def NewGroupMap (groups : List grp.Group) (cfg : bcpcfg.Root) : GroupMap :=
  { byName := groups.foldl (fun byName g => byName.set g.Name g) []
    servicePrefix := cfg.ServicePrefix
    orgUnitPrefix := cfg.OrgUnitPrefix
    opsSuffix := cfg.OpsSuffix }

/-- Method `(*GroupMap).GetByName`. -/
def GroupMap.GetByName (gm : GroupMap) (name : String) : Option grp.Group :=
  gm.byName.get name

/-- Method `(*GroupMap).FindOrgUnitGroup`. -/
def GroupMap.FindOrgUnitGroup (gm : GroupMap) (ou : OrgUnit) : Option grp.Group :=
  gm.GetByName (gm.orgUnitPrefix ++ "_" ++ ou.Name)

/-- Method `(*GroupMap).FindServiceGroup`. -/
def GroupMap.FindServiceGroup (gm : GroupMap) (s : Service) : Option grp.Group :=
  gm.GetByName (gm.servicePrefix ++ "_" ++ s.Name)

/-- Method `(*GroupMap).FindServiceOpsGroup`. -/
def GroupMap.FindServiceOpsGroup (gm : GroupMap) (s : Service) : Option grp.Group :=
  gm.GetByName (gm.servicePrefix ++ "_" ++ s.Facility ++ "-" ++ gm.opsSuffix)

/-- Function `parseOrgUnitNames`: `org_<x>` gives `<x>`. -/
def parseOrgUnitNames (gs : List grp.Group) (cfg : bcpcfg.Root) : List String :=
  let pfx := cfg.OrgUnitPrefix ++ "_"
  gs.filterMap (fun g =>
    if HasPrefix g.Name pfx then some (sliceFrom g.Name pfx.data.length) else none)

/-- Function `parseServiceNames`: `srv_<x>` gives `<x>` unless the group name
ends in `-ops`. -/
def parseServiceNames (gs : List grp.Group) (cfg : bcpcfg.Root) : List String :=
  let pfx := cfg.ServicePrefix ++ "_"
  let suf := "-" ++ cfg.OpsSuffix
  gs.filterMap (fun g =>
    if !HasPrefix g.Name pfx then none
    else if HasSuffix g.Name suf then none
    else some (sliceFrom g.Name pfx.data.length))

/-- Function `parseFacilityNames`: `org_<x>-facility` gives `<x>`. -/
def parseFacilityNames (gs : List grp.Group) (cfg : bcpcfg.Root) : List String :=
  let pfx := cfg.OrgUnitPrefix ++ "_"
  let suf := "-" ++ cfg.FacilitySuffix
  gs.filterMap (fun g =>
    if !HasPrefix g.Name pfx then none
    else
      let n := sliceFrom g.Name pfx.data.length
      if !HasSuffix n suf then none
      else some (sliceDropRight n suf.data.length))

/-- Function `parseGroupNames`; it never fails. -/
def parseGroupNames (gs : List grp.Group) (cfg : bcpcfg.Root) : Names :=
  { OrgUnits := parseOrgUnitNames gs cfg
    Services := parseServiceNames gs cfg
    Facilities := parseFacilityNames gs cfg }

/-- The map `facilityBySrv` of `parseServices`. -/
def facilityBySrv (cfg : bcpcfg.Root) : GoMap String FacilityAccess :=
  cfg.Facilities.foldl
    (fun m f => f.Services.foldl (fun m s => m.set s ⟨f.Name, f.Access⟩) m)
    []

/-- The loop of `parseServices` over `names.Services`, with the accumulated
services and the messages about unconfigured services. -/
def parseServicesLoop (cfg : bcpcfg.Root) (gm : GroupMap)
    (fbs : GoMap String FacilityAccess) :
    List String → List Service → List String → Result (List Service × List String)
  | [], srvs, unconf => Result.ok (srvs, unconf)
  | s :: rest, srvs, unconf =>
    match fbs.get s with
    | none =>
      parseServicesLoop cfg gm fbs rest srvs
        (unconf ++ ["Missing facility for service `" ++ s ++ "`."])
    | some f =>
      match AccessPolicyFromString f.Access with
      | Except.error err => Result.error (err ++ " in service `" ++ s ++ "`")
      | Except.ok access =>
        let srv : Service :=
          { Name := s, Facility := f.Name, Access := access,
            SuperGroup := default, ServiceGroup := default,
            ServiceOpsGroup := default }
        if srv.Access.IsAllOrgUnits && decide (cfg.SuperGroup = "") then
          Result.error
            ("Service `" ++ srv.Name ++
              "`: Can't apply `allOrgUnits` without `SuperGroup`")
        else
          match gm.FindServiceGroup srv with
          | none => Result.error ("missing group for service `" ++ s ++ "`")
          | some g =>
            let srv := { srv with ServiceGroup := g }
            let super : Result Service :=
              if cfg.SuperGroup ≠ "" then
                match gm.GetByName cfg.SuperGroup with
                | none =>
                  Result.error
                    ("missing group for superGroup `" ++ cfg.SuperGroup ++ "`")
                | some g => Result.ok { srv with SuperGroup := g }
              else Result.ok srv
            match super with
            | Result.error msg => Result.error msg
            | Result.panic msg => Result.panic msg
            | Result.ok srv =>
              match gm.FindServiceOpsGroup srv with
              | none =>
                Result.error ("missing ops group for service `" ++ s ++ "`")
              | some g =>
                parseServicesLoop cfg gm fbs rest
                  (srvs ++ [{ srv with ServiceOpsGroup := g }]) unconf

/-- Function `parseServices`. -/
def parseServices (names : Names) (cfg : bcpcfg.Root) (gm : GroupMap) :
    Result (List Service × List String) :=
  let haveF : GoMap String Bool := names.Facilities.foldl (fun m f => m.set f true) []
  match cfg.Facilities.find? (fun f => !((haveF.get f.Name).getD false)) with
  | some f => Result.error ("missing group for facility `" ++ f.Name ++ "`")
  | none => parseServicesLoop cfg gm (facilityBySrv cfg) names.Services [] []

/-- State of the closure `checkName` in `parseOrgUnits`. -/
structure DirCheck where
  used : GoMap String Bool
  checkErr : Option String

/-- Closure `checkName` of `parseOrgUnits`. -/
def checkName (couName : String) (st : DirCheck) (name : String) : DirCheck :=
  match st.checkErr with
  | some _ => st
  | none =>
    { used := st.used.set name true
      checkErr :=
        match st.used.get name with
        | some _ => some ("duplicate ou `" ++ couName ++ "` dir `" ++ name ++ "`")
        | none => none }

/-- Loop of `parseOrgUnits` over `cou.Subdirs`. -/
def subdirsLoop (couName : String) :
    List bcpcfg.DirWithPolicy → DirCheck → List DirWithPolicy → List String →
      Result (DirCheck × List DirWithPolicy × List String)
  | [], st, sds, xds => Result.ok (st, sds, xds)
  | d :: rest, st, sds, xds =>
    let st := checkName couName st d.Name
    match MustDirPolicy d.Policy with
    | Result.panic msg => Result.panic msg
    | Result.error msg => Result.error msg
    | Result.ok pol =>
      subdirsLoop couName rest st (sds ++ [⟨d.Name, pol⟩]) (xds ++ [d.Name])

/-- Loop of `parseOrgUnits` over `cou.ExtraDirs`. -/
def extraDirsLoop (couName : String) :
    List String → DirCheck → List DirWithPolicy → List String →
      DirCheck × List DirWithPolicy × List String
  | [], st, sds, xds => (st, sds, xds)
  | xd :: rest, st, sds, xds =>
    extraDirsLoop couName rest (checkName couName st xd)
      (sds ++ [⟨xd, GroupPolicy⟩]) (xds ++ [xd])

/-- First loop of `parseOrgUnits`: the maps `subdirsByOu` and `extraDirsByOu`. -/
def dirsByOuLoop :
    List bcpcfg.OrgUnit → GoMap String (List DirWithPolicy) → GoMap String (List String) →
      Result (GoMap String (List DirWithPolicy) × GoMap String (List String))
  | [], subdirsByOu, extraDirsByOu => Result.ok (subdirsByOu, extraDirsByOu)
  | cou :: rest, subdirsByOu, extraDirsByOu =>
    match subdirsLoop cou.Name cou.Subdirs ⟨[], none⟩ [] [] with
    | Result.panic msg => Result.panic msg
    | Result.error msg => Result.error msg
    | Result.ok (st, sds, xds) =>
      match extraDirsLoop cou.Name cou.ExtraDirs st sds xds with
      | (st, sds, xds) =>
        match st.checkErr with
        | some err => Result.error err
        | none =>
          dirsByOuLoop rest (subdirsByOu.set cou.Name sds)
            (extraDirsByOu.set cou.Name xds)

/-- Second loop of `parseOrgUnits`, over `names.OrgUnits`. -/
def orgUnitsLoop (gm : GroupMap) (fsuf : String)
    (subdirsByOu : GoMap String (List DirWithPolicy)) (extraDirsByOu : GoMap String (List String)) :
    List String → List OrgUnit → Result (List OrgUnit)
  | [], ous => Result.ok ous
  | o :: rest, ous =>
    let isFacility := HasSuffix o fsuf
    let ou : OrgUnit :=
      { Name := o
        Subdirs := (subdirsByOu.get o).getD []
        ExtraDirs := (extraDirsByOu.get o).getD []
        IsFacility := isFacility
        Facility := if isFacility then TrimSuffix o fsuf else ""
        OrgUnitGroup := default }
    match gm.FindOrgUnitGroup ou with
    | none => Result.error ("missing group for org unit `" ++ o ++ "`")
    | some g =>
      orgUnitsLoop gm fsuf subdirsByOu extraDirsByOu rest
        (ous ++ [{ ou with OrgUnitGroup := g }])

/-- Function `parseOrgUnits`. -/
def parseOrgUnits (names : Names) (cfg : bcpcfg.Root) (gm : GroupMap) :
    Result (List OrgUnit) :=
  match dirsByOuLoop cfg.OrgUnits [] [] with
  | Result.panic msg => Result.panic msg
  | Result.error msg => Result.error msg
  | Result.ok (subdirsByOu, extraDirsByOu) =>
    orgUnitsLoop gm ("-" ++ cfg.FacilitySuffix) subdirsByOu extraDirsByOu
      names.OrgUnits []

/-- Function `parseFacilities`; it never fails. -/
def parseFacilities (names : Names) : List Facility :=
  names.Facilities.map (fun f => ⟨f⟩)

/-- Function `New`: on success the organization and the messages about
unconfigured services. -/
def New (groups : List grp.Group) (cfg : bcpcfg.Root) :
    Result (Organization × List String) :=
  let names := parseGroupNames groups cfg
  let gm := NewGroupMap groups cfg
  match parseOrgUnits names cfg gm with
  | Result.panic msg => Result.panic msg
  | Result.error msg => Result.error msg
  | Result.ok orgUnits =>
    match parseServices names cfg gm with
    | Result.panic msg => Result.panic msg
    | Result.error msg => Result.error msg
    | Result.ok (services, unconfServices) =>
      Result.ok
        ({ OrgUnits := orgUnits
           Facilities := parseFacilities names
           Services := services },
          unconfServices)

/-- Policy names that `MustDirPolicy` accepts. -/
def ValidPolicy (p : String) : Prop := p = "owner" ∨ p = "group" ∨ p = "manager"

/-- What `parseServicesLoop` establishes for a service it appends. -/
def ServiceResolved (cfg : bcpcfg.Root) (gm : GroupMap) (fbs : GoMap String FacilityAccess)
    (s : Service) : Prop :=
  (∃ fa, fbs.get s.Name = some fa ∧ s.Facility = fa.Name ∧
    AccessPolicyFromString fa.Access = Except.ok s.Access) ∧
  gm.GetByName (gm.servicePrefix ++ "_" ++ s.Name) = some s.ServiceGroup ∧
  gm.GetByName (gm.servicePrefix ++ "_" ++ s.Facility ++ "-" ++ gm.opsSuffix) =
    some s.ServiceOpsGroup ∧
  (cfg.SuperGroup ≠ "" → gm.GetByName cfg.SuperGroup = some s.SuperGroup) ∧
  (s.Access = AccessPolicy.AccessAllOrgUnits → cfg.SuperGroup ≠ "")

end bcp

/-! ## Package `bcpfilter` -/

namespace bcpfilter

inductive Action where
  | ACCEPT
  | REJECT
  | PASS
  deriving DecidableEq, Repr

/-- Interface `Decider`: a pure decision function. -/
structure Decider where
  Decide : bcp.Service → bcp.OrgUnit → Action × String

/-- Interface `OrgServiceFilter`. -/
structure OrgServiceFilter where
  Accept : bcp.Service → bcp.OrgUnit → Bool × String

structure DecidersFilter where
  Rules : List Decider

/-- Loop of `DecidersFilter.Accept`: each iteration calls `r.Decide` once for
the `ACCEPT` test and once more for the `REJECT` test. -/
def DecidersFilter.acceptLoop (s : bcp.Service) (ou : bcp.OrgUnit) :
    List Decider → Bool × String
  | [] => (false, "no rule accepted")
  | r :: rest =>
    if (r.Decide s ou).1 = Action.ACCEPT then (true, (r.Decide s ou).2)
    else if (r.Decide s ou).1 = Action.REJECT then (false, (r.Decide s ou).2)
    else DecidersFilter.acceptLoop s ou rest

/-- Method `(*DecidersFilter).Accept`. -/
def DecidersFilter.Accept (f : DecidersFilter) (s : bcp.Service)
    (ou : bcp.OrgUnit) : Bool × String :=
  DecidersFilter.acceptLoop s ou f.Rules

/-- A `DecidersFilter` used through the `OrgServiceFilter` interface. -/
def DecidersFilter.toOrgServiceFilter (f : DecidersFilter) : OrgServiceFilter :=
  ⟨f.Accept⟩

/-- Reference semantics in the words of the specification: the first decider
whose decision is not `PASS` wins; if there is none the filter rejects. -/
def acceptReference (rules : List Decider) (s : bcp.Service)
    (ou : bcp.OrgUnit) : Bool × String :=
  match rules.find? (fun r => decide ((r.Decide s ou).1 ≠ Action.PASS)) with
  | none => (false, "no rule accepted")
  | some r =>
    match r.Decide s ou with
    | (Action.ACCEPT, reason) => (true, reason)
    | (Action.REJECT, reason) => (false, reason)
    | (Action.PASS, _) => (false, "no rule accepted")

/-- Reference implementation that evaluates every decider once per iteration
and matches on the returned action. -/
def acceptOnce (s : bcp.Service) (ou : bcp.OrgUnit) :
    List Decider → Bool × String
  | [] => (false, "no rule accepted")
  | r :: rest =>
    match r.Decide s ou with
    | (Action.ACCEPT, reason) => (true, reason)
    | (Action.REJECT, reason) => (false, reason)
    | (Action.PASS, _) => acceptOnce s ou rest

/-- Rune-level test of `strings.EqualFold` against a lower-case ASCII rune
`t`: the runes that fold to `t` under Unicode simple case folding are `t`
itself, its upper-case form, and additionally U+017F (long s) for `s` and
U+212A (Kelvin sign) for `k`. -/
def foldsTo (c t : Char) : Bool :=
  c = t || c.toLower = t ||
    (t = 's' && c = Char.ofNat 0x17F) || (t = 'k' && c = Char.ofNat 0x212A)

/-- List form of `EqualFold`. -/
def equalFoldList : List Char → List Char → Bool
  | [], [] => true
  | c :: cs, t :: ts => foldsTo c t && equalFoldList cs ts
  | _, _ => false

/-- Go `strings.EqualFold(s, t)` for a lower-case ASCII literal `t`. -/
def EqualFold (s t : String) : Bool := equalFoldList s.data t.data

/-- Function `ActionFromString`; it panics on an unknown name. -/
def ActionFromString (name : String) : Result Action :=
  if EqualFold name "accept" then Result.ok Action.ACCEPT
  else if EqualFold name "reject" then Result.ok Action.REJECT
  else if EqualFold name "pass" then Result.ok Action.PASS
  else Result.panic "invalid Action name"

/-- Method `(*SameFacilityDecider).Decide`. -/
def SameFacilityDecider.Decide (s : bcp.Service) (ou : bcp.OrgUnit) :
    Action × String :=
  if !ou.IsFacility then
    (Action.PASS, ou.Name ++ " is not a facility")
  else if HasPrefix ou.Name s.Facility then
    (Action.ACCEPT, "facilty " ++ ou.Name ++ " owns service " ++ s.Name)
  else
    (Action.REJECT,
      "facilty " ++ ou.Name ++ " does not own service " ++ s.Name)

/-- Function `NewSameFacilityDecider`. -/
def NewSameFacilityDecider : Decider := ⟨SameFacilityDecider.Decide⟩

/-- Function `anchoredPattern`. -/
def anchoredPattern (p : String) : String :=
  if p.data.length = 0 then "^$"
  else
    let p1 := if p.data.head? ≠ some '^' then "^" ++ p else p
    if p1.data.getLast? ≠ some '$' then p1 ++ "$" else p1

/-- Function `strings2Pattern`. -/
def strings2Pattern (list : List String) : String :=
  match list with
  | [e] => anchoredPattern e
  | _ => anchoredPattern ("(" ++ Join list "|" ++ ")")

/-- The regular-expression library (`regexp.Compile`, `MatchString`) is
external to the repository and is taken as a parameter. -/
structure RegexpEngine where
  Regexp : Type
  Compile : String → Except String Regexp
  MatchString : Regexp → String → Bool

/-- Struct `RegexpDecider`. -/
structure RegexpDecider (E : RegexpEngine) where
  action : Action
  servicePattern : String
  orgUnitPattern : String
  serviceRgx : E.Regexp
  orgUnitRgx : E.Regexp

/-- Function `NewRegexpDecider`. -/
def NewRegexpDecider (E : RegexpEngine) (r : bcpcfg.FilterRule) :
    Result (RegexpDecider E) :=
  match ActionFromString r.Action with
  | Result.panic msg => Result.panic msg
  | Result.error msg => Result.error msg
  | Result.ok action =>
    let servicePattern := strings2Pattern r.Services
    let orgUnitPattern := strings2Pattern r.OrgUnits
    match E.Compile servicePattern with
    | Except.error err => Result.error err
    | Except.ok serviceRgx =>
      match E.Compile orgUnitPattern with
      | Except.error err => Result.error err
      | Except.ok orgUnitRgx =>
        Result.ok ⟨action, servicePattern, orgUnitPattern, serviceRgx, orgUnitRgx⟩

/-- Method `(*RegexpDecider).Decide`. -/
def RegexpDecider.Decide {E : RegexpEngine} (r : RegexpDecider E)
    (s : bcp.Service) (ou : bcp.OrgUnit) : Action × String :=
  if !E.MatchString r.serviceRgx s.Name then
    (Action.PASS, "service!~/" ++ r.servicePattern ++ "/")
  else if !E.MatchString r.orgUnitRgx ou.Name then
    (Action.PASS, "orgUnit!~/" ++ r.orgUnitPattern ++ "/")
  else
    (r.action,
      "service=~/" ++ r.servicePattern ++ "/ and orgUnit=~/" ++
        r.orgUnitPattern ++ "/")

/-- A `RegexpDecider` used through the `Decider` interface. -/
def RegexpDecider.toDecider {E : RegexpEngine} (r : RegexpDecider E) : Decider :=
  ⟨r.Decide⟩

/-- A small engine for closed examples: every pattern compiles, and an
anchored pattern `^w$` matches exactly the word `w`. -/
def literalEngine : RegexpEngine where
  Regexp := String
  Compile := fun p => Except.ok p
  MatchString := fun p s => decide (p = "^" ++ s ++ "$")

end bcpfilter

/-! ## Package `path/filepath` (Go standard library, Unix)

`filepath.Clean` and `filepath.Join` are external to the repository.  They
are modelled on path components, following their documented rules: multiple
separators collapse, `.` elements vanish, an inner `..` removes the element
before it, a `..` that begins a rooted path is dropped, a `..` that begins a
relative path is kept, and the empty result is `.`. -/

namespace filepath

/-- Components of a path: the pieces between `/` separators. -/
def splitSlash (path : List Char) : List (List Char) := splitOnChar '/' path

/-- One step of `Clean`; `stack` holds the output elements, last one first. -/
def cleanStep (rooted : Bool) (stack : List (List Char)) (comp : List Char) :
    List (List Char) :=
  if comp = [] ∨ comp = ['.'] then stack
  else if comp = ['.', '.'] then
    match stack with
    | [] => if rooted then [] else [comp]
    | top :: rest =>
      if top = ['.', '.'] then (if rooted then stack else comp :: stack)
      else rest
  else comp :: stack

/-- Go `filepath.Clean`. -/
def Clean (path : String) : String :=
  if path.data = [] then "."
  else
    let rooted : Bool := decide (path.data.head? = some '/')
    let stack := (splitSlash path.data).foldl (cleanStep rooted) []
    let body := String.mk (joinData ['/'] stack.reverse)
    if rooted then "/" ++ body
    else if stack = [] then "."
    else body

/-- Go `filepath.Join`: empty elements are ignored, the rest is joined with
`/` and cleaned; the result is empty if every element is empty. -/
def Join (elem : List String) : String :=
  match elem.dropWhile (fun e => decide (e = "")) with
  | [] => ""
  | rest => Clean ("/".intercalate rest)

/-- A path element that `Clean` keeps as it is: not empty, without separator,
and neither `.` nor `..` (specification side). -/
def isElem (s : String) : Bool :=
  decide (s.data ≠ []) && !s.data.contains '/' && decide (s.data ≠ ['.']) &&
    decide (s.data ≠ ['.', '.'])

/-- The absolute path `/e1/.../en` of the elements `e1 ... en` (specification
side). -/
def absPath (elems : List String) : String :=
  String.mk ('/' :: joinData ['/'] (elems.map String.data))

/-- Go `filepath.IsAbs` on Unix. -/
def IsAbs (path : String) : Bool := decide (path.data.head? = some '/')

/-- Go `filepath.Abs`; `cwd` is the working directory of the process, used
only for a relative `path`. -/
def Abs (cwd path : String) : String :=
  if IsAbs path then Clean path else Join [cwd, path]

end filepath

/-! ## Package `fsck`: expected entries -/

namespace fsck

structure SimpleACL where
  Uid : Int
  Gid : Int
  User : String
  Group : String
  Other : String
  deriving DecidableEq, Repr

structure ServiceACL where
  Uid : Int
  ServiceGid : Int
  ServiceOpsGid : Int
  SuperGid : Int
  Access : bcp.AccessPolicy
  deriving DecidableEq, Repr

structure ServiceOrgUnitACL where
  Uid : Int
  OrgUnitGid : Int
  ServiceOpsGid : Int
  ServiceGid : Int
  SuperGid : Int
  deriving DecidableEq, Repr

structure OrgUnitACL where
  Uid : Int
  Gid : Int
  deriving DecidableEq, Repr

structure SubdirGroupACL where
  Uid : Int
  Gid : Int
  deriving DecidableEq, Repr

structure SubdirOwnerACL where
  Uid : Int
  Gid : Int
  deriving DecidableEq, Repr

structure SubdirManagerACL where
  Uid : Int
  Gid : Int
  deriving DecidableEq, Repr

/-- Interface `ACL`: the closed set of its implementations. -/
inductive ACL where
  | simple (a : SimpleACL)
  | service (a : ServiceACL)
  | serviceOrgUnit (a : ServiceOrgUnitACL)
  | orgUnit (a : OrgUnitACL)
  | subdirGroup (a : SubdirGroupACL)
  | subdirOwner (a : SubdirOwnerACL)
  | subdirManager (a : SubdirManagerACL)
  deriving DecidableEq, Repr

/-- Struct `Entry`; a nil `ACL` is `none`. -/
structure Entry where
  Path : String
  IsSymlink : Bool
  ACL : Option ACL
  LinkDest : String
  deriving DecidableEq, Repr

/-- Method `SimpleACL.NamedGids`. -/
def SimpleACL.NamedGids (_a : SimpleACL) : List Int := []

/-- Method `SimpleACL.FACLString`. -/
def SimpleACL.FACLString (a : SimpleACL) : String :=
  TrimSpace (templateText
    [ "# owner: " ++ fmtInt a.Uid,
      "# group: " ++ fmtInt a.Gid,
      "user::" ++ a.User,
      "group::" ++ a.Group,
      "other::" ++ a.Other ])

/-- Method `ServiceACL.NamedGids`. -/
def ServiceACL.NamedGids (a : ServiceACL) : List Int :=
  [a.ServiceGid, a.ServiceOpsGid, a.SuperGid]

/-- Method `ServiceACL.FACLString`; it panics on an unspecified access
policy. -/
def ServiceACL.FACLString (a : ServiceACL) : Result String :=
  let gids := sortInts [a.ServiceGid, a.ServiceOpsGid]
  if a.Access.IsPerService then
    Result.ok (TrimSpace (templateText
      [ "# owner: " ++ fmtInt a.Uid,
        "# group: " ++ fmtInt a.ServiceGid,
        "user::rwx",
        "group::---",
        "group:" ++ fmtInt (gids.getD 0 0) ++ ":r-x",
        "group:" ++ fmtInt (gids.getD 1 0) ++ ":r-x",
        "mask::r-x",
        "other::---",
        "default:user::rwx",
        "default:group::---",
        "default:group:" ++ fmtInt (gids.getD 0 0) ++ ":r-x",
        "default:group:" ++ fmtInt (gids.getD 1 0) ++ ":r-x",
        "default:mask::r-x",
        "default:other::---" ]))
  else if a.Access.IsAllOrgUnits then
    Result.ok (TrimSpace (templateText
      [ "# owner: " ++ fmtInt a.Uid,
        "# group: " ++ fmtInt a.ServiceGid,
        "user::rwx",
        "group::---",
        "group:" ++ fmtInt a.SuperGid ++ ":r-x",
        "mask::r-x",
        "other::---",
        "default:user::rwx",
        "default:group::---",
        "default:group:" ++ fmtInt a.SuperGid ++ ":r-x",
        "default:mask::r-x",
        "default:other::---" ]))
  else Result.panic "Invalid AccessPolicy"

/-- Method `ServiceOrgUnitACL.NamedGids`. -/
def ServiceOrgUnitACL.NamedGids (a : ServiceOrgUnitACL) : List Int :=
  [a.OrgUnitGid, a.ServiceGid, a.ServiceOpsGid, a.SuperGid]

/-- Method `ServiceOrgUnitACL.FACLString`. -/
def ServiceOrgUnitACL.FACLString (a : ServiceOrgUnitACL) : String :=
  let gids := sortInts [a.OrgUnitGid, a.ServiceOpsGid]
  TrimSpace (templateText
    [ "# owner: " ++ fmtInt a.Uid,
      "# group: " ++ fmtInt a.OrgUnitGid,
      "# flags: -s-",
      "user::rwx",
      "group::---",
      "group:" ++ fmtInt (gids.getD 0 0) ++ ":rwx",
      "group:" ++ fmtInt (gids.getD 1 0) ++ ":rwx",
      "mask::rwx",
      "other::---",
      "default:user::rwx",
      "default:group::---",
      "default:group:" ++ fmtInt (gids.getD 0 0) ++ ":rwx",
      "default:group:" ++ fmtInt (gids.getD 1 0) ++ ":rwx",
      "default:mask::rwx",
      "default:other::---" ])

/-- Method `OrgUnitACL.NamedGids`. -/
def OrgUnitACL.NamedGids (a : OrgUnitACL) : List Int := [a.Gid]

/-- Method `OrgUnitACL.FACLString`. -/
def OrgUnitACL.FACLString (a : OrgUnitACL) : String :=
  TrimSpace (templateText
    [ "# owner: " ++ fmtInt a.Uid,
      "# group: " ++ fmtInt a.Gid,
      "# flags: -s-",
      "user::rwx",
      "group::---",
      "group:" ++ fmtInt a.Gid ++ ":r-x",
      "mask::r-x",
      "other::---",
      "default:user::rwx",
      "default:group::---",
      "default:group:" ++ fmtInt a.Gid ++ ":r-x",
      "default:mask::r-x",
      "default:other::---" ])

/-- Method `SubdirGroupACL.NamedGids`. -/
def SubdirGroupACL.NamedGids (a : SubdirGroupACL) : List Int := [a.Gid]

/-- Method `SubdirGroupACL.FACLString`. -/
def SubdirGroupACL.FACLString (a : SubdirGroupACL) : String :=
  TrimSpace (templateText
    [ "# owner: " ++ fmtInt a.Uid,
      "# group: " ++ fmtInt a.Gid,
      "# flags: -s-",
      "user::rwx",
      "group::---",
      "group:" ++ fmtInt a.Gid ++ ":rwx",
      "mask::rwx",
      "other::---",
      "default:user::rwx",
      "default:group::---",
      "default:group:" ++ fmtInt a.Gid ++ ":rwx",
      "default:mask::rwx",
      "default:other::---" ])

/-- Method `SubdirOwnerACL.NamedGids`. -/
def SubdirOwnerACL.NamedGids (a : SubdirOwnerACL) : List Int := [a.Gid]

/-- Method `SubdirOwnerACL.FACLString`. -/
def SubdirOwnerACL.FACLString (a : SubdirOwnerACL) : String :=
  TrimSpace (templateText
    [ "# owner: " ++ fmtInt a.Uid,
      "# group: " ++ fmtInt a.Gid,
      "# flags: -s-",
      "user::rwx",
      "group::---",
      "group:" ++ fmtInt a.Gid ++ ":rwx",
      "mask::rwx",
      "other::---",
      "default:user::rwx",
      "default:group::---",
      "default:group:" ++ fmtInt a.Gid ++ ":r-x",
      "default:mask::r-x",
      "default:other::---" ])

/-- Method `SubdirManagerACL.NamedGids`. -/
def SubdirManagerACL.NamedGids (a : SubdirManagerACL) : List Int := [a.Gid]

/-- Method `SubdirManagerACL.FACLString`. -/
def SubdirManagerACL.FACLString (a : SubdirManagerACL) : String :=
  TrimSpace (templateText
    [ "# owner: " ++ fmtInt a.Uid,
      "# group: " ++ fmtInt a.Gid,
      "# flags: -s-",
      "user::rwx",
      "group::---",
      "group:" ++ fmtInt a.Gid ++ ":r-x",
      "mask::r-x",
      "other::---",
      "default:user::rwx",
      "default:group::---",
      "default:group:" ++ fmtInt a.Gid ++ ":r-x",
      "default:mask::r-x",
      "default:other::---" ])

/-- Interface method `ACL.NamedGids`. -/
def ACL.NamedGids : ACL → List Int
  | ACL.simple a => a.NamedGids
  | ACL.service a => a.NamedGids
  | ACL.serviceOrgUnit a => a.NamedGids
  | ACL.orgUnit a => a.NamedGids
  | ACL.subdirGroup a => a.NamedGids
  | ACL.subdirOwner a => a.NamedGids
  | ACL.subdirManager a => a.NamedGids

/-- Interface method `ACL.FACLString`. -/
def ACL.FACLString : ACL → Result String
  | ACL.simple a => Result.ok a.FACLString
  | ACL.service a => a.FACLString
  | ACL.serviceOrgUnit a => Result.ok a.FACLString
  | ACL.orgUnit a => Result.ok a.FACLString
  | ACL.subdirGroup a => Result.ok a.FACLString
  | ACL.subdirOwner a => Result.ok a.FACLString
  | ACL.subdirManager a => Result.ok a.FACLString

/-! ### Reading an ACL text (specification side) -/

/-- The line contains no newline. -/
def noNewline (l : String) : Bool := !l.data.contains '\n'


/-- The lines of an ACL text. -/
def aclLines (text : String) : List String :=
  (splitOnChar '\n' text.data).map String.mk

/-- The line is a named group entry (`group:<name>:<mode>`, not the anonymous
`group::<mode>`) of the normal block or, for `dflt = true`, of the default
block (`default:group:<name>:<mode>`). -/
def isNamedGroupLine (dflt : Bool) (l : String) : Bool :=
  if dflt then HasPrefix l "default:group:" && !HasPrefix l "default:group::"
  else HasPrefix l "group:" && !HasPrefix l "group::"

/-- The line is the mask entry of the normal or of the default block. -/
def isMaskLine (dflt : Bool) (l : String) : Bool :=
  if dflt then HasPrefix l "default:mask::" else HasPrefix l "mask::"

/-- The mode of an entry: its last three characters. -/
def lineMode (l : String) : String := String.mk (l.data.drop (l.data.length - 3))

/-- The modes of the named group entries of a block, in order. -/
def namedGroupModes (dflt : Bool) (text : String) : List String :=
  ((aclLines text).filter (isNamedGroupLine dflt)).map lineMode

/-- The modes of the mask entries of a block, in order. -/
def maskModes (dflt : Bool) (text : String) : List String :=
  ((aclLines text).filter (isMaskLine dflt)).map lineMode

/-- The text has `n` named group entries in each block; in the normal block
they and the mask carry `mode`, in the default block `dmode`. -/
def HasGroupModes (text : String) (n : Nat) (mode dmode : String) : Prop :=
  namedGroupModes false text = List.replicate n mode ∧
  maskModes false text = [mode] ∧
  namedGroupModes true text = List.replicate n dmode ∧
  maskModes true text = [dmode]

structure ServiceTreePaths where
  root : String
  services : List bcp.Service
  orgUnits : List bcp.OrgUnit
  filter : bcpfilter.OrgServiceFilter

/-- Method `(*ServiceTreePaths).ServiceDirsList`. -/
def ServiceTreePaths.ServiceDirsList (st : ServiceTreePaths) : List Entry :=
  st.services.foldl
    (fun list s =>
      list ++ [{
        Path := filepath.Join [st.root, s.Name]
        IsSymlink := false
        ACL := some (ACL.service {
          Uid := 0
          ServiceGid := s.ServiceGroup.Gid
          ServiceOpsGid := s.ServiceOpsGroup.Gid
          SuperGid := s.SuperGroup.Gid
          Access := s.Access })
        LinkDest := "" }])
    []

/-- Closure `appendSOU` of `ServiceOrgUnitDirsList`: the entry it appends. -/
def ServiceTreePaths.souEntry (st : ServiceTreePaths) (s : bcp.Service)
    (ou : bcp.OrgUnit) : Entry :=
  { Path := filepath.Join [st.root, s.Name, ou.Name]
    IsSymlink := false
    ACL := some (ACL.serviceOrgUnit {
      Uid := 0
      OrgUnitGid := ou.OrgUnitGroup.Gid
      ServiceGid := s.ServiceGroup.Gid
      ServiceOpsGid := s.ServiceOpsGroup.Gid
      SuperGid := s.SuperGroup.Gid })
    LinkDest := "" }

/-- Method `(*ServiceTreePaths).ServiceOrgUnitDirsList`. -/
def ServiceTreePaths.ServiceOrgUnitDirsList (st : ServiceTreePaths) : List Entry :=
  st.services.foldl
    (fun list s =>
      st.orgUnits.foldl
        (fun list ou =>
          if (st.filter.Accept s ou).1 then list ++ [st.souEntry s ou]
          else list)
        list)
    []

structure OrgUnitTreePaths where
  root : String
  serviceDir : String
  services : List bcp.Service
  orgUnits : List bcp.OrgUnit
  filter : bcpfilter.OrgServiceFilter

/-- Method `(*OrgUnitTreePaths).OrgUnitDirsList`. -/
def OrgUnitTreePaths.OrgUnitDirsList (ot : OrgUnitTreePaths) : List Entry :=
  ot.orgUnits.foldl
    (fun list o =>
      list ++ [{
        Path := filepath.Join [ot.root, o.Name]
        IsSymlink := false
        ACL := some (ACL.orgUnit { Uid := 0, Gid := o.OrgUnitGroup.Gid })
        LinkDest := "" }])
    []

/-- Closure `serviceIsOfFacility`. -/
def serviceIsOfFacility (ou : bcp.OrgUnit) (s : bcp.Service) : Bool :=
  ou.IsFacility && decide (s.Facility = ou.Facility)

/-- Closure `appendOUSLn` of `OrgUnitServiceLinksList`: the entry it appends. -/
def OrgUnitTreePaths.ouslnEntry (ot : OrgUnitTreePaths) (ou : bcp.OrgUnit)
    (s : bcp.Service) : Entry :=
  let path := filepath.Join [ot.root, ou.Name, s.Name]
  let dest := filepath.Join ["../..", ot.serviceDir, s.Name]
  let dest := if !serviceIsOfFacility ou s then filepath.Join [dest, ou.Name] else dest
  { Path := path, IsSymlink := true, ACL := none, LinkDest := dest }

/-- Method `(*OrgUnitTreePaths).OrgUnitServiceLinksList`. -/
def OrgUnitTreePaths.OrgUnitServiceLinksList (ot : OrgUnitTreePaths) : List Entry :=
  ot.orgUnits.foldl
    (fun list ou =>
      ot.services.foldl
        (fun list s =>
          if (ot.filter.Accept s ou).1 then list ++ [ot.ouslnEntry ou s]
          else list)
        list)
    []

/-- Closure `appendSubdir` of `OrgUnitSubdirsList`; it panics on an invalid
policy. -/
def OrgUnitTreePaths.subdirEntry (ot : OrgUnitTreePaths) (o : bcp.OrgUnit)
    (d : bcp.DirWithPolicy) : Result Entry :=
  let path := filepath.Join [ot.root, o.Name, d.Name]
  if d.Policy = bcp.GroupPolicy then
    Result.ok ⟨path, false, some (ACL.subdirGroup ⟨0, o.OrgUnitGroup.Gid⟩), ""⟩
  else if d.Policy = bcp.OwnerPolicy then
    Result.ok ⟨path, false, some (ACL.subdirOwner ⟨0, o.OrgUnitGroup.Gid⟩), ""⟩
  else if d.Policy = bcp.ManagerPolicy then
    Result.ok ⟨path, false, some (ACL.subdirManager ⟨0, o.OrgUnitGroup.Gid⟩), ""⟩
  else Result.panic "invalid subdir policy"

/-- Inner loop of `OrgUnitSubdirsList`. -/
def OrgUnitTreePaths.subdirsOf (ot : OrgUnitTreePaths) (o : bcp.OrgUnit) :
    List bcp.DirWithPolicy → List Entry → Result (List Entry)
  | [], list => Result.ok list
  | d :: rest, list =>
    match ot.subdirEntry o d with
    | Result.ok ent => OrgUnitTreePaths.subdirsOf ot o rest (list ++ [ent])
    | Result.error msg => Result.error msg
    | Result.panic msg => Result.panic msg

/-- Outer loop of `OrgUnitSubdirsList`. -/
def OrgUnitTreePaths.subdirsLoop (ot : OrgUnitTreePaths) :
    List bcp.OrgUnit → List Entry → Result (List Entry)
  | [], list => Result.ok list
  | o :: rest, list =>
    match ot.subdirsOf o o.Subdirs list with
    | Result.ok list => OrgUnitTreePaths.subdirsLoop ot rest list
    | Result.error msg => Result.error msg
    | Result.panic msg => Result.panic msg

/-- Method `(*OrgUnitTreePaths).OrgUnitSubdirsList`. -/
def OrgUnitTreePaths.OrgUnitSubdirsList (ot : OrgUnitTreePaths) :
    Result (List Entry) :=
  ot.subdirsLoop ot.orgUnits []

/-- The list `entries` that `CheckPermissions` assembles before it inspects
the filesystem; `root` is the result of `filepath.Abs(cfg.Rootdir)`. -/
def CheckPermissions_entries (root : String) (cfg : bcpcfg.Root)
    (org : bcp.Organization) (filter : bcpfilter.OrgServiceFilter) :
    Result (List Entry) :=
  let serviceRoot := filepath.Join [root, cfg.ServiceDir]
  let orgUnitRoot := filepath.Join [root, cfg.OrgUnitDir]
  let top : SimpleACL := ⟨0, 0, "rwx", "r-x", "r-x"⟩
  let entries : List Entry :=
    [ ⟨root, false, some (ACL.simple top), ""⟩,
      ⟨serviceRoot, false, some (ACL.simple top), ""⟩,
      ⟨orgUnitRoot, false, some (ACL.simple top), ""⟩ ]
  let sTree : ServiceTreePaths := ⟨serviceRoot, org.Services, org.OrgUnits, filter⟩
  let entries := entries ++ sTree.ServiceDirsList
  let entries := entries ++ sTree.ServiceOrgUnitDirsList
  let ouTree : OrgUnitTreePaths :=
    ⟨orgUnitRoot, cfg.ServiceDir, org.Services, org.OrgUnits, filter⟩
  let entries := entries ++ ouTree.OrgUnitDirsList
  let entries := entries ++ ouTree.OrgUnitServiceLinksList
  match ouTree.OrgUnitSubdirsList with
  | Result.ok subdirs => Result.ok (entries ++ subdirs)
  | Result.error msg => Result.error msg
  | Result.panic msg => Result.panic msg

end fsck

/-! ## Command `bcpfs-perms` -/

namespace main

/-- Loop of `MustCompileFilter` over `cfg.Filter`. -/
def compileRules (E : bcpfilter.RegexpEngine) :
    List bcpcfg.FilterRule → List bcpfilter.Decider → Result (List bcpfilter.Decider)
  | [], deciders => Result.ok deciders
  | rule :: rest, deciders =>
    match bcpfilter.NewRegexpDecider E rule with
    | Result.ok r => compileRules E rest (deciders ++ [r.toDecider])
    | Result.error msg => Result.error msg
    | Result.panic msg => Result.panic msg

/-- Function `MustCompileFilter`: the configured rules followed by the
same-facility decider.  A rule that does not compile ends the process
(`logger.Fatal`), rendered as `Result.error`. -/
def MustCompileFilter (E : bcpfilter.RegexpEngine) (cfg : bcpcfg.Root) :
    Result bcpfilter.DecidersFilter :=
  match compileRules E cfg.Filter [] with
  | Result.ok deciders =>
    Result.ok ⟨deciders ++ [bcpfilter.NewSameFacilityDecider]⟩
  | Result.error msg => Result.error msg
  | Result.panic msg => Result.panic msg

/-- Function `MustLoadGroups`; `gs` is the result of `grp.Groups()` (the
output of `getent group`).  A fatal log message ends the process and is
rendered as `Result.error`. -/
def MustLoadGroups (gs : List grp.Group) (cfg : bcpcfg.Root) :
    Result (List grp.Group × bcp.Organization × List String) :=
  let prefixes := [cfg.OrgUnitPrefix ++ "_", cfg.ServicePrefix ++ "_"]
  let equals := [cfg.SuperGroup]
  let gs := grp.SelectGroups gs prefixes equals
  match grp.DedupGroups gs with
  | Except.error err => Result.error ("Failed to select groups: " ++ err)
  | Except.ok gs =>
    let gs := grp.sortByName gs
    match bcp.New gs cfg with
    | Result.error msg => Result.error ("Failed to parse groups: " ++ msg)
    | Result.panic msg => Result.panic msg
    | Result.ok (org, unconfServices) => Result.ok (gs, org, unconfServices)

/-- The entries that `cmdCheck` has `fsck.CheckPermissions` verify:
`MustLoadGroups`, the stop on unconfigured services, `MustCompileFilter`,
and the entry list of `CheckPermissions`; `cwd` is the working directory. -/
def plannedEntries (E : bcpfilter.RegexpEngine) (cwd : String)
    (gs : List grp.Group) (cfg : bcpcfg.Root) : Result (List fsck.Entry) :=
  match MustLoadGroups gs cfg with
  | Result.error msg => Result.error msg
  | Result.panic msg => Result.panic msg
  | Result.ok (_, org, unconfServices) =>
    if unconfServices.length > 0 then
      Result.error "fsck: There are unconfigured services."
    else
      match MustCompileFilter E cfg with
      | Result.error msg => Result.error msg
      | Result.panic msg => Result.panic msg
      | Result.ok filter =>
        fsck.CheckPermissions_entries (filepath.Abs cwd cfg.Rootdir) cfg org
          filter.toOrgServiceFilter

end main

/-! ## Package `fsapply`: the values the reconciler computes before it touches
the filesystem -/

namespace fsapply

structure ServiceTree where
  root : String
  services : List bcp.Service
  orgUnits : List bcp.OrgUnit
  filter : bcpfilter.OrgServiceFilter
  recursive : Bool

/-- The map `expected` that `(*ServiceTree).ensureSrvSubdirs` builds for the
service `s` (when `st.err` is nil on entry) and hands to
`rmUnexpectedSubdirs`.  The calls of `ensureSOU` in the same loop run shell
scripts and do not touch the map. -/
def ServiceTree.ensureSrvSubdirs_expected (st : ServiceTree) (s : bcp.Service) :
    GoMap String Bool :=
  st.orgUnits.foldl
    (fun expected ou =>
      if (st.filter.Accept s ou).1 then expected.set ou.Name true else expected)
    []

structure OrgUnitTree where
  root : String
  serviceDir : String
  services : List bcp.Service
  orgUnits : List bcp.OrgUnit
  filter : bcpfilter.OrgServiceFilter
  recursive : Bool

/-- Closure `serviceIsOfFacility` of `ensureOUSLn`. -/
def serviceIsOfFacility (ou : bcp.OrgUnit) (s : bcp.Service) : Bool :=
  ou.IsFacility && decide (s.Facility = ou.Facility)

/-- The pair `(path, dest)` that `(*OrgUnitTree).ensureOUSLn` computes (when
`ot.err` is nil) and passes to `isDestSymlink` and `os.Symlink`. -/
def OrgUnitTree.ensureOUSLn_pathDest (ot : OrgUnitTree) (ou : bcp.OrgUnit)
    (s : bcp.Service) : String × String :=
  let path := filepath.Join [ot.root, ou.Name, s.Name]
  let dest := filepath.Join ["../..", ot.serviceDir, s.Name]
  let dest := if !serviceIsOfFacility ou s then filepath.Join [dest, ou.Name] else dest
  (path, dest)

end fsapply

/-! ## Scenario S1 -/

namespace S1

/-- Configuration of scenario S1 (access `perService` is the code's spelling
of the policy the scenario calls per-service). -/
def cfg : bcpcfg.Root :=
  { Rootdir := "/fs", ServiceDir := "srv", OrgUnitDir := "org",
    SuperGroup := "all", OrgUnitPrefix := "og", ServicePrefix := "sv",
    OpsSuffix := "ops", FacilitySuffix := "facility",
    Facilities := [⟨"em", ["mic1"], "perService"⟩],
    OrgUnits := [], Filter := [] }

/-- Unix groups of scenario S1. -/
def groups : List grp.Group :=
  [⟨"og_alice", 100⟩, ⟨"og_em-facility", 200⟩, ⟨"sv_mic1", 300⟩,
    ⟨"sv_em-ops", 400⟩, ⟨"all", 10⟩]

/-- The service of scenario S1 as `bcp.New` builds it. -/
def mic1 : bcp.Service :=
  ⟨"mic1", "em", bcp.AccessPolicy.AccessPerService, ⟨"all", 10⟩, ⟨"sv_mic1", 300⟩,
    ⟨"sv_em-ops", 400⟩⟩

/-- The org unit `alice` of scenario S1. -/
def alice : bcp.OrgUnit := ⟨"alice", [], [], false, "", ⟨"og_alice", 100⟩⟩

/-- The facility org unit `em-facility` of scenario S1. -/
def emFacility : bcp.OrgUnit :=
  ⟨"em-facility", [], [], true, "em", ⟨"og_em-facility", 200⟩⟩

/-- The compiled filter of scenario S1: only the same-facility decider. -/
def filter : bcpfilter.OrgServiceFilter :=
  (⟨[bcpfilter.NewSameFacilityDecider]⟩ : bcpfilter.DecidersFilter).toOrgServiceFilter

/-- The service tree of scenario S1. -/
def srvTree : fsck.ServiceTreePaths := ⟨"/fs/srv", [mic1], [alice, emFacility], filter⟩

/-- The org unit tree of scenario S1. -/
def ouTree : fsck.OrgUnitTreePaths :=
  ⟨"/fs/org", "srv", [mic1], [alice, emFacility], filter⟩

end S1

/-! ## Further example inputs -/

namespace Examples

/-- The groups of scenario S1 without the service group `sv_mic1`. -/
def groupsWithoutMic1 : List grp.Group :=
  [⟨"og_alice", 100⟩, ⟨"og_em-facility", 200⟩, ⟨"sv_em-ops", 400⟩, ⟨"all", 10⟩]

end Examples

/-! ## Package `bcpcfg`: validation of filter rules -/

namespace bcpcfg

/-- Struct `FilterRuleCfg`: a filter rule as written in the configuration. -/
structure FilterRuleCfg where
  Service : String
  Services : List String
  OrgUnit : String
  OrgUnits : List String
  Action : String
  deriving DecidableEq, Repr

/-- Function `ValidateFilterRule`: the returned rule and the returned error
(`none` for a nil error). -/
def ValidateFilterRule (r : FilterRuleCfg) : FilterRule × Option String :=
  let rule : FilterRule := ⟨[], [], ""⟩
  if r.Action ≠ "accept" ∧ r.Action ≠ "reject" then
    (rule, some "Invalid action!")
  else
    let rule := { rule with Action := r.Action }
    if r.Service ≠ "" ∧ r.Services.length > 0 then
      (rule, some "Use either `service` or `services`!")
    else if r.Service = "" ∧ r.Services.length = 0 then
      (rule, some "No service defined!")
    else
      let rule :=
        if r.Service = "" then { rule with Services := r.Services }
        else { rule with Services := rule.Services ++ [r.Service] }
      if r.OrgUnit ≠ "" ∧ r.OrgUnits.length > 0 then
        (rule, some "Use either `orgUnit` or `orgUnits`!")
      else if r.OrgUnit = "" ∧ r.OrgUnits.length = 0 then
        (rule, some "No orgUnit defined!")
      else
        let rule :=
          if r.OrgUnit = "" then { rule with OrgUnits := r.OrgUnits }
          else { rule with OrgUnits := rule.OrgUnits ++ [r.OrgUnit] }
        (rule, none)

end bcpcfg

namespace bcp

/-- The service name is listed under some configured facility
(specification side). -/
def isConfiguredService (cfg : bcpcfg.Root) (n : String) : Bool :=
  cfg.Facilities.any (fun f => decide (n ∈ f.Services))

/-- The message of `parseServices` about a service without facility. -/
def missingFacilityMsg (s : String) : String :=
  "Missing facility for service `" ++ s ++ "`."

end bcp

namespace Examples

/-- The groups of scenario S1 with one more service group `sv_tem`, a
service that no configured facility lists. -/
def groupsWithUnconfigured : List grp.Group :=
  [⟨"og_alice", 100⟩, ⟨"og_em-facility", 200⟩, ⟨"sv_tem", 500⟩, ⟨"sv_mic1", 300⟩,
    ⟨"sv_em-ops", 400⟩, ⟨"all", 10⟩]

/-- The organization that `bcp.New` builds from `groupsWithUnconfigured`. -/
def orgWithUnconfigured : bcp.Organization :=
  { OrgUnits := [S1.alice, S1.emFacility], Facilities := [⟨"em"⟩], Services := [S1.mic1] }

end Examples

/-! ## Package `grp`: what `DedupGroups` computes (specification side) -/

namespace grp

/-- Two entries conflict: they agree on the name but differ in gid, or agree
on the gid but differ in name. -/
def Conflict (a b : Group) : Prop :=
  (a.Name = b.Name ∧ a.Gid ≠ b.Gid) ∨ (a.Gid = b.Gid ∧ a.Name ≠ b.Name)

instance (a b : Group) : Decidable (Conflict a b) :=
  inferInstanceAs
    (Decidable ((a.Name = b.Name ∧ a.Gid ≠ b.Gid) ∨ (a.Gid = b.Gid ∧ a.Name ≠ b.Name)))

/-- The list that keeps each distinct entry at its first occurrence. -/
def keepFirst : List Group → List Group
  | [] => []
  | g :: rest => g :: (keepFirst rest).filter (fun x => decide (x ≠ g))

/-- The entry of `pre` that `isDuplicate` compares `g` with: the first entry
with the name of `g`, and the first entry with the gid of `g` if no entry has
its name. -/
def firstSeen (pre : List Group) (g : Group) : Option Group :=
  match pre.find? (fun x => decide (x.Name = g.Name)) with
  | some seen => some seen
  | none => pre.find? (fun x => decide (x.Gid = g.Gid))

end grp

/-! ## Package `bcp`: the directories of an org unit (specification side) -/

namespace bcp

/-- The directory names of a configured org unit in the order in which
`parseOrgUnits` checks them: the subdirs followed by the extra dirs. -/
def dirNames (cou : bcpcfg.OrgUnit) : List String :=
  cou.Subdirs.map (fun d => d.Name) ++ cou.ExtraDirs

/-- The configured subdirs of an org unit followed by its extra dirs, each
extra dir with policy `group`. -/
def expectedSubdirs (cou : bcpcfg.OrgUnit) : List DirWithPolicy :=
  cou.Subdirs.map (fun d => ⟨d.Name, d.Policy⟩) ++
    cou.ExtraDirs.map (fun xd => ⟨xd, GroupPolicy⟩)

/-- The first name of the list that is in `seen` or repeats an earlier name
of the list. -/
def firstDupFrom (seen : List String) : List String → Option String
  | [] => none
  | n :: rest => if n ∈ seen then some n else firstDupFrom (n :: seen) rest

/-- The message of `parseOrgUnits` about a repeated directory name. -/
def duplicateDirMsg (ou dir : String) : String :=
  "duplicate ou `" ++ ou ++ "` dir `" ++ dir ++ "`"

end bcp

namespace Examples

/-- The configuration of scenario S1 with the org unit `alice` configured
with one subdir and one extra dir. -/
def cfgWithDirs : bcpcfg.Root :=
  { S1.cfg with OrgUnits := [⟨"alice", [⟨"data", "owner"⟩], ["shared"]⟩] }

/-- The configuration of scenario S1 with the org unit `alice` configured
with the directory `data` both as subdir and as extra dir. -/
def cfgDuplicateDir : bcpcfg.Root :=
  { S1.cfg with OrgUnits := [⟨"alice", [⟨"data", "owner"⟩], ["shared", "data"]⟩] }

end Examples

/-! ## Packages `strings` and `path` (Go standard library) -/

namespace strings

/-- Go `strings.Split(s, sep)` for a one-character separator `sep`; the
result always has at least one element. -/
def Split (s : String) (sep : Char) : List String :=
  (splitOnChar sep s.data).map String.mk

end strings

namespace slashpath

/-- Go `path.Join` (imported as `slashpath`): on slash-separated paths it
computes what `filepath.Join` computes on Unix. -/
def Join (elem : List String) : String := filepath.Join elem

end slashpath

/-! ## Package `bcpcfg`: the sharing section -/

namespace bcpcfg

structure SharingNamingPolicy where
  Action : String
  Match : String
  deriving DecidableEq, Repr

end bcpcfg

/-! ## Package `bcpsharing` -/

namespace bcpsharing

inductive GroupType where
  | GroupTypeUnspecified
  | GroupTypeOu
  | GroupTypeOps
  deriving DecidableEq, Repr

/-- Struct `Group`: an organizational unit group or an ops group. -/
structure Group where
  GroupType : GroupType
  Name : String
  deriving DecidableEq, Repr

/-- Struct `Ace`; `Mode` is in chmod `rwx` format. -/
structure Ace where
  Group : String
  Mode : String
  deriving DecidableEq, Repr

structure ExportEntry where
  Path : String
  Acl : List Ace
  ManagingGroups : List Group
  deriving DecidableEq, Repr

/-- Struct `Bcpfs`: maps logical paths and group names to real filesystem
paths and group names. -/
structure Bcpfs where
  Rootdir : String
  ServiceDir : String
  OrgUnitDir : String
  ServiceGroupPrefix : String
  OrgUnitGroupPrefix : String
  facilityByService : GoMap String String
  facilityDirs : GoMap String Unit

/-- Function `NewBcpfs`; the two maps are filled by one loop over the
facilities, written here as one fold per map. -/
def NewBcpfs (cfg : bcpcfg.Root) : Bcpfs :=
  { Rootdir := cfg.Rootdir
    ServiceDir := cfg.ServiceDir
    OrgUnitDir := cfg.OrgUnitDir
    ServiceGroupPrefix := cfg.ServicePrefix
    OrgUnitGroupPrefix := cfg.OrgUnitPrefix
    facilityByService :=
      cfg.Facilities.foldl
        (fun m fac => fac.Services.foldl (fun m srv => m.set srv fac.Name) m) []
    facilityDirs :=
      cfg.Facilities.foldl (fun m fac => m.set (fac.Name ++ "-facility") ()) [] }

/-- Error value `ErrNotServicePath`. -/
def ErrNotServicePath : String := "not a service path"

/-- Method `(*Bcpfs).facilityOfServicePath`. -/
def Bcpfs.facilityOfServicePath (fs : Bcpfs) (p : String) : Except String String :=
  let parts := strings.Split p '/'
  if parts.length < 2 then Except.error ErrNotServicePath
  else
    match fs.facilityByService.get (parts.getD 1 "") with
    | none => Except.error ErrNotServicePath
    | some fac => Except.ok fac

/-- Method `(*Bcpfs).IsServicePath`. -/
def Bcpfs.IsServicePath (fs : Bcpfs) (p : String) : Bool :=
  match fs.facilityOfServicePath p with
  | Except.ok _ => true
  | Except.error _ => false

/-- Method `(*Bcpfs).FacilityGroupOfServicePath`. -/
def Bcpfs.FacilityGroupOfServicePath (fs : Bcpfs) (p : String) : Except String String :=
  match fs.facilityOfServicePath p with
  | Except.error err => Except.error err
  | Except.ok fac => Except.ok (fac ++ "-facility")

/-- Method `(*Bcpfs).IsFacilityPath`. -/
def Bcpfs.IsFacilityPath (fs : Bcpfs) (p : String) : Bool :=
  let parts := strings.Split p '/'
  if parts.length < 1 then false
  else (fs.facilityDirs.get (parts.getD 0 "")).isSome

/-- Method `(*Bcpfs).ManagingGroupsOfPath`.  The index expressions
`parts[0]`, `parts[1]`, `parts[2]` are in range where the code evaluates
them; a missing map entry gives the empty string. -/
def Bcpfs.ManagingGroupsOfPath (fs : Bcpfs) (p : String) : Except String (List Group) :=
  let parts := strings.Split p '/'
  if !fs.IsServicePath p then
    Except.ok [⟨GroupType.GroupTypeOu, parts.getD 0 ""⟩]
  else
    let fac := (fs.facilityByService.get (parts.getD 1 "")).getD ""
    if fs.IsFacilityPath p then
      if parts.length < 3 then Except.error "service path too short"
      else
        Except.ok [⟨GroupType.GroupTypeOu, parts.getD 2 ""⟩, ⟨GroupType.GroupTypeOps, fac⟩]
    else
      if parts.length < 2 then Except.error "service path too short"
      else
        Except.ok [⟨GroupType.GroupTypeOu, parts.getD 0 ""⟩, ⟨GroupType.GroupTypeOps, fac⟩]

/-- Method `(*Bcpfs).Realpath`: a realpath relative to the root dir. -/
def Bcpfs.Realpath (fs : Bcpfs) (p : String) : String :=
  if !fs.IsServicePath p then slashpath.Join [fs.OrgUnitDir, p]
  else
    let parts := strings.Split p '/'
    if parts.length < 2 then ""
    else if fs.IsFacilityPath p then slashpath.Join (fs.ServiceDir :: parts.drop 1)
    else
      slashpath.Join ([fs.ServiceDir, parts.getD 1 "", parts.getD 0 ""] ++ parts.drop 2)

end bcpsharing

namespace bcpsharing

def NamingActionAllow : String := "allow"
def NamingActionDeny : String := "deny"
def NamingActionPass : String := "pass"

/-- Struct `NamingRule`; `Match` is a compiled regular expression. -/
structure NamingRule (E : bcpfilter.RegexpEngine) where
  Action : String
  Match : E.Regexp

/-- Loop of `compileNamingPolicy`; `i` is the index of the next item. -/
def compileNamingPolicyLoop (E : bcpfilter.RegexpEngine) :
    List bcpcfg.SharingNamingPolicy → Int → List (NamingRule E) →
      Except String (List (NamingRule E))
  | [], _, pol => Except.ok pol
  | c :: rest, i, pol =>
    match E.Compile ("^" ++ c.Match ++ "$") with
    | Except.error err =>
      Except.error ("failed to compile match of item " ++ fmtInt i ++ ": " ++ err)
    | Except.ok m => compileNamingPolicyLoop E rest (i + 1) (pol ++ [⟨c.Action, m⟩])

/-- Function `compileNamingPolicy`. -/
def compileNamingPolicy (E : bcpfilter.RegexpEngine)
    (cfg : List bcpcfg.SharingNamingPolicy) : Except String (List (NamingRule E)) :=
  compileNamingPolicyLoop E cfg 0 []

/-- Method `NamingRule.Apply`. -/
def NamingRule.Apply {E : bcpfilter.RegexpEngine} (rule : NamingRule E)
    (exp : ExportEntry) : String :=
  if E.MatchString rule.Match exp.Path then rule.Action else NamingActionPass

/-- Function `checkExportPath`; `Result.ok ()` is the nil error. -/
def checkExportPath (E : bcpfilter.RegexpEngine) (exp : ExportEntry) :
    List (NamingRule E) → Result Unit
  | [] => Result.error ("naming policy: default deny export path `" ++ exp.Path ++ "`")
  | rule :: rest =>
    if rule.Apply exp = NamingActionAllow then Result.ok ()
    else if rule.Apply exp = NamingActionDeny then
      Result.error ("naming policy: rule denied export path `" ++ exp.Path ++ "`")
    else if rule.Apply exp = NamingActionPass then checkExportPath E exp rest
    else Result.panic "logic error"

/-- Function `checkExportPaths`. -/
def checkExportPaths (E : bcpfilter.RegexpEngine) :
    List ExportEntry → List (NamingRule E) → Result Unit
  | [], _ => Result.ok ()
  | exp :: rest, pol =>
    match checkExportPath E exp pol with
    | Result.ok _ => checkExportPaths E rest pol
    | Result.error msg => Result.error msg
    | Result.panic msg => Result.panic msg

/-- Function `checkExportEntryAclScopes`; `none` is the nil error. -/
def checkExportEntryAclScopes (fs : Bcpfs) (exp : ExportEntry) : Option String :=
  let groups : GoMap String Unit := exp.Acl.foldl (fun m ace => m.set ace.Group ()) []
  let ou := (strings.Split exp.Path '/').getD 0 ""
  if (groups.get ou).isSome then some ("self export `" ++ exp.Path ++ "`")
  else
    match fs.FacilityGroupOfServicePath exp.Path with
    | Except.ok fac =>
      if (groups.get fac).isSome then
        some ("export to owning facility `" ++ exp.Path ++ "`")
      else none
    | Except.error _ => none

/-- Function `checkExportAclScopes`. -/
def checkExportAclScopes (fs : Bcpfs) : List ExportEntry → Option String
  | [] => none
  | exp :: rest =>
    match checkExportEntryAclScopes fs exp with
    | some err => some err
    | none => checkExportAclScopes fs rest

end bcpsharing

namespace Examples

/-- The configuration of scenario S1 with a second facility `lm` that has the
service `mic2`. -/
def cfgTwoFacilities : bcpcfg.Root :=
  { S1.cfg with
    Facilities := [⟨"em", ["mic1"], "perService"⟩, ⟨"lm", ["mic2"], "perService"⟩] }

/-- The org unit of the facility `lm`. -/
def lmFacility : bcp.OrgUnit :=
  ⟨"lm-facility", [], [], true, "lm", ⟨"og_lm-facility", 210⟩⟩

/-- An export of a directory of the org unit `alice` below the service `mic1`,
addressed through the directory of the owning facility, that grants
permissions to the group `alice`. -/
def exportToOwnOrgUnit : bcpsharing.ExportEntry :=
  { Path := "em-facility/mic1/alice/foo"
    Acl := [⟨"alice", "r-x"⟩]
    ManagingGroups :=
      [⟨bcpsharing.GroupType.GroupTypeOu, "alice"⟩,
        ⟨bcpsharing.GroupType.GroupTypeOps, "em"⟩] }

end Examples

namespace bcpsharing

/-- The anchored regular expression of a configured naming rule compiles and
matches the path (specification side). -/
def matchesAnchored (E : bcpfilter.RegexpEngine) (c : bcpcfg.SharingNamingPolicy)
    (path : String) : Bool :=
  match E.Compile ("^" ++ c.Match ++ "$") with
  | Except.ok m => E.MatchString m path
  | Except.error _ => false

end bcpsharing

namespace Examples

/-- A configured naming policy with a `deny` rule before an `allow` rule. -/
def namingDenyThenAllow : List bcpcfg.SharingNamingPolicy :=
  [⟨"deny", "alice/secret"⟩, ⟨"allow", "alice/data"⟩]

/-- The export of the path `alice/data` without ACL entries. -/
def exportAliceData : bcpsharing.ExportEntry :=
  { Path := "alice/data", Acl := [],
    ManagingGroups := [⟨bcpsharing.GroupType.GroupTypeOu, "alice"⟩] }

end Examples

/-! ## Package `bcpsharing`: union of ACLs -/

namespace bcpsharing

/-- One step of the loop of `Ace.UnionMode` at index `i` with the byte `code`:
the byte that `mode[i]` holds afterwards.  `a[i]` and `b[i]` panic when the
index is out of range, and `b[i]` is not evaluated if `a[i] == code`. -/
def unionModeAt (a b : List Char) (i : Nat) (code : Char) : Result Char :=
  match a[i]? with
  | none => Result.panic "index out of range"
  | some ca =>
    if ca = code then Result.ok code
    else
      match b[i]? with
      | none => Result.panic "index out of range"
      | some cb => if cb = code then Result.ok code else Result.ok '-'

/-- The loop of `Ace.UnionMode` on the two modes.  A mode is indexed by
character here; for modes made of `r`, `w`, `x` and `-` the characters are
the bytes that the code indexes. -/
def unionModes (a b : String) : Result String :=
  match unionModeAt a.data b.data 0 'r' with
  | Result.panic msg => Result.panic msg
  | Result.error msg => Result.error msg
  | Result.ok r =>
    match unionModeAt a.data b.data 1 'w' with
    | Result.panic msg => Result.panic msg
    | Result.error msg => Result.error msg
    | Result.ok w =>
      match unionModeAt a.data b.data 2 'x' with
      | Result.panic msg => Result.panic msg
      | Result.error msg => Result.error msg
      | Result.ok x => Result.ok (String.mk [r, w, x])

/-- Method `Ace.UnionMode`. -/
def Ace.UnionMode (a b : Ace) : Result String := unionModes a.Mode b.Mode

/-- A mode of the form `[r-][w-][x-]` (specification side). -/
def validMode (m : String) : Bool :=
  match m.data with
  | [r, w, x] =>
    (decide (r = 'r') || decide (r = '-')) && (decide (w = 'w') || decide (w = '-')) &&
      (decide (x = 'x') || decide (x = '-'))
  | _ => false

/-- The eight modes of the form `[r-][w-][x-]` (specification side). -/
def allModes : List String :=
  ["---", "--x", "-w-", "-wx", "r--", "r-x", "rw-", "rwx"]

/-- The mode has the bit `code` at position `i` (specification side). -/
def hasBit (m : String) (i : Nat) (code : Char) : Bool :=
  decide (m.data[i]? = some code)

end bcpsharing

namespace bcpsharing

/-- The mode with the given bits (specification side). -/
def modeOfBits (r w x : Bool) : String :=
  String.mk [if r then 'r' else '-', if w then 'w' else '-', if x then 'x' else '-']

/-- The bitwise OR of two modes (specification side). -/
def orModes (a b : String) : String :=
  modeOfBits (hasBit a 0 'r' || hasBit b 0 'r') (hasBit a 1 'w' || hasBit b 1 'w')
    (hasBit a 2 'x' || hasBit b 2 'x')

end bcpsharing

/-! ## Package `regexp` (Go standard library): the fixed patterns

The patterns that the repository compiles with `regexp.MustCompile` are
written out as syntax trees and matched with derivatives.  Every one of these
patterns is anchored with `^` and `$`, so `MatchString` asks whether the whole
string is in the language of the pattern. -/

namespace regexp

/-- Syntax of a regular expression. -/
inductive Rgx where
  | fail : Rgx
  | eps : Rgx
  | cls (p : Char → Bool) : Rgx
  | seq (a b : Rgx) : Rgx
  | alt (a b : Rgx) : Rgx
  | star (a : Rgx) : Rgx

/-- The expression matches the empty string. -/
def Rgx.nullable : Rgx → Bool
  | Rgx.fail => false
  | Rgx.eps => true
  | Rgx.cls _ => false
  | Rgx.seq a b => a.nullable && b.nullable
  | Rgx.alt a b => a.nullable || b.nullable
  | Rgx.star _ => true

/-- The expression for what may follow the character `c`. -/
def Rgx.deriv : Rgx → Char → Rgx
  | Rgx.fail, _ => Rgx.fail
  | Rgx.eps, _ => Rgx.fail
  | Rgx.cls p, c => if p c then Rgx.eps else Rgx.fail
  | Rgx.seq a b, c =>
    if a.nullable then Rgx.alt (Rgx.seq (a.deriv c) b) (b.deriv c)
    else Rgx.seq (a.deriv c) b
  | Rgx.alt a b, c => Rgx.alt (a.deriv c) (b.deriv c)
  | Rgx.star a, c => Rgx.seq (a.deriv c) (Rgx.star a)

/-- Go `MatchString` for the anchored pattern `^r$`. -/
def Rgx.MatchString (r : Rgx) (s : String) : Bool :=
  (s.data.foldl Rgx.deriv r).nullable

/-- The pattern of a literal text. -/
def lit (s : String) : Rgx :=
  s.data.foldr (fun c r => Rgx.seq (Rgx.cls (fun x => decide (x = c))) r) Rgx.eps

/-- The pattern `(?:r)?`. -/
def opt (r : Rgx) : Rgx := Rgx.alt Rgx.eps r

/-- A character class `[...]` that lists its characters. -/
def oneOf (cs : String) : Rgx := Rgx.cls (fun c => cs.data.contains c)

/-- The class `\S`: any character but tab, newline, form feed, carriage
return and space. -/
def notSpace : Rgx :=
  Rgx.cls (fun c =>
    !(decide (c = '\t') || decide (c = '\n') || decide (c = Char.ofNat 0x0C) ||
      decide (c = '\r') || decide (c = ' ')))

/-- The sequence of the given patterns. -/
def seqs (rs : List Rgx) : Rgx := rs.foldr Rgx.seq Rgx.eps

/-- The alternatives `r1|r2|...`. -/
def alts (rs : List Rgx) : Rgx := rs.foldr Rgx.alt Rgx.fail

end regexp

/-! ## Package `bcpsharing`: file ACLs -/

namespace bcpsharing

/-- Struct `FaclAce`. -/
structure FaclAce where
  Tag : String
  Mode : String
  deriving DecidableEq, Repr

/-- Variable `rgxGetfaclAce`: the pattern
`^(?:default:)?(?:user|group|mask|other:)\S*:[r-][w-][x-]$`; the colon of the
second group belongs to the alternative `other:` only. -/
def rgxGetfaclAce : regexp.Rgx :=
  regexp.seqs
    [ regexp.opt (regexp.lit "default:"),
      regexp.alts
        [regexp.lit "user", regexp.lit "group", regexp.lit "mask", regexp.lit "other:"],
      regexp.Rgx.star regexp.notSpace,
      regexp.lit ":",
      regexp.oneOf "r-", regexp.oneOf "w-", regexp.oneOf "x-" ]

/-- Function `parseGetfaclAceLine`.  A line that matches ends in a colon and
three mode characters, so the byte offsets `len(line)-4` and `len(line)-3`
are character offsets. -/
def parseGetfaclAceLine (line : String) : Except String FaclAce :=
  if !rgxGetfaclAce.MatchString line then Except.error "malformed getfacl ACE line"
  else
    Except.ok
      { Tag := sliceDropRight line 4
        Mode := sliceFrom line (line.data.length - 3) }

/-- The grammar of a getfacl line with the colon after each of the four
keywords (specification side): `(?:default:)?(?:user|group|mask|other):\S*:[r-][w-][x-]`. -/
def grammarGetfaclAce : regexp.Rgx :=
  regexp.seqs
    [ regexp.opt (regexp.lit "default:"),
      regexp.alts
        [regexp.lit "user", regexp.lit "group", regexp.lit "mask", regexp.lit "other"],
      regexp.lit ":",
      regexp.Rgx.star regexp.notSpace,
      regexp.lit ":",
      regexp.oneOf "r-", regexp.oneOf "w-", regexp.oneOf "x-" ]

end bcpsharing

namespace bcpcfg

structure SharingImport where
  Action : String
  Group : String
  Match : String
  deriving DecidableEq, Repr

end bcpcfg

/-! ## Package `bcpsharing`: imports -/

namespace bcpsharing

def ImportActionAccept : String := "accept"
def ImportActionReject : String := "reject"
def ImportActionPass : String := "pass"

/-- Struct `ImportRule`; `Match` is a compiled regular expression. -/
structure ImportRule (E : bcpfilter.RegexpEngine) where
  Group : String
  Match : E.Regexp
  Action : String

/-- Loop of `compileImports`; `i` is the index of the next item. -/
def compileImportsLoop (E : bcpfilter.RegexpEngine) :
    List bcpcfg.SharingImport → Int → List (ImportRule E) →
      Except String (List (ImportRule E))
  | [], _, imps => Except.ok imps
  | c :: rest, i, imps =>
    match E.Compile ("^" ++ c.Match ++ "$") with
    | Except.error err =>
      Except.error ("failed to compile match of item " ++ fmtInt i ++ ": " ++ err)
    | Except.ok m => compileImportsLoop E rest (i + 1) (imps ++ [⟨c.Group, m, c.Action⟩])

/-- Function `compileImports`. -/
def compileImports (E : bcpfilter.RegexpEngine) (cfg : List bcpcfg.SharingImport) :
    Except String (List (ImportRule E)) :=
  compileImportsLoop E cfg 0 []

/-- Method `ImportRule.FilterPathAce`. -/
def ImportRule.FilterPathAce {E : bcpfilter.RegexpEngine} (imp : ImportRule E)
    (path : String) (ace : Ace) : String :=
  if ace.Group ≠ imp.Group then ImportActionPass
  else if !E.MatchString imp.Match path then ImportActionPass
  else imp.Action

/-- Method `ImportFilter.FilterPathAce`. -/
def ImportFilter.FilterPathAce {E : bcpfilter.RegexpEngine} :
    List (ImportRule E) → String → Ace → Result String
  | [], _, _ => Result.ok ImportActionReject
  | imp :: rest, path, ace =>
    if imp.FilterPathAce path ace = ImportActionAccept then Result.ok ImportActionAccept
    else if imp.FilterPathAce path ace = ImportActionReject then
      Result.ok ImportActionReject
    else if imp.FilterPathAce path ace = ImportActionPass then
      ImportFilter.FilterPathAce rest path ace
    else Result.panic "logic error"

/-- Inner loop of `selectImportedExports` over the entries of one ACL. -/
def selectAclLoop {E : bcpfilter.RegexpEngine} (imps : List (ImportRule E))
    (path : String) : List Ace → List Ace → Result (List Ace)
  | [], acl => Result.ok acl
  | ace :: rest, acl =>
    match ImportFilter.FilterPathAce imps path ace with
    | Result.panic msg => Result.panic msg
    | Result.error msg => Result.error msg
    | Result.ok a =>
      if a = ImportActionAccept then selectAclLoop imps path rest (acl ++ [ace])
      else if a = ImportActionReject then selectAclLoop imps path rest acl
      else Result.panic "logic error"

/-- Outer loop of `selectImportedExports`. -/
def selectImportedExportsLoop {E : bcpfilter.RegexpEngine} (imps : List (ImportRule E)) :
    List ExportEntry → List ExportEntry → Result (List ExportEntry)
  | [], sels => Result.ok sels
  | exp :: rest, sels =>
    if exp.Acl.length = 0 then
      selectImportedExportsLoop imps rest
        (sels ++ [{ Path := exp.Path, Acl := [], ManagingGroups := exp.ManagingGroups }])
    else
      match selectAclLoop imps exp.Path exp.Acl [] with
      | Result.panic msg => Result.panic msg
      | Result.error msg => Result.error msg
      | Result.ok acl =>
        if acl.length > 0 then
          selectImportedExportsLoop imps rest
            (sels ++ [{ Path := exp.Path, Acl := acl, ManagingGroups := exp.ManagingGroups }])
        else selectImportedExportsLoop imps rest sels

/-- Function `selectImportedExports`: the exports that are also imported. -/
def selectImportedExports {E : bcpfilter.RegexpEngine} (exps : List ExportEntry)
    (imps : List (ImportRule E)) : Result (List ExportEntry) :=
  selectImportedExportsLoop imps exps []

/-- The entry is accepted (specification side): the first rule whose group is
the group of the entry and whose pattern matches the path has the action
`accept`. -/
def aceAccepted {E : bcpfilter.RegexpEngine} (imps : List (ImportRule E)) (path : String)
    (ace : Ace) : Bool :=
  match imps.find? (fun imp => decide (imp.Group = ace.Group) && E.MatchString imp.Match path)
  with
  | some imp => decide (imp.Action = "accept")
  | none => false

/-- What `selectImportedExports` keeps of one export (specification side). -/
def importedExport {E : bcpfilter.RegexpEngine} (imps : List (ImportRule E))
    (exp : ExportEntry) : Option ExportEntry :=
  if exp.Acl = [] then
    some { Path := exp.Path, Acl := [], ManagingGroups := exp.ManagingGroups }
  else if exp.Acl.filter (aceAccepted imps exp.Path) = [] then none
  else
    some
      { Path := exp.Path, Acl := exp.Acl.filter (aceAccepted imps exp.Path),
        ManagingGroups := exp.ManagingGroups }

end bcpsharing

namespace Examples

/-- An import filter: `bob` accepts `alice/data`, `carol` rejects it. -/
def importsBobCarol : List (bcpsharing.ImportRule bcpfilter.literalEngine) :=
  [⟨"bob", "^alice/data$", "accept"⟩, ⟨"carol", "^alice/data$", "reject"⟩]

/-- Three exports of the org unit `alice`: one to `bob` and `carol`, one with
an empty ACL, and one that no import rule matches. -/
def exportsOfAlice : List bcpsharing.ExportEntry :=
  [ ⟨"alice/data", [⟨"bob", "r-x"⟩, ⟨"carol", "r--"⟩],
      [⟨bcpsharing.GroupType.GroupTypeOu, "alice"⟩]⟩,
    ⟨"alice/old", [], [⟨bcpsharing.GroupType.GroupTypeOu, "alice"⟩]⟩,
    ⟨"alice/private", [⟨"bob", "rwx"⟩], [⟨bcpsharing.GroupType.GroupTypeOu, "alice"⟩]⟩ ]

end Examples

/-! ## Go maps: deletion and iteration; sorting of strings -/

/-- Statement `delete(m, k)`. -/
def GoMap.delete {K V : Type} [DecidableEq K] (m : GoMap K V) (k : K) : GoMap K V :=
  m.filter (fun p => decide (p.1 ≠ k))

/-- The keys of the map, each once.  Go iterates a map in an unspecified
order; where the code ranges over a map and sorts what it collects, the keys
are taken in this order and the result is shown to be the same for every
other order. -/
def GoMap.keys {K V : Type} [DecidableEq K] (m : GoMap K V) : List K :=
  (m.map Prod.fst).dedup

/-- The entries `(k, m[k])` of the map, one per key. -/
def GoMap.entries {K V : Type} [DecidableEq K] (m : GoMap K V) : List (K × V) :=
  m.keys.filterMap (fun k => (GoMap.get m k).map (fun v => (k, v)))

/-- Go `sort.Strings`. -/
def sortStrings (l : List String) : List String :=
  l.insertionSort (fun a b => stringLess b a = false)

/-- Go `sort.Slice(l, func(i, j) bool { return key(l[i]) < key(l[j]) })` for a
string key.  `sort.Slice` is not stable; the code applies it to elements with
pairwise distinct keys only, for which every sorting algorithm returns the
same list. -/
def sortByKey {α : Type} (key : α → String) (l : List α) : List α :=
  l.insertionSort (fun a b => stringLess (key b) (key a) = false)

namespace bcpsharing

/-- Method `FaclAce.IsNamedGroupNormal`. -/
def FaclAce.IsNamedGroupNormal (ace : FaclAce) : Bool :=
  HasPrefix ace.Tag "group:" && decide (ace.Tag ≠ "group:")

/-- Method `FaclAce.IsNamedGroupDefault`. -/
def FaclAce.IsNamedGroupDefault (ace : FaclAce) : Bool :=
  HasPrefix ace.Tag "default:group:" && decide (ace.Tag ≠ "default:group:")

/-- Method `FaclAce.IsNamedGroup`. -/
def FaclAce.IsNamedGroup (ace : FaclAce) : Bool :=
  ace.IsNamedGroupNormal || ace.IsNamedGroupDefault

/-- Method `Facl.SelectNamedGroupEntries`: the named group normal and default
entries. -/
def Facl.SelectNamedGroupEntries (facl : List FaclAce) : List FaclAce :=
  facl.filter (fun ace => ace.IsNamedGroup)

/-- Method `FaclAce.GroupName`: the last of the fields of the tag between
colons (`strings.Split` returns at least one field). -/
def FaclAce.GroupName (ace : FaclAce) : String :=
  (strings.Split ace.Tag ':').getLast?.getD ""

end bcpsharing

/-! ## Package `bcpsharingapply` -/

namespace bcpsharingapply

/-- The set `gSet` of `faclGroupsToRemove` after its three loops. -/
def faclGroupsToRemove_gSet (actual desired : List bcpsharing.FaclAce)
    (additionalGroups : List String) : GoMap String Unit :=
  let gSet : GoMap String Unit :=
    (bcpsharing.Facl.SelectNamedGroupEntries actual).foldl
      (fun m ace => m.set ace.GroupName ()) []
  let gSet :=
    (bcpsharing.Facl.SelectNamedGroupEntries desired).foldl
      (fun m ace => m.delete ace.GroupName) gSet
  additionalGroups.foldl (fun m g => m.delete g) gSet

/-- Function `faclGroupsToRemove`: `actual` groups minus `desired` groups minus
`additionalGroups`. -/
def faclGroupsToRemove (actual desired : List bcpsharing.FaclAce)
    (additionalGroups : List String) : List String :=
  sortStrings (faclGroupsToRemove_gSet actual desired additionalGroups).keys

end bcpsharingapply

namespace bcpsharing

/-- The first loop of `Acl.Union`: the index of each group of `u`. -/
def Acl.indexByGroup (u : List Ace) : GoMap String Nat :=
  u.enum.foldl (fun m p => m.set p.2.Group p.1) []

/-- The second loop of `Acl.Union` over the entries of `b`. -/
def Acl.UnionLoop : List Ace → List Ace → GoMap String Nat → Result (List Ace)
  | [], u, _ => Result.ok u
  | ace :: rest, u, uByGroup =>
    match uByGroup.get ace.Group with
    | some idx =>
      match u[idx]? with
      | none => Result.panic "index out of range"
      | some e =>
        match e.UnionMode ace with
        | Result.panic msg => Result.panic msg
        | Result.error msg => Result.error msg
        | Result.ok mode =>
          Acl.UnionLoop rest (u.set idx { e with Mode := mode }) uByGroup
    | none => Acl.UnionLoop rest (u ++ [ace]) (uByGroup.set ace.Group u.length)

/-- Method `Acl.Union`. -/
def Acl.Union (a b : List Ace) : Result (List Ace) :=
  Acl.UnionLoop b a (Acl.indexByGroup a)

/-- Method `Acl.Groups`. -/
def Acl.Groups (acl : List Ace) : List String := acl.map (fun ace => ace.Group)

/-- Function `NewTraversalAclWithGroups`. -/
def NewTraversalAclWithGroups (gs : List String) : List Ace :=
  gs.map (fun g => ⟨g, "--x"⟩)

/-- The block that `compileRealShares` and both loops of `compileTraversal`
run for one path: if the map has an index for the path, the ACL of the entry
at that index becomes its union with `acl`; otherwise the index of a new
entry is recorded and the entry is appended. -/
def upsertByRealpath (entries : List ExportEntry) (byRealpath : GoMap String Nat)
    (path : String) (acl : List Ace) (mgroups : List Group) :
    Result (List ExportEntry × GoMap String Nat) :=
  match byRealpath.get path with
  | some idx =>
    match entries[idx]? with
    | none => Result.panic "index out of range"
    | some e =>
      match Acl.Union e.Acl acl with
      | Result.panic msg => Result.panic msg
      | Result.error msg => Result.error msg
      | Result.ok u => Result.ok (entries.set idx { e with Acl := u }, byRealpath)
  | none =>
    Result.ok
      (entries ++ [{ Path := path, Acl := acl, ManagingGroups := mgroups }],
        byRealpath.set path entries.length)

/-- Loop of `compileRealShares`. -/
def compileRealSharesLoop (fs : Bcpfs) :
    List ExportEntry → List ExportEntry → GoMap String Nat → Result (List ExportEntry)
  | [], reals, _ => Result.ok reals
  | shr :: rest, reals, realsByRealpath =>
    match upsertByRealpath reals realsByRealpath (fs.Realpath shr.Path) shr.Acl
        shr.ManagingGroups with
    | Result.panic msg => Result.panic msg
    | Result.error msg => Result.error msg
    | Result.ok (reals, realsByRealpath) => compileRealSharesLoop fs rest reals realsByRealpath

/-- Function `compileRealShares`: maps `shares` to realpaths; the ACL of a
realpath is the union of the ACLs of the logical paths that map to it. -/
def compileRealShares (fs : Bcpfs) (shares : List ExportEntry) : Result (List ExportEntry) :=
  compileRealSharesLoop fs shares [] []

/-- One entry of `b` merged into `u` (specification side): the mode of the
entry of the same group becomes the bitwise OR, and an entry of a new group is
appended. -/
def unionStep (u : List Ace) (ace : Ace) : List Ace :=
  if u.any (fun e => decide (e.Group = ace.Group)) then
    u.map (fun e => if e.Group = ace.Group then { e with Mode := orModes e.Mode ace.Mode } else e)
  else u ++ [ace]

/-- The union of two ACLs (specification side). -/
def unionSpec (a b : List Ace) : List Ace := b.foldl unionStep a

/-- The mode that the ACL gives to the group (specification side). -/
def modeOf (acl : List Ace) (g : String) : Option String :=
  (acl.find? (fun e => decide (e.Group = g))).map (fun e => e.Mode)

/-- An ACL that names pairwise distinct groups with modes of the form
`[r-][w-][x-]` (specification side). -/
def WellFormedAcl (acl : List Ace) : Prop :=
  (acl.map (fun e => e.Group)).Nodup ∧ ∀ e ∈ acl, validMode e.Mode = true

instance (acl : List Ace) : Decidable (WellFormedAcl acl) :=
  inferInstanceAs
    (Decidable
      ((acl.map (fun (e : Ace) => e.Group)).Nodup ∧ ∀ e ∈ acl, validMode e.Mode = true))

/-- The list that keeps each string at its first occurrence (specification
side). -/
def firstOccurrences : List String → List String
  | [] => []
  | x :: rest => x :: (firstOccurrences rest).filter (fun y => decide (y ≠ x))

/-- One share merged into the list of real shares (specification side). -/
def upsertSpec (entries : List ExportEntry) (path : String) (acl : List Ace)
    (mgroups : List Group) : List ExportEntry :=
  if entries.any (fun e => decide (e.Path = path)) then
    entries.map (fun e => if e.Path = path then { e with Acl := unionSpec e.Acl acl } else e)
  else entries ++ [{ Path := path, Acl := acl, ManagingGroups := mgroups }]

end bcpsharing

/-- The map holds, for every key, the index of the element of the list with
that key (invariant of the loops that keep a slice together with a map from
key to index). -/
def MapIdx {α : Type} (key : α → String) (l : List α) (m : GoMap String Nat) : Prop :=
  ∀ k i, GoMap.get m k = some i ↔ (l[i]?).map key = some k

namespace bcpsharing

/-- The three bits of a mode: the position and the character of each. -/
def modeBits : List (Nat × Char) := [(0, 'r'), (1, 'w'), (2, 'x')]

/-- The ACL has an entry for the group that sets the bit (specification
side). -/
def grants (acl : List Ace) (g : String) (i : Nat) (c : Char) : Bool :=
  acl.any (fun e => decide (e.Group = g) && hasBit e.Mode i c)

/-- The union of the ACLs of the shares of one realpath, in their order
(specification side). -/
def unionAll : List (List Ace) → List Ace
  | [] => []
  | a :: rest => rest.foldl unionSpec a

/-- The closed form of `Acl.Union` on ACLs that name pairwise distinct
groups (specification side): the entries of `a`, each with the mode of the
entry of `b` for the same group merged into it, followed by the entries of
`b` for groups that `a` does not name. -/
def unionClosed (a b : List Ace) : List Ace :=
  a.map (fun e =>
      match b.find? (fun x => decide (x.Group = e.Group)) with
      | some x => { e with Mode := orModes e.Mode x.Mode }
      | none => e) ++
    b.filter (fun x => !a.any (fun e => decide (e.Group = x.Group)))

/-- The real shares in closed form (specification side): one entry per
distinct realpath in order of first occurrence, with the union of the ACLs of
the shares of that realpath and the managing groups of the first of them. -/
def realSharesSpec (fs : Bcpfs) (shares : List ExportEntry) : List ExportEntry :=
  (firstOccurrences (shares.map (fun s => fs.Realpath s.Path))).map (fun rp =>
    { Path := rp
      Acl := unionAll ((shares.filter (fun s => decide (fs.Realpath s.Path = rp))).map
        (fun s => s.Acl))
      ManagingGroups :=
        ((shares.find? (fun s => decide (fs.Realpath s.Path = rp))).map
          (fun s => s.ManagingGroups)).getD [] })

end bcpsharing

namespace Examples

/-- The two shares of scenario S5: the same directory of the org unit
`alice` below the service `mic1`, once through the directory of the facility
and once through the directory of the org unit, shared with `bob`. -/
def sharesS5 : List bcpsharing.ExportEntry :=
  [ ⟨"em-facility/mic1/alice/foo", [⟨"bob", "r--"⟩],
      [⟨bcpsharing.GroupType.GroupTypeOu, "alice"⟩,
        ⟨bcpsharing.GroupType.GroupTypeOps, "em"⟩]⟩,
    ⟨"alice/mic1/foo", [⟨"bob", "-wx"⟩],
      [⟨bcpsharing.GroupType.GroupTypeOu, "alice"⟩,
        ⟨bcpsharing.GroupType.GroupTypeOps, "em"⟩]⟩ ]

/-- The real share of scenario S5. -/
def realSharesS5 : List bcpsharing.ExportEntry :=
  [ ⟨"srv/mic1/alice/foo", [⟨"bob", "rwx"⟩],
      [⟨bcpsharing.GroupType.GroupTypeOu, "alice"⟩,
        ⟨bcpsharing.GroupType.GroupTypeOps, "em"⟩]⟩ ]

end Examples

namespace filepath

/-- The path whose components are the given strings: the strings with `/`
between them (specification side). -/
def joinElems (l : List String) : String :=
  String.mk (joinData ['/'] (l.map String.data))

end filepath

/-! ## Package `bcpsharing`: nesting of exports -/

namespace bcpsharing

inductive NodeType where
  | UnspecifiedNode
  | InnerNode
  | LeafNode
  deriving DecidableEq, Repr

/-- The expression `tree[p]`: a missing key gives `UnspecifiedNode`. -/
def treeGet (tree : GoMap String NodeType) (p : String) : NodeType :=
  (tree.get p).getD NodeType.UnspecifiedNode

/-- The loop `for i := len(parts) - 1; i > 0; i--` of the closures `checkPath`
of `checkNoNesting` and `checkNoRealpathNesting`, started at `i`; `err` is the
error for a prefix that is a leaf.  It returns the error and the tree. -/
def checkPrefixes (err : String) (parts : List String) :
    Nat → GoMap String NodeType → Option String × GoMap String NodeType
  | 0, tree => (none, tree)
  | i + 1, tree =>
    match treeGet tree (slashpath.Join (parts.take (i + 1))) with
    | NodeType.LeafNode => (some err, tree)
    | NodeType.InnerNode => (none, tree)
    | NodeType.UnspecifiedNode =>
      checkPrefixes err parts i (tree.set (slashpath.Join (parts.take (i + 1)))
        NodeType.InnerNode)

/-- Closure `checkPath` of `checkNoNesting`: the error and the tree. -/
def checkNoNesting_checkPath (tree : GoMap String NodeType) (p : String) :
    Option String × GoMap String NodeType :=
  match treeGet tree p with
  | NodeType.LeafNode => (some ("duplicate export `" ++ p ++ "`"), tree)
  | NodeType.InnerNode => (some ("nested export prefix `" ++ p ++ "`"), tree)
  | NodeType.UnspecifiedNode =>
    checkPrefixes ("nested export suffix `" ++ p ++ "`") (strings.Split p '/')
      ((strings.Split p '/').length - 1) (tree.set p NodeType.LeafNode)

/-- Loop of `checkNoNesting` over the exports. -/
def checkNoNestingLoop : List ExportEntry → GoMap String NodeType → Option String
  | [], _ => none
  | exp :: rest, tree =>
    match checkNoNesting_checkPath tree exp.Path with
    | (some err, _) => some err
    | (none, tree) => checkNoNestingLoop rest tree

/-- Function `checkNoNesting`; `none` is the nil error. -/
def checkNoNesting (exps : List ExportEntry) : Option String :=
  checkNoNestingLoop exps []

/-- Closure `checkPath` of `checkNoRealpathNesting`: the error and the tree. -/
def checkNoRealpathNesting_checkPath (tree : GoMap String NodeType) (p : String) :
    Option String × GoMap String NodeType :=
  match treeGet tree p with
  | NodeType.LeafNode => (none, tree)
  | NodeType.InnerNode => (some ("nested realpath prefix `" ++ p ++ "`"), tree)
  | NodeType.UnspecifiedNode =>
    checkPrefixes ("nested realpath suffix `" ++ p ++ "`") (strings.Split p '/')
      ((strings.Split p '/').length - 1) (tree.set p NodeType.LeafNode)

/-- Loop of `checkNoRealpathNesting` over the exports. -/
def checkNoRealpathNestingLoop (fs : Bcpfs) :
    List ExportEntry → GoMap String NodeType → Option String
  | [], _ => none
  | exp :: rest, tree =>
    match checkNoRealpathNesting_checkPath tree (fs.Realpath exp.Path) with
    | (some err, _) => some err
    | (none, tree) => checkNoRealpathNestingLoop fs rest tree

/-- Function `checkNoRealpathNesting`; `none` is the nil error. -/
def checkNoRealpathNesting (fs : Bcpfs) (exps : List ExportEntry) : Option String :=
  checkNoRealpathNestingLoop fs exps []

/-- The list of components `a` is a proper prefix of `b` (specification
side). -/
def properPrefix (a b : List String) : Bool := decide (a <+: b ∧ a ≠ b)

/-- The node that the tree holds for a list of components after the paths
with the components `done` were checked (specification side): a leaf for a
checked path, an inner node for a proper prefix of a checked path. -/
def nodeOf (done : List (List String)) (cs : List String) : NodeType :=
  if cs ∈ done then NodeType.LeafNode
  else if done.any (fun d => properPrefix cs d) then NodeType.InnerNode
  else NodeType.UnspecifiedNode

/-- The error of `checkNoNesting` for the path `p` after the paths with the
components `done` (specification side). -/
def nestingError (done : List (List String)) (p : String) : Option String :=
  if strings.Split p '/' ∈ done then some ("duplicate export `" ++ p ++ "`")
  else if done.any (fun d => properPrefix (strings.Split p '/') d) then
    some ("nested export prefix `" ++ p ++ "`")
  else if done.any (fun d => properPrefix d (strings.Split p '/')) then
    some ("nested export suffix `" ++ p ++ "`")
  else none

/-- The error of `checkNoRealpathNesting` for the real path `p` after the real
paths with the components `done` (specification side). -/
def realpathNestingError (done : List (List String)) (p : String) : Option String :=
  if strings.Split p '/' ∈ done then none
  else if done.any (fun d => properPrefix (strings.Split p '/') d) then
    some ("nested realpath prefix `" ++ p ++ "`")
  else if done.any (fun d => properPrefix d (strings.Split p '/')) then
    some ("nested realpath suffix `" ++ p ++ "`")
  else none

/-- The first error that the function `err` reports along the list of paths
(specification side). -/
def firstError (err : List (List String) → String → Option String) :
    List String → List (List String) → Option String
  | [], _ => none
  | p :: rest, done =>
    match err done p with
    | some e => some e
    | none => firstError err rest (done ++ [strings.Split p '/'])

/-- Every component of the path is a clean element: not empty and neither `.`
nor `..` (specification side). -/
def cleanComponents (p : String) : Bool :=
  (strings.Split p '/').all filepath.isElem

/-- Two lists of components of which one is a prefix of the other, or which
are equal (specification side). -/
def nested (a b : List String) : Prop := a <+: b ∨ b <+: a

instance (a b : List String) : Decidable (nested a b) :=
  inferInstanceAs (Decidable (a <+: b ∨ b <+: a))

end bcpsharing

namespace bcpsharing

/-- Invariant of the tree of `checkNoNesting` and `checkNoRealpathNesting`
after the paths with the components `done`: for every list of clean
components the tree holds the node `nodeOf done`. -/
def TreeInv (tree : GoMap String NodeType) (done : List (List String)) : Prop :=
  ∀ cs : List String, cs ≠ [] → (∀ c ∈ cs, filepath.isElem c = true) →
    treeGet tree (filepath.joinElems cs) = nodeOf done cs

/-- The checked paths: lists of clean components, none of them a proper prefix
of another. -/
def DoneOk (done : List (List String)) : Prop :=
  (∀ d ∈ done, d ≠ [] ∧ ∀ c ∈ d, filepath.isElem c = true) ∧
    ∀ a ∈ done, ∀ b ∈ done, properPrefix a b = false

end bcpsharing

namespace Examples

/-- The exports `a/b` and `a/b/c`, in this order. -/
def exportsNested : List bcpsharing.ExportEntry :=
  [⟨"a/b", [], []⟩, ⟨"a/b/c", [], []⟩]

end Examples

/-! ## Traversal ACLs (`compileTraversal`) -/

namespace bcpsharing

/-- Method `(*Bcpfs).IsServiceRealpath`; `strings.Split` never returns an
empty slice, so the index `[0]` is in range. -/
def Bcpfs.IsServiceRealpath (fs : Bcpfs) (p : String) : Bool :=
  decide ((strings.Split p '/').getD 0 "" = fs.ServiceDir)

/-- Inner loop of `compileTraversal`, `for i := begin; i < len(parts); i++`,
over the values that `i` takes. -/
def compileTraversalPrefixes (acl : List Ace) (mgroups : List Group) (parts : List String) :
    List Nat → List ExportEntry → GoMap String Nat →
      Result (List ExportEntry × GoMap String Nat)
  | [], travs, travsByRealpath => Result.ok (travs, travsByRealpath)
  | i :: rest, travs, travsByRealpath =>
    match upsertByRealpath travs travsByRealpath (slashpath.Join (parts.take i)) acl
        mgroups with
    | Result.panic msg => Result.panic msg
    | Result.error msg => Result.error msg
    | Result.ok (travs, travsByRealpath) =>
      compileTraversalPrefixes acl mgroups parts rest travs travsByRealpath

/-- The value of `begin` in `compileTraversal` for the real share `r`. -/
def traversalBegin (fs : Bcpfs) (r : ExportEntry) : Nat :=
  if fs.IsServiceRealpath r.Path then 3 else 2

/-- First loop of `compileTraversal`: traversal along the realpaths. -/
def compileTraversalReals (fs : Bcpfs) :
    List ExportEntry → List ExportEntry → GoMap String Nat →
      Result (List ExportEntry × GoMap String Nat)
  | [], travs, travsByRealpath => Result.ok (travs, travsByRealpath)
  | r :: rest, travs, travsByRealpath =>
    let acl := NewTraversalAclWithGroups (Acl.Groups r.Acl)
    let parts := strings.Split r.Path '/'
    let begin := traversalBegin fs r
    match compileTraversalPrefixes acl r.ManagingGroups parts
        (List.range' begin (parts.length - begin)) travs travsByRealpath with
    | Result.panic msg => Result.panic msg
    | Result.error msg => Result.error msg
    | Result.ok (travs, travsByRealpath) =>
      compileTraversalReals fs rest travs travsByRealpath

/-- Second loop of `compileTraversal`: traversal of the toplevel directories
of the org units. -/
def compileTraversalShares (fs : Bcpfs) :
    List ExportEntry → List ExportEntry → GoMap String Nat →
      Result (List ExportEntry × GoMap String Nat)
  | [], travs, travsByRealpath => Result.ok (travs, travsByRealpath)
  | shr :: rest, travs, travsByRealpath =>
    let acl := NewTraversalAclWithGroups (Acl.Groups shr.Acl)
    let ou := (strings.Split shr.Path '/').getD 0 ""
    match upsertByRealpath travs travsByRealpath (slashpath.Join [fs.OrgUnitDir, ou]) acl
        [] with
    | Result.panic msg => Result.panic msg
    | Result.error msg => Result.error msg
    | Result.ok (travs, travsByRealpath) =>
      compileTraversalShares fs rest travs travsByRealpath

/-- Function `compileTraversal`: the `--x` ACLs that allow traversing
toplevel directories in order to resolve symlinks from the shared trees. -/
def compileTraversal (fs : Bcpfs) (shares reals : List ExportEntry) :
    Result (List ExportEntry) :=
  match compileTraversalReals fs reals [] [] with
  | Result.panic msg => Result.panic msg
  | Result.error msg => Result.error msg
  | Result.ok (travs, travsByRealpath) =>
    match compileTraversalShares fs shares travs travsByRealpath with
    | Result.panic msg => Result.panic msg
    | Result.error msg => Result.error msg
    | Result.ok (travs, _) => Result.ok travs

/-- The paths that `compileTraversal` upserts, in order, each with the groups
of the ACL that it upserts there (specification side). -/
def traversalContribs (fs : Bcpfs) (shares reals : List ExportEntry) :
    List (String × List String) :=
  reals.flatMap
      (fun r =>
        (List.range' (traversalBegin fs r)
            ((strings.Split r.Path '/').length - traversalBegin fs r)).map
          (fun i => (slashpath.Join ((strings.Split r.Path '/').take i), Acl.Groups r.Acl))) ++
    shares.map
      (fun s =>
        (slashpath.Join [fs.OrgUnitDir, (strings.Split s.Path '/').getD 0 ""],
          Acl.Groups s.Acl))

/-- The map holds for a group an index of an entry of that group, and holds
an index for every group of the list (invariant of `Acl.Union` on ACLs that
may name a group twice). -/
def GroupIdx (u : List Ace) (m : GoMap String Nat) : Prop :=
  (∀ k i, GoMap.get m k = some i → ∃ e, u[i]? = some e ∧ e.Group = k) ∧
    ∀ k, GoMap.get m k = none → ∀ e ∈ u, e.Group ≠ k

/-- State of the loops of `compileTraversal` after the upserts `cs`
(specification side): the index map is exact, every mode is `--x`, the paths
are those upserted, and the groups at a path are those upserted there. -/
def TravInv (cs : List (String × List String)) (travs : List ExportEntry)
    (m : GoMap String Nat) : Prop :=
  MapIdx (fun e : ExportEntry => e.Path) travs m ∧
    (∀ e ∈ travs, ∀ ace ∈ e.Acl, ace.Mode = "--x") ∧
    (∀ p, p ∈ travs.map (fun e => e.Path) ↔ ∃ c ∈ cs, c.1 = p) ∧
    ∀ e ∈ travs, ∀ g, g ∈ e.Acl.map (fun x => x.Group) ↔ ∃ c ∈ cs, c.1 = e.Path ∧ g ∈ c.2

end bcpsharing

namespace Examples

/-- The traversal entries of scenario S5. -/
def traversalS5 : List bcpsharing.ExportEntry :=
  [ ⟨"srv/mic1/alice", [⟨"bob", "--x"⟩],
      [⟨bcpsharing.GroupType.GroupTypeOu, "alice"⟩,
        ⟨bcpsharing.GroupType.GroupTypeOps, "em"⟩]⟩,
    ⟨"org/em-facility", [⟨"bob", "--x"⟩], []⟩,
    ⟨"org/alice", [⟨"bob", "--x"⟩], []⟩ ]

end Examples

namespace filepath

/-- Shape of the stack of `Clean` on a relative path (specification side):
clean elements on top of `..` elements. -/
def relStack (stack : List (List Char)) : Prop :=
  ∃ k elems, stack = elems ++ List.replicate k ['.', '.'] ∧
    ∀ e ∈ elems, e ≠ [] ∧ '/' ∉ e ∧ e ≠ ['.'] ∧ e ≠ ['.', '.']

end filepath

/-! ## Shared trees (`compileShareTrees`) -/

namespace bcpsharing

/-- Type `ShareFile`: a file in a shared tree; an empty `Target` indicates a
directory, any other a symlink. -/
structure ShareFile where
  Path : String
  Target : String
  deriving DecidableEq, Repr

/-- Type `ShareTree`. -/
structure ShareTree where
  OrgUnit : String
  Files : List ShareFile
  deriving DecidableEq, Repr

/-- Closure `realpath` of `compileShareTrees`. -/
def compileShareTrees_realpath (fs : Bcpfs) (ou : String) (parts : List String) : String :=
  slashpath.Join ([fs.OrgUnitDir, ou, "shared"] ++ parts)

/-- Closure `getTree` of `compileShareTrees`: the tree of `ou`, created if
missing, and the map of the trees. -/
def compileShareTrees_getTree (treesM : GoMap String (GoMap String String)) (ou : String) :
    GoMap String String × GoMap String (GoMap String String) :=
  match treesM.get ou with
  | some tr => (tr, treesM)
  | none => ([], treesM.set ou [])

/-- Closure `addDir` of `compileShareTrees`.  A Go map is a reference: the
write `tr[...] = ""` changes the tree that `treesM` holds for `ou`, which is
written here as storing the changed tree. -/
def compileShareTrees_addDir (fs : Bcpfs) (treesM : GoMap String (GoMap String String))
    (ou : String) (parts : List String) : GoMap String (GoMap String String) :=
  match compileShareTrees_getTree treesM ou with
  | (tr, treesM) => treesM.set ou (tr.set (compileShareTrees_realpath fs ou parts) "")

/-- Closure `addLink` of `compileShareTrees`. -/
def compileShareTrees_addLink (fs : Bcpfs) (treesM : GoMap String (GoMap String String))
    (ou : String) (parts : List String) : GoMap String (GoMap String String) :=
  let upLevels := parts.length + 1
  let target := slashpath.Join (List.replicate upLevels ".." ++ parts)
  match compileShareTrees_getTree treesM ou with
  | (tr, treesM) => treesM.set ou (tr.set (compileShareTrees_realpath fs ou parts) target)

/-- Closure `addShare` of `compileShareTrees`; the loop
`for i := 1; i < len(parts); i++` runs over the values of `i`. -/
def compileShareTrees_addShare (fs : Bcpfs) (treesM : GoMap String (GoMap String String))
    (ou path : String) : GoMap String (GoMap String String) :=
  let parts := strings.Split path '/'
  let treesM :=
    (List.range' 1 (parts.length - 1)).foldl
      (fun m i => compileShareTrees_addDir fs m ou (parts.take i)) treesM
  compileShareTrees_addLink fs treesM ou parts

/-- The map `treesM` of `compileShareTrees` after the two loops over the
shares: shares to self, then shares from others. -/
def compileShareTrees_treesM (fs : Bcpfs) (shares : List ExportEntry) :
    GoMap String (GoMap String String) :=
  let treesM : GoMap String (GoMap String String) :=
    shares.foldl
      (fun m shr =>
        compileShareTrees_addShare fs m ((strings.Split shr.Path '/').getD 0 "") shr.Path)
      []
  shares.foldl
    (fun m shr =>
      (Acl.Groups shr.Acl).foldl (fun m ou => compileShareTrees_addShare fs m ou shr.Path) m)
    treesM

/-- The files of one tree of `compileShareTrees`, for the order `range` in
which the entries of the tree are iterated: collected, then sorted by path. -/
def compileShareTrees_files (range : List (String × String)) : List ShareFile :=
  sortByKey (fun f : ShareFile => f.Path)
    (range.map (fun pt => { Path := pt.1, Target := pt.2 }))

/-- Function `compileShareTrees`: the files of each tree sorted by path, the
trees sorted by org unit. -/
def compileShareTrees (fs : Bcpfs) (shares : List ExportEntry) : List ShareTree :=
  sortByKey (fun t : ShareTree => t.OrgUnit)
    ((compileShareTrees_treesM fs shares).entries.map
      (fun e => { OrgUnit := e.1, Files := compileShareTrees_files e.2.entries }))

/-- The string of `k` repetitions of `../` (specification side). -/
def dotdotSlash : Nat → String
  | 0 => ""
  | k + 1 => "../" ++ dotdotSlash k

/-- The writes `(ou, path, target)` that `addShare` makes, in order
(specification side). -/
def shareWritesOf (fs : Bcpfs) (ou path : String) : List (String × String × String) :=
  (List.range' 1 ((strings.Split path '/').length - 1)).map
      (fun i => (ou, compileShareTrees_realpath fs ou ((strings.Split path '/').take i), "")) ++
    [(ou, compileShareTrees_realpath fs ou (strings.Split path '/'),
      slashpath.Join
        (List.replicate ((strings.Split path '/').length + 1) ".." ++ strings.Split path '/'))]

/-- The writes that the two loops of `compileShareTrees` make, in order
(specification side). -/
def shareWrites (fs : Bcpfs) (shares : List ExportEntry) : List (String × String × String) :=
  shares.flatMap (fun s => shareWritesOf fs ((strings.Split s.Path '/').getD 0 "") s.Path) ++
    shares.flatMap
      (fun s => (Acl.Groups s.Acl).flatMap (fun ou => shareWritesOf fs ou s.Path))

/-- The target of the last write to the path of the tree of `ou`
(specification side). -/
def lastWrite (ws : List (String × String × String)) (ou p : String) : Option String :=
  ws.foldl (fun acc w => if w.1 = ou ∧ w.2.1 = p then some w.2.2 else acc) none

/-- State of `treesM` after the writes `ws` (specification side): there is a
tree for the org units written to, and the tree holds for a path the target of
the last write to it. -/
def TreesInv (ws : List (String × String × String)) (m : GoMap String (GoMap String String)) :
    Prop :=
  (∀ ou, (m.get ou).isSome = true ↔ ∃ w ∈ ws, w.1 = ou) ∧
    ∀ ou p, (m.get ou).bind (fun tr => tr.get p) = lastWrite ws ou p

end bcpsharing

namespace Examples

/-- One share whose path ends in the component `.`. -/
def sharesDot : List bcpsharing.ExportEntry := [⟨"a/b/.", [], []⟩]

/-- The shared trees of scenario S5. -/
def shareTreesS5 : List bcpsharing.ShareTree :=
  [ ⟨"alice",
      [ ⟨"org/alice/shared/alice", ""⟩,
        ⟨"org/alice/shared/alice/mic1", ""⟩,
        ⟨"org/alice/shared/alice/mic1/foo", "../../../../alice/mic1/foo"⟩ ]⟩,
    ⟨"bob",
      [ ⟨"org/bob/shared/alice", ""⟩,
        ⟨"org/bob/shared/alice/mic1", ""⟩,
        ⟨"org/bob/shared/alice/mic1/foo", "../../../../alice/mic1/foo"⟩,
        ⟨"org/bob/shared/em-facility", ""⟩,
        ⟨"org/bob/shared/em-facility/mic1", ""⟩,
        ⟨"org/bob/shared/em-facility/mic1/alice", ""⟩,
        ⟨"org/bob/shared/em-facility/mic1/alice/foo",
          "../../../../../em-facility/mic1/alice/foo"⟩ ]⟩,
    ⟨"em-facility",
      [ ⟨"org/em-facility/shared/em-facility", ""⟩,
        ⟨"org/em-facility/shared/em-facility/mic1", ""⟩,
        ⟨"org/em-facility/shared/em-facility/mic1/alice", ""⟩,
        ⟨"org/em-facility/shared/em-facility/mic1/alice/foo",
          "../../../../../em-facility/mic1/alice/foo"⟩ ]⟩ ]

end Examples

/-! ## Package `strconv` (Go standard library)

The conversions are external to the repository.  They are modelled after
their documented rules on a platform whose `int` has 64 bits; an `error` of
type `*NumError` is the value of its fields. -/

namespace strconv

/-- Error values `ErrSyntax` and `ErrRange`. -/
inductive NumErr where
  | ErrSyntax
  | ErrRange
  deriving DecidableEq, Repr

/-- Type `NumError`: a failed conversion. -/
structure NumError where
  Func : String
  Num : String
  Err : NumErr
  deriving DecidableEq, Repr

/-- The value of a decimal digit. -/
def digit (c : Char) : Option Nat :=
  if c.isDigit then some (c.toNat - '0'.toNat) else none

/-- Loop of `ParseUint` for base 10: the digits are accumulated in `n`; a
character that is not a digit is a syntax error, a value above `maxVal` a
range error. -/
def parseUintLoop (maxVal : Nat) : List Char → Nat → Except NumErr Nat
  | [], n => Except.ok n
  | c :: cs, n =>
    match digit c with
    | none => Except.error NumErr.ErrSyntax
    | some d =>
      if n ≥ maxVal / 10 + 1 then Except.error NumErr.ErrRange
      else if n * 10 + d > maxVal then Except.error NumErr.ErrRange
      else parseUintLoop maxVal cs (n * 10 + d)

/-- Go `strconv.ParseUint(s, 10, 64)`: a non-empty string of decimal digits
(no sign, no underscore) with a value below `2^64`. -/
def ParseUint (s : String) : Except NumError Nat :=
  if s.data = [] then Except.error ⟨"ParseUint", s, NumErr.ErrSyntax⟩
  else
    match parseUintLoop (2 ^ 64 - 1) s.data 0 with
    | Except.ok n => Except.ok n
    | Except.error e => Except.error ⟨"ParseUint", s, e⟩

/-- Go `strconv.ParseInt(s, 10, 64)`: an optional sign and a non-empty
string of decimal digits with a value from `-2^63` to `2^63 - 1`. -/
def ParseInt (s : String) : Except NumError Int :=
  match s.data with
  | [] => Except.error ⟨"ParseInt", s, NumErr.ErrSyntax⟩
  | c :: cs =>
    let neg := decide (c = '-')
    let rest := if c = '+' ∨ c = '-' then cs else c :: cs
    if rest = [] then Except.error ⟨"ParseInt", s, NumErr.ErrSyntax⟩
    else
      match parseUintLoop (2 ^ 64 - 1) rest 0 with
      | Except.error NumErr.ErrSyntax => Except.error ⟨"ParseInt", s, NumErr.ErrSyntax⟩
      | Except.error NumErr.ErrRange => Except.error ⟨"ParseInt", s, NumErr.ErrRange⟩
      | Except.ok un =>
        if !neg && decide (un ≥ 2 ^ 63) then Except.error ⟨"ParseInt", s, NumErr.ErrRange⟩
        else if neg && decide (un > 2 ^ 63) then
          Except.error ⟨"ParseInt", s, NumErr.ErrRange⟩
        else Except.ok (if neg then -(un : Int) else (un : Int))

/-- Go `strconv.Atoi`: `ParseInt(s, 10, 0)` with the function name `Atoi` in
the error (its fast path for short strings computes the same). -/
def Atoi (s : String) : Except NumError Int :=
  match ParseInt s with
  | Except.ok n => Except.ok n
  | Except.error e => Except.error { e with Func := "Atoi" }

end strconv

/-! ## Command `bcpsucd` and package `ucred` -/

namespace bcpsucd

/-- The errors that `uint32List.Set` returns: the error of `strconv.Atoi` or
`errors.New("negative int")`. -/
inductive SetError where
  | numError (e : strconv.NumError)
  | negativeInt
  deriving DecidableEq, Repr

/-- Go conversion `uint32(i)` of a non-negative `int`: the low 32 bits. -/
def toUint32 (i : Int) : Nat := i.toNat % 2 ^ 32

/-- Loop of `uint32List.Set` over the fields: the list and the error.  The
list is appended to field by field, so the fields before a failing one stay
appended. -/
def uint32List.SetLoop : List String → List Nat → List Nat × Option SetError
  | [], l => (l, none)
  | v :: rest, l =>
    match strconv.Atoi v with
    | Except.error err => (l, some (SetError.numError err))
    | Except.ok i =>
      if i < 0 then (l, some SetError.negativeInt)
      else uint32List.SetLoop rest (l ++ [toUint32 i])

/-- Method `(*uint32List).Set`. -/
def uint32List.Set (l : List Nat) (value : String) : List Nat × Option SetError :=
  uint32List.SetLoop (strings.Split value ',') l

end bcpsucd

namespace ucred

/-- Function `NewUidAuthorizer`: the set of the allowed uids. -/
def NewUidAuthorizer (uids : List Nat) : GoMap Nat Bool :=
  uids.foldl (fun m uid => m.set uid true) []

/-- Method `(*UidAuthorizer).AuthorizeInfo` for the uid of the peer: `none`
unless the uid is denied. -/
def UidAuthorizer.AuthorizeInfo (a : GoMap Nat Bool) (uid : Nat) : Option String :=
  if (GoMap.get a uid).getD false then none
  else some ("denied uid:" ++ toString uid)

end ucred

namespace bcpsharing

/-- Method `(*Bcpfs).FsGroupOrgUnit`: the filesystem group for the org unit
`ou`. -/
def Bcpfs.FsGroupOrgUnit (fs : Bcpfs) (ou : String) : String :=
  fs.OrgUnitGroupPrefix ++ "_" ++ ou

/-- Loop of `(*Bcpfs).FsGroups`; it panics on a group type other than ou and
ops. -/
def Bcpfs.FsGroupsLoop (fs : Bcpfs) : List Group → List String → Result (List String)
  | [], fgs => Result.ok fgs
  | g :: rest, fgs =>
    match g.GroupType with
    | GroupType.GroupTypeOu =>
      Bcpfs.FsGroupsLoop fs rest (fgs ++ [fs.OrgUnitGroupPrefix ++ "_" ++ g.Name])
    | GroupType.GroupTypeOps =>
      Bcpfs.FsGroupsLoop fs rest (fgs ++ [fs.ServiceGroupPrefix ++ "_" ++ g.Name ++ "-ops"])
    | GroupType.GroupTypeUnspecified => Result.panic "invalid group type"

/-- Method `(*Bcpfs).FsGroups`: the filesystem group names for `gs`. -/
def Bcpfs.FsGroups (fs : Bcpfs) (gs : List Group) : Result (List String) :=
  Bcpfs.FsGroupsLoop fs gs []

end bcpsharing

namespace Examples

/-- The configuration of scenario S1 with the ops suffix `admins` and the
facility suffix `core`. -/
def cfgSuffixes : bcpcfg.Root :=
  { S1.cfg with OpsSuffix := "admins", FacilitySuffix := "core" }

end Examples

namespace strings

/-- Go `strings.Trim(s, cutset)` for a cutset of one character: `s` without
the leading and trailing occurrences of the character. -/
def Trim (s : String) (c : Char) : String :=
  String.mk
    ((s.data.dropWhile (fun x => decide (x = c))).reverse.dropWhile
      (fun x => decide (x = c))).reverse

end strings

namespace bcpcfg

structure SharingExport where
  Path : String
  Acl : List String
  deriving DecidableEq, Repr

/-- Struct `Sharing`. -/
structure Sharing where
  NamingPolicies : List SharingNamingPolicy
  Exports : List SharingExport
  Imports : List SharingImport
  deriving DecidableEq, Repr

end bcpcfg

namespace bcpsharing

/-- The class `[a-z0-9-]`. -/
def groupNameChar : regexp.Rgx :=
  regexp.Rgx.cls (fun c =>
    (decide ('a' ≤ c) && decide (c ≤ 'z')) || (decide ('0' ≤ c) && decide (c ≤ '9')) ||
      decide (c = '-'))

/-- Variable `rgxAce`: the pattern `^group:[a-z0-9-]+:[r-][w-][x-]$`. -/
def rgxAce : regexp.Rgx :=
  regexp.seqs
    [ regexp.lit "group:",
      groupNameChar, regexp.Rgx.star groupNameChar,
      regexp.lit ":",
      regexp.oneOf "r-", regexp.oneOf "w-", regexp.oneOf "x-" ]

/-- Loop of `parseAcl`; `i` is the index of the next item.  An item that
matches has three fields between colons, so `toks[1]` and `toks[2]` are in
range. -/
def parseAclLoop : List String → Int → List Ace → Except String (List Ace)
  | [], _, acl => Except.ok acl
  | c :: rest, i, acl =>
    if !rgxAce.MatchString c then Except.error ("malformed ACL item " ++ fmtInt i)
    else
      let toks := strings.Split c ':'
      parseAclLoop rest (i + 1) (acl ++ [⟨toks.getD 1 "", toks.getD 2 ""⟩])

/-- Function `parseAcl`. -/
def parseAcl (cfg : List String) : Except String (List Ace) := parseAclLoop cfg 0 []

/-- Loop of `compileExports`; `i` is the index of the next item.  The
managing groups are those of the configured path `c.Path`; the path of the
entry is the configured path without leading and trailing slashes. -/
def compileExportsLoop (fs : Bcpfs) :
    List bcpcfg.SharingExport → Int → List ExportEntry → Except String (List ExportEntry)
  | [], _, exps => Except.ok exps
  | c :: rest, i, exps =>
    match parseAcl c.Acl with
    | Except.error err =>
      Except.error ("failed to parse ACL of item " ++ fmtInt i ++ ": " ++ err)
    | Except.ok acl =>
      match fs.ManagingGroupsOfPath c.Path with
      | Except.error err =>
        Except.error ("failed to get group for path of item " ++ fmtInt i ++ ": " ++ err)
      | Except.ok mgroups =>
        compileExportsLoop fs rest (i + 1)
          (exps ++ [{ Path := strings.Trim c.Path '/', Acl := acl, ManagingGroups := mgroups }])

/-- Function `compileExports`. -/
def compileExports (fs : Bcpfs) (cfg : List bcpcfg.SharingExport) :
    Except String (List ExportEntry) :=
  compileExportsLoop fs cfg 0 []

/-- Method `Acl.AsFacl`: maps logical group names to filesystem group
names. -/
def Acl.AsFacl (acl : List Ace) (fs : Bcpfs) : List FaclAce :=
  acl.map (fun ace => ⟨"group:" ++ fs.FsGroupOrgUnit ace.Group, ace.Mode⟩)

end bcpsharing

namespace Examples

/-- An export of scenario S5 whose configured path begins with a slash. -/
def exportLeadingSlash : bcpcfg.SharingExport := ⟨"/alice/mic1/foo", ["group:bob:r-x"]⟩

/-- The named group entries of a directory that `bcpfs-perms` manages for the
org unit `alice` and the ops group of the facility `em`, with a sharing entry
for `bob`. -/
def faclAliceMic1 : List bcpsharing.FaclAce :=
  [⟨"group:og_alice", "rwx"⟩, ⟨"group:sv_em-ops", "rwx"⟩, ⟨"group:og_bob", "r-x"⟩]

end Examples

namespace regexp

/-- The strings of the language of a regular expression (specification
side). -/
inductive Rgx.Matches : Rgx → List Char → Prop where
  | eps : Rgx.Matches Rgx.eps []
  | cls (p : Char → Bool) (c : Char) (h : p c = true) : Rgx.Matches (Rgx.cls p) [c]
  | seq (a b : Rgx) (s t : List Char) (ha : Rgx.Matches a s) (hb : Rgx.Matches b t) :
    Rgx.Matches (Rgx.seq a b) (s ++ t)
  | altL (a b : Rgx) (s : List Char) (ha : Rgx.Matches a s) : Rgx.Matches (Rgx.alt a b) s
  | altR (a b : Rgx) (s : List Char) (hb : Rgx.Matches b s) : Rgx.Matches (Rgx.alt a b) s
  | starNil (a : Rgx) : Rgx.Matches (Rgx.star a) []
  | starCons (a : Rgx) (s t : List Char) (ha : Rgx.Matches a s)
    (ht : Rgx.Matches (Rgx.star a) t) : Rgx.Matches (Rgx.star a) (s ++ t)

end regexp

namespace bcpsharing

/-- Method `FaclAce.String`. -/
def FaclAce.String (ace : FaclAce) : String := ace.Tag ++ ":" ++ ace.Mode

end bcpsharing

namespace filepath

/-- Go `filepath.Dir` (Unix): the path up to its last separator, cleaned. -/
def Dir (path : String) : String :=
  Clean (String.mk (path.data.reverse.dropWhile (fun c => decide (c ≠ '/'))).reverse)

/-- The path that a relative symlink target names (specification side): the
target joined to the directory that contains the link; the directories on the
way are taken to be directories, not symlinks. -/
def resolveLink (link target : String) : String := Join [Dir link, target]

end filepath

/-! ## Package `bufio` (Go standard library): `Scanner` with `ScanLines`

The scanner is external to the repository.  It is modelled on a text of
valid UTF-8: the tokens are the pieces between newlines, each without one
trailing carriage return; a final empty piece is no token; and a piece that
does not fit into the buffer of `MaxScanTokenSize` bytes ends the scan with
the error `ErrTooLong`, which `Scan` reports by returning false. -/

namespace bufio

/-- Constant `MaxScanTokenSize`. -/
def MaxScanTokenSize : Nat := 64 * 1024

/-- The number of bytes of the UTF-8 encoding. -/
def utf8Len (l : List Char) : Nat := (l.map Char.utf8Size).sum

/-- Function `dropCR`: drops a terminal carriage return. -/
def dropCR (l : List Char) : List Char :=
  if l.getLast? = some '\r' then l.dropLast else l

/-- The pieces that `ScanLines` cuts the text into. -/
def linePieces (text : List Char) : List (List Char) :=
  if (splitOnChar '\n' text).getLast? = some [] then (splitOnChar '\n' text).dropLast
  else splitOnChar '\n' text

/-- The piece fits into the buffer together with what shows its end. -/
def fits (piece : List Char) : Bool := decide (utf8Len piece < MaxScanTokenSize)

/-- The tokens `scanner.Text()` of the calls of `scanner.Scan()` that return
true. -/
def scanLines (text : String) : List String :=
  ((linePieces text.data).takeWhile fits).map (fun p => String.mk (dropCR p))

/-- Method `(*Scanner).Err` after the last call of `Scan`. -/
def scanErr (text : String) : Option String :=
  if (linePieces text.data).all fits then none else some "bufio.Scanner: token too long"

end bufio

namespace strings

/-- Loop of `strings.Fields`: `cur` holds the characters of the current
field, last one first. -/
def fieldsLoop : List Char → List Char → List String
  | [], cur => if cur = [] then [] else [String.mk cur.reverse]
  | c :: cs, cur =>
    if isSpace c then
      if cur = [] then fieldsLoop cs [] else String.mk cur.reverse :: fieldsLoop cs []
    else fieldsLoop cs (c :: cur)

/-- Go `strings.Fields`: the pieces of `s` between runs of white space. -/
def Fields (s : String) : List String := fieldsLoop s.data []

end strings

/-! ## Package `quota` of `bcpctl` -/

namespace quota

structure Quota where
  Xid : String
  BlockSoftLimit : Nat
  BlockHardLimit : Nat
  InodeSoftLimit : Nat
  InodeHardLimit : Nat
  deriving DecidableEq, Repr

/-- The errors of `Parse`, as the arguments of `fmt.Errorf`:
`line %d: wrong number of fields` and `line %d: invalid field %d: %v`. -/
inductive ParseError where
  | wrongNumberOfFields (num : Int)
  | invalidField (num : Int) (field : Int) (err : strconv.NumError)
  deriving DecidableEq, Repr

/-- Inner loop of `Parse`, `for i := 1; i < len(itoks); i++`, over the values
of `i`; the result holds `itoks[1]` to `itoks[4]`. -/
def parseLimits (num : Int) (toks : List String) :
    List Nat → List Nat → Except ParseError (List Nat)
  | [], itoks => Except.ok itoks
  | i :: rest, itoks =>
    match strconv.ParseUint (toks.getD i "") with
    | Except.error err => Except.error (ParseError.invalidField num (i + 1) err)
    | Except.ok v => parseLimits num toks rest (itoks ++ [v])

/-- Loop of `Parse` over the scanned lines; `num` counts them. -/
def parseLoop : List String → Int → List Quota → Except ParseError (List Quota)
  | [], _, qs => Except.ok qs
  | line :: rest, num, qs =>
    if line = "" then parseLoop rest (num + 1) qs
    else if HasPrefix line "#" then parseLoop rest (num + 1) qs
    else
      let toks := strings.Fields line
      if toks.length ≠ 5 then Except.error (ParseError.wrongNumberOfFields (num + 1))
      else
        match parseLimits (num + 1) toks [1, 2, 3, 4] [] with
        | Except.error err => Except.error err
        | Except.ok itoks =>
          parseLoop rest (num + 1)
            (qs ++ [{ Xid := toks.getD 0 ""
                      BlockSoftLimit := itoks.getD 0 0
                      BlockHardLimit := itoks.getD 1 0
                      InodeSoftLimit := itoks.getD 2 0
                      InodeHardLimit := itoks.getD 3 0 }])

/-- Function `Parse` on a reader that delivers `text` without a read error.
It returns the quotas when `scanner.Scan()` returns false and does not read
`scanner.Err()`. -/
def Parse (text : String) : Except ParseError (List Quota) :=
  parseLoop (bufio.scanLines text) 0 []

end quota

namespace Examples

/-- A line of 65536 characters `x`. -/
def longLine : List Char := List.replicate 65536 'x'

end Examples

/-! ## Package `fsck`: comparing the ACL of the filesystem -/

namespace strings

/-- Go `strings.Contains` on character lists: `sub` is a prefix of the text at
some position. -/
def containsData (sub : List Char) : List Char → Bool
  | [] => sub.isEmpty
  | c :: cs => sub.isPrefixOf (c :: cs) || containsData sub cs

/-- Go `strings.Contains`. -/
def Contains (s substr : String) : Bool := containsData substr.data s.data

end strings

namespace fsck

/-- Function `isNamedGroupEntry`. -/
def isNamedGroupEntry (l : String) : Bool :=
  if strings.Contains l "# " then false
  else if strings.Contains l "group::" then false
  else strings.Contains l "group:"

/-- Loop of `isOtherNamedGroupEntry` over the gids. -/
def isOtherNamedGroupEntryLoop (l : String) : List Int → Bool
  | [] => true
  | gid :: rest =>
    if strings.Contains l ("group:" ++ fmtInt gid ++ ":") then false
    else isOtherNamedGroupEntryLoop l rest

/-- Function `isOtherNamedGroupEntry`. -/
def isOtherNamedGroupEntry (l : String) (gids : List Int) : Bool :=
  if !isNamedGroupEntry l then false
  else isOtherNamedGroupEntryLoop l gids

/-- Function `rejectOtherNamedGroupEntries`. -/
def rejectOtherNamedGroupEntries (facl : String) (gids : List Int) : String :=
  Join ((strings.Split facl '\n').filter (fun line => !isOtherNamedGroupEntry line gids)) "\n"

/-- The text `expected` of `CheckACLs`: `Sprintf("# file: %s\n%s", path, facl)`. -/
def expectedFacl (path faclString : String) : String :=
  "# file: " ++ path ++ "\n" ++ faclString

/-! ### The lines of a getfacl text in numeric format (specification side) -/

/-- The tag of an ACL entry. -/
inductive FaclTag where
  | user
  | group
  | mask
  | other
  deriving DecidableEq, Repr

/-- The tag as getfacl prints it. -/
def FaclTag.text : FaclTag → String
  | FaclTag.user => "user"
  | FaclTag.group => "group"
  | FaclTag.mask => "mask"
  | FaclTag.other => "other"

/-- A line of a getfacl text in numeric format: a header line `# ...`, an
empty line, or an entry `[default:]<tag>:[<id>]:<perms>` with a numeric id or,
for the anonymous entry, none. -/
inductive FaclLine where
  | header (text : String)
  | blank
  | entry (dflt : Bool) (tag : FaclTag) (qualifier : Option Nat) (perms : String)
  deriving DecidableEq, Repr

/-- The id field of an entry: empty for the anonymous entry, else the number
in decimal form. -/
def qualifierText : Option Nat → String
  | none => ""
  | some n => fmtInt (Int.ofNat n)

/-- The prefix of an entry of the default ACL. -/
def defaultText (dflt : Bool) : String := if dflt then "default:" else ""

/-- The line as getfacl prints it. -/
def FaclLine.render : FaclLine → String
  | FaclLine.header text => "# " ++ text
  | FaclLine.blank => ""
  | FaclLine.entry dflt tag qualifier perms =>
    defaultText dflt ++ tag.text ++ ":" ++ qualifierText qualifier ++ ":" ++ perms

/-- A character of a permission field. -/
def isPermChar (c : Char) : Bool := c = 'r' || c = 'w' || c = 'x' || c = '-'

/-- The line is one line, and its permission field consists of `r`, `w`, `x`
and `-`. -/
def FaclLine.WellFormed : FaclLine → Bool
  | FaclLine.header text => noNewline text
  | FaclLine.blank => true
  | FaclLine.entry _ _ _ perms => perms.data.all isPermChar

/-- The line is a named group entry, normal or default, whose gid is not in
the list. -/
def FaclLine.isOtherNamedGroup (gids : List Int) : FaclLine → Bool
  | FaclLine.entry _ FaclTag.group (some n) _ => !gids.contains (Int.ofNat n)
  | _ => false

/-- The text of the lines. -/
def renderFacl (ls : List FaclLine) : String := Join (ls.map FaclLine.render) "\n"

end fsck

/-! ## Package `bcpsharing`: `Compile` -/

namespace bcpsharing

/-- Struct `Sharing`: the logical sharing specification that `Compile`
returns. -/
structure Sharing where
  Bcpfs : Bcpfs
  Shares : List ExportEntry
  RealShares : List ExportEntry
  Traversal : List ExportEntry
  ShareTrees : List ShareTree

/-- Function `Compile`; `sharing` is the section `cfg.Sharing` of the
configuration, which `main` checks to be present before it calls `Compile`. -/
def Compile (E : bcpfilter.RegexpEngine) (cfg : bcpcfg.Root) (sharing : bcpcfg.Sharing) :
    Result Sharing :=
  let fs := NewBcpfs cfg
  match compileImports E sharing.Imports with
  | Except.error err => Result.error err
  | Except.ok imps =>
    match compileExports fs sharing.Exports with
    | Except.error err => Result.error err
    | Except.ok exps =>
      match compileNamingPolicy E sharing.NamingPolicies with
      | Except.error err => Result.error err
      | Except.ok pol =>
        match checkExportPaths E exps pol with
        | Result.panic msg => Result.panic msg
        | Result.error msg => Result.error msg
        | Result.ok _ =>
          match checkExportAclScopes fs exps with
          | some err => Result.error err
          | none =>
            match checkNoNesting exps with
            | some err => Result.error err
            | none =>
              match checkNoRealpathNesting fs exps with
              | some err => Result.error err
              | none =>
                match selectImportedExports exps imps with
                | Result.panic msg => Result.panic msg
                | Result.error msg => Result.error msg
                | Result.ok shares =>
                  match compileRealShares fs shares with
                  | Result.panic msg => Result.panic msg
                  | Result.error msg => Result.error msg
                  | Result.ok realShares =>
                    match compileTraversal fs shares realShares with
                    | Result.panic msg => Result.panic msg
                    | Result.error msg => Result.error msg
                    | Result.ok traversal =>
                      Result.ok
                        { Bcpfs := fs
                          Shares := shares
                          RealShares := realShares
                          Traversal := traversal
                          ShareTrees := compileShareTrees fs shares }

end bcpsharing

namespace Examples

/-- A sharing section that exports the whole directory of the org unit
`alice` to `bob`: the export path has one component. -/
def sharingWholeOrgUnit : bcpcfg.Sharing :=
  { NamingPolicies := [⟨"allow", "alice"⟩]
    Exports := [⟨"alice", ["group:bob:r-x"]⟩]
    Imports := [⟨"accept", "bob", "alice"⟩] }

/-- The sharing section of scenario S5. -/
def sharingS5 : bcpcfg.Sharing :=
  { NamingPolicies :=
      [⟨"allow", "em-facility/mic1/alice/foo"⟩, ⟨"allow", "alice/mic1/foo"⟩]
    Exports :=
      [ ⟨"em-facility/mic1/alice/foo", ["group:bob:r--"]⟩,
        ⟨"alice/mic1/foo", ["group:bob:-wx"]⟩ ]
    Imports :=
      [⟨"accept", "bob", "em-facility/mic1/alice/foo"⟩, ⟨"accept", "bob", "alice/mic1/foo"⟩] }

end Examples

/-! ## Package `bcpcfg`: the checks of the parser -/

namespace bcpcfg

/-- Function `isValidDirPolicy`. -/
def isValidDirPolicy (p : String) : Bool :=
  decide (p = "owner") || decide (p = "group") || decide (p = "manager")

/-- Loop of `validateSubdirs`; `i` is the index of the next item. -/
def validateSubdirsLoop : List DirWithPolicy → Int → Option String
  | [], _ => none
  | d :: rest, i =>
    if !isValidDirPolicy d.Policy then some ("invalid policy in item " ++ fmtInt i)
    else validateSubdirsLoop rest (i + 1)

/-- Function `validateSubdirs`, which `parseOrgUnitConfigs` calls on the
subdirs of every org unit; `none` is the nil error. -/
def validateSubdirs (dirs : List DirWithPolicy) : Option String :=
  validateSubdirsLoop dirs 0

/-- Function `isValidNamingPolicyAction`, which `parseSharingNamingPolicies`
calls on the action of every naming policy. -/
def isValidNamingPolicyAction (a : String) : Bool :=
  decide (a = "allow") || decide (a = "deny")

end bcpcfg

namespace filepath

/-- A stack of `Clean` (specification side): its elements are not empty, hold
no separator and are not `.`, and cleaning its elements again, first one
first, gives the same stack. -/
def goodStack (rooted : Bool) (stack : List (List Char)) : Prop :=
  (∀ y ∈ stack, y ≠ [] ∧ '/' ∉ y ∧ y ≠ ['.']) ∧
    stack.reverse.foldl (cleanStep rooted) [] = stack

/-- The separator that begins a rooted path (specification side). -/
def leadOf (rooted : Bool) : List Char := if rooted then ['/'] else []

end filepath

/-! ## Theorems -/

/-! ### Texts made of lines -/

theorem splitOnChar_ne_nil (sep : Char) (l : List Char) : splitOnChar sep l ≠ [] := by
  cases l with
  | nil => simp [splitOnChar]
  | cons c cs =>
    unfold splitOnChar
    by_cases h : c = sep
    · simp [h]
    · simp only [h, if_false]
      split <;> simp

theorem splitOnChar_of_not_mem (sep : Char) (l : List Char) (h : sep ∉ l) :
    splitOnChar sep l = [l] := by
  induction l with
  | nil => rfl
  | cons c cs ih =>
    have hc : ¬ c = sep := fun e => h (by rw [e]; exact List.mem_cons_self _ _)
    have hcs : sep ∉ cs := fun e => h (List.mem_cons_of_mem _ e)
    simp [splitOnChar, hc, ih hcs]

theorem splitOnChar_append_sep (sep : Char) (a b : List Char) (h : sep ∉ a) :
    splitOnChar sep (a ++ sep :: b) = a :: splitOnChar sep b := by
  induction a with
  | nil => simp [splitOnChar]
  | cons c cs ih =>
    have hc : ¬ c = sep := fun e => h (by rw [e]; exact List.mem_cons_self _ _)
    have hcs : sep ∉ cs := fun e => h (List.mem_cons_of_mem _ e)
    simp [splitOnChar, hc, ih hcs]

theorem splitOnChar_append (sep : Char) (a b : List Char) :
    splitOnChar sep (a ++ sep :: b) = splitOnChar sep a ++ splitOnChar sep b := by
  induction a with
  | nil => simp [splitOnChar]
  | cons c cs ih =>
    by_cases h : c = sep
    · simp [splitOnChar, h, ih]
    · cases hs : splitOnChar sep cs with
      | nil => exact absurd hs (splitOnChar_ne_nil sep cs)
      | cons w ws => simp [splitOnChar, h, ih, hs]

theorem splitOnChar_joinData (sep : Char) (ls : List (List Char)) (hne : ls ≠ [])
    (h : ∀ l ∈ ls, sep ∉ l) :
    splitOnChar sep (joinData [sep] ls) = ls := by
  induction ls with
  | nil => exact absurd rfl hne
  | cons a rest ih =>
    cases rest with
    | nil =>
      simp only [joinData]
      exact splitOnChar_of_not_mem sep a (h a (List.mem_cons_self _ _))
    | cons b rest' =>
      simp only [joinData, List.append_assoc, List.singleton_append]
      rw [splitOnChar_append_sep sep a _ (h a (List.mem_cons_self _ _))]
      rw [ih (by simp) (fun l hl => h l (List.mem_cons_of_mem _ hl))]

theorem intercalate_go_data (acc sep : String) (ls : List String) :
    (String.intercalate.go acc sep ls).data =
      acc.data ++ (ls.map (fun l => sep.data ++ l.data)).flatten := by
  induction ls generalizing acc with
  | nil => simp [String.intercalate.go]
  | cons a rest ih =>
    simp [String.intercalate.go, ih, String.data_append]

theorem joinData_cons (sep a : List Char) (rest : List (List Char)) :
    joinData sep (a :: rest) = a ++ (rest.map (fun l => sep ++ l)).flatten := by
  induction rest generalizing a with
  | nil => simp [joinData]
  | cons b rest' ih =>
    simp [joinData, ih b]

theorem Join_data (lines : List String) (sep : String) :
    (Join lines sep).data = joinData sep.data (lines.map String.data) := by
  unfold Join
  cases lines with
  | nil => rfl
  | cons a rest =>
    simp only [String.intercalate, List.map_cons, joinData_cons, intercalate_go_data]
    simp [List.map_map, Function.comp_def]

theorem joinData_head? (sep : List Char) (ls : List (List Char)) (l : List Char)
    (c : Char) (h : ls.head? = some l) (hc : l.head? = some c) :
    (joinData sep ls).head? = some c := by
  cases ls with
  | nil => simp at h
  | cons a rest =>
    simp only [List.head?_cons, Option.some.injEq] at h
    subst h
    rw [joinData_cons]
    cases a with
    | nil => simp at hc
    | cons x xs => simpa using hc

theorem joinData_getLast? (sep : List Char) (ls : List (List Char)) (l : List Char)
    (d : Char) (h : ls.getLast? = some l) (hd : l.getLast? = some d) :
    (joinData sep ls).getLast? = some d := by
  induction ls with
  | nil => simp at h
  | cons a rest ih =>
    cases rest with
    | nil =>
      simp only [List.getLast?_singleton, Option.some.injEq] at h
      subst h
      simpa [joinData] using hd
    | cons b rest' =>
      rw [List.getLast?_cons_cons] at h
      have := ih h
      simp only [joinData, List.append_assoc]
      rw [List.getLast?_append, List.getLast?_append, this]
      simp

theorem TrimSpace_wrapped (body : List Char) (c d : Char)
    (hc : body.head? = some c) (hcs : isSpace c = false)
    (hd : body.getLast? = some d) (hds : isSpace d = false) :
    TrimSpace (String.mk ('\n' :: (body ++ ['\n']))) = String.mk body := by
  have hnl : isSpace '\n' = true := by decide
  cases body with
  | nil => simp at hc
  | cons x xs =>
    simp only [List.head?_cons, Option.some.injEq] at hc
    subst hc
    unfold TrimSpace
    congr 1
    simp only [List.cons_append, List.dropWhile_cons, hnl, if_true, hcs,
      Bool.false_eq_true, if_false]
    have hrev : (x :: (xs ++ ['\n'])).reverse = '\n' :: (x :: xs).reverse := by simp
    rw [hrev]
    have hlast : ((x :: xs).reverse).head? = some d := by
      rw [List.head?_reverse]; exact hd
    cases hr : (x :: xs).reverse with
    | nil => simp at hr
    | cons y ys =>
      rw [hr] at hlast
      simp only [List.head?_cons, Option.some.injEq] at hlast
      subst hlast
      simp only [List.dropWhile_cons, hnl, if_true, hds, Bool.false_eq_true, if_false]
      rw [← hr, List.reverse_reverse]

theorem aclLines_template (lines : List String) (first last : String) (c d : Char)
    (hfirst : lines.head? = some first) (hlast : lines.getLast? = some last)
    (hc : first.data.head? = some c) (hcs : isSpace c = false)
    (hd : last.data.getLast? = some d) (hds : isSpace d = false)
    (hn : lines.all fsck.noNewline = true) :
    TrimSpace (templateText lines) = Join lines "\n" ∧
    fsck.aclLines (TrimSpace (templateText lines)) = lines := by
  have hbody : templateText lines =
      String.mk ('\n' :: ((Join lines "\n").data ++ ['\n'])) := by
    apply String.ext
    simp only [templateText, String.data_append]
    rfl
  have hjoin := Join_data lines "\n"
  have hsep : ("\n" : String).data = ['\n'] := rfl
  rw [hsep] at hjoin
  have hhead : (Join lines "\n").data.head? = some c := by
    rw [hjoin]
    exact joinData_head? _ _ first.data c (by simp [List.head?_map, hfirst]) hc
  have hlast' : (Join lines "\n").data.getLast? = some d := by
    rw [hjoin]
    exact joinData_getLast? _ _ last.data d (by simp [List.getLast?_map, hlast]) hd
  have htrim : TrimSpace (templateText lines) = Join lines "\n" := by
    rw [hbody, TrimSpace_wrapped _ c d hhead hcs hlast' hds]
  refine ⟨htrim, ?_⟩
  rw [htrim]
  unfold fsck.aclLines
  rw [hjoin, splitOnChar_joinData]
  · simp [List.map_map, Function.comp_def]
  · intro hnil
    rw [List.map_eq_nil_iff] at hnil
    rw [hnil] at hfirst
    simp at hfirst
  · intro l hl
    rw [List.mem_map] at hl
    obtain ⟨line, hline, rfl⟩ := hl
    have := List.all_eq_true.mp hn line hline
    simpa [fsck.noNewline] using this

/-! ### Clean paths -/

namespace filepath

theorem isElem_iff (s : String) :
    isElem s = true ↔
      s.data ≠ [] ∧ '/' ∉ s.data ∧ s.data ≠ ['.'] ∧ s.data ≠ ['.', '.'] := by
  simp [isElem, and_assoc]

theorem cleanStep_elem (rooted : Bool) (stack : List (List Char)) (e : String)
    (h : isElem e = true) : cleanStep rooted stack e.data = e.data :: stack := by
  obtain ⟨h1, -, h2, h3⟩ := (isElem_iff e).mp h
  simp [cleanStep, h1, h2, h3]

theorem foldl_cleanStep_elems (rooted : Bool) (elems : List String)
    (h : ∀ e ∈ elems, isElem e = true) (stack : List (List Char)) :
    (elems.map String.data).foldl (cleanStep rooted) stack =
      (elems.map String.data).reverse ++ stack := by
  induction elems generalizing stack with
  | nil => simp
  | cons e rest ih =>
    simp only [List.map_cons, List.foldl_cons, List.reverse_cons, List.append_assoc,
      List.singleton_append]
    rw [cleanStep_elem rooted stack e (h e (List.mem_cons_self _ _))]
    exact ih (fun e' he' => h e' (List.mem_cons_of_mem _ he')) _

theorem splitSlash_elems (elems : List String) (hne : elems ≠ [])
    (h : ∀ e ∈ elems, isElem e = true) :
    splitSlash (joinData ['/'] (elems.map String.data)) = elems.map String.data := by
  unfold splitSlash
  apply splitOnChar_joinData
  · intro hnil
    exact hne (List.map_eq_nil_iff.mp hnil)
  · intro l hl
    rw [List.mem_map] at hl
    obtain ⟨e, he, rfl⟩ := hl
    exact ((isElem_iff e).mp (h e he)).2.1

/-- An absolute path of clean elements is its own cleaned form. -/
theorem Clean_absPath (elems : List String) (hne : elems ≠ [])
    (h : ∀ e ∈ elems, isElem e = true) : Clean (absPath elems) = absPath elems := by
  unfold Clean
  have hdata : (absPath elems).data = '/' :: joinData ['/'] (elems.map String.data) := rfl
  have hsplit : splitSlash (absPath elems).data = [] :: elems.map String.data := by
    rw [hdata]
    unfold splitSlash
    have : splitOnChar '/' ('/' :: joinData ['/'] (elems.map String.data)) =
        [] :: splitOnChar '/' (joinData ['/'] (elems.map String.data)) := by
      simp [splitOnChar]
    rw [this]
    congr 1
    exact splitSlash_elems elems hne h
  have hfold : (splitSlash (absPath elems).data).foldl (cleanStep true) [] =
      (elems.map String.data).reverse := by
    rw [hsplit, List.foldl_cons]
    have h0 : cleanStep true [] [] = [] := by simp [cleanStep]
    rw [h0, foldl_cleanStep_elems true elems h]
    simp
  have hne' : (absPath elems).data ≠ [] := by rw [hdata]; simp
  have hhead : (absPath elems).data.head? = some '/' := by rw [hdata]; rfl
  simp only [hfold, hne', hhead, if_false, decide_True, if_true, List.reverse_reverse]
  apply String.ext
  rw [String.data_append, hdata]
  rfl

/-- A relative path `../../e1/.../en` of clean elements is its own cleaned
form. -/
theorem Clean_upup (elems : List String) (h : ∀ e ∈ elems, isElem e = true)
    (p : String)
    (hp : p.data = joinData ['/'] (['.', '.'] :: ['.', '.'] :: elems.map String.data)) :
    Clean p = p := by
  have hsplit : splitSlash p.data = ['.', '.'] :: ['.', '.'] :: elems.map String.data := by
    rw [hp]
    unfold splitSlash
    apply splitOnChar_joinData
    · simp
    · intro l hl
      simp only [List.mem_cons, List.mem_map] at hl
      rcases hl with rfl | rfl | ⟨e, he, rfl⟩
      · decide
      · decide
      · exact ((isElem_iff e).mp (h e he)).2.1
  have hfold : (splitSlash p.data).foldl (cleanStep false) [] =
      (elems.map String.data).reverse ++ [['.', '.'], ['.', '.']] := by
    rw [hsplit, List.foldl_cons, List.foldl_cons]
    have h0 : cleanStep false (cleanStep false [] ['.', '.']) ['.', '.'] =
        [['.', '.'], ['.', '.']] := by decide
    rw [h0, foldl_cleanStep_elems false elems h]
  have hne : p.data ≠ [] := by
    rw [hp, joinData_cons]
    simp
  have hhead : p.data.head? ≠ some '/' := by
    rw [hp, joinData_cons]
    simp
  unfold Clean
  simp only [hfold, hne, if_false, hhead, decide_False, Bool.false_eq_true]
  have hstack : (elems.map String.data).reverse ++ [['.', '.'], ['.', '.']] ≠ [] := by
    simp
  simp only [hstack, if_false]
  apply String.ext
  simp only [List.reverse_append, List.reverse_reverse, hp]
  rfl

theorem Join_cons_ne (e : String) (rest : List String) (h : e ≠ "") :
    Join (e :: rest) = Clean (Bcpfs.Join (e :: rest) "/") := by
  unfold Join
  simp only [List.dropWhile_cons, h, decide_False, Bool.false_eq_true, if_false]
  rfl

theorem absPath_ne_empty (elems : List String) : absPath elems ≠ "" := by
  intro h
  have := congrArg String.data h
  simp [absPath] at this

theorem absPath_append (elems : List String) (hne : elems ≠ []) (rest : List String) :
    (Bcpfs.Join (absPath elems :: rest) "/") = absPath (elems ++ rest) := by
  apply String.ext
  rw [Join_data]
  cases elems with
  | nil => exact absurd rfl hne
  | cons e es =>
    simp [absPath, joinData_cons, List.map_append]

/-- Joining clean elements to an absolute path of clean elements appends
them. -/
theorem Join_absPath (elems : List String) (hne : elems ≠ [])
    (h : ∀ e ∈ elems, isElem e = true) (rest : List String)
    (hrest : ∀ e ∈ rest, isElem e = true) :
    Join (absPath elems :: rest) = absPath (elems ++ rest) := by
  rw [Join_cons_ne _ _ (absPath_ne_empty elems), absPath_append elems hne rest]
  apply Clean_absPath
  · simp [hne]
  · intro e he
    rcases List.mem_append.mp he with h1 | h1
    · exact h e h1
    · exact hrest e h1

theorem absPath_snoc2 (elems : List String) (hne : elems ≠ []) (a b : String) :
    absPath (elems ++ [a, b]) = absPath elems ++ "/" ++ a ++ "/" ++ b := by
  apply String.ext
  cases elems with
  | nil => exact absurd rfl hne
  | cons e es =>
    simp [absPath, joinData_cons, List.map_append, String.data_append]

/-- Path of two clean elements below an absolute path of clean elements. -/
theorem Join_root2 (root : String) (elems : List String) (hne : elems ≠ [])
    (h : ∀ e ∈ elems, isElem e = true) (hroot : root = absPath elems)
    (a b : String) (ha : isElem a = true) (hb : isElem b = true) :
    Join [root, a, b] = root ++ "/" ++ a ++ "/" ++ b := by
  subst hroot
  rw [Join_absPath elems hne h [a, b], absPath_snoc2 elems hne]
  intro e he
  simp only [List.mem_cons, List.mem_singleton, List.not_mem_nil, or_false] at he
  rcases he with rfl | rfl
  · exact ha
  · exact hb

/-- Target of a service symlink of a facility: two levels up, then the
service directory and the service. -/
theorem Join_upup2 (a b : String) (ha : isElem a = true) (hb : isElem b = true) :
    Join ["../..", a, b] = "../../" ++ a ++ "/" ++ b := by
  rw [Join_cons_ne _ _ (by decide)]
  have hdata : (Bcpfs.Join ["../..", a, b] "/").data =
      joinData ['/'] (['.', '.'] :: ['.', '.'] :: [a, b].map String.data) := by
    rw [Join_data]
    simp [joinData]
  rw [Clean_upup [a, b] (by
    intro e he
    simp only [List.mem_cons, List.mem_singleton, List.not_mem_nil, or_false] at he
    rcases he with rfl | rfl
    · exact ha
    · exact hb) _ hdata]
  apply String.ext
  rw [hdata]
  simp [joinData, String.data_append]

/-- Target of a service symlink of an ordinary org unit. -/
theorem Join_upup3 (a b c : String) (ha : isElem a = true) (hb : isElem b = true)
    (hc : isElem c = true) :
    Join ["../../" ++ a ++ "/" ++ b, c] = "../../" ++ a ++ "/" ++ b ++ "/" ++ c := by
  have hne : "../../" ++ a ++ "/" ++ b ≠ "" := by
    intro h
    have := congrArg String.data h
    simp [String.data_append] at this
  rw [Join_cons_ne _ _ hne]
  have hdata : (Bcpfs.Join ["../../" ++ a ++ "/" ++ b, c] "/").data =
      joinData ['/'] (['.', '.'] :: ['.', '.'] :: [a, b, c].map String.data) := by
    rw [Join_data]
    simp [joinData, String.data_append]
  rw [Clean_upup [a, b, c] (by
    intro e he
    simp only [List.mem_cons, List.mem_singleton, List.not_mem_nil, or_false] at he
    rcases he with rfl | rfl | rfl
    · exact ha
    · exact hb
    · exact hc) _ hdata]
  apply String.ext
  rw [hdata]
  simp [joinData, String.data_append]

end filepath

namespace bcpfilter

theorem acceptLoop_eq_acceptOnce (s : bcp.Service) (ou : bcp.OrgUnit)
    (rules : List Decider) :
    DecidersFilter.acceptLoop s ou rules = acceptOnce s ou rules := by
  induction rules with
  | nil => rfl
  | cons r rest ih =>
    rcases h : r.Decide s ou with ⟨a, reason⟩
    cases a <;> simp [DecidersFilter.acceptLoop, acceptOnce, h, ih]

theorem acceptOnce_eq_acceptReference (s : bcp.Service) (ou : bcp.OrgUnit)
    (rules : List Decider) :
    acceptOnce s ou rules = acceptReference rules s ou := by
  induction rules with
  | nil => rfl
  | cons r rest ih =>
    rcases h : r.Decide s ou with ⟨a, reason⟩
    cases a
    · simp [acceptOnce, acceptReference, List.find?, h]
    · simp [acceptOnce, acceptReference, List.find?, h]
    · have hr : acceptReference (r :: rest) s ou = acceptReference rest s ou := by
        simp [acceptReference, List.find?, h]
      rw [hr, ← ih]
      simp [acceptOnce, h]

end bcpfilter

open bcpfilter in
/-- C1: `DecidersFilter.Accept`, which evaluates each decider twice per
iteration, equals both the single-evaluation loop and the reference "first
decision that is not `PASS` wins, otherwise reject with `no rule accepted`". -/
theorem DecidersFilter_Accept_eq_reference (f : DecidersFilter)
    (s : bcp.Service) (ou : bcp.OrgUnit) :
    f.Accept s ou = acceptReference f.Rules s ou ∧
    f.Accept s ou = acceptOnce s ou f.Rules := by
  unfold DecidersFilter.Accept
  rw [acceptLoop_eq_acceptOnce, acceptOnce_eq_acceptReference]
  exact ⟨rfl, rfl⟩

namespace bcpfilter

theorem anchoredPattern_formula (p : String) :
    anchoredPattern p =
      (if p.data.head? = some '^' then "" else "^") ++ p ++
        (if p.data.getLast? = some '$' then "" else "$") := by
  apply String.ext
  rcases p with ⟨l⟩
  cases l with
  | nil => simp [anchoredPattern]
  | cons c cs =>
    by_cases h1 : c = '^' <;> by_cases h2 : (c :: cs).getLast? = some '$' <;>
      simp [anchoredPattern, h1, h2, List.getLast?_cons_cons] <;>
      simp_all [List.getLast?_cons_cons]

theorem anchoredPattern_head (p : String) :
    (anchoredPattern p).data.head? = some '^' := by
  rw [anchoredPattern_formula]
  rcases p with ⟨l⟩
  cases l with
  | nil => simp
  | cons c cs => by_cases h1 : c = '^' <;> simp [h1]

theorem anchoredPattern_getLast (p : String) :
    (anchoredPattern p).data.getLast? = some '$' := by
  rw [anchoredPattern_formula]
  by_cases h2 : p.data.getLast? = some '$'
  · rcases p with ⟨l⟩
    cases l with
    | nil => simp at h2
    | cons c cs =>
      by_cases h1 : c = '^' <;> simp_all
  · simp [h2, List.getLast?_append]

theorem NewRegexpDecider_ok_inv (E : RegexpEngine) (r : bcpcfg.FilterRule)
    (d : RegexpDecider E) (h : NewRegexpDecider E r = Result.ok d) :
    ActionFromString r.Action = Result.ok d.action ∧
    d.servicePattern = strings2Pattern r.Services ∧
    d.orgUnitPattern = strings2Pattern r.OrgUnits ∧
    E.Compile (strings2Pattern r.Services) = Except.ok d.serviceRgx ∧
    E.Compile (strings2Pattern r.OrgUnits) = Except.ok d.orgUnitRgx := by
  unfold NewRegexpDecider at h
  cases ha : ActionFromString r.Action with
  | panic msg => simp [ha] at h
  | error msg => simp [ha] at h
  | ok a =>
    simp only [ha] at h
    cases hs : E.Compile (strings2Pattern r.Services) with
    | error e => simp [hs] at h
    | ok rs =>
      simp only [hs] at h
      cases ho : E.Compile (strings2Pattern r.OrgUnits) with
      | error e => simp [ho] at h
      | ok ro =>
        simp only [ho] at h
        injection h with h
        subst h
        exact ⟨rfl, rfl, rfl, rfl, rfl⟩

end bcpfilter

open bcpfilter in
/-- C6 (evaluation of the code): for the service `mic1` of facility `em` and the
facility org unit `emx-facility` (facility name `emx`), which does not own
the service, `SameFacilityDecider.Decide` answers `ACCEPT`, because it tests
`strings.HasPrefix(ou.Name, s.Facility)`; for the owning facility
`em-facility` and for a facility whose name does not start with `em` it
answers `ACCEPT` and `REJECT`, and `PASS` for an org unit that is no facility. -/
theorem SameFacilityDecider_Decide_prefix_facility :
    SameFacilityDecider.Decide
        ⟨"mic1", "em", bcp.AccessPolicy.AccessPerService, default, default, default⟩
        ⟨"emx-facility", [], [], true, "emx", default⟩ =
      (Action.ACCEPT, "facilty emx-facility owns service mic1") ∧
    SameFacilityDecider.Decide
        ⟨"mic1", "em", bcp.AccessPolicy.AccessPerService, default, default, default⟩
        ⟨"em-facility", [], [], true, "em", default⟩ =
      (Action.ACCEPT, "facilty em-facility owns service mic1") ∧
    SameFacilityDecider.Decide
        ⟨"mic1", "em", bcp.AccessPolicy.AccessPerService, default, default, default⟩
        ⟨"lm-facility", [], [], true, "lm", default⟩ =
      (Action.REJECT, "facilty lm-facility does not own service mic1") ∧
    SameFacilityDecider.Decide
        ⟨"mic1", "em", bcp.AccessPolicy.AccessPerService, default, default, default⟩
        ⟨"alice", [], [], false, "", default⟩ =
      (Action.PASS, "alice is not a facility") := by
  decide

open bcpfilter in
/-- C7: a decider built by `NewRegexpDecider` carries the rule's action and the
two compiled patterns; `Decide` passes when the service name does not match
(tested first) or the org unit name does not match, and otherwise returns the
rule's action.  The pattern of a one-element list is the anchored element,
the pattern of a longer list is the anchored group `(e1|...|en)`; anchoring
prepends `^` unless present and appends `$` unless present, so each pattern
starts with `^`, ends with `$`, and anchoring an anchored pattern changes
nothing.  A rule with action `accept` or `reject` whose patterns compile
does yield a decider. -/
theorem RegexpDecider_Decide_spec (E : RegexpEngine) (r : bcpcfg.FilterRule)
    (d : RegexpDecider E) (h : NewRegexpDecider E r = Result.ok d) :
    ActionFromString r.Action = Result.ok d.action ∧
    (r.Action = "accept" → d.action = Action.ACCEPT) ∧
    (r.Action = "reject" → d.action = Action.REJECT) ∧
    d.servicePattern = strings2Pattern r.Services ∧
    d.orgUnitPattern = strings2Pattern r.OrgUnits ∧
    E.Compile d.servicePattern = Except.ok d.serviceRgx ∧
    E.Compile d.orgUnitPattern = Except.ok d.orgUnitRgx ∧
    (∀ s ou,
      d.Decide s ou =
        if E.MatchString d.serviceRgx s.Name = false then
          (Action.PASS, "service!~/" ++ d.servicePattern ++ "/")
        else if E.MatchString d.orgUnitRgx ou.Name = false then
          (Action.PASS, "orgUnit!~/" ++ d.orgUnitPattern ++ "/")
        else
          (d.action, "service=~/" ++ d.servicePattern ++ "/ and orgUnit=~/" ++
            d.orgUnitPattern ++ "/")) ∧
    (∀ s ou,
      (d.Decide s ou).1 =
        if E.MatchString d.serviceRgx s.Name = true ∧
            E.MatchString d.orgUnitRgx ou.Name = true
        then d.action else Action.PASS) ∧
    (∀ e, strings2Pattern [e] = anchoredPattern e) ∧
    (∀ e1 e2 rest, strings2Pattern (e1 :: e2 :: rest) =
      anchoredPattern ("(" ++ Join (e1 :: e2 :: rest) "|" ++ ")")) ∧
    (∀ p, anchoredPattern p =
      (if p.data.head? = some '^' then "" else "^") ++ p ++
        (if p.data.getLast? = some '$' then "" else "$")) ∧
    (∀ p, (anchoredPattern p).data.head? = some '^' ∧
      (anchoredPattern p).data.getLast? = some '$' ∧
      anchoredPattern (anchoredPattern p) = anchoredPattern p) ∧
    (∀ r' : bcpcfg.FilterRule, ∀ rs ro,
      (r'.Action = "accept" ∨ r'.Action = "reject") →
      E.Compile (strings2Pattern r'.Services) = Except.ok rs →
      E.Compile (strings2Pattern r'.OrgUnits) = Except.ok ro →
      ∃ d', NewRegexpDecider E r' = Result.ok d') := by
  obtain ⟨ha, hsp, hop, hs, ho⟩ := NewRegexpDecider_ok_inv E r d h
  refine ⟨ha, ?_, ?_, hsp, hop, by rw [hsp]; exact hs, by rw [hop]; exact ho,
    ?_, ?_, fun _ => rfl, fun _ _ _ => rfl, anchoredPattern_formula, ?_, ?_⟩
  · intro hacc
    rw [hacc] at ha
    have : ActionFromString "accept" = Result.ok Action.ACCEPT := by rfl
    rw [this] at ha
    injection ha with ha
    exact ha.symm
  · intro hrej
    rw [hrej] at ha
    have : ActionFromString "reject" = Result.ok Action.REJECT := by rfl
    rw [this] at ha
    injection ha with ha
    exact ha.symm
  · intro s ou
    unfold RegexpDecider.Decide
    cases E.MatchString d.serviceRgx s.Name <;>
      cases E.MatchString d.orgUnitRgx ou.Name <;> simp
  · intro s ou
    unfold RegexpDecider.Decide
    cases E.MatchString d.serviceRgx s.Name <;>
      cases E.MatchString d.orgUnitRgx ou.Name <;> simp
  · intro p
    refine ⟨anchoredPattern_head p, anchoredPattern_getLast p, ?_⟩
    rw [anchoredPattern_formula (anchoredPattern p)]
    simp only [anchoredPattern_head, anchoredPattern_getLast, if_true]
    apply String.ext
    simp
  · intro r' rs ro hact hs' ho'
    have hA : ∃ a, ActionFromString r'.Action = Result.ok a := by
      rcases hact with h1 | h1 <;> rw [h1]
      · exact ⟨Action.ACCEPT, by rfl⟩
      · exact ⟨Action.REJECT, by rfl⟩
    obtain ⟨a, hA⟩ := hA
    refine ⟨⟨a, strings2Pattern r'.Services, strings2Pattern r'.OrgUnits, rs, ro⟩, ?_⟩
    simp [NewRegexpDecider, hA, hs', ho']

open bcpfilter in
/-- Instance of C7 on the rule `services = ["fake.*"]`, `orgUnits = ["ag-a",
"ag-b"]`, `action = "reject"` with the literal engine. -/
theorem RegexpDecider_Decide_spec_witness :
    NewRegexpDecider literalEngine ⟨["fake.*"], ["ag-a", "ag-b"], "reject"⟩ =
      Result.ok ⟨Action.REJECT, "^fake.*$", "^(ag-a|ag-b)$", "^fake.*$",
        "^(ag-a|ag-b)$"⟩ ∧
    ActionFromString "reject" = Result.ok Action.REJECT :=
  ⟨by rfl,
   (RegexpDecider_Decide_spec literalEngine ⟨["fake.*"], ["ag-a", "ag-b"], "reject"⟩
      ⟨Action.REJECT, "^fake.*$", "^(ag-a|ag-b)$", "^fake.*$", "^(ag-a|ag-b)$"⟩
      (by rfl)).1⟩

/-! ### Loops that append the accepted items -/

theorem foldl_append_if {α β : Type} (p : α → Bool) (f : α → β) (l : List α)
    (acc : List β) :
    l.foldl (fun list x => if p x then list ++ [f x] else list) acc =
      acc ++ (l.filter p).map f := by
  induction l generalizing acc with
  | nil => simp
  | cons x xs ih =>
    simp only [List.foldl_cons, ih, List.filter_cons]
    by_cases hx : p x = true <;> simp [hx]

theorem foldl_append_flatMap {α β : Type} (g : α → List β) (l : List α)
    (acc : List β) :
    l.foldl (fun list x => list ++ g x) acc = acc ++ l.flatMap g := by
  induction l generalizing acc with
  | nil => simp
  | cons x xs ih => simp [List.foldl_cons, ih, List.flatMap_cons]

theorem GoMap_get_set_true_foldl {α : Type} (p : α → Bool) (key : α → String)
    (l : List α) (m : GoMap String Bool) (name : String) :
    GoMap.get
        (l.foldl (fun expected x => if p x then expected.set (key x) true else expected) m)
        name = some true ↔
      (∃ x ∈ l, p x = true ∧ key x = name) ∨ GoMap.get m name = some true := by
  induction l generalizing m with
  | nil => simp
  | cons x xs ih =>
    rw [List.foldl_cons, ih]
    by_cases hx : p x = true
    · by_cases hk : key x = name
      · simp [hx, hk, GoMap.set, GoMap.get]
      · simp [hx, hk, GoMap.set, GoMap.get]
    · simp [hx]

/-- C2: `ServiceOrgUnitDirsList` lists, service by service and within a
service in org-unit order, exactly one directory entry per pair the filter
accepts (none for a rejected pair), at `filepath.Join(root, service, ou)`
with a `ServiceOrgUnitACL` of the ou, service, ops and super gids; the
names that `ensureSrvSubdirs` marks as expected for a service are exactly
the names of the org units the filter accepts for it; and when the root is
an absolute path of clean elements and the two names are clean elements,
the joined path is literally `<root>/<service>/<ou>`. -/
theorem ServiceOrgUnitDirsList_spec (st : fsck.ServiceTreePaths) :
    st.ServiceOrgUnitDirsList =
      st.services.flatMap (fun s =>
        (st.orgUnits.filter (fun ou => (st.filter.Accept s ou).1)).map (fun ou =>
          { Path := filepath.Join [st.root, s.Name, ou.Name]
            IsSymlink := false
            ACL := some (fsck.ACL.serviceOrgUnit {
              Uid := 0
              OrgUnitGid := ou.OrgUnitGroup.Gid
              ServiceGid := s.ServiceGroup.Gid
              ServiceOpsGid := s.ServiceOpsGroup.Gid
              SuperGid := s.SuperGroup.Gid })
            LinkDest := "" })) ∧
    (∀ (root : String) (recursive : Bool) (s : bcp.Service) (name : String),
      GoMap.get
          (fsapply.ServiceTree.ensureSrvSubdirs_expected
            ⟨root, st.services, st.orgUnits, st.filter, recursive⟩ s) name = some true ↔
        name ∈ (st.orgUnits.filter (fun ou => (st.filter.Accept s ou).1)).map
          (fun ou => ou.Name)) ∧
    (∀ elems : List String, elems ≠ [] → (∀ e ∈ elems, filepath.isElem e = true) →
      st.root = filepath.absPath elems →
      ∀ (s : bcp.Service) (ou : bcp.OrgUnit),
        filepath.isElem s.Name = true → filepath.isElem ou.Name = true →
        filepath.Join [st.root, s.Name, ou.Name] =
          st.root ++ "/" ++ s.Name ++ "/" ++ ou.Name) := by
  refine ⟨?_, ?_, ?_⟩
  · unfold fsck.ServiceTreePaths.ServiceOrgUnitDirsList
    have hinner : ∀ (s : bcp.Service) (list : List fsck.Entry),
        st.orgUnits.foldl
            (fun list ou =>
              if (st.filter.Accept s ou).1 then list ++ [st.souEntry s ou] else list)
            list =
          list ++ (st.orgUnits.filter (fun ou => (st.filter.Accept s ou).1)).map
            (fun ou => st.souEntry s ou) := by
      intro s list
      exact foldl_append_if (fun ou => (st.filter.Accept s ou).1)
        (fun ou => st.souEntry s ou) st.orgUnits list
    simp only [hinner]
    rw [foldl_append_flatMap]
    rfl
  · intro root recursive s name
    unfold fsapply.ServiceTree.ensureSrvSubdirs_expected
    rw [GoMap_get_set_true_foldl (fun ou => (st.filter.Accept s ou).1)
      (fun ou : bcp.OrgUnit => ou.Name)]
    simp only [GoMap.get, List.mem_map, List.mem_filter]
    constructor
    · rintro (⟨ou, hmem, hacc, hname⟩ | hnone)
      · exact ⟨ou, ⟨hmem, hacc⟩, hname⟩
      · cases hnone
    · rintro ⟨ou, ⟨hmem, hacc⟩, hname⟩
      exact Or.inl ⟨ou, hmem, hacc, hname⟩
  · intro elems hne helems hroot s ou hs hou
    exact filepath.Join_root2 st.root elems hne helems hroot s.Name ou.Name hs hou

/-- Instance of C2 on the service tree of scenario S1. -/
theorem ServiceOrgUnitDirsList_spec_witness :
    S1.srvTree.ServiceOrgUnitDirsList =
      [ ⟨"/fs/srv/mic1/em-facility", false,
          some (fsck.ACL.serviceOrgUnit ⟨0, 200, 400, 300, 10⟩), ""⟩ ] ∧
    filepath.Join [S1.srvTree.root, S1.mic1.Name, S1.emFacility.Name] =
      S1.srvTree.root ++ "/" ++ S1.mic1.Name ++ "/" ++ S1.emFacility.Name :=
  ⟨by rfl,
   (ServiceOrgUnitDirsList_spec S1.srvTree).2.2 ["fs", "srv"] (by decide) (by decide)
     (by decide) S1.mic1 S1.emFacility (by decide) (by decide)⟩

/-- C3: `OrgUnitServiceLinksList` lists, org unit by org unit and within an org
unit in service order, exactly one symlink entry per accepted pair, at
`filepath.Join(root, ou, service)`; its target is
`filepath.Join("../..", serviceDir, service)` when the org unit is a
facility with `s.Facility == ou.Facility` and that path joined with the org
unit name otherwise; `ensureOUSLn` computes the same path and target; and
for clean elements the target is literally `../../<service_dir>/<service>`
or `../../<service_dir>/<service>/<ou>` and, below an absolute root of clean
elements, the path is literally `<root>/<ou>/<service>`. -/
theorem OrgUnitServiceLinksList_spec (ot : fsck.OrgUnitTreePaths) :
    ot.OrgUnitServiceLinksList =
      ot.orgUnits.flatMap (fun ou =>
        (ot.services.filter (fun s => (ot.filter.Accept s ou).1)).map (fun s =>
          { Path := filepath.Join [ot.root, ou.Name, s.Name]
            IsSymlink := true
            ACL := none
            LinkDest :=
              if ou.IsFacility = true ∧ s.Facility = ou.Facility then
                filepath.Join ["../..", ot.serviceDir, s.Name]
              else
                filepath.Join
                  [filepath.Join ["../..", ot.serviceDir, s.Name], ou.Name] })) ∧
    (∀ (recursive : Bool) (ou : bcp.OrgUnit) (s : bcp.Service),
      fsapply.OrgUnitTree.ensureOUSLn_pathDest
          ⟨ot.root, ot.serviceDir, ot.services, ot.orgUnits, ot.filter, recursive⟩ ou s =
        ((ot.ouslnEntry ou s).Path, (ot.ouslnEntry ou s).LinkDest)) ∧
    (∀ (ou : bcp.OrgUnit) (s : bcp.Service),
      filepath.isElem ot.serviceDir = true → filepath.isElem s.Name = true →
      filepath.isElem ou.Name = true →
        (ot.ouslnEntry ou s).LinkDest =
          (if ou.IsFacility = true ∧ s.Facility = ou.Facility then
            "../../" ++ ot.serviceDir ++ "/" ++ s.Name
          else "../../" ++ ot.serviceDir ++ "/" ++ s.Name ++ "/" ++ ou.Name) ∧
        ∀ elems : List String, elems ≠ [] → (∀ e ∈ elems, filepath.isElem e = true) →
          ot.root = filepath.absPath elems →
          (ot.ouslnEntry ou s).Path = ot.root ++ "/" ++ ou.Name ++ "/" ++ s.Name) := by
  refine ⟨?_, ?_, ?_⟩
  · unfold fsck.OrgUnitTreePaths.OrgUnitServiceLinksList
    have hinner : ∀ (ou : bcp.OrgUnit) (list : List fsck.Entry),
        ot.services.foldl
            (fun list s =>
              if (ot.filter.Accept s ou).1 then list ++ [ot.ouslnEntry ou s] else list)
            list =
          list ++ (ot.services.filter (fun s => (ot.filter.Accept s ou).1)).map
            (fun s => ot.ouslnEntry ou s) := by
      intro ou list
      exact foldl_append_if (fun s => (ot.filter.Accept s ou).1)
        (fun s => ot.ouslnEntry ou s) ot.services list
    simp only [hinner]
    rw [foldl_append_flatMap]
    simp only [List.nil_append]
    congr 1
    funext ou
    congr 1
    funext s
    unfold fsck.OrgUnitTreePaths.ouslnEntry fsck.serviceIsOfFacility
    cases ou.IsFacility <;> by_cases hf : s.Facility = ou.Facility <;> simp [hf]
  · intro recursive ou s
    rfl
  · intro ou s hsd hs hou
    constructor
    · unfold fsck.OrgUnitTreePaths.ouslnEntry fsck.serviceIsOfFacility
      simp only [filepath.Join_upup2 ot.serviceDir s.Name hsd hs,
        filepath.Join_upup3 ot.serviceDir s.Name ou.Name hsd hs hou]
      cases ou.IsFacility <;> by_cases hf : s.Facility = ou.Facility <;> simp [hf]
    · intro elems hne helems hroot
      exact filepath.Join_root2 ot.root elems hne helems hroot ou.Name s.Name hou hs

/-- Instance of C3 on the org unit tree of scenario S1. -/
theorem OrgUnitServiceLinksList_spec_witness :
    S1.ouTree.OrgUnitServiceLinksList =
      [ ⟨"/fs/org/em-facility/mic1", true, none, "../../srv/mic1"⟩ ] ∧
    (S1.ouTree.ouslnEntry S1.alice S1.mic1).LinkDest =
      "../../" ++ "srv" ++ "/" ++ "mic1" ++ "/" ++ "alice" :=
  ⟨by rfl,
   ((OrgUnitServiceLinksList_spec S1.ouTree).2.2 S1.alice S1.mic1 (by decide) (by decide)
     (by decide)).1⟩

/-! ### Scenario S1 -/

theorem S1_New : bcp.New S1.groups S1.cfg =
    Result.ok
      ({ OrgUnits :=
           [ ⟨"alice", [], [], false, "", ⟨"og_alice", 100⟩⟩,
             ⟨"em-facility", [], [], true, "em", ⟨"og_em-facility", 200⟩⟩ ]
         Facilities := [⟨"em"⟩]
         Services :=
           [ ⟨"mic1", "em", bcp.AccessPolicy.AccessPerService, ⟨"all", 10⟩,
               ⟨"sv_mic1", 300⟩, ⟨"sv_em-ops", 400⟩⟩ ] },
        []) := by
  rfl

theorem S1_MustLoadGroups : main.MustLoadGroups S1.groups S1.cfg =
    Result.ok
      ([⟨"all", 10⟩, ⟨"og_alice", 100⟩, ⟨"og_em-facility", 200⟩, ⟨"sv_em-ops", 400⟩,
          ⟨"sv_mic1", 300⟩],
        { OrgUnits := [S1.alice, S1.emFacility]
          Facilities := [⟨"em"⟩]
          Services := [S1.mic1] },
        []) := by
  rfl

theorem S1_plannedEntries (E : bcpfilter.RegexpEngine) (cwd : String) :
    main.plannedEntries E cwd S1.groups S1.cfg =
      Result.ok
        [ ⟨"/fs", false, some (fsck.ACL.simple ⟨0, 0, "rwx", "r-x", "r-x"⟩), ""⟩,
          ⟨"/fs/srv", false, some (fsck.ACL.simple ⟨0, 0, "rwx", "r-x", "r-x"⟩), ""⟩,
          ⟨"/fs/org", false, some (fsck.ACL.simple ⟨0, 0, "rwx", "r-x", "r-x"⟩), ""⟩,
          ⟨"/fs/srv/mic1", false,
            some (fsck.ACL.service ⟨0, 300, 400, 10, bcp.AccessPolicy.AccessPerService⟩), ""⟩,
          ⟨"/fs/srv/mic1/em-facility", false,
            some (fsck.ACL.serviceOrgUnit ⟨0, 200, 400, 300, 10⟩), ""⟩,
          ⟨"/fs/org/alice", false, some (fsck.ACL.orgUnit ⟨0, 100⟩), ""⟩,
          ⟨"/fs/org/em-facility", false, some (fsck.ACL.orgUnit ⟨0, 200⟩), ""⟩,
          ⟨"/fs/org/em-facility/mic1", true, none, "../../srv/mic1"⟩ ] := by
  unfold main.plannedEntries
  rw [S1_MustLoadGroups]
  have hcomp : main.MustCompileFilter E S1.cfg =
      Result.ok ⟨[bcpfilter.NewSameFacilityDecider]⟩ := rfl
  simp only [hcomp]
  have habs : filepath.Abs cwd S1.cfg.Rootdir = "/fs" := by
    have h1 : filepath.IsAbs "/fs" = true := by decide
    have h2 : filepath.Clean "/fs" = "/fs" := by decide
    simp [filepath.Abs, S1.cfg, h1, h2]
  rw [habs]
  rfl

/-- C4 (as stated, refuted): in scenario S1 the planned entries do not contain
all four of the directory `/fs/srv/mic1/alice`, the directory
`/fs/srv/mic1/em-facility`, the symlink `/fs/org/alice/mic1` and the symlink
`/fs/org/em-facility/mic1`. -/
theorem S1_plan_not_as_claimed :
    ¬ ∃ es, main.plannedEntries bcpfilter.literalEngine "/" S1.groups S1.cfg =
        Result.ok es ∧
      (∃ e ∈ es, e.Path = "/fs/srv/mic1/alice" ∧ e.IsSymlink = false ∧
        e.ACL = some (fsck.ACL.serviceOrgUnit ⟨0, 100, 400, 300, 10⟩)) ∧
      (∃ e ∈ es, e.Path = "/fs/srv/mic1/em-facility" ∧ e.IsSymlink = false) ∧
      (∃ e ∈ es, e.Path = "/fs/org/alice/mic1" ∧ e.IsSymlink = true ∧
        e.LinkDest = "../../srv/mic1/alice") ∧
      (∃ e ∈ es, e.Path = "/fs/org/em-facility/mic1" ∧ e.IsSymlink = true ∧
        e.LinkDest = "../../srv/mic1") := by
  rintro ⟨es, hes, ⟨e, he, hpath, -⟩, -⟩
  rw [S1_plannedEntries] at hes
  injection hes with hes
  subst hes
  simp only [List.mem_cons, List.mem_singleton, List.not_mem_nil, or_false] at he
  rcases he with h | h | h | h | h | h | h | h <;> subst h <;>
    exact absurd hpath (by decide)

/-- C4 (amended): in scenario S1, whatever the regexp engine and the working
directory, the planned entries contain the directory
`/fs/srv/mic1/em-facility` (ou gid 200, ops gid 400) and the symlink
`/fs/org/em-facility/mic1` with target `../../srv/mic1`; no entry has the path
`/fs/srv/mic1/alice` or `/fs/org/alice/mic1`, since the compiled filter holds
only the same-facility decider, which passes on `alice`, and the filter
rejects by default. -/
theorem S1_plan_amended (E : bcpfilter.RegexpEngine) (cwd : String) :
    ∃ es, main.plannedEntries E cwd S1.groups S1.cfg = Result.ok es ∧
      (⟨"/fs/srv/mic1/em-facility", false,
          some (fsck.ACL.serviceOrgUnit
            { Uid := 0, OrgUnitGid := 200, ServiceOpsGid := 400,
              ServiceGid := 300, SuperGid := 10 }), ""⟩ : fsck.Entry) ∈ es ∧
      (⟨"/fs/org/em-facility/mic1", true, none, "../../srv/mic1"⟩ : fsck.Entry) ∈ es ∧
      (∀ e ∈ es, e.Path ≠ "/fs/srv/mic1/alice" ∧ e.Path ≠ "/fs/org/alice/mic1") ∧
      (∀ f, main.MustCompileFilter E S1.cfg = Result.ok f →
        f.Accept
            ⟨"mic1", "em", bcp.AccessPolicy.AccessPerService, ⟨"all", 10⟩,
              ⟨"sv_mic1", 300⟩, ⟨"sv_em-ops", 400⟩⟩
            ⟨"alice", [], [], false, "", ⟨"og_alice", 100⟩⟩ =
          (false, "no rule accepted")) := by
  refine ⟨_, S1_plannedEntries E cwd, by simp, by simp, ?_, ?_⟩
  · intro e he
    simp only [List.mem_cons, List.mem_singleton, List.not_mem_nil, or_false] at he
    rcases he with h | h | h | h | h | h | h | h <;> subst h <;>
      exact ⟨by decide, by decide⟩
  · intro f hf
    have hcomp : main.MustCompileFilter E S1.cfg =
        Result.ok ⟨[bcpfilter.NewSameFacilityDecider]⟩ := rfl
    rw [hcomp] at hf
    injection hf with hf
    subst hf
    rfl

/-! ### The organization builder -/

namespace bcp

theorem GoMap_get_set {V : Type} (m : GoMap String V) (k : String) (v : V) (k' : String) :
    GoMap.get (m.set k v) k' = if k = k' then some v else GoMap.get m k' := by
  simp [GoMap.set, GoMap.get]

theorem byName_get_eq (groups : List grp.Group) (m0 : GoMap String grp.Group)
    (name : String) :
    GoMap.get (groups.foldl (fun byName g => byName.set g.Name g) m0) name =
      (groups.reverse.find? (fun g => decide (g.Name = name))).or (GoMap.get m0 name) := by
  induction groups generalizing m0 with
  | nil => simp
  | cons x xs ih =>
    rw [List.foldl_cons, ih, List.reverse_cons, List.find?_append, GoMap_get_set]
    cases hfind : List.find? (fun g => decide (g.Name = name)) xs.reverse with
    | some g => simp
    | none =>
      by_cases hx : x.Name = name <;> simp [hx, List.find?_cons]

/-- The group that `GetByName` returns is the last input group of that name. -/
theorem GetByName_eq (groups : List grp.Group) (cfg : bcpcfg.Root) (name : String) :
    (NewGroupMap groups cfg).GetByName name =
      groups.reverse.find? (fun g => decide (g.Name = name)) := by
  unfold GroupMap.GetByName NewGroupMap
  simp only [byName_get_eq]
  simp [GoMap.get]

theorem GetByName_mem (groups : List grp.Group) (cfg : bcpcfg.Root)
    (name : String) (g : grp.Group)
    (h : (NewGroupMap groups cfg).GetByName name = some g) :
    g ∈ groups ∧ g.Name = name := by
  rw [GetByName_eq] at h
  have h1 := List.mem_of_find?_eq_some h
  have h2 := List.find?_some h
  exact ⟨List.mem_reverse.mp h1, by simpa using h2⟩

theorem services_get_eq (v : FacilityAccess) (ss : List String)
    (m0 : GoMap String FacilityAccess) (k : String) :
    GoMap.get (ss.foldl (fun m s => m.set s v) m0) k =
      if k ∈ ss then some v else GoMap.get m0 k := by
  induction ss generalizing m0 with
  | nil => simp
  | cons x xs ih =>
    rw [List.foldl_cons, ih, GoMap_get_set]
    by_cases h1 : k ∈ xs
    · simp [h1]
    · by_cases h2 : x = k
      · simp [h1, h2]
      · have h3 : ¬ k = x := fun h => h2 h.symm
        simp [h1, h2, h3]

theorem facilities_get_eq (fs : List bcpcfg.Facility) (m0 : GoMap String FacilityAccess)
    (k : String) :
    GoMap.get
        (fs.foldl
          (fun m f => f.Services.foldl (fun m s => m.set s ⟨f.Name, f.Access⟩) m) m0)
        k =
      ((fs.reverse.find? (fun f => decide (k ∈ f.Services))).map
        (fun f => (⟨f.Name, f.Access⟩ : FacilityAccess))).or (GoMap.get m0 k) := by
  induction fs generalizing m0 with
  | nil => simp
  | cons x xs ih =>
    rw [List.foldl_cons, ih, List.reverse_cons, List.find?_append, services_get_eq]
    cases hfind : List.find? (fun f => decide (k ∈ f.Services)) xs.reverse with
    | some f => simp
    | none =>
      by_cases hx : k ∈ x.Services <;> simp [hx, List.find?_cons]

/-- The entry of `facilityBySrv` for a service name is the last configured
facility that lists the name. -/
theorem facilityBySrv_get_eq (cfg : bcpcfg.Root) (k : String) :
    GoMap.get (facilityBySrv cfg) k =
      (cfg.Facilities.reverse.find? (fun f => decide (k ∈ f.Services))).map
        (fun f => (⟨f.Name, f.Access⟩ : FacilityAccess)) := by
  unfold facilityBySrv
  rw [facilities_get_eq]
  simp [GoMap.get]

theorem facilityBySrv_get (cfg : bcpcfg.Root) (k : String) (fa : FacilityAccess)
    (h : GoMap.get (facilityBySrv cfg) k = some fa) :
    ∃ f, cfg.Facilities.reverse.find? (fun f => decide (k ∈ f.Services)) = some f ∧
      f ∈ cfg.Facilities ∧ k ∈ f.Services ∧ fa = ⟨f.Name, f.Access⟩ := by
  rw [facilityBySrv_get_eq] at h
  cases hfind : cfg.Facilities.reverse.find? (fun f => decide (k ∈ f.Services)) with
  | none => simp [hfind] at h
  | some f =>
    simp only [hfind, Option.map_some'] at h
    injection h with h
    refine ⟨f, rfl, List.mem_reverse.mp (List.mem_of_find?_eq_some hfind), ?_, h.symm⟩
    simpa using List.find?_some hfind

theorem parseServicesLoop_resolved (cfg : bcpcfg.Root) (gm : GroupMap)
    (fbs : GoMap String FacilityAccess) (names : List String) (srvs : List Service)
    (unconf : List String) (out : List Service) (unconf' : List String)
    (h : parseServicesLoop cfg gm fbs names srvs unconf = Result.ok (out, unconf'))
    (hs : ∀ s ∈ srvs, ServiceResolved cfg gm fbs s) :
    ∀ s ∈ out, ServiceResolved cfg gm fbs s := by
  induction names generalizing srvs unconf with
  | nil =>
    simp only [parseServicesLoop] at h
    injection h with h
    injection h with h1 h2
    subst h1
    exact hs
  | cons n rest ih =>
    simp only [parseServicesLoop] at h
    split at h
    · exact ih _ _ h hs
    · rename_i fa hfa
      split at h
      · cases h
      · rename_i access hacc
        split at h
        · cases h
        · rename_i hsuper
          split at h
          · cases h
          · rename_i g hg
            split at h
            · cases h
            · cases h
            · rename_i srv hsrv
              split at h
              · cases h
              · rename_i og hog
                refine ih _ _ h ?_
                intro s hsmem
                rcases List.mem_append.mp hsmem with hold | hnew
                · exact hs s hold
                · simp only [List.mem_singleton] at hnew
                  subst hnew
                  have hsrv' : srv.Name = n ∧ srv.Facility = fa.Name ∧
                      srv.Access = access ∧ srv.ServiceGroup = g ∧
                      (cfg.SuperGroup ≠ "" →
                        gm.GetByName cfg.SuperGroup = some srv.SuperGroup) := by
                    by_cases hsg : cfg.SuperGroup = ""
                    · simp only [ne_eq, hsg, not_true_eq_false, if_false] at hsrv
                      injection hsrv with hsrv
                      subst hsrv
                      exact ⟨rfl, rfl, rfl, rfl, fun hne => absurd hsg hne⟩
                    · simp only [ne_eq, hsg, not_false_eq_true, if_true] at hsrv
                      split at hsrv
                      · cases hsrv
                      · rename_i sg hsgg
                        injection hsrv with hsrv
                        subst hsrv
                        exact ⟨rfl, rfl, rfl, rfl, fun _ => hsgg⟩
                  obtain ⟨hn, hf, ha, hsg, hsup⟩ := hsrv'
                  refine ⟨⟨fa, ?_, ?_, ?_⟩, ?_, ?_, hsup, ?_⟩
                  · simp only [hn]; exact hfa
                  · exact hf
                  · simp only [ha]; exact hacc
                  · simp only [hn, hsg]; exact hg
                  · exact hog
                  · intro hall
                    simp only at hall
                    rw [ha] at hall
                    intro hempty
                    apply hsuper
                    simp [hall, hempty, AccessPolicy.IsAllOrgUnits]

theorem New_ok_inv (groups : List grp.Group) (cfg : bcpcfg.Root)
    (org : Organization) (unconf : List String)
    (h : New groups cfg = Result.ok (org, unconf)) :
    ∃ ous srvs,
      parseOrgUnits (parseGroupNames groups cfg) cfg (NewGroupMap groups cfg) =
        Result.ok ous ∧
      parseServices (parseGroupNames groups cfg) cfg (NewGroupMap groups cfg) =
        Result.ok (srvs, unconf) ∧
      org = ⟨ous, parseFacilities (parseGroupNames groups cfg), srvs⟩ := by
  unfold New at h
  simp only at h
  split at h
  · cases h
  · cases h
  · rename_i ous hous
    split at h
    · cases h
    · cases h
    · rename_i srvs unconf' hsrvs
      injection h with h
      injection h with h1 h2
      subst h1 h2
      exact ⟨ous, srvs, hous, hsrvs, rfl⟩

theorem parseServices_ok_inv (names : Names) (cfg : bcpcfg.Root) (gm : GroupMap)
    (srvs : List Service) (unconf : List String)
    (h : parseServices names cfg gm = Result.ok (srvs, unconf)) :
    parseServicesLoop cfg gm (facilityBySrv cfg) names.Services [] [] =
      Result.ok (srvs, unconf) := by
  unfold parseServices at h
  simp only at h
  split at h
  · cases h
  · exact h

theorem AccessPolicyFromString_ok (name : String) (a : AccessPolicy)
    (h : AccessPolicyFromString name = Except.ok a) :
    (name = "perService" ∧ a = AccessPolicy.AccessPerService) ∨
    (name = "allOrgUnits" ∧ a = AccessPolicy.AccessAllOrgUnits) ∨
    (name = "" ∧ a = AccessPolicy.AccessPerService) := by
  unfold AccessPolicyFromString at h
  by_cases h1 : name = "perService"
  · simp only [h1, if_true] at h
    injection h with h
    exact Or.inl ⟨h1, h.symm⟩
  · by_cases h2 : name = "allOrgUnits"
    · simp only [h1, h2, if_true, if_false] at h
      injection h with h
      exact Or.inr (Or.inl ⟨h2, h.symm⟩)
    · by_cases h3 : name = ""
      · simp only [h1, h2, h3, if_true, if_false] at h
        injection h with h
        exact Or.inr (Or.inr ⟨h3, h.symm⟩)
      · simp only [h1, h2, h3, if_false] at h
        cases h

theorem New_services_resolved (groups : List grp.Group) (cfg : bcpcfg.Root)
    (org : Organization) (unconf : List String)
    (h : New groups cfg = Result.ok (org, unconf)) :
    ∀ s ∈ org.Services,
      ServiceResolved cfg (NewGroupMap groups cfg) (facilityBySrv cfg) s := by
  obtain ⟨ous, srvs, -, hsrvs, horg⟩ := New_ok_inv groups cfg org unconf h
  subst horg
  exact parseServicesLoop_resolved cfg _ _ _ [] [] srvs unconf
    (parseServices_ok_inv _ _ _ _ _ hsrvs) (fun s hs => by cases hs)

end bcp

/-- C8: every service that a successful `bcp.New` returns has as `Facility`
the name of a configured facility that lists the service (the last such
facility in the configuration), as `Access` the policy named by that
facility (`perService` for an empty or `perService` access, `allOrgUnits`
for `allOrgUnits`), as `ServiceGroup` and `ServiceOpsGroup` the input groups
named `<service_prefix>_<name>` and `<service_prefix>_<facility>-<ops_suffix>`
(the last input group of that name), as `SuperGroup` the input group named
by a configured super group; and `allOrgUnits` occurs only with a configured
super group. -/
theorem New_service_fields (groups : List grp.Group) (cfg : bcpcfg.Root)
    (org : bcp.Organization) (unconf : List String)
    (h : bcp.New groups cfg = Result.ok (org, unconf)) :
    ∀ s ∈ org.Services,
      (∃ f ∈ cfg.Facilities,
        cfg.Facilities.reverse.find? (fun f => decide (s.Name ∈ f.Services)) = some f ∧
        s.Facility = f.Name ∧ s.Name ∈ f.Services ∧
        (f.Access = "" ∨ f.Access = "perService" ∨ f.Access = "allOrgUnits") ∧
        ((f.Access = "" ∨ f.Access = "perService") →
          s.Access = bcp.AccessPolicy.AccessPerService) ∧
        (f.Access = "allOrgUnits" → s.Access = bcp.AccessPolicy.AccessAllOrgUnits)) ∧
      (s.ServiceGroup ∈ groups ∧
        s.ServiceGroup.Name = cfg.ServicePrefix ++ "_" ++ s.Name ∧
        groups.reverse.find?
            (fun g => decide (g.Name = cfg.ServicePrefix ++ "_" ++ s.Name)) =
          some s.ServiceGroup) ∧
      (s.ServiceOpsGroup ∈ groups ∧
        s.ServiceOpsGroup.Name =
          cfg.ServicePrefix ++ "_" ++ s.Facility ++ "-" ++ cfg.OpsSuffix ∧
        groups.reverse.find?
            (fun g => decide
              (g.Name = cfg.ServicePrefix ++ "_" ++ s.Facility ++ "-" ++ cfg.OpsSuffix)) =
          some s.ServiceOpsGroup) ∧
      (cfg.SuperGroup ≠ "" →
        s.SuperGroup ∈ groups ∧ s.SuperGroup.Name = cfg.SuperGroup ∧
        groups.reverse.find? (fun g => decide (g.Name = cfg.SuperGroup)) =
          some s.SuperGroup) ∧
      (s.Access = bcp.AccessPolicy.AccessAllOrgUnits → cfg.SuperGroup ≠ "") := by
  intro s hs
  obtain ⟨⟨fa, hfa, hfac, hacc⟩, hsg, hog, hsup, hall⟩ :=
    bcp.New_services_resolved groups cfg org unconf h s hs
  obtain ⟨f, hfind, hfmem, hlisted, hfaeq⟩ := bcp.facilityBySrv_get cfg s.Name fa hfa
  subst hfaeq
  refine ⟨⟨f, hfmem, hfind, hfac, hlisted, ?_, ?_, ?_⟩, ?_, ?_, ?_, hall⟩
  · rcases bcp.AccessPolicyFromString_ok _ _ hacc with ⟨h1, -⟩ | ⟨h1, -⟩ | ⟨h1, -⟩
    · exact Or.inr (Or.inl h1)
    · exact Or.inr (Or.inr h1)
    · exact Or.inl h1
  · intro hper
    rcases bcp.AccessPolicyFromString_ok _ _ hacc with ⟨-, h2⟩ | ⟨h1, -⟩ | ⟨-, h2⟩
    · exact h2
    · rcases hper with h3 | h3 <;> simp only at h1 <;> rw [h1] at h3 <;>
        exact absurd h3 (by decide)
    · exact h2
  · intro hallou
    rcases bcp.AccessPolicyFromString_ok _ _ hacc with ⟨h1, -⟩ | ⟨-, h2⟩ | ⟨h1, -⟩
    · simp only at h1; rw [h1] at hallou; exact absurd hallou (by decide)
    · exact h2
    · simp only at h1; rw [h1] at hallou; exact absurd hallou (by decide)
  · have hm := bcp.GetByName_mem groups cfg _ _ hsg
    rw [bcp.GetByName_eq] at hsg
    exact ⟨hm.1, hm.2, hsg⟩
  · have hm := bcp.GetByName_mem groups cfg _ _ hog
    rw [bcp.GetByName_eq] at hog
    exact ⟨hm.1, hm.2, hog⟩
  · intro hne
    have hg := hsup hne
    have hm := bcp.GetByName_mem groups cfg _ _ hg
    rw [bcp.GetByName_eq] at hg
    exact ⟨hm.1, hm.2, hg⟩

/-- Instance of C8 on scenario S1: `New` succeeds and its service `mic1`
carries facility `em`, groups `sv_mic1`, `sv_em-ops` and `all`. -/
theorem New_service_fields_witness :
    bcp.New S1.groups S1.cfg =
      Result.ok
        ({ OrgUnits :=
             [ ⟨"alice", [], [], false, "", ⟨"og_alice", 100⟩⟩,
               ⟨"em-facility", [], [], true, "em", ⟨"og_em-facility", 200⟩⟩ ]
           Facilities := [⟨"em"⟩]
           Services :=
             [ ⟨"mic1", "em", bcp.AccessPolicy.AccessPerService, ⟨"all", 10⟩,
                 ⟨"sv_mic1", 300⟩, ⟨"sv_em-ops", 400⟩⟩ ] },
          []) ∧
    (⟨"sv_mic1", 300⟩ : grp.Group) ∈ S1.groups :=
  ⟨S1_New,
   ((New_service_fields S1.groups S1.cfg _ _ S1_New
      ⟨"mic1", "em", bcp.AccessPolicy.AccessPerService, ⟨"all", 10⟩,
        ⟨"sv_mic1", 300⟩, ⟨"sv_em-ops", 400⟩⟩ (by simp)).2.1).1⟩

/-! ### Group names and parsed names -/

theorem HasPrefix_eq_append (s p : String) (h : HasPrefix s p = true) :
    s = p ++ sliceFrom s p.data.length := by
  unfold HasPrefix at h
  rw [List.isPrefixOf_iff_prefix, List.prefix_iff_eq_append] at h
  apply String.ext
  simp only [String.data_append, sliceFrom]
  exact h.symm

theorem HasSuffix_eq_append (s p : String) (h : HasSuffix s p = true) :
    s = sliceDropRight s p.data.length ++ p := by
  unfold HasSuffix at h
  rw [List.isSuffixOf_iff_suffix] at h
  obtain ⟨t, ht⟩ := h
  apply String.ext
  simp only [String.data_append, sliceDropRight]
  rw [← ht]
  simp

theorem HasPrefix_append (p r : String) : HasPrefix (p ++ r) p = true := by
  unfold HasPrefix
  rw [List.isPrefixOf_iff_prefix, String.data_append]
  exact List.prefix_append _ _

theorem HasSuffix_append (r q : String) : HasSuffix (r ++ q) q = true := by
  unfold HasSuffix
  rw [List.isSuffixOf_iff_suffix, String.data_append]
  exact List.suffix_append _ _

theorem sliceFrom_append (p r : String) : sliceFrom (p ++ r) p.data.length = r := by
  apply String.ext
  simp [sliceFrom]

theorem sliceDropRight_append (r q : String) :
    sliceDropRight (r ++ q) q.data.length = r := by
  apply String.ext
  simp [sliceDropRight]

namespace bcp

theorem parseFacilityNames_of_group (gs : List grp.Group) (cfg : bcpcfg.Root)
    (n : String) (g : grp.Group) (hg : g ∈ gs)
    (hname : g.Name = cfg.OrgUnitPrefix ++ "_" ++ n ++ "-" ++ cfg.FacilitySuffix) :
    n ∈ parseFacilityNames gs cfg := by
  have hname' : g.Name = (cfg.OrgUnitPrefix ++ "_") ++ (n ++ ("-" ++ cfg.FacilitySuffix)) := by
    rw [hname]
    simp only [String.append_assoc]
  unfold parseFacilityNames
  simp only [List.mem_filterMap]
  refine ⟨g, hg, ?_⟩
  rw [hname']
  simp only [HasPrefix_append, sliceFrom_append, HasSuffix_append,
    sliceDropRight_append, Bool.not_true, Bool.false_eq_true, if_false]

theorem parseServiceNames_group (gs : List grp.Group) (cfg : bcpcfg.Root)
    (n : String) (h : n ∈ parseServiceNames gs cfg) :
    ∃ g ∈ gs, g.Name = cfg.ServicePrefix ++ "_" ++ n := by
  unfold parseServiceNames at h
  simp only [List.mem_filterMap] at h
  obtain ⟨g, hg, hsome⟩ := h
  refine ⟨g, hg, ?_⟩
  by_cases hp : HasPrefix g.Name (cfg.ServicePrefix ++ "_") = true
  · by_cases hsuf : HasSuffix g.Name ("-" ++ cfg.OpsSuffix) = true
    · simp [hp, hsuf] at hsome
    · simp only [hp, hsuf, Bool.not_true, Bool.false_eq_true, if_false] at hsome
      injection hsome with hsome
      rw [← hsome]
      exact HasPrefix_eq_append _ _ hp
  · simp [hp] at hsome

theorem parseFacilityNames_group (gs : List grp.Group) (cfg : bcpcfg.Root)
    (n : String) (h : n ∈ parseFacilityNames gs cfg) :
    ∃ g ∈ gs, g.Name = cfg.OrgUnitPrefix ++ "_" ++ n ++ "-" ++ cfg.FacilitySuffix := by
  unfold parseFacilityNames at h
  simp only [List.mem_filterMap] at h
  obtain ⟨g, hg, hsome⟩ := h
  refine ⟨g, hg, ?_⟩
  by_cases hp : HasPrefix g.Name (cfg.OrgUnitPrefix ++ "_") = true
  · simp only [hp, Bool.not_true, Bool.false_eq_true, if_false] at hsome
    split at hsome
    · cases hsome
    · rename_i hsuf
      have hsuf : HasSuffix (sliceFrom g.Name (cfg.OrgUnitPrefix ++ "_").data.length)
          ("-" ++ cfg.FacilitySuffix) = true := by
        cases hb : HasSuffix (sliceFrom g.Name (cfg.OrgUnitPrefix ++ "_").data.length)
          ("-" ++ cfg.FacilitySuffix)
        · rw [hb] at hsuf
          exact absurd rfl hsuf
        · rfl
      injection hsome with hsome
      have h1 := HasPrefix_eq_append _ _ hp
      have h2 := HasSuffix_eq_append _ _ hsuf
      rw [hsome] at h2
      rw [h1, h2]
      simp only [String.append_assoc]
  · simp [hp] at hsome

theorem haveF_getD (names : List String) (m0 : GoMap String Bool) (k : String) :
    (GoMap.get (names.foldl (fun m f => m.set f true) m0) k).getD false = true ↔
      k ∈ names ∨ (GoMap.get m0 k).getD false = true := by
  induction names generalizing m0 with
  | nil => simp
  | cons x xs ih =>
    rw [List.foldl_cons, ih, GoMap_get_set]
    by_cases hx : x = k
    · simp [hx]
    · have hx' : ¬ k = x := fun h => hx h.symm
      simp [hx, hx']

end bcp

/-! ### Failure of `New` -/

namespace bcp

theorem MustDirPolicy_ok (p : String) (h : ValidPolicy p) :
    ∃ pol, MustDirPolicy p = Result.ok pol := by
  rcases h with h | h | h <;> subst h
  · exact ⟨OwnerPolicy, by rfl⟩
  · exact ⟨GroupPolicy, by rfl⟩
  · exact ⟨ManagerPolicy, by rfl⟩

theorem subdirsLoop_ok (couName : String) (ds : List bcpcfg.DirWithPolicy)
    (st : DirCheck) (sds : List DirWithPolicy) (xds : List String)
    (h : ∀ d ∈ ds, ValidPolicy d.Policy) :
    ∃ r, subdirsLoop couName ds st sds xds = Result.ok r := by
  induction ds generalizing st sds xds with
  | nil => exact ⟨_, rfl⟩
  | cons d rest ih =>
    obtain ⟨pol, hpol⟩ := MustDirPolicy_ok d.Policy (h d (List.mem_cons_self _ _))
    simp only [subdirsLoop, hpol]
    exact ih _ _ _ (fun d' hd' => h d' (List.mem_cons_of_mem _ hd'))

theorem dirsByOuLoop_ok_or_error (cous : List bcpcfg.OrgUnit)
    (m1 : GoMap String (List DirWithPolicy)) (m2 : GoMap String (List String))
    (h : ∀ cou ∈ cous, ∀ d ∈ cou.Subdirs, ValidPolicy d.Policy) :
    (∃ r, dirsByOuLoop cous m1 m2 = Result.ok r) ∨
      (∃ msg, dirsByOuLoop cous m1 m2 = Result.error msg) := by
  induction cous generalizing m1 m2 with
  | nil => exact Or.inl ⟨_, rfl⟩
  | cons cou rest ih =>
    obtain ⟨⟨st, sds, xds⟩, hr⟩ :=
      subdirsLoop_ok cou.Name cou.Subdirs ⟨[], none⟩ [] []
        (h cou (List.mem_cons_self _ _))
    simp only [dirsByOuLoop, hr]
    split
    · exact Or.inr ⟨_, rfl⟩
    · exact ih _ _ (fun c hc => h c (List.mem_cons_of_mem _ hc))

theorem orgUnitsLoop_ok_or_error (gm : GroupMap) (fsuf : String)
    (m1 : GoMap String (List DirWithPolicy)) (m2 : GoMap String (List String))
    (names : List String) (ous : List OrgUnit) :
    (∃ r, orgUnitsLoop gm fsuf m1 m2 names ous = Result.ok r) ∨
      (∃ msg, orgUnitsLoop gm fsuf m1 m2 names ous = Result.error msg) := by
  induction names generalizing ous with
  | nil => exact Or.inl ⟨_, rfl⟩
  | cons o rest ih =>
    simp only [orgUnitsLoop]
    split
    · exact Or.inr ⟨_, rfl⟩
    · exact ih _

theorem parseOrgUnits_ok_or_error (names : Names) (cfg : bcpcfg.Root) (gm : GroupMap)
    (h : ∀ cou ∈ cfg.OrgUnits, ∀ d ∈ cou.Subdirs, ValidPolicy d.Policy) :
    (∃ r, parseOrgUnits names cfg gm = Result.ok r) ∨
      (∃ msg, parseOrgUnits names cfg gm = Result.error msg) := by
  unfold parseOrgUnits
  rcases dirsByOuLoop_ok_or_error cfg.OrgUnits [] [] h with ⟨⟨m1, m2⟩, hr⟩ | ⟨msg, hr⟩
  · simp only [hr]
    exact orgUnitsLoop_ok_or_error _ _ _ _ _ _
  · simp only [hr]
    exact Or.inr ⟨_, rfl⟩

theorem parseServices_missing_facility (names : Names) (cfg : bcpcfg.Root)
    (gm : GroupMap) (f : bcpcfg.Facility) (hf : f ∈ cfg.Facilities)
    (hno : f.Name ∉ names.Facilities) :
    ∃ f' ∈ cfg.Facilities, f'.Name ∉ names.Facilities ∧
      parseServices names cfg gm =
        Result.error ("missing group for facility `" ++ f'.Name ++ "`") := by
  unfold parseServices
  simp only
  cases hfind : cfg.Facilities.find?
      (fun f => !((GoMap.get (names.Facilities.foldl (fun m f => m.set f true) [])
        f.Name).getD false)) with
  | none =>
    rw [List.find?_eq_none] at hfind
    have h1 := hfind f hf
    simp only [Bool.not_eq_true, Bool.not_eq_false'] at h1
    have h2 := (haveF_getD names.Facilities [] f.Name).mp (by simpa using h1)
    rcases h2 with h2 | h2
    · exact absurd h2 hno
    · simp [GoMap.get] at h2
  | some f' =>
    refine ⟨f', List.mem_of_find?_eq_some hfind, ?_, rfl⟩
    have h1 := List.find?_some hfind
    intro hmem
    have h2 := (haveF_getD names.Facilities [] f'.Name).mpr (Or.inl hmem)
    simp [h2] at h1

end bcp

/-- C9 (as stated, refuted): with the configuration of scenario S1, which lists
the service `mic1` under facility `em`, and groups that contain no group
`sv_mic1`, `bcp.New` succeeds (with an empty service list) instead of
failing with a missing-group error. -/
theorem New_ok_without_service_group :
    bcp.New Examples.groupsWithoutMic1 S1.cfg =
      Result.ok
        ({ OrgUnits :=
             [ ⟨"alice", [], [], false, "", ⟨"og_alice", 100⟩⟩,
               ⟨"em-facility", [], [], true, "em", ⟨"og_em-facility", 200⟩⟩ ]
           Facilities := [⟨"em"⟩]
           Services := [] },
          []) ∧
    (∃ f ∈ S1.cfg.Facilities, "mic1" ∈ f.Services) ∧
    (∀ g ∈ Examples.groupsWithoutMic1, g.Name ≠ S1.cfg.ServicePrefix ++ "_" ++ "mic1") := by
  refine ⟨by rfl, ⟨⟨"em", ["mic1"], "perService"⟩, by decide, by decide⟩, ?_⟩
  decide

/-- C9 (amended): whenever `bcp.New` succeeds, every returned service is listed
under a configured facility and the input groups contain a group named
`<service_prefix>_<service>` for it; a configured service without such a
group is not among the returned services (and does not make `New` fail);
the service names are taken from the groups, so each parsed service name has
its group and the lookup of the service group finds it. -/
theorem New_service_groups (groups : List grp.Group) (cfg : bcpcfg.Root)
    (org : bcp.Organization) (unconf : List String)
    (h : bcp.New groups cfg = Result.ok (org, unconf)) :
    (∀ s ∈ org.Services,
      (∃ f ∈ cfg.Facilities, s.Name ∈ f.Services) ∧
      ∃ g ∈ groups, g.Name = cfg.ServicePrefix ++ "_" ++ s.Name) ∧
    (∀ f ∈ cfg.Facilities, ∀ sn ∈ f.Services,
      (∀ g ∈ groups, g.Name ≠ cfg.ServicePrefix ++ "_" ++ sn) →
        ∀ s ∈ org.Services, s.Name ≠ sn) ∧
    (∀ n ∈ bcp.parseServiceNames groups cfg,
      (∃ g ∈ groups, g.Name = cfg.ServicePrefix ++ "_" ++ n) ∧
      ∃ g, (bcp.NewGroupMap groups cfg).FindServiceGroup
        ⟨n, "", bcp.AccessPolicy.AccessUnspecified, default, default, default⟩ = some g) := by
  have hres := bcp.New_services_resolved groups cfg org unconf h
  have hfirst : ∀ s ∈ org.Services,
      (∃ f ∈ cfg.Facilities, s.Name ∈ f.Services) ∧
      ∃ g ∈ groups, g.Name = cfg.ServicePrefix ++ "_" ++ s.Name := by
    intro s hs
    obtain ⟨⟨fa, hfa, -, -⟩, hsg, -⟩ := hres s hs
    obtain ⟨f, -, hfmem, hlisted, -⟩ := bcp.facilityBySrv_get cfg s.Name fa hfa
    have hm := bcp.GetByName_mem groups cfg _ _ hsg
    exact ⟨⟨f, hfmem, hlisted⟩, ⟨s.ServiceGroup, hm.1, hm.2⟩⟩
  refine ⟨hfirst, ?_, ?_⟩
  · intro f _ sn _ hno s hs hname
    obtain ⟨-, g, hg, hgname⟩ := hfirst s hs
    rw [hname] at hgname
    exact hno g hg hgname
  · intro n hn
    obtain ⟨g, hg, hgname⟩ := bcp.parseServiceNames_group groups cfg n hn
    refine ⟨⟨g, hg, hgname⟩, ?_⟩
    unfold bcp.GroupMap.FindServiceGroup
    rw [bcp.GetByName_eq]
    have hsome : (groups.reverse.find?
        (fun g => decide (g.Name = (bcp.NewGroupMap groups cfg).servicePrefix ++ "_" ++ n))).isSome
          = true := by
      rw [List.find?_isSome]
      exact ⟨g, List.mem_reverse.mpr hg, by simpa [bcp.NewGroupMap] using hgname⟩
    exact Option.isSome_iff_exists.mp hsome

/-- Instance of C9 (amended) on scenario S1 without the group `sv_mic1`. -/
theorem New_service_groups_witness :
    bcp.New Examples.groupsWithoutMic1 S1.cfg =
      Result.ok
        ({ OrgUnits :=
             [ ⟨"alice", [], [], false, "", ⟨"og_alice", 100⟩⟩,
               ⟨"em-facility", [], [], true, "em", ⟨"og_em-facility", 200⟩⟩ ]
           Facilities := [⟨"em"⟩]
           Services := [] },
          []) ∧
    ∀ n ∈ bcp.parseServiceNames Examples.groupsWithoutMic1 S1.cfg,
      (∃ g ∈ Examples.groupsWithoutMic1, g.Name = S1.cfg.ServicePrefix ++ "_" ++ n) ∧
      ∃ g, (bcp.NewGroupMap Examples.groupsWithoutMic1 S1.cfg).FindServiceGroup
        ⟨n, "", bcp.AccessPolicy.AccessUnspecified, default, default, default⟩ = some g :=
  ⟨by rfl, (New_service_groups Examples.groupsWithoutMic1 S1.cfg _ _ (by rfl)).2.2⟩

theorem bcpcfg.validateSubdirsLoop_none (dirs : List bcpcfg.DirWithPolicy) (i : Int)
    (h : bcpcfg.validateSubdirsLoop dirs i = none) :
    ∀ d ∈ dirs, bcp.ValidPolicy d.Policy := by
  induction dirs generalizing i with
  | nil =>
    intro d hd
    cases hd
  | cons x xs ih =>
    unfold bcpcfg.validateSubdirsLoop at h
    by_cases hx : bcpcfg.isValidDirPolicy x.Policy = true
    · simp only [hx, Bool.not_true, Bool.false_eq_true, if_false] at h
      intro d hd
      rcases List.mem_cons.mp hd with rfl | hd
      · simpa [bcpcfg.isValidDirPolicy, bcp.ValidPolicy, or_assoc] using hx
      · exact ih _ h d hd
    · simp [hx] at h

/-- C10: for every group list and every configuration as the parser returns
it (`validateSubdirs`, the check of `parseOrgUnitConfigs`, passes on the
subdirs of every org unit), if the configuration declares a facility `f` and
no group is named `<org_unit_prefix>_<f>-<facility_suffix>`, then `bcp.New`
returns an error (and with it neither an organization nor a list of
unconfigured services); when the org units parse, the error is
`missing group for facility` for a configured facility that has no group. -/
theorem New_missing_facility_group_error (groups : List grp.Group)
    (cfg : bcpcfg.Root)
    (hvalid : ∀ cou ∈ cfg.OrgUnits, bcpcfg.validateSubdirs cou.Subdirs = none)
    (f : bcpcfg.Facility) (hf : f ∈ cfg.Facilities)
    (hno : ∀ g ∈ groups,
      g.Name ≠ cfg.OrgUnitPrefix ++ "_" ++ f.Name ++ "-" ++ cfg.FacilitySuffix) :
    (∃ msg, bcp.New groups cfg = Result.error msg) ∧
    (∀ ous,
      bcp.parseOrgUnits (bcp.parseGroupNames groups cfg) cfg
          (bcp.NewGroupMap groups cfg) = Result.ok ous →
        ∃ f' ∈ cfg.Facilities,
          (∀ g ∈ groups,
            g.Name ≠ cfg.OrgUnitPrefix ++ "_" ++ f'.Name ++ "-" ++ cfg.FacilitySuffix) ∧
          bcp.New groups cfg =
            Result.error ("missing group for facility `" ++ f'.Name ++ "`")) := by
  have hpol : ∀ cou ∈ cfg.OrgUnits, ∀ d ∈ cou.Subdirs, bcp.ValidPolicy d.Policy :=
    fun cou hcou => bcpcfg.validateSubdirsLoop_none _ 0 (hvalid cou hcou)
  have hnotin : f.Name ∉ (bcp.parseGroupNames groups cfg).Facilities := by
    intro hmem
    obtain ⟨g, hg, hgname⟩ := bcp.parseFacilityNames_group groups cfg f.Name hmem
    exact hno g hg hgname
  obtain ⟨f', hf', hf'no, herr⟩ :=
    bcp.parseServices_missing_facility (bcp.parseGroupNames groups cfg) cfg
      (bcp.NewGroupMap groups cfg) f hf hnotin
  have hnew : ∀ ous,
      bcp.parseOrgUnits (bcp.parseGroupNames groups cfg) cfg
          (bcp.NewGroupMap groups cfg) = Result.ok ous →
        bcp.New groups cfg =
          Result.error ("missing group for facility `" ++ f'.Name ++ "`") := by
    intro ous hous
    unfold bcp.New
    simp only [hous, herr]
  constructor
  · rcases bcp.parseOrgUnits_ok_or_error (bcp.parseGroupNames groups cfg) cfg
        (bcp.NewGroupMap groups cfg) hpol with ⟨ous, hous⟩ | ⟨msg, hmsg⟩
    · exact ⟨_, hnew ous hous⟩
    · refine ⟨msg, ?_⟩
      unfold bcp.New
      simp only [hmsg]
  · intro ous hous
    refine ⟨f', hf', ?_, hnew ous hous⟩
    intro g hg hgname
    exact hf'no (bcp.parseFacilityNames_of_group groups cfg f'.Name g hg hgname)

/-- Instance of C10: scenario S1 with a configured org unit and the groups
of the org unit `alice` and of the service `mic1`, but no group of the
facility `em`. -/
theorem New_missing_facility_group_error_witness :
    (∃ msg, bcp.New [⟨"og_alice", 100⟩, ⟨"sv_mic1", 300⟩] Examples.cfgWithDirs =
      Result.error msg) ∧
    bcp.New [⟨"og_alice", 100⟩, ⟨"sv_mic1", 300⟩] Examples.cfgWithDirs =
      Result.error "missing group for facility `em`" :=
  ⟨(New_missing_facility_group_error [⟨"og_alice", 100⟩, ⟨"sv_mic1", 300⟩]
      Examples.cfgWithDirs (by decide)
      ⟨"em", ["mic1"], "perService"⟩ (by decide) (by decide)).1,
   by rfl⟩

/-! ### Decimal numbers -/

theorem digitChar_isDigit (d : Nat) (h : d < 10) : (Nat.digitChar d).isDigit = true := by
  interval_cases d <;> decide

theorem toDigitsCore_chars (f n : Nat) (ds : List Char) :
    ∀ c ∈ Nat.toDigitsCore 10 f n ds, c ∈ ds ∨ c.isDigit = true := by
  induction f generalizing n ds with
  | zero => intro c hc; exact Or.inl hc
  | succ f ih =>
    intro c hc
    simp only [Nat.toDigitsCore] at hc
    split at hc
    · rcases List.mem_cons.mp hc with h | h
      · exact Or.inr (by rw [h]; exact digitChar_isDigit _ (Nat.mod_lt _ (by decide)))
      · exact Or.inl h
    · rcases ih _ _ c hc with h | h
      · rcases List.mem_cons.mp h with h | h
        · exact Or.inr (by rw [h]; exact digitChar_isDigit _ (Nat.mod_lt _ (by decide)))
        · exact Or.inl h
      · exact Or.inr h

theorem toDigitsCore_ne_nil (f n : Nat) (ds : List Char) (h : ds ≠ []) :
    Nat.toDigitsCore 10 f n ds ≠ [] := by
  induction f generalizing n ds with
  | zero => exact h
  | succ f ih =>
    simp only [Nat.toDigitsCore]
    split
    · simp
    · exact ih _ _ (by simp)

theorem toDigits_ne_nil (n : Nat) : Nat.toDigits 10 n ≠ [] := by
  unfold Nat.toDigits
  simp only [Nat.toDigitsCore]
  split
  · simp
  · exact toDigitsCore_ne_nil _ _ _ (by simp)

theorem toDigits_chars (n : Nat) : ∀ c ∈ Nat.toDigits 10 n, c.isDigit = true := by
  intro c hc
  rcases toDigitsCore_chars _ _ _ c hc with h | h
  · simp at h
  · exact h

/-- The decimal form of an `int` is not empty and consists of digits and
possibly a leading minus sign. -/
theorem fmtInt_chars (n : Int) :
    (fmtInt n).data ≠ [] ∧ ∀ c ∈ (fmtInt n).data, c.isDigit = true ∨ c = '-' := by
  cases n with
  | ofNat m =>
    exact ⟨toDigits_ne_nil m, fun c hc => Or.inl (toDigits_chars m c hc)⟩
  | negSucc m =>
    refine ⟨by simp [fmtInt], fun c hc => ?_⟩
    simp only [fmtInt, List.mem_cons] at hc
    rcases hc with h | h
    · exact Or.inr h
    · exact Or.inl (toDigits_chars _ c h)

theorem fmtInt_eq_toString (n : Int) : fmtInt n = toString n := by
  cases n <;> rfl

theorem fmtInt_head (n : Int) :
    ∃ c cs, (fmtInt n).data = c :: cs ∧ c ≠ ':' := by
  obtain ⟨hne, hch⟩ := fmtInt_chars n
  cases hdata : (fmtInt n).data with
  | nil => exact absurd hdata hne
  | cons c cs =>
    refine ⟨c, cs, rfl, ?_⟩
    intro hc
    rcases hch c (by rw [hdata]; exact List.mem_cons_self _ _) with h | h
    · rw [hc] at h; exact absurd h (by decide)
    · rw [hc] at h; exact absurd h (by decide)

theorem fmtInt_noNewline (n : Int) : fsck.noNewline (fmtInt n) = true := by
  unfold fsck.noNewline
  simp only [Bool.not_eq_true', List.contains_eq_any_beq, List.any_eq_false, beq_iff_eq]
  intro c hc hnl
  rcases (fmtInt_chars n).2 c hc with h | h
  · rw [← hnl] at h; exact absurd h (by decide)
  · rw [← hnl] at h; exact absurd h (by decide)

/-! ### Lines of the expected ACL texts -/

namespace fsck

theorem closedLines_noNewline :
    noNewline "# flags: -s-" = true ∧
    noNewline "user::rwx" = true ∧
    noNewline "group::---" = true ∧
    noNewline "mask::r-x" = true ∧
    noNewline "mask::rwx" = true ∧
    noNewline "other::---" = true ∧
    noNewline "default:user::rwx" = true ∧
    noNewline "default:group::---" = true ∧
    noNewline "default:mask::r-x" = true ∧
    noNewline "default:mask::rwx" = true ∧
    noNewline "default:other::---" = true := by
  decide

theorem closedLines_namedGroup (d : Bool) :
    isNamedGroupLine d "# flags: -s-" = false ∧
    isNamedGroupLine d "user::rwx" = false ∧
    isNamedGroupLine d "group::---" = false ∧
    isNamedGroupLine d "mask::r-x" = false ∧
    isNamedGroupLine d "mask::rwx" = false ∧
    isNamedGroupLine d "other::---" = false ∧
    isNamedGroupLine d "default:user::rwx" = false ∧
    isNamedGroupLine d "default:group::---" = false ∧
    isNamedGroupLine d "default:mask::r-x" = false ∧
    isNamedGroupLine d "default:mask::rwx" = false ∧
    isNamedGroupLine d "default:other::---" = false := by
  cases d <;> decide

theorem closedLines_mask (d : Bool) :
    isMaskLine d "# flags: -s-" = false ∧
    isMaskLine d "user::rwx" = false ∧
    isMaskLine d "group::---" = false ∧
    isMaskLine d "other::---" = false ∧
    isMaskLine d "default:user::rwx" = false ∧
    isMaskLine d "default:group::---" = false ∧
    isMaskLine d "default:other::---" = false := by
  cases d <;> decide

theorem maskLines :
    isMaskLine false "mask::r-x" = true ∧ isMaskLine true "mask::r-x" = false ∧
    isMaskLine false "mask::rwx" = true ∧ isMaskLine true "mask::rwx" = false ∧
    isMaskLine true "default:mask::r-x" = true ∧
    isMaskLine false "default:mask::r-x" = false ∧
    isMaskLine true "default:mask::rwx" = true ∧
    isMaskLine false "default:mask::rwx" = false ∧
    lineMode "mask::r-x" = "r-x" ∧ lineMode "mask::rwx" = "rwx" ∧
    lineMode "default:mask::r-x" = "r-x" ∧ lineMode "default:mask::rwx" = "rwx" := by
  decide

theorem noNewline_append (a b : String) :
    noNewline (a ++ b) = (noNewline a && noNewline b) := by
  simp [noNewline, String.data_append, List.contains_eq_any_beq, List.any_append]

theorem lineMode_append (y m : String) (h : 3 ≤ m.data.length) :
    lineMode (y ++ m) = String.mk (m.data.drop (m.data.length - 3)) := by
  unfold lineMode
  congr 1
  rw [String.data_append, List.length_append]
  have : y.data.length + m.data.length - 3 = y.data.length + (m.data.length - 3) := by
    omega
  rw [this, List.drop_append]

theorem isPrefixOf_append_self (p r : List Char) : p.isPrefixOf (p ++ r) = true := by
  rw [List.isPrefixOf_iff_prefix]
  exact List.prefix_append _ _

/-- Header lines `# owner: <n>` and `# group: <n>` contain no newline. -/
theorem headerLines_noNewline (n : Int) :
    noNewline ("# owner: " ++ fmtInt n) = true ∧
    noNewline ("# group: " ++ fmtInt n) = true := by
  have ho : noNewline "# owner: " = true := by decide
  have hg : noNewline "# group: " = true := by decide
  exact ⟨by rw [noNewline_append, ho, fmtInt_noNewline]; rfl,
    by rw [noNewline_append, hg, fmtInt_noNewline]; rfl⟩

/-- Header lines `# owner: <n>` and `# group: <n>` are no ACL entries. -/
theorem headerLines (n : Int) (d : Bool) :
    isNamedGroupLine d ("# owner: " ++ fmtInt n) = false ∧
    isMaskLine d ("# owner: " ++ fmtInt n) = false ∧
    isNamedGroupLine d ("# group: " ++ fmtInt n) = false ∧
    isMaskLine d ("# group: " ++ fmtInt n) = false := by
  refine ⟨?_, ?_, ?_, ?_⟩ <;>
    cases d <;>
    simp only [isNamedGroupLine, isMaskLine, HasPrefix, String.data_append] <;> rfl

/-- A named group entry `<prefix><n><suffix>` where `<prefix>` is `group:` or
`default:group:` and `<suffix>` is `:rwx` or `:r-x`. -/
theorem namedGroupLine (n : Int) (m : String) (hm : noNewline m = true)
    (hlen : 3 ≤ m.data.length) :
    (noNewline ("group:" ++ fmtInt n ++ m) = true ∧
      isNamedGroupLine false ("group:" ++ fmtInt n ++ m) = true ∧
      isNamedGroupLine true ("group:" ++ fmtInt n ++ m) = false ∧
      isMaskLine false ("group:" ++ fmtInt n ++ m) = false ∧
      isMaskLine true ("group:" ++ fmtInt n ++ m) = false ∧
      lineMode ("group:" ++ fmtInt n ++ m) = String.mk (m.data.drop (m.data.length - 3))) ∧
    (noNewline ("default:group:" ++ fmtInt n ++ m) = true ∧
      isNamedGroupLine true ("default:group:" ++ fmtInt n ++ m) = true ∧
      isNamedGroupLine false ("default:group:" ++ fmtInt n ++ m) = false ∧
      isMaskLine false ("default:group:" ++ fmtInt n ++ m) = false ∧
      isMaskLine true ("default:group:" ++ fmtInt n ++ m) = false ∧
      lineMode ("default:group:" ++ fmtInt n ++ m) =
        String.mk (m.data.drop (m.data.length - 3))) := by
  obtain ⟨c, cs, hdata, hc⟩ := fmtInt_head n
  have hg : noNewline "group:" = true := by decide
  have hdg : noNewline "default:group:" = true := by decide
  refine ⟨⟨?_, ?_, ?_, ?_, ?_, lineMode_append _ _ hlen⟩,
    ⟨?_, ?_, ?_, ?_, ?_, lineMode_append _ _ hlen⟩⟩
  · rw [noNewline_append, noNewline_append, hg, fmtInt_noNewline, hm]; rfl
  · simp only [isNamedGroupLine, HasPrefix, String.data_append, Bool.false_eq_true,
      if_false, List.append_assoc, isPrefixOf_append_self, Bool.true_and]
    rw [hdata]
    simp [List.isPrefixOf, hc, Ne.symm hc]
  · simp only [isNamedGroupLine, HasPrefix, String.data_append, if_true]
    rfl
  · simp only [isMaskLine, HasPrefix, String.data_append, Bool.false_eq_true, if_false]
    rfl
  · simp only [isMaskLine, HasPrefix, String.data_append, if_true]
    rfl
  · rw [noNewline_append, noNewline_append, hdg, fmtInt_noNewline, hm]; rfl
  · simp only [isNamedGroupLine, HasPrefix, String.data_append, if_true,
      List.append_assoc, isPrefixOf_append_self, Bool.true_and]
    rw [hdata]
    simp [List.isPrefixOf, hc, Ne.symm hc]
  · simp only [isNamedGroupLine, HasPrefix, String.data_append, Bool.false_eq_true,
      if_false]
    rfl
  · simp only [isMaskLine, HasPrefix, String.data_append, Bool.false_eq_true, if_false]
    rfl
  · simp only [isMaskLine, HasPrefix, String.data_append, if_true]
    rfl

theorem namedGroupLine_rwx (n : Int) :
    (noNewline ("group:" ++ fmtInt n ++ ":rwx") = true ∧
      isNamedGroupLine false ("group:" ++ fmtInt n ++ ":rwx") = true ∧
      isNamedGroupLine true ("group:" ++ fmtInt n ++ ":rwx") = false ∧
      isMaskLine false ("group:" ++ fmtInt n ++ ":rwx") = false ∧
      isMaskLine true ("group:" ++ fmtInt n ++ ":rwx") = false ∧
      lineMode ("group:" ++ fmtInt n ++ ":rwx") = "rwx") ∧
    (noNewline ("default:group:" ++ fmtInt n ++ ":rwx") = true ∧
      isNamedGroupLine true ("default:group:" ++ fmtInt n ++ ":rwx") = true ∧
      isNamedGroupLine false ("default:group:" ++ fmtInt n ++ ":rwx") = false ∧
      isMaskLine false ("default:group:" ++ fmtInt n ++ ":rwx") = false ∧
      isMaskLine true ("default:group:" ++ fmtInt n ++ ":rwx") = false ∧
      lineMode ("default:group:" ++ fmtInt n ++ ":rwx") = "rwx") := by
  have h := namedGroupLine n ":rwx" (by decide) (by decide)
  have e : String.mk ((":rwx" : String).data.drop ((":rwx" : String).data.length - 3)) =
      "rwx" := by decide
  rw [e] at h
  exact h

theorem namedGroupLine_rx (n : Int) :
    (noNewline ("group:" ++ fmtInt n ++ ":r-x") = true ∧
      isNamedGroupLine false ("group:" ++ fmtInt n ++ ":r-x") = true ∧
      isNamedGroupLine true ("group:" ++ fmtInt n ++ ":r-x") = false ∧
      isMaskLine false ("group:" ++ fmtInt n ++ ":r-x") = false ∧
      isMaskLine true ("group:" ++ fmtInt n ++ ":r-x") = false ∧
      lineMode ("group:" ++ fmtInt n ++ ":r-x") = "r-x") ∧
    (noNewline ("default:group:" ++ fmtInt n ++ ":r-x") = true ∧
      isNamedGroupLine true ("default:group:" ++ fmtInt n ++ ":r-x") = true ∧
      isNamedGroupLine false ("default:group:" ++ fmtInt n ++ ":r-x") = false ∧
      isMaskLine false ("default:group:" ++ fmtInt n ++ ":r-x") = false ∧
      isMaskLine true ("default:group:" ++ fmtInt n ++ ":r-x") = false ∧
      lineMode ("default:group:" ++ fmtInt n ++ ":r-x") = "r-x") := by
  have h := namedGroupLine n ":r-x" (by decide) (by decide)
  have e : String.mk ((":r-x" : String).data.drop ((":r-x" : String).data.length - 3)) =
      "r-x" := by decide
  rw [e] at h
  exact h

theorem OrgUnitACL_modes (a : OrgUnitACL) :
    HasGroupModes a.FACLString 1 "r-x" "r-x" := by
  unfold OrgUnitACL.FACLString
  have hc : ("# owner: " ++ fmtInt a.Uid).data.head? = some '#' := by
    rw [String.data_append]; rfl
  have hl := (aclLines_template
    [ "# owner: " ++ fmtInt a.Uid,
      "# group: " ++ fmtInt a.Gid,
      "# flags: -s-",
      "user::rwx",
      "group::---",
      "group:" ++ fmtInt a.Gid ++ ":r-x",
      "mask::r-x",
      "other::---",
      "default:user::rwx",
      "default:group::---",
      "default:group:" ++ fmtInt a.Gid ++ ":r-x",
      "default:mask::r-x",
      "default:other::---" ]
    ("# owner: " ++ fmtInt a.Uid) "default:other::---" '#' '-' rfl rfl hc
    (by decide) (by decide) (by decide)
    (by simp only [List.all_cons, List.all_nil, closedLines_noNewline,
          headerLines_noNewline, namedGroupLine_rwx, namedGroupLine_rx, Bool.and_self])).2
  unfold HasGroupModes namedGroupModes maskModes
  simp only [hl, List.filter_cons, List.filter_nil, closedLines_namedGroup,
    closedLines_mask, maskLines, headerLines, namedGroupLine_rwx, namedGroupLine_rx,
    if_true, if_false, Bool.false_eq_true, List.map_cons, List.map_nil,
    List.replicate, and_self]

theorem SubdirGroupACL_modes (a : SubdirGroupACL) :
    HasGroupModes a.FACLString 1 "rwx" "rwx" := by
  unfold SubdirGroupACL.FACLString
  have hc : ("# owner: " ++ fmtInt a.Uid).data.head? = some '#' := by
    rw [String.data_append]; rfl
  have hl := (aclLines_template
    [ "# owner: " ++ fmtInt a.Uid,
      "# group: " ++ fmtInt a.Gid,
      "# flags: -s-",
      "user::rwx",
      "group::---",
      "group:" ++ fmtInt a.Gid ++ ":rwx",
      "mask::rwx",
      "other::---",
      "default:user::rwx",
      "default:group::---",
      "default:group:" ++ fmtInt a.Gid ++ ":rwx",
      "default:mask::rwx",
      "default:other::---" ]
    ("# owner: " ++ fmtInt a.Uid) "default:other::---" '#' '-' rfl rfl hc
    (by decide) (by decide) (by decide)
    (by simp only [List.all_cons, List.all_nil, closedLines_noNewline,
          headerLines_noNewline, namedGroupLine_rwx, namedGroupLine_rx, Bool.and_self])).2
  unfold HasGroupModes namedGroupModes maskModes
  simp only [hl, List.filter_cons, List.filter_nil, closedLines_namedGroup,
    closedLines_mask, maskLines, headerLines, namedGroupLine_rwx, namedGroupLine_rx,
    if_true, if_false, Bool.false_eq_true, List.map_cons, List.map_nil,
    List.replicate, and_self]

theorem SubdirOwnerACL_modes (a : SubdirOwnerACL) :
    HasGroupModes a.FACLString 1 "rwx" "r-x" := by
  unfold SubdirOwnerACL.FACLString
  have hc : ("# owner: " ++ fmtInt a.Uid).data.head? = some '#' := by
    rw [String.data_append]; rfl
  have hl := (aclLines_template
    [ "# owner: " ++ fmtInt a.Uid,
      "# group: " ++ fmtInt a.Gid,
      "# flags: -s-",
      "user::rwx",
      "group::---",
      "group:" ++ fmtInt a.Gid ++ ":rwx",
      "mask::rwx",
      "other::---",
      "default:user::rwx",
      "default:group::---",
      "default:group:" ++ fmtInt a.Gid ++ ":r-x",
      "default:mask::r-x",
      "default:other::---" ]
    ("# owner: " ++ fmtInt a.Uid) "default:other::---" '#' '-' rfl rfl hc
    (by decide) (by decide) (by decide)
    (by simp only [List.all_cons, List.all_nil, closedLines_noNewline,
          headerLines_noNewline, namedGroupLine_rwx, namedGroupLine_rx, Bool.and_self])).2
  unfold HasGroupModes namedGroupModes maskModes
  simp only [hl, List.filter_cons, List.filter_nil, closedLines_namedGroup,
    closedLines_mask, maskLines, headerLines, namedGroupLine_rwx, namedGroupLine_rx,
    if_true, if_false, Bool.false_eq_true, List.map_cons, List.map_nil,
    List.replicate, and_self]

theorem SubdirManagerACL_modes (a : SubdirManagerACL) :
    HasGroupModes a.FACLString 1 "r-x" "r-x" := by
  unfold SubdirManagerACL.FACLString
  have hc : ("# owner: " ++ fmtInt a.Uid).data.head? = some '#' := by
    rw [String.data_append]; rfl
  have hl := (aclLines_template
    [ "# owner: " ++ fmtInt a.Uid,
      "# group: " ++ fmtInt a.Gid,
      "# flags: -s-",
      "user::rwx",
      "group::---",
      "group:" ++ fmtInt a.Gid ++ ":r-x",
      "mask::r-x",
      "other::---",
      "default:user::rwx",
      "default:group::---",
      "default:group:" ++ fmtInt a.Gid ++ ":r-x",
      "default:mask::r-x",
      "default:other::---" ]
    ("# owner: " ++ fmtInt a.Uid) "default:other::---" '#' '-' rfl rfl hc
    (by decide) (by decide) (by decide)
    (by simp only [List.all_cons, List.all_nil, closedLines_noNewline,
          headerLines_noNewline, namedGroupLine_rwx, namedGroupLine_rx, Bool.and_self])).2
  unfold HasGroupModes namedGroupModes maskModes
  simp only [hl, List.filter_cons, List.filter_nil, closedLines_namedGroup,
    closedLines_mask, maskLines, headerLines, namedGroupLine_rwx, namedGroupLine_rx,
    if_true, if_false, Bool.false_eq_true, List.map_cons, List.map_nil,
    List.replicate, and_self]

theorem ServiceOrgUnitACL_modes (a : ServiceOrgUnitACL) :
    HasGroupModes a.FACLString 2 "rwx" "rwx" := by
  unfold ServiceOrgUnitACL.FACLString
  simp only
  generalize (sortInts [a.OrgUnitGid, a.ServiceOpsGid]).getD 0 0 = g0
  generalize (sortInts [a.OrgUnitGid, a.ServiceOpsGid]).getD 1 0 = g1
  have hc : ("# owner: " ++ fmtInt a.Uid).data.head? = some '#' := by
    rw [String.data_append]; rfl
  have hl := (aclLines_template
    [ "# owner: " ++ fmtInt a.Uid,
      "# group: " ++ fmtInt a.OrgUnitGid,
      "# flags: -s-",
      "user::rwx",
      "group::---",
      "group:" ++ fmtInt g0 ++ ":rwx",
      "group:" ++ fmtInt g1 ++ ":rwx",
      "mask::rwx",
      "other::---",
      "default:user::rwx",
      "default:group::---",
      "default:group:" ++ fmtInt g0 ++ ":rwx",
      "default:group:" ++ fmtInt g1 ++ ":rwx",
      "default:mask::rwx",
      "default:other::---" ]
    ("# owner: " ++ fmtInt a.Uid) "default:other::---" '#' '-' rfl rfl hc
    (by decide) (by decide) (by decide)
    (by simp only [List.all_cons, List.all_nil, closedLines_noNewline,
          headerLines_noNewline, namedGroupLine_rwx, namedGroupLine_rx, Bool.and_self])).2
  unfold HasGroupModes namedGroupModes maskModes
  simp only [hl, List.filter_cons, List.filter_nil, closedLines_namedGroup,
    closedLines_mask, maskLines, headerLines, namedGroupLine_rwx, namedGroupLine_rx,
    if_true, if_false, Bool.false_eq_true, List.map_cons, List.map_nil,
    List.replicate, and_self]

theorem ServiceACL_perService_modes (uid sg og sup : Int) :
    ∃ t, ServiceACL.FACLString ⟨uid, sg, og, sup, bcp.AccessPolicy.AccessPerService⟩ =
        Result.ok t ∧ HasGroupModes t 2 "r-x" "r-x" := by
  refine ⟨_, rfl, ?_⟩
  simp only
  generalize (sortInts [sg, og]).getD 0 0 = g0
  generalize (sortInts [sg, og]).getD 1 0 = g1
  have hc : ("# owner: " ++ fmtInt uid).data.head? = some '#' := by
    rw [String.data_append]; rfl
  have hl := (aclLines_template
    [ "# owner: " ++ fmtInt uid,
      "# group: " ++ fmtInt sg,
      "user::rwx",
      "group::---",
      "group:" ++ fmtInt g0 ++ ":r-x",
      "group:" ++ fmtInt g1 ++ ":r-x",
      "mask::r-x",
      "other::---",
      "default:user::rwx",
      "default:group::---",
      "default:group:" ++ fmtInt g0 ++ ":r-x",
      "default:group:" ++ fmtInt g1 ++ ":r-x",
      "default:mask::r-x",
      "default:other::---" ]
    ("# owner: " ++ fmtInt uid) "default:other::---" '#' '-' rfl rfl hc
    (by decide) (by decide) (by decide)
    (by simp only [List.all_cons, List.all_nil, closedLines_noNewline,
          headerLines_noNewline, namedGroupLine_rwx, namedGroupLine_rx, Bool.and_self])).2
  unfold HasGroupModes namedGroupModes maskModes
  simp only [hl, List.filter_cons, List.filter_nil, closedLines_namedGroup,
    closedLines_mask, maskLines, headerLines, namedGroupLine_rwx, namedGroupLine_rx,
    if_true, if_false, Bool.false_eq_true, List.map_cons, List.map_nil,
    List.replicate, and_self]

theorem ServiceACL_allOrgUnits_modes (uid sg og sup : Int) :
    ∃ t, ServiceACL.FACLString ⟨uid, sg, og, sup, bcp.AccessPolicy.AccessAllOrgUnits⟩ =
        Result.ok t ∧ HasGroupModes t 1 "r-x" "r-x" := by
  refine ⟨_, rfl, ?_⟩
  have hc : ("# owner: " ++ fmtInt uid).data.head? = some '#' := by
    rw [String.data_append]; rfl
  have hl := (aclLines_template
    [ "# owner: " ++ fmtInt uid,
      "# group: " ++ fmtInt sg,
      "user::rwx",
      "group::---",
      "group:" ++ fmtInt sup ++ ":r-x",
      "mask::r-x",
      "other::---",
      "default:user::rwx",
      "default:group::---",
      "default:group:" ++ fmtInt sup ++ ":r-x",
      "default:mask::r-x",
      "default:other::---" ]
    ("# owner: " ++ fmtInt uid) "default:other::---" '#' '-' rfl rfl hc
    (by decide) (by decide) (by decide)
    (by simp only [List.all_cons, List.all_nil, closedLines_noNewline,
          headerLines_noNewline, namedGroupLine_rwx, namedGroupLine_rx, Bool.and_self])).2
  unfold HasGroupModes namedGroupModes maskModes
  simp only [hl, List.filter_cons, List.filter_nil, closedLines_namedGroup,
    closedLines_mask, maskLines, headerLines, namedGroupLine_rwx, namedGroupLine_rx,
    if_true, if_false, Bool.false_eq_true, List.map_cons, List.map_nil,
    List.replicate, and_self]

end fsck

open fsck in
/-- C5: for every uid and gids, in the expected ACL text of every directory kind
the named group entries of the normal block all carry the mode of the mask
of that block, and likewise in the default block: `r-x` in both blocks for
`ServiceACL` (two entries under `perService`, one under `allOrgUnits`),
`OrgUnitACL` and `SubdirManagerACL`; `rwx` in both blocks for
`ServiceOrgUnitACL` (two entries) and `SubdirGroupACL`; and for
`SubdirOwnerACL` `rwx` in the normal block but `r-x` in the default block. -/
theorem FACLString_group_modes :
    (∀ uid sg og sup : Int,
      ∃ t, ServiceACL.FACLString ⟨uid, sg, og, sup, bcp.AccessPolicy.AccessPerService⟩ =
          Result.ok t ∧ HasGroupModes t 2 "r-x" "r-x") ∧
    (∀ uid sg og sup : Int,
      ∃ t, ServiceACL.FACLString ⟨uid, sg, og, sup, bcp.AccessPolicy.AccessAllOrgUnits⟩ =
          Result.ok t ∧ HasGroupModes t 1 "r-x" "r-x") ∧
    (∀ a : OrgUnitACL, HasGroupModes a.FACLString 1 "r-x" "r-x") ∧
    (∀ a : SubdirManagerACL, HasGroupModes a.FACLString 1 "r-x" "r-x") ∧
    (∀ a : ServiceOrgUnitACL, HasGroupModes a.FACLString 2 "rwx" "rwx") ∧
    (∀ a : SubdirGroupACL, HasGroupModes a.FACLString 1 "rwx" "rwx") ∧
    (∀ a : SubdirOwnerACL, HasGroupModes a.FACLString 1 "rwx" "r-x") :=
  ⟨ServiceACL_perService_modes, ServiceACL_allOrgUnits_modes, OrgUnitACL_modes,
    SubdirManagerACL_modes, ServiceOrgUnitACL_modes, SubdirGroupACL_modes,
    SubdirOwnerACL_modes⟩

/-! ### Selection of groups and validation of filter rules -/

/-- C15: `SelectGroups` returns exactly the groups whose name starts with one of
the prefixes or equals one of the names in `equals`: it is the filter of the
input by that condition, hence a subsequence in input order, and every
selected group occurs as often as in the input. -/
theorem SelectGroups_spec (groups : List grp.Group) (prefixes equals : List String) :
    grp.SelectGroups groups prefixes equals =
      groups.filter (fun g =>
        decide ((∃ p ∈ prefixes, p.data <+: g.Name.data) ∨ g.Name ∈ equals)) ∧
    List.Sublist (grp.SelectGroups groups prefixes equals) groups ∧
    (∀ g, g ∈ grp.SelectGroups groups prefixes equals ↔
      g ∈ groups ∧ ((∃ p ∈ prefixes, p.data <+: g.Name.data) ∨ g.Name ∈ equals)) ∧
    (∀ g, (grp.SelectGroups groups prefixes equals).count g =
      if (∃ p ∈ prefixes, p.data <+: g.Name.data) ∨ g.Name ∈ equals
      then groups.count g else 0) := by
  have hpred : ∀ g : grp.Group,
      (equals.any (fun e => decide (e = g.Name)) ||
        prefixes.any (fun p => HasPrefix g.Name p)) =
      decide ((∃ p ∈ prefixes, p.data <+: g.Name.data) ∨ g.Name ∈ equals) := by
    intro g
    rw [Bool.eq_iff_iff]
    simp only [Bool.or_eq_true, List.any_eq_true, decide_eq_true_eq, HasPrefix,
      List.isPrefixOf_iff_prefix]
    constructor
    · rintro (⟨e, he, rfl⟩ | ⟨p, hp, hpre⟩)
      · exact Or.inr he
      · exact Or.inl ⟨p, hp, hpre⟩
    · rintro (⟨p, hp, hpre⟩ | he)
      · exact Or.inr ⟨p, hp, hpre⟩
      · exact Or.inl ⟨g.Name, he, rfl⟩
  have heq : grp.SelectGroups groups prefixes equals =
      groups.filter (fun g =>
        decide ((∃ p ∈ prefixes, p.data <+: g.Name.data) ∨ g.Name ∈ equals)) := by
    unfold grp.SelectGroups
    congr 1
    funext g
    exact hpred g
  refine ⟨heq, ?_, ?_, ?_⟩
  · rw [heq]
    exact List.filter_sublist _
  · intro g
    rw [heq, List.mem_filter]
    simp
  · intro g
    rw [heq]
    by_cases h : (∃ p ∈ prefixes, p.data <+: g.Name.data) ∨ g.Name ∈ equals
    · rw [List.count_filter (by simpa using h)]
      simp only [h, if_true]
    · simp only [h, if_false]
      rw [List.count_eq_zero, List.mem_filter]
      rintro ⟨-, hg⟩
      exact h (by simpa using hg)

open bcpcfg in
/-- C16: `ValidateFilterRule` fails exactly when the action is neither `accept`
nor `reject`, or `service` and `services` are both given or both missing, or
`orgUnit` and `orgUnits` are both given or both missing; the error is that
of the first violated condition in this order; on success the rule keeps
the action, `Services` is `[service]` when the singular form is given and
`services` otherwise, `OrgUnits` likewise, and both lists are non-empty. -/
theorem ValidateFilterRule_spec (r : FilterRuleCfg) :
    ((∃ msg, (ValidateFilterRule r).2 = some msg) ↔
      ((r.Action ≠ "accept" ∧ r.Action ≠ "reject") ∨
        (r.Service ≠ "" ∧ r.Services ≠ []) ∨ (r.Service = "" ∧ r.Services = []) ∨
        (r.OrgUnit ≠ "" ∧ r.OrgUnits ≠ []) ∨ (r.OrgUnit = "" ∧ r.OrgUnits = []))) ∧
    ((ValidateFilterRule r).2 =
      if r.Action ≠ "accept" ∧ r.Action ≠ "reject" then some "Invalid action!"
      else if r.Service ≠ "" ∧ r.Services ≠ [] then
        some "Use either `service` or `services`!"
      else if r.Service = "" ∧ r.Services = [] then some "No service defined!"
      else if r.OrgUnit ≠ "" ∧ r.OrgUnits ≠ [] then
        some "Use either `orgUnit` or `orgUnits`!"
      else if r.OrgUnit = "" ∧ r.OrgUnits = [] then some "No orgUnit defined!"
      else none) ∧
    ((ValidateFilterRule r).2 = none →
      (ValidateFilterRule r).1.Action = r.Action ∧
      (r.Action = "accept" ∨ r.Action = "reject") ∧
      (ValidateFilterRule r).1.Services =
        (if r.Service ≠ "" then [r.Service] else r.Services) ∧
      (ValidateFilterRule r).1.OrgUnits =
        (if r.OrgUnit ≠ "" then [r.OrgUnit] else r.OrgUnits) ∧
      (ValidateFilterRule r).1.Services ≠ [] ∧
      (ValidateFilterRule r).1.OrgUnits ≠ []) := by
  have hlen : ∀ l : List String, (l.length > 0 ↔ l ≠ []) ∧ (l.length = 0 ↔ l = []) := by
    intro l
    cases l <;> simp
  unfold ValidateFilterRule
  by_cases h1 : r.Action ≠ "accept" ∧ r.Action ≠ "reject"
  · simp [h1]
  · by_cases h2 : r.Service ≠ "" ∧ r.Services ≠ []
    · simp [h1, h2, (hlen r.Services).1]
    · by_cases h3 : r.Service = "" ∧ r.Services = []
      · simp [h1, h2, h3]
      · by_cases h4 : r.OrgUnit ≠ "" ∧ r.OrgUnits ≠ []
        · simp [h1, h2, h3, h4, (hlen r.Services).1, (hlen r.Services).2,
            (hlen r.OrgUnits).1]
        · by_cases h5 : r.OrgUnit = "" ∧ r.OrgUnits = []
          · simp [h1, h2, h3, h4, h5, (hlen r.Services).1, (hlen r.Services).2]
          · simp only [h1, h2, h3, h4, h5, (hlen r.Services).1, (hlen r.Services).2,
              (hlen r.OrgUnits).1, (hlen r.OrgUnits).2, if_false, or_self, iff_false,
              not_exists, reduceCtorEq, not_false_eq_true, implies_true, true_and,
              forall_true_left]
            have hact : r.Action = "accept" ∨ r.Action = "reject" := by
              by_cases ha : r.Action = "accept"
              · exact Or.inl ha
              · by_cases hr : r.Action = "reject"
                · exact Or.inr hr
                · exact absurd ⟨ha, hr⟩ h1
            by_cases hs : r.Service = "" <;> by_cases ho : r.OrgUnit = "" <;>
              simp_all

/-! ### Configured and unconfigured services -/

namespace bcp

theorem facilityBySrv_isSome (cfg : bcpcfg.Root) (n : String) :
    (GoMap.get (facilityBySrv cfg) n).isSome = isConfiguredService cfg n := by
  rw [facilityBySrv_get_eq, Bool.eq_iff_iff]
  simp only [Option.isSome_map', List.find?_isSome, List.mem_reverse, isConfiguredService,
    List.any_eq_true]

theorem parseServicesLoop_partition (cfg : bcpcfg.Root) (gm : GroupMap)
    (fbs : GoMap String FacilityAccess) (names : List String) (srvs : List Service)
    (unconf : List String) (out : List Service) (unconf' : List String)
    (h : parseServicesLoop cfg gm fbs names srvs unconf = Result.ok (out, unconf')) :
    out.map (fun s => s.Name) =
      srvs.map (fun s => s.Name) ++ names.filter (fun n => (GoMap.get fbs n).isSome) ∧
    unconf' =
      unconf ++ (names.filter (fun n => !(GoMap.get fbs n).isSome)).map missingFacilityMsg := by
  induction names generalizing srvs unconf with
  | nil =>
    simp only [parseServicesLoop] at h
    injection h with h
    injection h with h1 h2
    subst h1 h2
    simp
  | cons n rest ih =>
    simp only [parseServicesLoop] at h
    split at h
    · rename_i hnone
      obtain ⟨h1, h2⟩ := ih _ _ h
      simp [h1, h2, hnone, List.filter_cons, missingFacilityMsg]
    · rename_i fa hfa
      split at h
      · cases h
      · rename_i access hacc
        split at h
        · cases h
        · split at h
          · cases h
          · rename_i g hg
            split at h
            · cases h
            · cases h
            · rename_i srv hsrv
              split at h
              · cases h
              · rename_i og hog
                have hname : srv.Name = n := by
                  by_cases hsg : cfg.SuperGroup = ""
                  · simp only [ne_eq, hsg, not_true_eq_false, if_false] at hsrv
                    injection hsrv with hsrv
                    subst hsrv
                    rfl
                  · simp only [ne_eq, hsg, not_false_eq_true, if_true] at hsrv
                    split at hsrv
                    · cases hsrv
                    · injection hsrv with hsrv
                      subst hsrv
                      rfl
                obtain ⟨h1, h2⟩ := ih _ _ h
                simp [h1, h2, hfa, hname, List.filter_cons]

theorem parseServiceNames_eq (groups : List grp.Group) (cfg : bcpcfg.Root) :
    parseServiceNames groups cfg =
      (groups.filter (fun g =>
        HasPrefix g.Name (cfg.ServicePrefix ++ "_") &&
          !HasSuffix g.Name ("-" ++ cfg.OpsSuffix))).map
        (fun g => sliceFrom g.Name (cfg.ServicePrefix ++ "_").data.length) := by
  unfold parseServiceNames
  simp only
  induction groups with
  | nil => rfl
  | cons g rest ih =>
    by_cases hp : HasPrefix g.Name (cfg.ServicePrefix ++ "_") = true
    · by_cases hs : HasSuffix g.Name ("-" ++ cfg.OpsSuffix) = true
      · simp only [List.filterMap_cons, List.filter_cons, hp, hs, Bool.not_true,
          Bool.and_false, Bool.false_eq_true, if_false, if_true]
        exact ih
      · simp only [List.filterMap_cons, List.filter_cons, hp, hs, Bool.not_true,
          Bool.not_false, Bool.and_true, Bool.false_eq_true, if_false, if_true,
          List.map_cons]
        rw [ih]
    · simp only [List.filterMap_cons, List.filter_cons, hp, Bool.not_false,
        Bool.false_and, Bool.false_eq_true, if_false, if_true]
      exact ih

end bcp

/-- C11: whenever `bcp.New` succeeds, the service names parsed from the groups
(the names of the groups that start with `<service_prefix>_` and do not end
in `-<ops_suffix>`, without the prefix, in group order) split into two
parts: the names listed under some configured facility are exactly the
names of the returned services, in order; each other name contributes
exactly one message to the list of unconfigured services, in order, and is
not the name of a returned service. -/
theorem New_services_partition (groups : List grp.Group) (cfg : bcpcfg.Root)
    (org : bcp.Organization) (unconf : List String)
    (h : bcp.New groups cfg = Result.ok (org, unconf)) :
    bcp.parseServiceNames groups cfg =
      (groups.filter (fun g =>
        HasPrefix g.Name (cfg.ServicePrefix ++ "_") &&
          !HasSuffix g.Name ("-" ++ cfg.OpsSuffix))).map
        (fun g => sliceFrom g.Name (cfg.ServicePrefix ++ "_").data.length) ∧
    (∀ g ∈ groups, HasPrefix g.Name (cfg.ServicePrefix ++ "_") = true →
      g.Name = cfg.ServicePrefix ++ "_" ++
        sliceFrom g.Name (cfg.ServicePrefix ++ "_").data.length) ∧
    org.Services.map (fun s => s.Name) =
      (bcp.parseServiceNames groups cfg).filter (fun n => bcp.isConfiguredService cfg n) ∧
    unconf =
      ((bcp.parseServiceNames groups cfg).filter
        (fun n => !bcp.isConfiguredService cfg n)).map bcp.missingFacilityMsg ∧
    (∀ n ∈ bcp.parseServiceNames groups cfg, bcp.isConfiguredService cfg n = false →
      n ∉ org.Services.map (fun s => s.Name)) ∧
    (∀ n, bcp.isConfiguredService cfg n = true ↔ ∃ f ∈ cfg.Facilities, n ∈ f.Services) := by
  obtain ⟨ous, srvs, -, hsrvs, horg⟩ := bcp.New_ok_inv groups cfg org unconf h
  subst horg
  have hloop := bcp.parseServices_ok_inv _ _ _ _ _ hsrvs
  obtain ⟨h1, h2⟩ := bcp.parseServicesLoop_partition _ _ _ _ _ _ _ _ hloop
  simp only [List.map_nil, List.nil_append, bcp.facilityBySrv_isSome] at h1 h2
  have hnames : (bcp.parseGroupNames groups cfg).Services =
      bcp.parseServiceNames groups cfg := rfl
  rw [hnames] at h1 h2
  refine ⟨?_, ?_, h1, h2, ?_, ?_⟩
  · exact bcp.parseServiceNames_eq groups cfg
  · intro g _ hp
    exact HasPrefix_eq_append _ _ hp
  · intro n _ hn hmem
    rw [h1, List.mem_filter] at hmem
    rw [hn] at hmem
    exact absurd hmem.2 (by decide)
  · intro n
    simp [bcp.isConfiguredService]

theorem New_services_partition_witness :
    bcp.New Examples.groupsWithUnconfigured S1.cfg =
      Result.ok (Examples.orgWithUnconfigured, ["Missing facility for service `tem`."]) ∧
    bcp.parseServiceNames Examples.groupsWithUnconfigured S1.cfg = ["tem", "mic1"] ∧
    Examples.orgWithUnconfigured.Services.map (fun s => s.Name) =
      (bcp.parseServiceNames Examples.groupsWithUnconfigured S1.cfg).filter
        (fun n => bcp.isConfiguredService S1.cfg n) ∧
    ["Missing facility for service `tem`."] =
      ((bcp.parseServiceNames Examples.groupsWithUnconfigured S1.cfg).filter
        (fun n => !bcp.isConfiguredService S1.cfg n)).map bcp.missingFacilityMsg :=
  ⟨rfl, rfl,
    (New_services_partition Examples.groupsWithUnconfigured S1.cfg
      Examples.orgWithUnconfigured ["Missing facility for service `tem`."] rfl).2.2.1,
    (New_services_partition Examples.groupsWithUnconfigured S1.cfg
      Examples.orgWithUnconfigured ["Missing facility for service `tem`."] rfl).2.2.2.1⟩

/-! ### Removal of duplicate groups -/

theorem GoMap_get_set_key {K V : Type} [DecidableEq K] (m : GoMap K V) (k : K) (v : V)
    (k' : K) : GoMap.get (m.set k v) k' = if k = k' then some v else GoMap.get m k' := by
  simp [GoMap.set, GoMap.get]

namespace grp

theorem Conflict_iff (a b : Group) :
    Conflict a b ↔ (a.Name = b.Name ∨ a.Gid = b.Gid) ∧ a ≠ b := by
  cases a with
  | mk an ag =>
    cases b with
    | mk bn bg =>
      simp only [Conflict, Group.mk.injEq, ne_eq]
      tauto

theorem not_Conflict_self (a : Group) : ¬ Conflict a a := by
  simp [Conflict]

theorem Conflict_symm {a b : Group} (h : Conflict a b) : Conflict b a := by
  rw [Conflict_iff] at *
  exact ⟨h.1.imp Eq.symm Eq.symm, fun e => h.2 e.symm⟩

theorem keepFirst_snoc (l : List Group) (g : Group) :
    keepFirst (l ++ [g]) = if g ∈ l then keepFirst l else keepFirst l ++ [g] := by
  induction l with
  | nil => simp [keepFirst]
  | cons x l ih =>
    have e : keepFirst (x :: l ++ [g]) =
        x :: (keepFirst (l ++ [g])).filter (fun y => decide (y ≠ x)) := rfl
    rw [e, ih]
    simp only [keepFirst]
    by_cases hx : g = x
    · subst hx
      by_cases hm : g ∈ l <;> simp [hm, List.filter_append]
    · by_cases hm : g ∈ l <;> simp [hm, hx, List.filter_append]

theorem mem_keepFirst (l : List Group) (g : Group) : g ∈ keepFirst l ↔ g ∈ l := by
  induction l with
  | nil => simp [keepFirst]
  | cons x l ih =>
    simp only [keepFirst, List.mem_cons, List.mem_filter, ih, decide_eq_true_eq]
    by_cases h : g = x <;> simp [h]

theorem keepFirst_nodup (l : List Group) : (keepFirst l).Nodup := by
  induction l with
  | nil => simp [keepFirst]
  | cons x l ih =>
    simp only [keepFirst, List.nodup_cons, List.mem_filter, decide_eq_true_eq, ne_eq,
      not_true_eq_false, and_false, not_false_eq_true, true_and]
    exact ih.filter _

theorem keepFirst_sublist (l : List Group) : (keepFirst l).Sublist l := by
  induction l with
  | nil => simp [keepFirst]
  | cons x l ih =>
    simp only [keepFirst]
    exact List.Sublist.cons₂ x ((List.filter_sublist _).trans ih)

theorem keepFirst_append_of_subset (l m : List Group) (h : ∀ x ∈ m, x ∈ l) :
    keepFirst (l ++ m) = keepFirst l := by
  induction m generalizing l with
  | nil => simp
  | cons x m ih =>
    have hx : x ∈ l := h x (List.mem_cons_self _ _)
    have e : l ++ x :: m = (l ++ [x]) ++ m := by simp
    rw [e, ih (l ++ [x]) (fun y hy => List.mem_append_left _ (h y (List.mem_cons_of_mem _ hy))),
      keepFirst_snoc, if_pos hx]

end grp

namespace grp

theorem find?_snoc_of_mem (pre : List Group) (g : Group) (p : Group → Bool) (h : g ∈ pre) :
    (pre ++ [g]).find? p = pre.find? p := by
  rw [List.find?_append]
  cases hp : p g with
  | false => simp [List.find?, hp]
  | true =>
    have : (pre.find? p).isSome = true := List.find?_isSome.mpr ⟨g, h, hp⟩
    cases hf : pre.find? p with
    | none => rw [hf] at this; cases this
    | some s => rfl

theorem firstSeen_some {pre : List Group} {g s : Group} (h : firstSeen pre g = some s) :
    s ∈ pre ∧ (s.Name = g.Name ∨ s.Gid = g.Gid) := by
  unfold firstSeen at h
  split at h
  · rename_i seen hseen
    injection h with h
    subst h
    exact ⟨List.mem_of_find?_eq_some hseen, Or.inl (by simpa using List.find?_some hseen)⟩
  · exact ⟨List.mem_of_find?_eq_some h, Or.inr (by simpa using List.find?_some h)⟩

theorem firstSeen_none {pre : List Group} {g : Group} (h : firstSeen pre g = none) :
    ∀ x ∈ pre, x.Name ≠ g.Name ∧ x.Gid ≠ g.Gid := by
  unfold firstSeen at h
  split at h
  · cases h
  · rename_i hname
    intro x hx
    exact ⟨by simpa using List.find?_eq_none.mp hname x hx,
      by simpa using List.find?_eq_none.mp h x hx⟩

theorem isDuplicate_eq (pre : List Group) (byName : GoMap String Group)
    (byGid : GoMap Int Group) (g : Group)
    (hN : ∀ n, GoMap.get byName n = pre.find? (fun x => decide (x.Name = n)))
    (hG : ∀ i, GoMap.get byGid i = pre.find? (fun x => decide (x.Gid = i))) :
    isDuplicate byName byGid g =
      match firstSeen pre g with
      | some seen => if g ≠ seen then (true, some (errConflict seen g)) else (true, none)
      | none => (false, none) := by
  unfold isDuplicate firstSeen
  rw [hN, hG]
  cases pre.find? (fun x => decide (x.Name = g.Name)) with
  | some s => rfl
  | none =>
    cases pre.find? (fun x => decide (x.Gid = g.Gid)) with
    | some s => rfl
    | none => rfl

theorem dedupLoop_lift (pre rest : List Group) (g : Group) (R : Except String (List Group))
    (h : (R = Except.ok (keepFirst ((pre ++ [g]) ++ rest)) ∧
          ∀ x ∈ (pre ++ [g]) ++ rest, ∀ y ∈ (pre ++ [g]) ++ rest, ¬ Conflict x y) ∨
        (∃ mid a b post, rest = mid ++ b :: post ∧
          (∀ x ∈ (pre ++ [g]) ++ mid, ∀ y ∈ (pre ++ [g]) ++ mid, ¬ Conflict x y) ∧
          firstSeen ((pre ++ [g]) ++ mid) b = some a ∧ a ∈ (pre ++ [g]) ++ mid ∧
          Conflict a b ∧ R = Except.error (errConflict a b))) :
    (R = Except.ok (keepFirst (pre ++ g :: rest)) ∧
          ∀ x ∈ pre ++ g :: rest, ∀ y ∈ pre ++ g :: rest, ¬ Conflict x y) ∨
        (∃ mid a b post, g :: rest = mid ++ b :: post ∧
          (∀ x ∈ pre ++ mid, ∀ y ∈ pre ++ mid, ¬ Conflict x y) ∧
          firstSeen (pre ++ mid) b = some a ∧ a ∈ pre ++ mid ∧
          Conflict a b ∧ R = Except.error (errConflict a b)) := by
  have e : ∀ l : List Group, (pre ++ [g]) ++ l = pre ++ g :: l := by
    intro l
    simp
  rcases h with h | ⟨mid, a, b, post, h1, h2, h3, h4, h5, h6⟩
  · left
    rw [e] at h
    exact h
  · right
    rw [e] at h2 h3 h4
    exact ⟨g :: mid, a, b, post, by rw [h1]; rfl, h2, h3, h4, h5, h6⟩

theorem dedupLoop_spec (groups pre : List Group) (byName : GoMap String Group)
    (byGid : GoMap Int Group)
    (hN : ∀ n, GoMap.get byName n = pre.find? (fun x => decide (x.Name = n)))
    (hG : ∀ i, GoMap.get byGid i = pre.find? (fun x => decide (x.Gid = i)))
    (hfree : ∀ x ∈ pre, ∀ y ∈ pre, ¬ Conflict x y) :
    (dedupLoop groups byName byGid (keepFirst pre) = Except.ok (keepFirst (pre ++ groups)) ∧
          ∀ x ∈ pre ++ groups, ∀ y ∈ pre ++ groups, ¬ Conflict x y) ∨
        (∃ mid a b post, groups = mid ++ b :: post ∧
          (∀ x ∈ pre ++ mid, ∀ y ∈ pre ++ mid, ¬ Conflict x y) ∧
          firstSeen (pre ++ mid) b = some a ∧ a ∈ pre ++ mid ∧
          Conflict a b ∧
          dedupLoop groups byName byGid (keepFirst pre) = Except.error (errConflict a b)) := by
  induction groups generalizing pre byName byGid with
  | nil =>
    left
    simp only [dedupLoop, List.append_nil, true_and]
    exact hfree
  | cons g rest ih =>
    have hdup := isDuplicate_eq pre byName byGid g hN hG
    cases hfs : firstSeen pre g with
    | none =>
      rw [hfs] at hdup
      have hnone := firstSeen_none hfs
      have hg : g ∉ pre := fun hmem => (hnone g hmem).1 rfl
      have hstep : dedupLoop (g :: rest) byName byGid (keepFirst pre) =
          dedupLoop rest (byName.set g.Name g) (byGid.set g.Gid g)
            (keepFirst (pre ++ [g])) := by
        rw [keepFirst_snoc, if_neg hg]
        simp only [dedupLoop, hdup]
      rw [hstep]
      apply dedupLoop_lift
      apply ih
      · intro n
        rw [GoMap_get_set_key, hN, List.find?_append]
        by_cases hn : g.Name = n
        · have : pre.find? (fun x => decide (x.Name = n)) = none := by
            rw [List.find?_eq_none]
            intro x hx
            simpa [← hn] using (hnone x hx).1
          simp [this, hn, List.find?]
        · simp [hn, List.find?]
      · intro i
        rw [GoMap_get_set_key, hG, List.find?_append]
        by_cases hn : g.Gid = i
        · have : pre.find? (fun x => decide (x.Gid = i)) = none := by
            rw [List.find?_eq_none]
            intro x hx
            simpa [← hn] using (hnone x hx).2
          simp [this, hn, List.find?]
        · simp [hn, List.find?]
      · intro x hx y hy hc
        rw [Conflict_iff] at hc
        simp only [List.mem_append, List.mem_singleton] at hx hy
        rcases hx with hx | hx <;> rcases hy with hy | hy
        · exact hfree x hx y hy ((Conflict_iff x y).mpr hc)
        · subst hy
          rcases hc.1 with h | h
          · exact (hnone x hx).1 h
          · exact (hnone x hx).2 h
        · subst hx
          rcases hc.1 with h | h
          · exact (hnone y hy).1 h.symm
          · exact (hnone y hy).2 h.symm
        · exact hc.2 (hx.trans hy.symm)
    | some s =>
      rw [hfs] at hdup
      obtain ⟨hs, hshare⟩ := firstSeen_some hfs
      by_cases hgs : g = s
      · subst hgs
        have hstep : dedupLoop (g :: rest) byName byGid (keepFirst pre) =
            dedupLoop rest byName byGid (keepFirst (pre ++ [g])) := by
          rw [keepFirst_snoc, if_pos hs]
          simp only [dedupLoop, hdup, ne_eq, not_true_eq_false, if_false]
        rw [hstep]
        apply dedupLoop_lift
        apply ih
        · intro n
          rw [hN, find?_snoc_of_mem _ _ _ hs]
        · intro i
          rw [hG, find?_snoc_of_mem _ _ _ hs]
        · intro x hx y hy
          have hx' : x ∈ pre := by
            simp only [List.mem_append, List.mem_singleton] at hx
            rcases hx with hx | hx
            · exact hx
            · exact hx ▸ hs
          have hy' : y ∈ pre := by
            simp only [List.mem_append, List.mem_singleton] at hy
            rcases hy with hy | hy
            · exact hy
            · exact hy ▸ hs
          exact hfree x hx' y hy'
      · right
        refine ⟨[], s, g, rest, rfl, by simpa using hfree, by simpa using hfs,
          by simpa using hs, (Conflict_iff s g).mpr ⟨hshare, fun e => hgs e.symm⟩, ?_⟩
        simp only [dedupLoop, hdup, ne_eq, hgs, not_false_eq_true, if_true]

end grp

namespace grp

theorem DedupGroups_outcome (groups : List Group) :
    (DedupGroups groups = Except.ok (keepFirst groups) ∧
          ∀ x ∈ groups, ∀ y ∈ groups, ¬ Conflict x y) ∨
        (∃ pre a b post, groups = pre ++ b :: post ∧
          (∀ x ∈ pre, ∀ y ∈ pre, ¬ Conflict x y) ∧
          firstSeen pre b = some a ∧ a ∈ pre ∧ Conflict a b ∧
          DedupGroups groups = Except.error (errConflict a b)) := by
  have h := dedupLoop_spec groups [] [] [] (fun _ => rfl) (fun _ => rfl)
    (fun x hx => absurd hx (List.not_mem_nil x))
  simpa [DedupGroups, keepFirst] using h

end grp

/-- C13: for every list of groups, `DedupGroups` returns an error if and only
if the list contains two entries that agree on the name but differ in gid, or
agree on the gid but differ in name. The error is the text
`conflicting groups <gid of a>(<name of a>) and <gid of b>(<name of b>)`,
where `b` is the first entry of the list that conflicts with an entry before
it (the entries before `b` are free of conflicts, so `b` is also the first
entry that conflicts with `a`), and `a` is the entry seen before `b` that
`isDuplicate` finds: the first entry with the name of `b`, and the first
entry with the gid of `b` if no earlier entry has its name. The two examples
of the tests give `conflicting groups 1(foo) and 2(foo)` and
`conflicting groups 1(foo) and 1(bar)`. -/
theorem DedupGroups_error_iff (groups : List grp.Group) :
    ((∃ msg, grp.DedupGroups groups = Except.error msg) ↔
      ∃ a ∈ groups, ∃ b ∈ groups, grp.Conflict a b) ∧
    (∀ msg, grp.DedupGroups groups = Except.error msg →
      ∃ pre a b post, groups = pre ++ b :: post ∧ a ∈ pre ∧ grp.Conflict a b ∧
        msg = "conflicting groups " ++ fmtInt a.Gid ++ "(" ++ a.Name ++ ") and " ++
          fmtInt b.Gid ++ "(" ++ b.Name ++ ")" ∧
        (∀ x ∈ pre, ∀ y ∈ pre, ¬ grp.Conflict x y) ∧
        grp.firstSeen pre b = some a) ∧
    grp.DedupGroups [⟨"foo", 1⟩, ⟨"foo", 2⟩] =
      Except.error "conflicting groups 1(foo) and 2(foo)" ∧
    grp.DedupGroups [⟨"foo", 1⟩, ⟨"bar", 1⟩] =
      Except.error "conflicting groups 1(foo) and 1(bar)" ∧
    grp.DedupGroups [⟨"foo", 1⟩, ⟨"bar", 2⟩, ⟨"foo", 1⟩, ⟨"bar", 3⟩, ⟨"baz", 1⟩] =
      Except.error "conflicting groups 2(bar) and 3(bar)" := by
  refine ⟨?_, ?_, rfl, rfl, rfl⟩
  · rcases grp.DedupGroups_outcome groups with
      ⟨hok, hfree⟩ | ⟨pre, a, b, post, h1, h2, h3, h4, h5, h6⟩
    · refine ⟨?_, ?_⟩
      · rintro ⟨msg, hmsg⟩
        rw [hok] at hmsg
        cases hmsg
      · rintro ⟨a, ha, b, hb, hc⟩
        exact absurd hc (hfree a ha b hb)
    · refine ⟨fun _ => ⟨a, ?_, b, ?_, h5⟩, fun _ => ⟨_, h6⟩⟩
      · rw [h1]
        exact List.mem_append_left _ h4
      · rw [h1]
        simp
  · rcases grp.DedupGroups_outcome groups with
      ⟨hok, hfree⟩ | ⟨pre, a, b, post, h1, h2, h3, h4, h5, h6⟩
    · intro msg hmsg
      rw [hok] at hmsg
      cases hmsg
    · intro msg hmsg
      rw [h6] at hmsg
      injection hmsg with hmsg
      exact ⟨pre, a, b, post, h1, h4, h5, hmsg.symm, h2, h3⟩

/-- C14: for every list of groups on which `DedupGroups` succeeds,
`DedupGroups (groups ++ groups)` equals `DedupGroups groups`; the result is
the list that keeps each distinct entry at its first occurrence, a
subsequence of `groups` without repetition that has the same members; and
no two entries of the result share a name or share a gid. -/
theorem DedupGroups_ok_spec (groups res : List grp.Group)
    (h : grp.DedupGroups groups = Except.ok res) :
    grp.DedupGroups (groups ++ groups) = grp.DedupGroups groups ∧
    res = grp.keepFirst groups ∧
    res.Sublist groups ∧ res.Nodup ∧ (∀ g, g ∈ res ↔ g ∈ groups) ∧
    res.Pairwise (fun a b => a.Name ≠ b.Name ∧ a.Gid ≠ b.Gid) := by
  rcases grp.DedupGroups_outcome groups with ⟨hok, hfree⟩ | ⟨pre, a, b, post, h1, h2, h3, h4, h5, h6⟩
  · have hres : res = grp.keepFirst groups := by
      rw [hok] at h
      injection h with h
      exact h.symm
    subst hres
    refine ⟨?_, rfl, grp.keepFirst_sublist _, grp.keepFirst_nodup _,
      grp.mem_keepFirst _, ?_⟩
    · rcases grp.DedupGroups_outcome (groups ++ groups) with
        ⟨hok2, -⟩ | ⟨pre, a, b, post, h1, -, -, h4, h5, -⟩
      · rw [hok2, hok, grp.keepFirst_append_of_subset _ _ (fun _ hx => hx)]
      · exfalso
        have ha : a ∈ groups ++ groups := by
          rw [h1]
          exact List.mem_append_left _ h4
        have hb : b ∈ groups ++ groups := by
          rw [h1]
          simp
        exact hfree a (by simpa using ha) b (by simpa using hb) h5
    · refine (grp.keepFirst_nodup groups).imp_of_mem ?_
      intro a b ha hb hne
      have hnc := hfree a ((grp.mem_keepFirst _ _).mp ha) b ((grp.mem_keepFirst _ _).mp hb)
      rw [grp.Conflict_iff] at hnc
      exact ⟨fun e => hnc ⟨Or.inl e, hne⟩, fun e => hnc ⟨Or.inr e, hne⟩⟩
  · rw [h6] at h
    cases h

theorem DedupGroups_ok_spec_witness :
    grp.DedupGroups [⟨"foo", 1⟩, ⟨"bar", 2⟩, ⟨"foo", 1⟩, ⟨"baz", 3⟩, ⟨"bar", 2⟩] =
      Except.ok [⟨"foo", 1⟩, ⟨"bar", 2⟩, ⟨"baz", 3⟩] ∧
    grp.DedupGroups
        ([⟨"foo", 1⟩, ⟨"bar", 2⟩, ⟨"foo", 1⟩, ⟨"baz", 3⟩, ⟨"bar", 2⟩] ++
          [⟨"foo", 1⟩, ⟨"bar", 2⟩, ⟨"foo", 1⟩, ⟨"baz", 3⟩, ⟨"bar", 2⟩]) =
      grp.DedupGroups [⟨"foo", 1⟩, ⟨"bar", 2⟩, ⟨"foo", 1⟩, ⟨"baz", 3⟩, ⟨"bar", 2⟩] ∧
    ([⟨"foo", 1⟩, ⟨"bar", 2⟩, ⟨"baz", 3⟩] : List grp.Group) =
      grp.keepFirst [⟨"foo", 1⟩, ⟨"bar", 2⟩, ⟨"foo", 1⟩, ⟨"baz", 3⟩, ⟨"bar", 2⟩] :=
  ⟨rfl,
    (DedupGroups_ok_spec [⟨"foo", 1⟩, ⟨"bar", 2⟩, ⟨"foo", 1⟩, ⟨"baz", 3⟩, ⟨"bar", 2⟩]
      [⟨"foo", 1⟩, ⟨"bar", 2⟩, ⟨"baz", 3⟩] rfl).1,
    (DedupGroups_ok_spec [⟨"foo", 1⟩, ⟨"bar", 2⟩, ⟨"foo", 1⟩, ⟨"baz", 3⟩, ⟨"bar", 2⟩]
      [⟨"foo", 1⟩, ⟨"bar", 2⟩, ⟨"baz", 3⟩] rfl).2.1⟩

/-! ### Directories of org units -/

namespace bcp

theorem MustDirPolicy_valid (p : String) (h : ValidPolicy p) :
    MustDirPolicy p = Result.ok p := by
  rcases h with h | h | h <;> subst h <;> rfl

theorem foldl_checkName_err (c : String) (ns : List String) (st : DirCheck) (e : String)
    (h : st.checkErr = some e) : ns.foldl (checkName c) st = st := by
  induction ns with
  | nil => rfl
  | cons n rest ih =>
    have : checkName c st n = st := by
      unfold checkName
      rw [h]
    rw [List.foldl_cons, this, ih]

theorem foldl_checkName (c : String) (ns : List String) (st : DirCheck) (seen : List String)
    (herr : st.checkErr = none)
    (hused : ∀ n, (GoMap.get st.used n).isSome = decide (n ∈ seen)) :
    (ns.foldl (checkName c) st).checkErr =
      (firstDupFrom seen ns).map (duplicateDirMsg c) := by
  induction ns generalizing st seen with
  | nil => simpa [firstDupFrom] using herr
  | cons n rest ih =>
    rw [List.foldl_cons]
    by_cases hn : n ∈ seen
    · have hget : (GoMap.get st.used n).isSome = true := by
        rw [hused, decide_eq_true hn]
      obtain ⟨v, hv⟩ := Option.isSome_iff_exists.mp hget
      have hst : (checkName c st n).checkErr = some (duplicateDirMsg c n) := by
        unfold checkName
        rw [herr]
        simp only [hv]
        rfl
      rw [foldl_checkName_err c rest _ _ hst, hst]
      simp [firstDupFrom, hn]
    · have hget : GoMap.get st.used n = none := by
        have := hused n
        rw [decide_eq_false hn] at this
        simpa using this
      have hst : checkName c st n = ⟨st.used.set n true, none⟩ := by
        unfold checkName
        rw [herr]
        simp only [hget]
      rw [hst, ih _ (n :: seen) rfl]
      · simp [firstDupFrom, hn]
      · intro k
        simp only [GoMap_get_set_key, List.mem_cons]
        by_cases hk : n = k
        · simp [hk]
        · have hk' : ¬ k = n := fun e => hk e.symm
          simp [hk, hk', hused]

theorem firstDupFrom_eq_none (seen l : List String) :
    firstDupFrom seen l = none ↔ l.Nodup ∧ ∀ x ∈ l, x ∉ seen := by
  induction l generalizing seen with
  | nil => simp [firstDupFrom]
  | cons n rest ih =>
    unfold firstDupFrom
    by_cases hn : n ∈ seen
    · simp [hn]
    · simp only [hn, if_false, ih, List.nodup_cons, List.mem_cons, not_or]
      constructor
      · rintro ⟨hnd, hall⟩
        refine ⟨⟨fun hmem => (hall n hmem).1 rfl, hnd⟩, ?_⟩
        intro x hx
        rcases hx with hx | hx
        · rw [hx]
          exact hn
        · exact (hall x hx).2
      · rintro ⟨⟨hnotin, hnd⟩, hall⟩
        refine ⟨hnd, fun x hx => ⟨fun e => hnotin (e ▸ hx), hall x (Or.inr hx)⟩⟩

theorem subdirsLoop_eq (c : String) (ds : List bcpcfg.DirWithPolicy)
    (st : DirCheck) (sds : List DirWithPolicy) (xds : List String)
    (h : ∀ d ∈ ds, ValidPolicy d.Policy) :
    subdirsLoop c ds st sds xds =
      Result.ok ((ds.map (fun d => d.Name)).foldl (checkName c) st,
        sds ++ ds.map (fun d => ⟨d.Name, d.Policy⟩), xds ++ ds.map (fun d => d.Name)) := by
  induction ds generalizing st sds xds with
  | nil => simp [subdirsLoop]
  | cons d rest ih =>
    simp only [subdirsLoop, MustDirPolicy_valid d.Policy (h d (List.mem_cons_self _ _))]
    rw [ih _ _ _ (fun d' hd' => h d' (List.mem_cons_of_mem _ hd'))]
    simp

theorem extraDirsLoop_eq (c : String) (xs : List String)
    (st : DirCheck) (sds : List DirWithPolicy) (xds : List String) :
    extraDirsLoop c xs st sds xds =
      (xs.foldl (checkName c) st, sds ++ xs.map (fun xd => ⟨xd, GroupPolicy⟩), xds ++ xs) := by
  induction xs generalizing st sds xds with
  | nil => simp [extraDirsLoop]
  | cons x rest ih =>
    simp only [extraDirsLoop]
    rw [ih]
    simp

theorem dirsByOuLoop_cons (cou : bcpcfg.OrgUnit) (rest : List bcpcfg.OrgUnit)
    (m1 : GoMap String (List DirWithPolicy)) (m2 : GoMap String (List String))
    (h : ∀ d ∈ cou.Subdirs, ValidPolicy d.Policy) :
    dirsByOuLoop (cou :: rest) m1 m2 =
      match firstDupFrom [] (dirNames cou) with
      | some dir => Result.error (duplicateDirMsg cou.Name dir)
      | none =>
        dirsByOuLoop rest (m1.set cou.Name (expectedSubdirs cou))
          (m2.set cou.Name (dirNames cou)) := by
  have hfold : ((cou.ExtraDirs.foldl (checkName cou.Name)
      ((cou.Subdirs.map (fun d => d.Name)).foldl (checkName cou.Name) ⟨[], none⟩))).checkErr =
      (firstDupFrom [] (dirNames cou)).map (duplicateDirMsg cou.Name) := by
    rw [← List.foldl_append]
    exact foldl_checkName cou.Name _ ⟨[], none⟩ [] rfl (fun n => by simp [GoMap.get])
  simp only [dirsByOuLoop, subdirsLoop_eq cou.Name cou.Subdirs _ _ _ h, extraDirsLoop_eq,
    List.nil_append, hfold]
  cases firstDupFrom [] (dirNames cou) with
  | none => rfl
  | some dir => rfl

end bcp

namespace bcp

theorem dirsByOuLoop_nodup (cous : List bcpcfg.OrgUnit)
    (m1 : GoMap String (List DirWithPolicy)) (m2 : GoMap String (List String))
    (h : ∀ cou ∈ cous, ∀ d ∈ cou.Subdirs, ValidPolicy d.Policy)
    (hnd : ∀ cou ∈ cous, (dirNames cou).Nodup) :
    dirsByOuLoop cous m1 m2 =
      Result.ok (cous.foldl (fun m c => m.set c.Name (expectedSubdirs c)) m1,
        cous.foldl (fun m c => m.set c.Name (dirNames c)) m2) := by
  induction cous generalizing m1 m2 with
  | nil => rfl
  | cons cou rest ih =>
    have hnone : firstDupFrom [] (dirNames cou) = none :=
      (firstDupFrom_eq_none [] _).mpr
        ⟨hnd cou (List.mem_cons_self _ _), fun _ _ => List.not_mem_nil _⟩
    rw [dirsByOuLoop_cons cou rest m1 m2 (h cou (List.mem_cons_self _ _)), hnone]
    exact ih _ _ (fun c hc => h c (List.mem_cons_of_mem _ hc))
      (fun c hc => hnd c (List.mem_cons_of_mem _ hc))

theorem dirsByOuLoop_dup (cous : List bcpcfg.OrgUnit)
    (m1 : GoMap String (List DirWithPolicy)) (m2 : GoMap String (List String))
    (h : ∀ cou ∈ cous, ∀ d ∈ cou.Subdirs, ValidPolicy d.Policy)
    (hdup : ∃ cou ∈ cous, ¬ (dirNames cou).Nodup) :
    ∃ cou ∈ cous, ∃ dir, firstDupFrom [] (dirNames cou) = some dir ∧
      dirsByOuLoop cous m1 m2 = Result.error (duplicateDirMsg cou.Name dir) := by
  induction cous generalizing m1 m2 with
  | nil =>
    obtain ⟨cou, hcou, -⟩ := hdup
    cases hcou
  | cons cou rest ih =>
    rw [dirsByOuLoop_cons cou rest m1 m2 (h cou (List.mem_cons_self _ _))]
    cases hfd : firstDupFrom [] (dirNames cou) with
    | some dir => exact ⟨cou, List.mem_cons_self _ _, dir, hfd, rfl⟩
    | none =>
      have hnd : (dirNames cou).Nodup := ((firstDupFrom_eq_none [] _).mp hfd).1
      have hdup' : ∃ c ∈ rest, ¬ (dirNames c).Nodup := by
        obtain ⟨c, hc, hcd⟩ := hdup
        rcases List.mem_cons.mp hc with e | hc'
        · subst e
          exact absurd hnd hcd
        · exact ⟨c, hc', hcd⟩
      obtain ⟨c, hc, dir, h1, h2⟩ :=
        ih (m1.set cou.Name (expectedSubdirs cou)) (m2.set cou.Name (dirNames cou))
          (fun c hc => h c (List.mem_cons_of_mem _ hc)) hdup'
      exact ⟨c, List.mem_cons_of_mem _ hc, dir, h1, h2⟩

theorem dirsByOuLoop_ok_nodup (cous : List bcpcfg.OrgUnit)
    (m1 : GoMap String (List DirWithPolicy)) (m2 : GoMap String (List String))
    (h : ∀ cou ∈ cous, ∀ d ∈ cou.Subdirs, ValidPolicy d.Policy)
    (r : GoMap String (List DirWithPolicy) × GoMap String (List String))
    (hok : dirsByOuLoop cous m1 m2 = Result.ok r) :
    ∀ cou ∈ cous, (dirNames cou).Nodup := by
  intro cou hcou
  by_contra hnd
  obtain ⟨c, -, dir, -, herr⟩ := dirsByOuLoop_dup cous m1 m2 h ⟨cou, hcou, hnd⟩
  rw [herr] at hok
  cases hok

theorem get_foldl_set_absent {V : Type} (f : bcpcfg.OrgUnit → V)
    (cous : List bcpcfg.OrgUnit) (m0 : GoMap String V) (o : String)
    (h : ∀ cou ∈ cous, cou.Name ≠ o) :
    GoMap.get (cous.foldl (fun m c => m.set c.Name (f c)) m0) o = GoMap.get m0 o := by
  induction cous generalizing m0 with
  | nil => rfl
  | cons c rest ih =>
    rw [List.foldl_cons, ih _ (fun c' hc' => h c' (List.mem_cons_of_mem _ hc')),
      GoMap_get_set_key, if_neg (h c (List.mem_cons_self _ _))]

theorem get_foldl_set_mem {V : Type} (f : bcpcfg.OrgUnit → V)
    (cous : List bcpcfg.OrgUnit) (m0 : GoMap String V) (cou : bcpcfg.OrgUnit)
    (hnd : (cous.map (fun c => c.Name)).Nodup) (hmem : cou ∈ cous) :
    GoMap.get (cous.foldl (fun m c => m.set c.Name (f c)) m0) cou.Name = some (f cou) := by
  induction cous generalizing m0 with
  | nil => cases hmem
  | cons c rest ih =>
    rw [List.map_cons, List.nodup_cons] at hnd
    rw [List.foldl_cons]
    rcases List.mem_cons.mp hmem with e | hmem'
    · subst e
      rw [get_foldl_set_absent, GoMap_get_set_key, if_pos rfl]
      intro c' hc' e
      exact hnd.1 (List.mem_map.mpr ⟨c', hc', e⟩)
    · exact ih _ hnd.2 hmem'

theorem orgUnitsLoop_fields (gm : GroupMap) (fsuf : String)
    (m1 : GoMap String (List DirWithPolicy)) (m2 : GoMap String (List String))
    (names : List String) (ous res : List OrgUnit)
    (h : orgUnitsLoop gm fsuf m1 m2 names ous = Result.ok res) :
    ∀ ou ∈ res, ou ∈ ous ∨
      (ou.Subdirs = (GoMap.get m1 ou.Name).getD [] ∧
        ou.ExtraDirs = (GoMap.get m2 ou.Name).getD []) := by
  induction names generalizing ous with
  | nil =>
    simp only [orgUnitsLoop] at h
    injection h with h
    subst h
    exact fun ou hou => Or.inl hou
  | cons o rest ih =>
    simp only [orgUnitsLoop] at h
    split at h
    · cases h
    · intro ou hou
      rcases ih _ h ou hou with hmem | hf
      · rcases List.mem_append.mp hmem with hmem | hmem
        · exact Or.inl hmem
        · rw [List.mem_singleton] at hmem
          subst hmem
          exact Or.inr ⟨rfl, rfl⟩
      · exact Or.inr hf

theorem expectedSubdirs_names (cou : bcpcfg.OrgUnit) :
    (expectedSubdirs cou).map (fun d => d.Name) = dirNames cou := by
  simp [expectedSubdirs, dirNames, List.map_map, Function.comp_def]

end bcp

/-- C12: for every configuration with valid subdir policies and pairwise
distinct configured org unit names: if some configured org unit lists the
same directory name twice across its subdirs followed by its extra dirs,
`bcp.New` returns the error `duplicate ou .. dir ..` for a configured org
unit and the first name that this org unit repeats; and whenever `bcp.New`
succeeds, no configured org unit repeats a name, and for every returned org
unit `ExtraDirs` is the list of the names of its `Subdirs` in the same order,
these names are pairwise distinct, and `Subdirs` is the configured subdirs
followed by the extra dirs with policy `group` of the configured org unit of
the same name (the empty list if no org unit of that name is configured). -/
theorem New_orgUnit_dirs (groups : List grp.Group) (cfg : bcpcfg.Root)
    (hvalid : ∀ cou ∈ cfg.OrgUnits, ∀ d ∈ cou.Subdirs, bcp.ValidPolicy d.Policy)
    (hnames : (cfg.OrgUnits.map (fun c => c.Name)).Nodup) :
    ((∃ cou ∈ cfg.OrgUnits, ¬ (bcp.dirNames cou).Nodup) →
      ∃ cou ∈ cfg.OrgUnits, ∃ dir, bcp.firstDupFrom [] (bcp.dirNames cou) = some dir ∧
        bcp.New groups cfg = Result.error (bcp.duplicateDirMsg cou.Name dir)) ∧
    (∀ org unconf, bcp.New groups cfg = Result.ok (org, unconf) →
      (∀ cou ∈ cfg.OrgUnits, (bcp.dirNames cou).Nodup) ∧
      ∀ ou ∈ org.OrgUnits,
        ou.ExtraDirs = ou.Subdirs.map (fun d => d.Name) ∧
        ou.ExtraDirs.Nodup ∧
        (∀ cou ∈ cfg.OrgUnits, cou.Name = ou.Name →
          ou.Subdirs = bcp.expectedSubdirs cou) ∧
        ((∀ cou ∈ cfg.OrgUnits, cou.Name ≠ ou.Name) → ou.Subdirs = [])) := by
  constructor
  · intro hdup
    obtain ⟨cou, hcou, dir, hfd, herr⟩ := bcp.dirsByOuLoop_dup cfg.OrgUnits [] [] hvalid hdup
    refine ⟨cou, hcou, dir, hfd, ?_⟩
    unfold bcp.New bcp.parseOrgUnits
    simp only [herr]
  · intro org unconf hok
    obtain ⟨ous, srvs, hous, -, horg⟩ := bcp.New_ok_inv groups cfg org unconf hok
    subst horg
    unfold bcp.parseOrgUnits at hous
    split at hous
    · cases hous
    · cases hous
    · rename_i m1 m2 hloop
      have hnd := bcp.dirsByOuLoop_ok_nodup cfg.OrgUnits [] [] hvalid _ hloop
      rw [bcp.dirsByOuLoop_nodup cfg.OrgUnits [] [] hvalid hnd] at hloop
      injection hloop with hloop
      injection hloop with hm1 hm2
      subst hm1 hm2
      refine ⟨hnd, ?_⟩
      intro ou hou
      rcases bcp.orgUnitsLoop_fields _ _ _ _ _ _ _ hous ou hou with hnil | ⟨hs, hx⟩
      · cases hnil
      · by_cases hex : ∃ cou ∈ cfg.OrgUnits, cou.Name = ou.Name
        · obtain ⟨cou, hcou, hname⟩ := hex
          rw [← hname, bcp.get_foldl_set_mem _ _ _ _ hnames hcou, Option.getD_some] at hs hx
          refine ⟨?_, ?_, ?_, ?_⟩
          · rw [hs, hx, bcp.expectedSubdirs_names]
          · rw [hx]
            exact hnd cou hcou
          · intro cou' hcou' hname'
            have : cou' = cou :=
              List.inj_on_of_nodup_map hnames hcou' hcou (hname'.trans hname.symm)
            rw [this]
            exact hs
          · intro hall
            exact absurd hname (hall cou hcou)
        · have habs : ∀ cou ∈ cfg.OrgUnits, cou.Name ≠ ou.Name :=
            fun cou hcou e => hex ⟨cou, hcou, e⟩
          rw [bcp.get_foldl_set_absent _ _ _ _ habs] at hs hx
          have hs' : ou.Subdirs = [] := hs
          have hx' : ou.ExtraDirs = [] := hx
          refine ⟨?_, ?_, ?_, fun _ => hs'⟩
          · rw [hs', hx']
            rfl
          · rw [hx']
            exact List.nodup_nil
          · intro cou hcou hname
            exact absurd hname (habs cou hcou)

theorem New_orgUnit_dirs_witness :
    (bcp.New S1.groups Examples.cfgDuplicateDir =
        Result.error "duplicate ou `alice` dir `data`" ∧
      ∃ cou ∈ Examples.cfgDuplicateDir.OrgUnits, ∃ dir,
        bcp.firstDupFrom [] (bcp.dirNames cou) = some dir ∧
          bcp.New S1.groups Examples.cfgDuplicateDir =
            Result.error (bcp.duplicateDirMsg cou.Name dir)) ∧
    (bcp.New S1.groups Examples.cfgWithDirs =
        Result.ok
          ({ OrgUnits :=
               [ ⟨"alice", [⟨"data", "owner"⟩, ⟨"shared", "group"⟩], ["data", "shared"],
                   false, "", ⟨"og_alice", 100⟩⟩, S1.emFacility ]
             Facilities := [⟨"em"⟩]
             Services := [S1.mic1] }, []) ∧
      ∀ cou ∈ Examples.cfgWithDirs.OrgUnits, (bcp.dirNames cou).Nodup) :=
  ⟨⟨rfl,
      (New_orgUnit_dirs S1.groups Examples.cfgDuplicateDir
        (by simp [Examples.cfgDuplicateDir, bcp.ValidPolicy]) (by decide)).1
        ⟨⟨"alice", [⟨"data", "owner"⟩], ["shared", "data"]⟩, by decide, by decide⟩⟩,
    ⟨rfl,
      ((New_orgUnit_dirs S1.groups Examples.cfgWithDirs
        (by simp [Examples.cfgWithDirs, bcp.ValidPolicy]) (by decide)).2 _ _ rfl).1⟩⟩

/-! ### Logical paths of the sharing configuration -/

namespace bcpsharing

theorem services_get_name (v : String) (ss : List String) (m0 : GoMap String String)
    (k : String) :
    GoMap.get (ss.foldl (fun m s => m.set s v) m0) k =
      if k ∈ ss then some v else GoMap.get m0 k := by
  induction ss generalizing m0 with
  | nil => simp
  | cons x xs ih =>
    rw [List.foldl_cons, ih, GoMap_get_set_key]
    by_cases h1 : k ∈ xs
    · simp [h1]
    · by_cases h2 : x = k
      · simp [h1, h2]
      · have h3 : ¬ k = x := fun h => h2 h.symm
        simp [h1, h2, h3]

theorem facilities_get_name (fs : List bcpcfg.Facility) (m0 : GoMap String String)
    (k : String) :
    GoMap.get
        (fs.foldl (fun m fac => fac.Services.foldl (fun m srv => m.set srv fac.Name) m) m0) k =
      ((fs.reverse.find? (fun f => decide (k ∈ f.Services))).map (fun f => f.Name)).or
        (GoMap.get m0 k) := by
  induction fs generalizing m0 with
  | nil => simp
  | cons x xs ih =>
    rw [List.foldl_cons, ih, List.reverse_cons, List.find?_append, services_get_name]
    cases hfind : List.find? (fun f => decide (k ∈ f.Services)) xs.reverse with
    | some f => simp
    | none =>
      by_cases hx : k ∈ x.Services <;> simp [hx, List.find?_cons]

/-- The entry of `facilityByService` for a service name is the name of the
last configured facility that lists the service. -/
theorem facilityByService_get (cfg : bcpcfg.Root) (k : String) :
    GoMap.get (NewBcpfs cfg).facilityByService k =
      (cfg.Facilities.reverse.find? (fun f => decide (k ∈ f.Services))).map
        (fun f => f.Name) := by
  unfold NewBcpfs
  simp only
  rw [facilities_get_name]
  simp [GoMap.get]

theorem facilityDirs_fold_isSome (fs : List bcpcfg.Facility) (m0 : GoMap String Unit)
    (k : String) :
    (GoMap.get (fs.foldl (fun m fac => m.set (fac.Name ++ "-facility") ()) m0) k).isSome =
      (fs.any (fun f => decide (k = f.Name ++ "-facility")) || (GoMap.get m0 k).isSome) := by
  induction fs generalizing m0 with
  | nil => simp
  | cons x xs ih =>
    rw [List.foldl_cons, ih, GoMap_get_set_key, List.any_cons]
    by_cases h : x.Name ++ "-facility" = k
    · subst h
      simp
    · have h' : ¬ k = x.Name ++ "-facility" := fun e => h e.symm
      simp [h, h', Bool.or_comm]

theorem facilityDirs_get (cfg : bcpcfg.Root) (k : String) :
    (GoMap.get (NewBcpfs cfg).facilityDirs k).isSome = true ↔
      ∃ f ∈ cfg.Facilities, k = f.Name ++ "-facility" := by
  unfold NewBcpfs
  simp only
  rw [facilityDirs_fold_isSome]
  simp [GoMap.get]

theorem Split_ne_nil (p : String) (sep : Char) : strings.Split p sep ≠ [] := by
  unfold strings.Split
  intro h
  exact splitOnChar_ne_nil sep p.data (List.map_eq_nil_iff.mp h)

end bcpsharing

namespace bcpsharing

theorem IsServicePath_iff_ok (fs : Bcpfs) (p : String) :
    fs.IsServicePath p = true ↔ ∃ fac, fs.facilityOfServicePath p = Except.ok fac := by
  unfold Bcpfs.IsServicePath
  cases fs.facilityOfServicePath p with
  | ok fac => simp
  | error e => simp

theorem facilityOfServicePath_ok (fs : Bcpfs) (p fac : String) :
    fs.facilityOfServicePath p = Except.ok fac ↔
      2 ≤ (strings.Split p '/').length ∧
        GoMap.get fs.facilityByService ((strings.Split p '/').getD 1 "") = some fac := by
  unfold Bcpfs.facilityOfServicePath
  simp only
  by_cases hlen : (strings.Split p '/').length < 2
  · simp only [hlen, if_true]
    constructor
    · intro h
      cases h
    · intro h
      omega
  · simp only [hlen, if_false]
    cases GoMap.get fs.facilityByService ((strings.Split p '/').getD 1 "") with
    | none => simp
    | some f =>
      simp only [Except.ok.injEq, Option.some.injEq]
      constructor
      · intro h
        exact ⟨by omega, h⟩
      · intro h
        exact h.2

end bcpsharing

/-- C18: for every configuration and every logical path, with `parts` the
components of the path. The path is a service path exactly if it has at
least two components and the second one is a service of a configured
facility; the owning facility is then the last configured facility that
lists the service. The first component is a facility directory exactly if it
is `<fac>-facility` for a configured facility. `ManagingGroupsOfPath`
returns: for a non-service path, exactly the ou-type group of the first
component; for a service path whose first component is not a facility
directory, the ou-type group of the first component followed by the ops-type
group of the owning facility; for a service path whose first component is a
facility directory, the ou-type group of the third component followed by the
ops-type group of the owning facility, and the error `service path too
short` when the path has fewer than three components. -/
theorem ManagingGroupsOfPath_spec (cfg : bcpcfg.Root) (p : String) :
    strings.Split p '/' ≠ [] ∧
    ((bcpsharing.NewBcpfs cfg).IsServicePath p = true ↔
      2 ≤ (strings.Split p '/').length ∧
        ∃ f ∈ cfg.Facilities, (strings.Split p '/').getD 1 "" ∈ f.Services) ∧
    (∀ fac, (bcpsharing.NewBcpfs cfg).facilityOfServicePath p = Except.ok fac ↔
      2 ≤ (strings.Split p '/').length ∧
        (cfg.Facilities.reverse.find?
          (fun f => decide ((strings.Split p '/').getD 1 "" ∈ f.Services))).map
            (fun f => f.Name) = some fac) ∧
    ((bcpsharing.NewBcpfs cfg).IsFacilityPath p = true ↔
      ∃ f ∈ cfg.Facilities, (strings.Split p '/').getD 0 "" = f.Name ++ "-facility") ∧
    ((bcpsharing.NewBcpfs cfg).IsServicePath p = false →
      (bcpsharing.NewBcpfs cfg).ManagingGroupsOfPath p =
        Except.ok [⟨bcpsharing.GroupType.GroupTypeOu, (strings.Split p '/').getD 0 ""⟩]) ∧
    (∀ fac, (bcpsharing.NewBcpfs cfg).facilityOfServicePath p = Except.ok fac →
      (bcpsharing.NewBcpfs cfg).IsFacilityPath p = false →
      (bcpsharing.NewBcpfs cfg).ManagingGroupsOfPath p =
        Except.ok [⟨bcpsharing.GroupType.GroupTypeOu, (strings.Split p '/').getD 0 ""⟩,
          ⟨bcpsharing.GroupType.GroupTypeOps, fac⟩]) ∧
    (∀ fac, (bcpsharing.NewBcpfs cfg).facilityOfServicePath p = Except.ok fac →
      (bcpsharing.NewBcpfs cfg).IsFacilityPath p = true →
      3 ≤ (strings.Split p '/').length →
      (bcpsharing.NewBcpfs cfg).ManagingGroupsOfPath p =
        Except.ok [⟨bcpsharing.GroupType.GroupTypeOu, (strings.Split p '/').getD 2 ""⟩,
          ⟨bcpsharing.GroupType.GroupTypeOps, fac⟩]) ∧
    ((bcpsharing.NewBcpfs cfg).IsServicePath p = true →
      (bcpsharing.NewBcpfs cfg).IsFacilityPath p = true →
      (strings.Split p '/').length < 3 →
      (bcpsharing.NewBcpfs cfg).ManagingGroupsOfPath p =
        Except.error "service path too short") := by
  have hfac : ∀ fac, (bcpsharing.NewBcpfs cfg).facilityOfServicePath p = Except.ok fac ↔
      2 ≤ (strings.Split p '/').length ∧
        (cfg.Facilities.reverse.find?
          (fun f => decide ((strings.Split p '/').getD 1 "" ∈ f.Services))).map
            (fun f => f.Name) = some fac := by
    intro fac
    rw [bcpsharing.facilityOfServicePath_ok, bcpsharing.facilityByService_get]
  refine ⟨bcpsharing.Split_ne_nil p '/', ?_, hfac, ?_, ?_, ?_, ?_, ?_⟩
  · rw [bcpsharing.IsServicePath_iff_ok]
    constructor
    · rintro ⟨fac, h⟩
      obtain ⟨hlen, hfind⟩ := (hfac fac).mp h
      refine ⟨hlen, ?_⟩
      cases hf : cfg.Facilities.reverse.find?
          (fun f => decide ((strings.Split p '/').getD 1 "" ∈ f.Services)) with
      | none =>
        rw [hf] at hfind
        cases hfind
      | some f =>
        exact ⟨f, List.mem_reverse.mp (List.mem_of_find?_eq_some hf),
          by simpa using List.find?_some hf⟩
    · rintro ⟨hlen, f, hf, hsrv⟩
      have hsome : (cfg.Facilities.reverse.find?
          (fun f => decide ((strings.Split p '/').getD 1 "" ∈ f.Services))).isSome = true :=
        List.find?_isSome.mpr ⟨f, List.mem_reverse.mpr hf, by simpa using hsrv⟩
      obtain ⟨f', hf'⟩ := Option.isSome_iff_exists.mp hsome
      exact ⟨f'.Name, (hfac _).mpr ⟨hlen, by rw [hf']; rfl⟩⟩
  · unfold bcpsharing.Bcpfs.IsFacilityPath
    simp only
    have hlen : ¬ (strings.Split p '/').length < 1 := by
      have := bcpsharing.Split_ne_nil p '/'
      cases hs : strings.Split p '/' with
      | nil => exact absurd hs this
      | cons a l => simp
    simp only [hlen, if_false]
    exact bcpsharing.facilityDirs_get cfg _
  · intro hns
    unfold bcpsharing.Bcpfs.ManagingGroupsOfPath
    simp [hns]
  · intro fac hfacp hnf
    have hsp : (bcpsharing.NewBcpfs cfg).IsServicePath p = true :=
      (bcpsharing.IsServicePath_iff_ok _ _).mpr ⟨fac, hfacp⟩
    obtain ⟨hlen, hget⟩ := (bcpsharing.facilityOfServicePath_ok _ _ _).mp hfacp
    have hlen' : ¬ (strings.Split p '/').length < 2 := by omega
    unfold bcpsharing.Bcpfs.ManagingGroupsOfPath
    simp only [hsp, hnf, hget, hlen', Bool.not_true, Bool.false_eq_true, if_false,
      Option.getD_some]
  · intro fac hfacp hf hlen3
    have hsp : (bcpsharing.NewBcpfs cfg).IsServicePath p = true :=
      (bcpsharing.IsServicePath_iff_ok _ _).mpr ⟨fac, hfacp⟩
    obtain ⟨-, hget⟩ := (bcpsharing.facilityOfServicePath_ok _ _ _).mp hfacp
    have hlen' : ¬ (strings.Split p '/').length < 3 := by omega
    unfold bcpsharing.Bcpfs.ManagingGroupsOfPath
    simp only [hsp, hf, hget, hlen', Bool.not_true, Bool.false_eq_true, if_false, if_true,
      Option.getD_some]
  · intro hsp hf hlen3
    unfold bcpsharing.Bcpfs.ManagingGroupsOfPath
    simp [hsp, hf, hlen3]

/-! ### Naming policy of exports -/

namespace bcpsharing

theorem compileNamingPolicyLoop_spec (E : bcpfilter.RegexpEngine)
    (cfg : List bcpcfg.SharingNamingPolicy) (i : Int) (acc pol : List (NamingRule E))
    (h : compileNamingPolicyLoop E cfg i acc = Except.ok pol) :
    ∃ new, pol = acc ++ new ∧
      List.Forall₂
        (fun c r => r.Action = c.Action ∧ E.Compile ("^" ++ c.Match ++ "$") = Except.ok r.Match)
        cfg new := by
  induction cfg generalizing i acc with
  | nil =>
    simp only [compileNamingPolicyLoop] at h
    injection h with h
    exact ⟨[], by simp [h], List.Forall₂.nil⟩
  | cons c rest ih =>
    simp only [compileNamingPolicyLoop] at h
    split at h
    · cases h
    · rename_i m hm
      obtain ⟨new, hpol, hall⟩ := ih _ _ h
      exact ⟨⟨c.Action, m⟩ :: new, by simp [hpol], List.Forall₂.cons ⟨rfl, hm⟩ hall⟩

theorem checkExportPath_forall₂ (E : bcpfilter.RegexpEngine) (exp : ExportEntry)
    (cfg : List bcpcfg.SharingNamingPolicy) (pol : List (NamingRule E))
    (hall : List.Forall₂
      (fun c r => r.Action = c.Action ∧ E.Compile ("^" ++ c.Match ++ "$") = Except.ok r.Match)
      cfg pol)
    (hact : ∀ c ∈ cfg, c.Action = "allow" ∨ c.Action = "deny") :
    checkExportPath E exp pol =
      match cfg.find? (fun c => matchesAnchored E c exp.Path) with
      | none =>
        Result.error ("naming policy: default deny export path `" ++ exp.Path ++ "`")
      | some c =>
        if c.Action = "allow" then Result.ok ()
        else Result.error ("naming policy: rule denied export path `" ++ exp.Path ++ "`") := by
  induction hall with
  | nil => rfl
  | @cons c r cfg' pol' hcr _ ih =>
    obtain ⟨hra, hrm⟩ := hcr
    have ih' := ih (fun c' hc' => hact c' (List.mem_cons_of_mem _ hc'))
    have hma : matchesAnchored E c exp.Path = E.MatchString r.Match exp.Path := by
      unfold matchesAnchored
      rw [hrm]
    rw [List.find?_cons, hma]
    unfold checkExportPath NamingRule.Apply
    cases hm : E.MatchString r.Match exp.Path with
    | true =>
      simp only [if_true, hra]
      rcases hact c (List.mem_cons_self _ _) with ha | ha
      · simp [ha, NamingActionAllow]
      · simp [ha, NamingActionAllow, NamingActionDeny]
    | false =>
      simp only [Bool.false_eq_true, if_false]
      rw [← ih']
      simp [NamingActionAllow, NamingActionDeny, NamingActionPass]

end bcpsharing

/-- C19: for every export path and every naming policy compiled from a
configured list as the parser returns it (`isValidNamingPolicyAction`, the
check of `parseSharingNamingPolicies`, holds for every action, which is then
`allow` or `deny`): the compiled rules correspond one to one to the
configured rules, with the same action and the compiled anchored pattern
`^match$`; `checkExportPath` succeeds if and only if some rule matches the
path and the first such rule has action `allow`; it fails with the
rule-denied error when the first matching rule has action `deny`, and with
the default-deny error when no rule matches, in particular for the empty
policy. -/
theorem checkExportPath_first_match (E : bcpfilter.RegexpEngine)
    (cfg : List bcpcfg.SharingNamingPolicy) (pol : List (bcpsharing.NamingRule E))
    (exp : bcpsharing.ExportEntry)
    (hcomp : bcpsharing.compileNamingPolicy E cfg = Except.ok pol)
    (hvalid : ∀ c ∈ cfg, bcpcfg.isValidNamingPolicyAction c.Action = true) :
    List.Forall₂
      (fun c r => r.Action = c.Action ∧ E.Compile ("^" ++ c.Match ++ "$") = Except.ok r.Match)
      cfg pol ∧
    (bcpsharing.checkExportPath E exp pol = Result.ok () ↔
      ∃ c, cfg.find? (fun c => bcpsharing.matchesAnchored E c exp.Path) = some c ∧
        c.Action = "allow") ∧
    (∀ c, cfg.find? (fun c => bcpsharing.matchesAnchored E c exp.Path) = some c →
      c.Action = "deny" →
      bcpsharing.checkExportPath E exp pol =
        Result.error ("naming policy: rule denied export path `" ++ exp.Path ++ "`")) ∧
    (cfg.find? (fun c => bcpsharing.matchesAnchored E c exp.Path) = none →
      bcpsharing.checkExportPath E exp pol =
        Result.error ("naming policy: default deny export path `" ++ exp.Path ++ "`")) ∧
    (cfg = [] →
      bcpsharing.checkExportPath E exp pol =
        Result.error ("naming policy: default deny export path `" ++ exp.Path ++ "`")) := by
  have hact : ∀ c ∈ cfg, c.Action = "allow" ∨ c.Action = "deny" := by
    intro c hc
    simpa [bcpcfg.isValidNamingPolicyAction] using hvalid c hc
  obtain ⟨new, hpol, hall⟩ := bcpsharing.compileNamingPolicyLoop_spec E cfg 0 [] pol hcomp
  rw [List.nil_append] at hpol
  subst hpol
  have heq := bcpsharing.checkExportPath_forall₂ E exp cfg pol hall hact
  refine ⟨hall, ?_, ?_, ?_, ?_⟩
  · rw [heq]
    cases hfind : cfg.find? (fun c => bcpsharing.matchesAnchored E c exp.Path) with
    | none => simp
    | some c =>
      by_cases ha : c.Action = "allow"
      · simp [ha]
      · simp [ha]
  · intro c hfind hdeny
    rw [heq, hfind]
    simp [hdeny]
  · intro hfind
    rw [heq, hfind]
  · intro hnil
    rw [heq, hnil]
    rfl

theorem checkExportPath_first_match_witness :
    bcpsharing.checkExportPath bcpfilter.literalEngine Examples.exportAliceData
        [⟨"deny", "^alice/secret$"⟩, ⟨"allow", "^alice/data$"⟩] = Result.ok () ↔
      ∃ c, Examples.namingDenyThenAllow.find?
          (fun c => bcpsharing.matchesAnchored bcpfilter.literalEngine c
            Examples.exportAliceData.Path) = some c ∧
        c.Action = "allow" :=
  (checkExportPath_first_match bcpfilter.literalEngine Examples.namingDenyThenAllow
    [⟨"deny", "^alice/secret$"⟩, ⟨"allow", "^alice/data$"⟩] Examples.exportAliceData rfl
    (by decide)).2.1

/-! ### Real paths and ACL scopes of exports -/

/-- C17 at the logical path `lm-facility/mic1/data`, where `lm-facility` is
the directory of the configured facility `lm` and `mic1` is a service of the
other facility `em`: `IsFacilityPath` only asks whether the first component is
the directory of some facility, so `Realpath` drops the first component and
returns `srv/mic1/data`, not `srv/mic1/lm-facility/data`. The tree of org
units links `org/lm-facility/mic1` to `../../srv/mic1/lm-facility`, because
`serviceIsOfFacility` compares the facility of the service with the facility
of the org unit; for the owning facility and for an ordinary org unit
`Realpath` agrees with these links. -/
theorem Realpath_foreign_facility_dir :
    (bcpsharing.NewBcpfs Examples.cfgTwoFacilities).Realpath "lm-facility/mic1/data" =
      "srv/mic1/data" ∧
    (bcpsharing.NewBcpfs Examples.cfgTwoFacilities).Realpath "em-facility/mic1/data" =
      "srv/mic1/data" ∧
    (bcpsharing.NewBcpfs Examples.cfgTwoFacilities).Realpath "alice/mic1/data" =
      "srv/mic1/alice/data" ∧
    (bcpsharing.NewBcpfs Examples.cfgTwoFacilities).Realpath "alice/data" =
      "org/alice/data" ∧
    fsapply.serviceIsOfFacility Examples.lmFacility S1.mic1 = false ∧
    fsapply.OrgUnitTree.ensureOUSLn_pathDest
        ⟨"/fs/org", "srv", [S1.mic1], [S1.alice, S1.emFacility, Examples.lmFacility],
          S1.filter, false⟩
        Examples.lmFacility S1.mic1 =
      ("/fs/org/lm-facility/mic1", "../../srv/mic1/lm-facility") ∧
    (fsck.OrgUnitTreePaths.ouslnEntry
        ⟨"/fs/org", "srv", [S1.mic1], [S1.alice, S1.emFacility, Examples.lmFacility],
          S1.filter⟩
        Examples.lmFacility S1.mic1).LinkDest = "../../srv/mic1/lm-facility" := by
  refine ⟨rfl, rfl, rfl, rfl, rfl, rfl, rfl⟩

/-- C20 at the export of `em-facility/mic1/alice/foo` with an ACL entry for
the group `alice`: `checkExportEntryAclScopes` takes the first component
`em-facility` as the org unit of the path and passes the export, while
`ManagingGroupsOfPath` reports `alice`, the third component, as the ou-type
managing group of the same path. -/
theorem checkExportAclScopes_passes_own_org_unit :
    bcpsharing.checkExportAclScopes (bcpsharing.NewBcpfs S1.cfg)
      [Examples.exportToOwnOrgUnit] = none ∧
    (bcpsharing.NewBcpfs S1.cfg).ManagingGroupsOfPath Examples.exportToOwnOrgUnit.Path =
      Except.ok [⟨bcpsharing.GroupType.GroupTypeOu, "alice"⟩,
        ⟨bcpsharing.GroupType.GroupTypeOps, "em"⟩] ∧
    Examples.exportToOwnOrgUnit.ManagingGroups =
      [⟨bcpsharing.GroupType.GroupTypeOu, "alice"⟩,
        ⟨bcpsharing.GroupType.GroupTypeOps, "em"⟩] ∧
    (⟨"alice", "r-x"⟩ : bcpsharing.Ace) ∈ Examples.exportToOwnOrgUnit.Acl ∧
    bcpsharing.checkExportAclScopes (bcpsharing.NewBcpfs S1.cfg)
      [{ Examples.exportToOwnOrgUnit with Path := "alice/mic1/foo" }] =
        some "self export `alice/mic1/foo`" ∧
    (bcpsharing.NewBcpfs S1.cfg).Realpath "em-facility/mic1/alice/foo" =
      (bcpsharing.NewBcpfs S1.cfg).Realpath "alice/mic1/foo" := by
  refine ⟨rfl, rfl, rfl, by decide, rfl, rfl⟩

/-! ### Union of modes -/

namespace bcpsharing

theorem validMode_mem_allModes (m : String) (h : validMode m = true) : m ∈ allModes := by
  obtain ⟨d⟩ := m
  rcases d with _ | ⟨r, _ | ⟨w, _ | ⟨x, _ | ⟨y, t⟩⟩⟩⟩
  · cases h
  · cases h
  · cases h
  · simp only [validMode, Bool.and_eq_true, Bool.or_eq_true, decide_eq_true_eq] at h
    obtain ⟨⟨hr, hw⟩, hx⟩ := h
    rcases hr with hr | hr <;> rcases hw with hw | hw <;> rcases hx with hx | hx <;>
      subst hr hw hx <;> decide
  · cases h

theorem allModes_valid : ∀ m ∈ allModes, validMode m = true := by decide

theorem unionModes_table :
    ∀ a ∈ allModes, ∀ b ∈ allModes,
      unionModes a b = Result.ok (orModes a b) ∧ orModes a b ∈ allModes ∧
        (hasBit (orModes a b) 0 'r' = (hasBit a 0 'r' || hasBit b 0 'r')) ∧
        (hasBit (orModes a b) 1 'w' = (hasBit a 1 'w' || hasBit b 1 'w')) ∧
        (hasBit (orModes a b) 2 'x' = (hasBit a 2 'x' || hasBit b 2 'x')) ∧
        orModes a b = orModes b a ∧ orModes a a = a ∧ orModes a "---" = a ∧
        orModes "---" a = a := by
  decide

theorem orModes_assoc_table :
    ∀ a ∈ allModes, ∀ b ∈ allModes, ∀ c ∈ allModes,
      orModes (orModes a b) c = orModes a (orModes b c) := by
  decide

end bcpsharing

/-- C25: on modes of the form `[r-][w-][x-]`, `Ace.UnionMode` returns a mode
of that form in which each of the bits `r`, `w`, `x` is set if and only if it
is set in at least one argument; it is commutative, idempotent, has `---` as
identity on both sides, and is associative (the mode of `a` and `b` united
with `c` is the mode of `a` united with the mode of `b` and `c`). -/
theorem UnionMode_laws (a b c : bcpsharing.Ace) (g : String)
    (ha : bcpsharing.validMode a.Mode = true) (hb : bcpsharing.validMode b.Mode = true)
    (hc : bcpsharing.validMode c.Mode = true) :
    (∃ m, a.UnionMode b = Result.ok m ∧ bcpsharing.validMode m = true ∧
      (bcpsharing.hasBit m 0 'r' = true ↔
        bcpsharing.hasBit a.Mode 0 'r' = true ∨ bcpsharing.hasBit b.Mode 0 'r' = true) ∧
      (bcpsharing.hasBit m 1 'w' = true ↔
        bcpsharing.hasBit a.Mode 1 'w' = true ∨ bcpsharing.hasBit b.Mode 1 'w' = true) ∧
      (bcpsharing.hasBit m 2 'x' = true ↔
        bcpsharing.hasBit a.Mode 2 'x' = true ∨ bcpsharing.hasBit b.Mode 2 'x' = true)) ∧
    a.UnionMode b = b.UnionMode a ∧
    a.UnionMode a = Result.ok a.Mode ∧
    a.UnionMode ⟨g, "---"⟩ = Result.ok a.Mode ∧
    (⟨g, "---"⟩ : bcpsharing.Ace).UnionMode a = Result.ok a.Mode ∧
    (∃ ab bc, a.UnionMode b = Result.ok ab ∧ b.UnionMode c = Result.ok bc ∧
      (⟨g, ab⟩ : bcpsharing.Ace).UnionMode c = a.UnionMode ⟨g, bc⟩) := by
  have hma := bcpsharing.validMode_mem_allModes _ ha
  have hmb := bcpsharing.validMode_mem_allModes _ hb
  have hmc := bcpsharing.validMode_mem_allModes _ hc
  have h0 : "---" ∈ bcpsharing.allModes := by decide
  obtain ⟨hab, habm, hr, hw, hx, hcomm, -, -, -⟩ := bcpsharing.unionModes_table _ hma _ hmb
  obtain ⟨hba, -⟩ := bcpsharing.unionModes_table _ hmb _ hma
  obtain ⟨haa, -, -, -, -, -, hidem, hid1, hid2⟩ := bcpsharing.unionModes_table _ hma _ hma
  obtain ⟨ha0, -⟩ := bcpsharing.unionModes_table _ hma _ h0
  obtain ⟨h0a, -⟩ := bcpsharing.unionModes_table _ h0 _ hma
  obtain ⟨hbc, hbcm, -⟩ := bcpsharing.unionModes_table _ hmb _ hmc
  obtain ⟨habc, -⟩ := bcpsharing.unionModes_table _ habm _ hmc
  obtain ⟨habc', -⟩ := bcpsharing.unionModes_table _ hma _ hbcm
  unfold bcpsharing.Ace.UnionMode
  refine ⟨⟨_, hab, bcpsharing.allModes_valid _ habm, ?_, ?_, ?_⟩, ?_, ?_, ?_, ?_, ?_⟩
  · rw [hr, Bool.or_eq_true]
  · rw [hw, Bool.or_eq_true]
  · rw [hx, Bool.or_eq_true]
  · rw [hab, hba, hcomm]
  · rw [haa, hidem]
  · rw [ha0, hid1]
  · rw [h0a, hid2]
  · refine ⟨_, _, hab, hbc, ?_⟩
    show bcpsharing.unionModes _ c.Mode = bcpsharing.unionModes a.Mode _
    rw [habc, habc', bcpsharing.orModes_assoc_table _ hma _ hmb _ hmc]

theorem UnionMode_laws_witness :
    (⟨"bob", "r--"⟩ : bcpsharing.Ace).UnionMode ⟨"bob", "-wx"⟩ = Result.ok "rwx" ∧
    (⟨"bob", "r--"⟩ : bcpsharing.Ace).UnionMode ⟨"bob", "-wx"⟩ =
      (⟨"bob", "-wx"⟩ : bcpsharing.Ace).UnionMode ⟨"bob", "r--"⟩ :=
  ⟨rfl, (UnionMode_laws ⟨"bob", "r--"⟩ ⟨"bob", "-wx"⟩ ⟨"bob", "--x"⟩ "bob"
    (by decide) (by decide) (by decide)).2.1⟩

/-! ### Lines of getfacl output -/

/-- C30 at the lines `userx:rwx` and `groupfoo:r-x`: in the pattern
`(?:user|group|mask|other:)` the colon belongs to the last alternative only,
so after `user`, `group` or `mask` any run of non-space characters may follow
before the colon of the mode. `parseGetfaclAceLine` accepts both lines, with
the tags `userx` and `groupfoo`; the grammar with a colon after each keyword
rejects them. Lines of getfacl output such as `user::rwx`, `group:foo:r-x`,
`default:group:foo:r-x` and `other::r-x` are accepted, and `foo:rwx` is
rejected. -/
theorem parseGetfaclAceLine_accepts_keyword_without_colon :
    bcpsharing.parseGetfaclAceLine "userx:rwx" = Except.ok ⟨"userx", "rwx"⟩ ∧
    bcpsharing.parseGetfaclAceLine "groupfoo:r-x" = Except.ok ⟨"groupfoo", "r-x"⟩ ∧
    bcpsharing.grammarGetfaclAce.MatchString "userx:rwx" = false ∧
    bcpsharing.grammarGetfaclAce.MatchString "groupfoo:r-x" = false ∧
    bcpsharing.parseGetfaclAceLine "user::rwx" = Except.ok ⟨"user:", "rwx"⟩ ∧
    bcpsharing.parseGetfaclAceLine "group:foo:r-x" = Except.ok ⟨"group:foo", "r-x"⟩ ∧
    bcpsharing.parseGetfaclAceLine "default:group:foo:r-x" =
      Except.ok ⟨"default:group:foo", "r-x"⟩ ∧
    bcpsharing.parseGetfaclAceLine "other::r-x" = Except.ok ⟨"other:", "r-x"⟩ ∧
    bcpsharing.grammarGetfaclAce.MatchString "group:foo:r-x" = true ∧
    bcpsharing.parseGetfaclAceLine "foo:rwx" = Except.error "malformed getfacl ACE line" := by
  refine ⟨rfl, rfl, rfl, rfl, rfl, rfl, rfl, rfl, rfl, rfl⟩

/-! ### Imported exports -/

namespace bcpsharing

theorem compileImportsLoop_spec (E : bcpfilter.RegexpEngine)
    (cfg : List bcpcfg.SharingImport) (i : Int) (acc imps : List (ImportRule E))
    (h : compileImportsLoop E cfg i acc = Except.ok imps) :
    ∃ new, imps = acc ++ new ∧
      List.Forall₂
        (fun c r => r.Group = c.Group ∧ r.Action = c.Action ∧
          E.Compile ("^" ++ c.Match ++ "$") = Except.ok r.Match)
        cfg new := by
  induction cfg generalizing i acc with
  | nil =>
    simp only [compileImportsLoop] at h
    injection h with h
    exact ⟨[], by simp [h], List.Forall₂.nil⟩
  | cons c rest ih =>
    simp only [compileImportsLoop] at h
    split at h
    · cases h
    · rename_i m hm
      obtain ⟨new, hpol, hall⟩ := ih _ _ h
      exact ⟨⟨c.Group, m, c.Action⟩ :: new, by simp [hpol],
        List.Forall₂.cons ⟨rfl, rfl, hm⟩ hall⟩

theorem FilterPathAce_eq {E : bcpfilter.RegexpEngine} (imps : List (ImportRule E))
    (path : String) (ace : Ace)
    (hact : ∀ imp ∈ imps, imp.Action = "accept" ∨ imp.Action = "reject") :
    ImportFilter.FilterPathAce imps path ace =
      Result.ok (if aceAccepted imps path ace = true then "accept" else "reject") := by
  induction imps with
  | nil => rfl
  | cons imp rest ih =>
    have ih' := ih (fun r hr => hact r (List.mem_cons_of_mem _ hr))
    cases hsel : (decide (imp.Group = ace.Group) && E.MatchString imp.Match path) with
    | true =>
      have hsel' := hsel
      simp only [Bool.and_eq_true, decide_eq_true_eq] at hsel'
      obtain ⟨hg, hm⟩ := hsel'
      have hf : imp.FilterPathAce path ace = imp.Action := by
        unfold ImportRule.FilterPathAce
        rw [if_neg (fun h => h hg.symm), hm]
        rfl
      have hacc : aceAccepted (imp :: rest) path ace = decide (imp.Action = "accept") := by
        unfold aceAccepted
        rw [List.find?_cons, hsel]
      unfold ImportFilter.FilterPathAce
      rw [hf, hacc]
      rcases hact imp (List.mem_cons_self _ _) with ha | ha
      · rw [ha]
        rfl
      · rw [ha]
        rfl
    | false =>
      have hf : imp.FilterPathAce path ace = ImportActionPass := by
        unfold ImportRule.FilterPathAce
        by_cases hg : ace.Group = imp.Group
        · have hm : E.MatchString imp.Match path = false := by
            simpa [hg.symm] using hsel
          rw [if_neg (fun h => h hg), hm]
          rfl
        · rw [if_pos hg]
      have hacc : aceAccepted (imp :: rest) path ace = aceAccepted rest path ace := by
        unfold aceAccepted
        rw [List.find?_cons, hsel]
      unfold ImportFilter.FilterPathAce
      rw [hf, hacc, ← ih']
      rfl

theorem selectAclLoop_eq {E : bcpfilter.RegexpEngine} (imps : List (ImportRule E))
    (path : String) (aces acl : List Ace)
    (hact : ∀ imp ∈ imps, imp.Action = "accept" ∨ imp.Action = "reject") :
    selectAclLoop imps path aces acl =
      Result.ok (acl ++ aces.filter (aceAccepted imps path)) := by
  induction aces generalizing acl with
  | nil => simp [selectAclLoop]
  | cons ace rest ih =>
    unfold selectAclLoop
    rw [FilterPathAce_eq imps path ace hact]
    cases hacc : aceAccepted imps path ace with
    | true => simp [ImportActionAccept, ih, List.filter_cons, hacc]
    | false => simp [ImportActionAccept, ImportActionReject, ih, List.filter_cons, hacc]

theorem selectImportedExportsLoop_eq {E : bcpfilter.RegexpEngine}
    (imps : List (ImportRule E)) (exps sels : List ExportEntry)
    (hact : ∀ imp ∈ imps, imp.Action = "accept" ∨ imp.Action = "reject") :
    selectImportedExportsLoop imps exps sels =
      Result.ok (sels ++ exps.filterMap (importedExport imps)) := by
  induction exps generalizing sels with
  | nil => simp [selectImportedExportsLoop]
  | cons exp rest ih =>
    unfold selectImportedExportsLoop
    by_cases hnil : exp.Acl = []
    · simp [hnil, ih, importedExport, List.filterMap_cons]
    · have hlen : ¬ exp.Acl.length = 0 := fun e => hnil (List.length_eq_zero.mp e)
      simp only [hlen, if_false, selectAclLoop_eq imps exp.Path exp.Acl [] hact,
        List.nil_append]
      by_cases hf : exp.Acl.filter (aceAccepted imps exp.Path) = []
      · simp [hf, hnil, ih, importedExport, List.filterMap_cons]
      · have hpos : (exp.Acl.filter (aceAccepted imps exp.Path)).length > 0 :=
          List.length_pos.mpr hf
        simp [hpos, hf, hnil, ih, importedExport, List.filterMap_cons]

end bcpsharing

/-- C23: for every list of exports and every import filter whose actions are
`accept` or `reject`, `selectImportedExports` returns, in input order, what
`importedExport` keeps of each export: an export with an empty ACL unchanged;
an export with a non-empty ACL of which at least one entry is accepted, with
its ACL reduced to the accepted entries in their order; an export with a
non-empty ACL of which no entry is accepted is dropped. An entry is accepted
if and only if the first rule whose group equals the group of the entry and
whose pattern matches the path of the export has action `accept`; the
patterns of a compiled filter are the anchored patterns `^match$` of the
configuration. -/
theorem selectImportedExports_spec (E : bcpfilter.RegexpEngine)
    (exps : List bcpsharing.ExportEntry) (imps : List (bcpsharing.ImportRule E))
    (hact : ∀ imp ∈ imps, imp.Action = "accept" ∨ imp.Action = "reject") :
    bcpsharing.selectImportedExports exps imps =
      Result.ok (exps.filterMap (bcpsharing.importedExport imps)) ∧
    (∀ exp : bcpsharing.ExportEntry, exp.Acl = [] →
      bcpsharing.importedExport imps exp =
        some { Path := exp.Path, Acl := [], ManagingGroups := exp.ManagingGroups }) ∧
    (∀ exp : bcpsharing.ExportEntry, exp.Acl ≠ [] →
      (∃ ace ∈ exp.Acl, bcpsharing.aceAccepted imps exp.Path ace = true) →
      bcpsharing.importedExport imps exp =
        some { Path := exp.Path,
               Acl := exp.Acl.filter (bcpsharing.aceAccepted imps exp.Path),
               ManagingGroups := exp.ManagingGroups }) ∧
    (∀ exp : bcpsharing.ExportEntry, exp.Acl ≠ [] →
      (∀ ace ∈ exp.Acl, bcpsharing.aceAccepted imps exp.Path ace = false) →
      bcpsharing.importedExport imps exp = none) ∧
    (∀ path ace, bcpsharing.aceAccepted imps path ace = true ↔
      ∃ imp, imps.find? (fun imp =>
          decide (imp.Group = ace.Group) && E.MatchString imp.Match path) = some imp ∧
        imp.Action = "accept") ∧
    (∀ cfg, bcpsharing.compileImports E cfg = Except.ok imps →
      List.Forall₂
        (fun c r => r.Group = c.Group ∧ r.Action = c.Action ∧
          E.Compile ("^" ++ c.Match ++ "$") = Except.ok r.Match)
        cfg imps) := by
  refine ⟨?_, ?_, ?_, ?_, ?_, ?_⟩
  · unfold bcpsharing.selectImportedExports
    rw [bcpsharing.selectImportedExportsLoop_eq imps exps [] hact, List.nil_append]
  · intro exp hnil
    simp [bcpsharing.importedExport, hnil]
  · intro exp hne hex
    have hf : exp.Acl.filter (bcpsharing.aceAccepted imps exp.Path) ≠ [] := by
      obtain ⟨ace, hace, hacc⟩ := hex
      intro hnil
      have : ace ∈ exp.Acl.filter (bcpsharing.aceAccepted imps exp.Path) :=
        List.mem_filter.mpr ⟨hace, hacc⟩
      rw [hnil] at this
      cases this
    simp [bcpsharing.importedExport, hne, hf]
  · intro exp hne hall
    have hf : exp.Acl.filter (bcpsharing.aceAccepted imps exp.Path) = [] := by
      rw [List.filter_eq_nil_iff]
      intro ace hace
      rw [hall ace hace]
      decide
    simp [bcpsharing.importedExport, hne, hf]
  · intro path ace
    unfold bcpsharing.aceAccepted
    cases imps.find? (fun imp =>
        decide (imp.Group = ace.Group) && E.MatchString imp.Match path) with
    | none => simp
    | some imp => simp
  · intro cfg hcomp
    obtain ⟨new, hnew, hall⟩ := bcpsharing.compileImportsLoop_spec E cfg 0 [] imps hcomp
    rw [List.nil_append] at hnew
    rw [hnew]
    exact hall

theorem selectImportedExports_spec_witness :
    bcpsharing.selectImportedExports Examples.exportsOfAlice Examples.importsBobCarol =
      Result.ok
        [ ⟨"alice/data", [⟨"bob", "r-x"⟩], [⟨bcpsharing.GroupType.GroupTypeOu, "alice"⟩]⟩,
          ⟨"alice/old", [], [⟨bcpsharing.GroupType.GroupTypeOu, "alice"⟩]⟩ ] ∧
    bcpsharing.selectImportedExports Examples.exportsOfAlice Examples.importsBobCarol =
      Result.ok
        (Examples.exportsOfAlice.filterMap
          (bcpsharing.importedExport Examples.importsBobCarol)) :=
  ⟨rfl,
    (selectImportedExports_spec bcpfilter.literalEngine Examples.exportsOfAlice
      Examples.importsBobCarol (by decide)).1⟩

/-! ### Order of strings, sorting, and iteration over maps -/

theorem lessChars_iff_lt (a b : List Char) : lessChars a b = true ↔ a < b := by
  induction a generalizing b with
  | nil =>
    cases b with
    | nil =>
      simp only [lessChars, Bool.false_eq_true, false_iff]
      intro h
      cases h
    | cons y ys =>
      simp only [lessChars, true_iff]
      exact List.Lex.nil
  | cons x xs ih =>
    cases b with
    | nil =>
      simp only [lessChars, Bool.false_eq_true, false_iff]
      intro h
      cases h
    | cons y ys =>
      have hlt : x.toNat < y.toNat ↔ x < y := by
        rw [Char.lt_def]
        exact Iff.rfl
      simp only [lessChars, Bool.or_eq_true, decide_eq_true_eq, Bool.and_eq_true, hlt, ih]
      constructor
      · rintro (h | ⟨rfl, h⟩)
        · exact List.Lex.rel h
        · exact List.Lex.cons h
      · intro h
        cases h with
        | rel h => exact Or.inl h
        | cons h => exact Or.inr ⟨rfl, h⟩

theorem stringLess_iff_lt (s t : String) : stringLess s t = true ↔ s < t := by
  unfold stringLess
  rw [lessChars_iff_lt, String.lt_iff_toList_lt]
  exact Iff.rfl

theorem stringLess_false_iff_le (s t : String) : stringLess t s = false ↔ s ≤ t := by
  rw [← not_lt, ← stringLess_iff_lt, Bool.not_eq_true]

theorem sortByKey_perm {α : Type} (key : α → String) (l : List α) :
    (sortByKey key l).Perm l :=
  List.perm_insertionSort _ l

theorem sortByKey_sorted {α : Type} (key : α → String) (l : List α) :
    (sortByKey key l).Pairwise (fun a b => key a ≤ key b) := by
  haveI : IsTotal α (fun a b => stringLess (key b) (key a) = false) :=
    ⟨fun a b => by
      simp only [stringLess_false_iff_le]
      exact le_total _ _⟩
  haveI : IsTrans α (fun a b => stringLess (key b) (key a) = false) :=
    ⟨fun a b c => by
      simp only [stringLess_false_iff_le]
      exact le_trans⟩
  have h := List.sorted_insertionSort (fun a b => stringLess (key b) (key a) = false) l
  exact h.imp (fun hab => (stringLess_false_iff_le _ _).mp hab)

theorem sortByKey_strict {α : Type} (key : α → String) (l : List α)
    (hnd : (l.map key).Nodup) :
    (sortByKey key l).Pairwise (fun a b => stringLess (key a) (key b) = true) := by
  have hs := sortByKey_sorted key l
  have hnd' : ((sortByKey key l).map key).Nodup :=
    ((sortByKey_perm key l).map key).nodup_iff.mpr hnd
  rw [List.Nodup, List.pairwise_map] at hnd'
  exact (hs.and hnd').imp (fun h => (stringLess_iff_lt _ _).mpr (lt_of_le_of_ne h.1 h.2))

/-- Two lists with the same elements that are strictly ascending by key are
equal. -/
theorem eq_of_perm_of_strict {α : Type} (key : α → String) (l₁ l₂ : List α)
    (hp : l₁.Perm l₂)
    (h₁ : l₁.Pairwise (fun a b => stringLess (key a) (key b) = true))
    (h₂ : l₂.Pairwise (fun a b => stringLess (key a) (key b) = true)) : l₁ = l₂ := by
  haveI : IsAntisymm α (fun a b => stringLess (key a) (key b) = true) :=
    ⟨fun a b hab hba => by
      rw [stringLess_iff_lt] at hab hba
      exact absurd hab (lt_asymm hba)⟩
  exact List.eq_of_perm_of_sorted hp h₁ h₂

/-- With pairwise distinct keys the sorted list does not depend on the order
of the input. -/
theorem sortByKey_eq_of_perm {α : Type} (key : α → String) (l₁ l₂ : List α)
    (hp : l₁.Perm l₂) (hnd : (l₂.map key).Nodup) :
    sortByKey key l₁ = sortByKey key l₂ := by
  have hnd₁ : (l₁.map key).Nodup := (hp.map key).nodup_iff.mpr hnd
  exact eq_of_perm_of_strict key _ _
    (((sortByKey_perm key l₁).trans hp).trans (sortByKey_perm key l₂).symm)
    (sortByKey_strict key l₁ hnd₁) (sortByKey_strict key l₂ hnd)

theorem sortStrings_eq_sortByKey (l : List String) : sortStrings l = sortByKey id l := rfl

theorem GoMap_get_isSome_iff {K V : Type} [DecidableEq K] (m : GoMap K V) (k : K) :
    (GoMap.get m k).isSome = true ↔ k ∈ m.map Prod.fst := by
  induction m with
  | nil => simp [GoMap.get]
  | cons p rest ih =>
    obtain ⟨k', v⟩ := p
    unfold GoMap.get
    by_cases h : k' = k
    · simp [h]
    · have h' : ¬ k = k' := fun e => h e.symm
      simp only [h, if_false, ih, List.map_cons, List.mem_cons, h', false_or]

theorem GoMap_mem_keys {K V : Type} [DecidableEq K] (m : GoMap K V) (k : K) :
    k ∈ m.keys ↔ (GoMap.get m k).isSome = true := by
  rw [GoMap_get_isSome_iff]
  unfold GoMap.keys
  exact List.mem_dedup

theorem GoMap_keys_nodup {K V : Type} [DecidableEq K] (m : GoMap K V) : m.keys.Nodup :=
  List.nodup_dedup _

theorem GoMap_get_delete {K V : Type} [DecidableEq K] (m : GoMap K V) (k k' : K) :
    GoMap.get (m.delete k) k' = if k = k' then none else GoMap.get m k' := by
  induction m with
  | nil => simp [GoMap.delete, GoMap.get]
  | cons p rest ih =>
    obtain ⟨k₁, v⟩ := p
    unfold GoMap.delete at ih ⊢
    by_cases h1 : k₁ = k
    · subst h1
      rw [List.filter_cons_of_neg (by simp), ih]
      by_cases h2 : k₁ = k'
      · simp [h2]
      · simp [h2, GoMap.get]
    · rw [List.filter_cons_of_pos (by simpa using h1)]
      unfold GoMap.get
      by_cases h2 : k₁ = k'
      · subst h2
        have h3 : ¬ k = k₁ := fun e => h1 e.symm
        simp [h3]
      · simp only [h2, if_false]
        exact ih

/-! ### Groups to remove from an ACL -/

namespace bcpsharingapply

theorem gSet_set_fold (aces : List bcpsharing.FaclAce) (m0 : GoMap String Unit) (g : String) :
    (GoMap.get (aces.foldl (fun m ace => m.set ace.GroupName ()) m0) g).isSome = true ↔
      (∃ ace ∈ aces, ace.GroupName = g) ∨ (GoMap.get m0 g).isSome = true := by
  induction aces generalizing m0 with
  | nil => simp
  | cons a rest ih =>
    rw [List.foldl_cons, ih, GoMap_get_set_key]
    by_cases h : a.GroupName = g
    · simp [h]
    · simp [h]

theorem gSet_delete_aces (xs : List bcpsharing.FaclAce) (m0 : GoMap String Unit)
    (g : String) :
    (GoMap.get (xs.foldl (fun m ace => m.delete ace.GroupName) m0) g).isSome = true ↔
      (¬ ∃ x ∈ xs, x.GroupName = g) ∧ (GoMap.get m0 g).isSome = true := by
  induction xs generalizing m0 with
  | nil => simp
  | cons a rest ih =>
    rw [List.foldl_cons, ih, GoMap_get_delete]
    by_cases h : a.GroupName = g
    · simp [h]
    · simp [h]

theorem gSet_delete_names (xs : List String) (m0 : GoMap String Unit) (g : String) :
    (GoMap.get (xs.foldl (fun m x => m.delete x) m0) g).isSome = true ↔
      g ∉ xs ∧ (GoMap.get m0 g).isSome = true := by
  induction xs generalizing m0 with
  | nil => simp
  | cons a rest ih =>
    rw [List.foldl_cons, ih, GoMap_get_delete]
    by_cases h : a = g
    · simp [h]
    · have h' : ¬ g = a := fun e => h e.symm
      simp [h, h']

theorem gSet_get (actual desired : List bcpsharing.FaclAce) (additionalGroups : List String)
    (g : String) :
    (GoMap.get (faclGroupsToRemove_gSet actual desired additionalGroups) g).isSome = true ↔
      (∃ ace ∈ actual, ace.IsNamedGroup = true ∧ ace.GroupName = g) ∧
      (¬ ∃ ace ∈ desired, ace.IsNamedGroup = true ∧ ace.GroupName = g) ∧
      g ∉ additionalGroups := by
  unfold faclGroupsToRemove_gSet
  simp only
  rw [gSet_delete_names, gSet_delete_aces, gSet_set_fold]
  simp only [bcpsharing.Facl.SelectNamedGroupEntries, List.mem_filter, GoMap.get,
    Option.isSome_none, Bool.false_eq_true, or_false, exists_eq_right, and_assoc]
  tauto

end bcpsharingapply

/-- C29: for every actual ACL, desired ACL and list of managing (additional)
group names, `faclGroupsToRemove` returns a strictly ascending list without
duplicates that holds exactly the group names of the named group entries
(normal or default; the tag is `group:` or `default:group:` followed by at
least one more character, which excludes the anonymous group entry) of the
actual ACL that are not group names of named group entries of the desired
ACL and are not among the managing groups; a managing group and a desired
group are never in the result; and the result is the same for every order in
which the set is iterated. The group name of an entry is the part of its tag
after the last colon: `n` for the tags `group:n` and `default:group:n`. For
the actual entries of `og_alice`, `og_bob`, `og_carol` and (default)
`og_dave`, the desired entry of `og_bob` and the managing group `og_alice`,
the result is `og_carol`, `og_dave`. -/
theorem faclGroupsToRemove_spec (actual desired : List bcpsharing.FaclAce)
    (additionalGroups : List String) :
    (bcpsharingapply.faclGroupsToRemove actual desired additionalGroups).Pairwise
      (fun a b => stringLess a b = true) ∧
    (bcpsharingapply.faclGroupsToRemove actual desired additionalGroups).Nodup ∧
    (∀ g, g ∈ bcpsharingapply.faclGroupsToRemove actual desired additionalGroups ↔
      (∃ ace ∈ actual, ace.IsNamedGroup = true ∧ ace.GroupName = g) ∧
      (¬ ∃ ace ∈ desired, ace.IsNamedGroup = true ∧ ace.GroupName = g) ∧
      g ∉ additionalGroups) ∧
    (∀ g ∈ additionalGroups,
      g ∉ bcpsharingapply.faclGroupsToRemove actual desired additionalGroups) ∧
    (∀ ace ∈ desired, ace.IsNamedGroup = true →
      ace.GroupName ∉ bcpsharingapply.faclGroupsToRemove actual desired additionalGroups) ∧
    (∀ range : List String,
      range.Perm (bcpsharingapply.faclGroupsToRemove_gSet actual desired
        additionalGroups).keys →
      sortStrings range =
        bcpsharingapply.faclGroupsToRemove actual desired additionalGroups) ∧
    (∀ ace : bcpsharing.FaclAce, ace.IsNamedGroup = true ↔
      ∃ name, name ≠ "" ∧
        (ace.Tag = "group:" ++ name ∨ ace.Tag = "default:group:" ++ name)) ∧
    (∀ name mode : String, ':' ∉ name.data →
      (⟨"group:" ++ name, mode⟩ : bcpsharing.FaclAce).GroupName = name ∧
      (⟨"default:group:" ++ name, mode⟩ : bcpsharing.FaclAce).GroupName = name) ∧
    (∀ (ace : bcpsharing.FaclAce) (t name : String), ace.Tag = t ++ ":" ++ name →
      ':' ∉ name.data → ace.GroupName = name) ∧
    bcpsharingapply.faclGroupsToRemove
        [ ⟨"user:", "rwx"⟩, ⟨"group:", "r-x"⟩, ⟨"group:og_carol", "r-x"⟩,
          ⟨"group:og_alice", "rwx"⟩, ⟨"group:og_bob", "r-x"⟩, ⟨"mask:", "rwx"⟩,
          ⟨"other:", "---"⟩, ⟨"default:group:", "r-x"⟩, ⟨"default:group:og_dave", "r-x"⟩,
          ⟨"default:group:og_carol", "r-x"⟩ ]
        [⟨"group:og_bob", "r-x"⟩] ["og_alice"] = ["og_carol", "og_dave"] := by
  have hname : ∀ (ace : bcpsharing.FaclAce) (t name : String), ace.Tag = t ++ ":" ++ name →
      ':' ∉ name.data → ace.GroupName = name := by
    intro ace t name htag hn
    have hd : ace.Tag.data = t.data ++ ':' :: name.data := by
      rw [htag]
      simp only [String.data_append, List.append_assoc]
      rfl
    unfold bcpsharing.FaclAce.GroupName strings.Split
    rw [hd, splitOnChar_append, splitOnChar_of_not_mem ':' _ hn]
    simp
  have hmem : ∀ g, g ∈ bcpsharingapply.faclGroupsToRemove actual desired additionalGroups ↔
      (∃ ace ∈ actual, ace.IsNamedGroup = true ∧ ace.GroupName = g) ∧
      (¬ ∃ ace ∈ desired, ace.IsNamedGroup = true ∧ ace.GroupName = g) ∧
      g ∉ additionalGroups := by
    intro g
    unfold bcpsharingapply.faclGroupsToRemove
    rw [sortStrings_eq_sortByKey, (sortByKey_perm id _).mem_iff, GoMap_mem_keys,
      bcpsharingapply.gSet_get]
  have hnd : ((bcpsharingapply.faclGroupsToRemove_gSet actual desired
      additionalGroups).keys.map id).Nodup := by
    rw [List.map_id]
    exact GoMap_keys_nodup _
  refine ⟨?_, ?_, hmem, ?_, ?_, ?_, ?_,
    fun name mode hn => ⟨hname _ "group" name rfl hn, hname _ "default:group" name rfl hn⟩,
    hname, by decide⟩
  · exact sortByKey_strict id _ hnd
  · unfold bcpsharingapply.faclGroupsToRemove
    rw [sortStrings_eq_sortByKey]
    exact (sortByKey_perm id _).nodup_iff.mpr (GoMap_keys_nodup _)
  · intro g hg hin
    exact ((hmem g).mp hin).2.2 hg
  · intro ace hace hnamed hin
    exact ((hmem _).mp hin).2.1 ⟨ace, hace, hnamed, rfl⟩
  · intro range hperm
    unfold bcpsharingapply.faclGroupsToRemove
    rw [sortStrings_eq_sortByKey, sortStrings_eq_sortByKey]
    exact sortByKey_eq_of_perm id _ _ hperm hnd
  · intro ace
    have hpre : ∀ p : String, (HasPrefix ace.Tag p = true ∧ ace.Tag ≠ p) ↔
        ∃ name, name ≠ "" ∧ ace.Tag = p ++ name := by
      intro p
      constructor
      · rintro ⟨hp, hne⟩
        refine ⟨sliceFrom ace.Tag p.data.length, ?_, HasPrefix_eq_append _ _ hp⟩
        intro he
        apply hne
        have := HasPrefix_eq_append _ _ hp
        rw [he] at this
        simpa using this
      · rintro ⟨name, hname, htag⟩
        rw [htag]
        refine ⟨HasPrefix_append _ _, ?_⟩
        intro he
        apply hname
        have := congrArg String.data he
        rw [String.data_append] at this
        apply String.ext
        simpa using this
    unfold bcpsharing.FaclAce.IsNamedGroup bcpsharing.FaclAce.IsNamedGroupNormal
      bcpsharing.FaclAce.IsNamedGroupDefault
    simp only [Bool.or_eq_true, Bool.and_eq_true, decide_eq_true_eq, hpre]
    constructor
    · rintro (⟨name, h1, h2⟩ | ⟨name, h1, h2⟩)
      · exact ⟨name, h1, Or.inl h2⟩
      · exact ⟨name, h1, Or.inr h2⟩
    · rintro ⟨name, h1, h2 | h2⟩
      · exact Or.inl ⟨name, h1, h2⟩
      · exact Or.inr ⟨name, h1, h2⟩

/-! ### Slices with an index map -/

theorem MapIdx_nil {α : Type} (key : α → String) : MapIdx key ([] : List α) [] := by
  intro k i
  simp [GoMap.get]

theorem MapIdx_get_some {α : Type} {key : α → String} {l : List α} {m : GoMap String Nat}
    (h : MapIdx key l m) {k : String} {idx : Nat} (hget : GoMap.get m k = some idx) :
    ∃ e, l[idx]? = some e ∧ key e = k := by
  have := (h k idx).mp hget
  cases hl : l[idx]? with
  | none => simp [hl] at this
  | some e =>
    rw [hl] at this
    exact ⟨e, rfl, by simpa using this⟩

theorem MapIdx_get_none {α : Type} {key : α → String} {l : List α} {m : GoMap String Nat}
    (h : MapIdx key l m) {k : String} (hget : GoMap.get m k = none) :
    ∀ e ∈ l, key e ≠ k := by
  intro e he hk
  obtain ⟨i, hi⟩ := List.mem_iff_getElem?.mp he
  have := (h k i).mpr (by rw [hi]; simp [hk])
  rw [hget] at this
  cases this

theorem MapIdx_unique {α : Type} {key : α → String} {l : List α} {m : GoMap String Nat}
    (h : MapIdx key l m) {i j : Nat} {a b : α} (hi : l[i]? = some a) (hj : l[j]? = some b)
    (hk : key a = key b) : i = j := by
  have h1 := (h (key a) i).mpr (by rw [hi]; rfl)
  have h2 := (h (key a) j).mpr (by rw [hj]; simp [hk])
  rw [h1] at h2
  injection h2

theorem MapIdx_nodup {α : Type} {key : α → String} {l : List α} {m : GoMap String Nat}
    (h : MapIdx key l m) : (l.map key).Nodup := by
  rw [List.nodup_iff_getElem?_ne_getElem?]
  intro i j hij hj heq
  rw [List.length_map] at hj
  rw [List.getElem?_map, List.getElem?_map] at heq
  have hi : i < l.length := by omega
  obtain ⟨a, ha⟩ : ∃ a, l[i]? = some a := ⟨l[i], List.getElem?_eq_getElem hi⟩
  obtain ⟨b, hb⟩ : ∃ b, l[j]? = some b := ⟨l[j], List.getElem?_eq_getElem hj⟩
  rw [ha, hb] at heq
  have := MapIdx_unique h ha hb (by simpa using heq)
  omega

theorem MapIdx_append {α : Type} {key : α → String} {l : List α} {m : GoMap String Nat}
    (h : MapIdx key l m) (e : α) (hget : GoMap.get m (key e) = none) :
    MapIdx key (l ++ [e]) (m.set (key e) l.length) := by
  intro k i
  rw [GoMap_get_set_key]
  have hnone := MapIdx_get_none h hget
  by_cases hk : key e = k
  · simp only [hk, if_true, Option.some.injEq]
    constructor
    · intro hi
      subst hi
      rw [List.getElem?_concat_length]
      simp [hk]
    · intro hi
      by_cases hlt : i < l.length
      · rw [List.getElem?_append_left hlt] at hi
        cases hl : l[i]? with
        | none => simp [hl] at hi
        | some a =>
          rw [hl] at hi
          have hmem : a ∈ l := List.mem_iff_getElem?.mpr ⟨i, hl⟩
          exact absurd (by simpa using hi) (hk ▸ hnone a hmem)
      · by_cases heq : i = l.length
        · exact heq.symm
        · have : (l ++ [e])[i]? = none := by
            apply List.getElem?_eq_none
            simp
            omega
          simp [this] at hi
  · simp only [hk, if_false]
    rw [h k i]
    by_cases hlt : i < l.length
    · rw [List.getElem?_append_left hlt]
    · rw [List.getElem?_eq_none (by omega)]
      by_cases heq : i = l.length
      · subst heq
        rw [List.getElem?_concat_length]
        simp [hk]
      · have : (l ++ [e])[i]? = none := by
          apply List.getElem?_eq_none
          simp
          omega
        rw [this]

theorem MapIdx_set {α : Type} {key : α → String} {l : List α} {m : GoMap String Nat}
    (h : MapIdx key l m) {idx : Nat} {e e' : α} (hl : l[idx]? = some e)
    (hk : key e' = key e) : MapIdx key (l.set idx e') m := by
  intro k i
  rw [h k i, List.getElem?_set]
  by_cases hi : idx = i
  · subst hi
    have hlt : idx < l.length := (List.getElem?_eq_some.mp hl).1
    simp [hlt, hl, hk]
  · simp [hi]

theorem MapIdx_set_eq_map {α : Type} {key : α → String} {l : List α} {m : GoMap String Nat}
    (h : MapIdx key l m) {idx : Nat} {e : α} (hl : l[idx]? = some e) (f : α → α) :
    l.set idx (f e) = l.map (fun x => if key x = key e then f x else x) := by
  apply List.ext_getElem?
  intro j
  rw [List.getElem?_set, List.getElem?_map]
  by_cases hj : idx = j
  · subst hj
    have hlt : idx < l.length := (List.getElem?_eq_some.mp hl).1
    simp [hlt, hl]
  · simp only [hj, if_false]
    cases hx : l[j]? with
    | none => rfl
    | some x =>
      have hne : ¬ key x = key e := fun hk => hj (MapIdx_unique h hl hx hk.symm)
      simp [hne]

theorem MapIdx_any {α : Type} {key : α → String} {l : List α} {m : GoMap String Nat}
    (h : MapIdx key l m) (k : String) :
    l.any (fun e => decide (key e = k)) = (GoMap.get m k).isSome := by
  cases hget : GoMap.get m k with
  | none =>
    have := MapIdx_get_none h hget
    simp only [Option.isSome_none, List.any_eq_false, decide_eq_true_eq]
    exact this
  | some idx =>
    obtain ⟨e, he, hk⟩ := MapIdx_get_some h hget
    simp only [Option.isSome_some, List.any_eq_true, decide_eq_true_eq]
    exact ⟨e, List.mem_iff_getElem?.mpr ⟨idx, he⟩, hk⟩

theorem MapIdx_get_eq_none {α : Type} {key : α → String} {l : List α} {m : GoMap String Nat}
    (h : MapIdx key l m) {k : String} (hk : ∀ e ∈ l, key e ≠ k) : GoMap.get m k = none := by
  cases hget : GoMap.get m k with
  | none => rfl
  | some idx =>
    obtain ⟨e, he, hke⟩ := MapIdx_get_some h hget
    exact absurd hke (hk e (List.mem_iff_getElem?.mpr ⟨idx, he⟩))

/-! ### Union of ACLs -/

namespace bcpsharing

theorem indexByGroup_MapIdx (u : List Ace) (hnd : (u.map (fun e => e.Group)).Nodup) :
    MapIdx (fun e : Ace => e.Group) u (Acl.indexByGroup u) := by
  induction u using List.reverseRecOn with
  | nil => exact MapIdx_nil _
  | append_singleton l e ih =>
    rw [List.map_append, List.nodup_append] at hnd
    obtain ⟨hl, -, hdis⟩ := hnd
    have ih' := ih hl
    have hfold : Acl.indexByGroup (l ++ [e]) = (Acl.indexByGroup l).set e.Group l.length := by
      unfold Acl.indexByGroup
      rw [List.enum_append, List.foldl_append]
      rfl
    rw [hfold]
    apply MapIdx_append ih' e
    apply MapIdx_get_eq_none ih'
    intro x hx hk
    exact hdis (List.mem_map.mpr ⟨x, hx, hk⟩) (by simp)

theorem UnionMode_valid (e ace : Ace) (he : validMode e.Mode = true)
    (ha : validMode ace.Mode = true) :
    e.UnionMode ace = Result.ok (orModes e.Mode ace.Mode) ∧
      validMode (orModes e.Mode ace.Mode) = true := by
  obtain ⟨h1, h2, -⟩ := unionModes_table _ (validMode_mem_allModes _ he) _
    (validMode_mem_allModes _ ha)
  exact ⟨h1, allModes_valid _ h2⟩

theorem unionStep_valid (u : List Ace) (ace : Ace) (hu : ∀ e ∈ u, validMode e.Mode = true)
    (ha : validMode ace.Mode = true) : ∀ e ∈ unionStep u ace, validMode e.Mode = true := by
  intro e he
  unfold unionStep at he
  split at he
  · rw [List.mem_map] at he
    obtain ⟨x, hx, rfl⟩ := he
    split
    · exact (UnionMode_valid x ace (hu x hx) ha).2
    · exact hu x hx
  · rcases List.mem_append.mp he with h | h
    · exact hu e h
    · rw [List.mem_singleton] at h
      rw [h]
      exact ha

theorem UnionLoop_eq (b u : List Ace) (m : GoMap String Nat)
    (hm : MapIdx (fun e : Ace => e.Group) u m) (hu : ∀ e ∈ u, validMode e.Mode = true)
    (hb : ∀ e ∈ b, validMode e.Mode = true) :
    Acl.UnionLoop b u m = Result.ok (b.foldl unionStep u) := by
  induction b generalizing u m with
  | nil => rfl
  | cons ace rest ih =>
    have ha := hb ace (List.mem_cons_self _ _)
    have hrest : ∀ e ∈ rest, validMode e.Mode = true :=
      fun e he => hb e (List.mem_cons_of_mem _ he)
    have hany := MapIdx_any hm ace.Group
    unfold Acl.UnionLoop
    rw [List.foldl_cons]
    cases hget : GoMap.get m ace.Group with
    | none =>
      rw [hget] at hany
      have hstep : unionStep u ace = u ++ [ace] := by
        unfold unionStep
        rw [hany]
        rfl
      simp only []
      rw [hstep]
      exact ih _ _ (MapIdx_append hm ace hget) (hstep ▸ unionStep_valid u ace hu ha) hrest
    | some idx =>
      rw [hget] at hany
      obtain ⟨e, he, hk⟩ := MapIdx_get_some hm hget
      have hk' : e.Group = ace.Group := hk
      have hemem : e ∈ u := List.mem_iff_getElem?.mpr ⟨idx, he⟩
      obtain ⟨hmode, -⟩ := UnionMode_valid e ace (hu e hemem) ha
      have hstep : unionStep u ace =
          u.set idx { e with Mode := orModes e.Mode ace.Mode } := by
        unfold unionStep
        rw [hany]
        simp only [Option.isSome_some, if_true]
        rw [MapIdx_set_eq_map hm he (fun x => { x with Mode := orModes x.Mode ace.Mode })]
        simp only [hk']
      simp only [he, hmode]
      rw [hstep]
      exact ih _ _ (MapIdx_set hm he rfl) (hstep ▸ unionStep_valid u ace hu ha) hrest

theorem Union_eq (a b : List Ace) (ha : WellFormedAcl a)
    (hb : ∀ e ∈ b, validMode e.Mode = true) :
    Acl.Union a b = Result.ok (unionSpec a b) :=
  UnionLoop_eq b a _ (indexByGroup_MapIdx a ha.1) ha.2 hb

end bcpsharing

namespace bcpsharing

theorem modeBits_orModes (x y : String) (hx : validMode x = true) (hy : validMode y = true)
    (i : Nat) (c : Char) (hic : (i, c) ∈ modeBits) :
    hasBit (orModes x y) i c = (hasBit x i c || hasBit y i c) := by
  obtain ⟨-, -, hr, hw, hxx, -⟩ := unionModes_table _ (validMode_mem_allModes _ hx) _
    (validMode_mem_allModes _ hy)
  simp only [modeBits, List.mem_cons, Prod.mk.injEq, List.mem_singleton, List.not_mem_nil,
    or_false] at hic
  rcases hic with ⟨rfl, rfl⟩ | ⟨rfl, rfl⟩ | ⟨rfl, rfl⟩
  · exact hr
  · exact hw
  · exact hxx

theorem unionStep_groups (u : List Ace) (ace : Ace) :
    (unionStep u ace).map (fun e => e.Group) =
      if u.any (fun e => decide (e.Group = ace.Group)) then u.map (fun e => e.Group)
      else u.map (fun e => e.Group) ++ [ace.Group] := by
  unfold unionStep
  split
  · rw [List.map_map]
    apply List.map_congr_left
    intro e _
    simp only [Function.comp]
    split <;> rfl
  · simp

theorem unionStep_wf (u : List Ace) (ace : Ace) (hu : WellFormedAcl u)
    (ha : validMode ace.Mode = true) : WellFormedAcl (unionStep u ace) := by
  refine ⟨?_, unionStep_valid u ace hu.2 ha⟩
  rw [unionStep_groups]
  split
  · exact hu.1
  · rename_i hany
    rw [List.nodup_append]
    refine ⟨hu.1, List.nodup_singleton _, ?_⟩
    intro g hg hg'
    rw [List.mem_singleton] at hg'
    subst hg'
    apply hany
    rw [List.mem_map] at hg
    obtain ⟨e, he, hge⟩ := hg
    rw [List.any_eq_true]
    exact ⟨e, he, by simpa using hge⟩

theorem unionSpec_wf (a b : List Ace) (ha : WellFormedAcl a)
    (hb : ∀ e ∈ b, validMode e.Mode = true) : WellFormedAcl (unionSpec a b) := by
  unfold unionSpec
  induction b generalizing a with
  | nil => exact ha
  | cons ace rest ih =>
    rw [List.foldl_cons]
    exact ih _ (unionStep_wf a ace ha (hb ace (List.mem_cons_self _ _)))
      (fun e he => hb e (List.mem_cons_of_mem _ he))

theorem unionSpec_groups (a b : List Ace) (g : String) :
    g ∈ (unionSpec a b).map (fun e => e.Group) ↔
      g ∈ a.map (fun e => e.Group) ∨ g ∈ b.map (fun e => e.Group) := by
  unfold unionSpec
  induction b generalizing a with
  | nil => simp
  | cons ace rest ih =>
    rw [List.foldl_cons, ih, unionStep_groups]
    split
    · rename_i hany
      rw [List.any_eq_true] at hany
      obtain ⟨e, he, hge⟩ := hany
      have hmem : ace.Group ∈ a.map (fun e => e.Group) :=
        List.mem_map.mpr ⟨e, he, by simpa using hge⟩
      simp only [List.map_cons, List.mem_cons]
      constructor
      · rintro (h | h)
        · exact Or.inl h
        · exact Or.inr (Or.inr h)
      · rintro (h | h | h)
        · exact Or.inl h
        · exact Or.inl (h ▸ hmem)
        · exact Or.inr h
    · simp only [List.mem_append, List.mem_singleton, List.map_cons, List.mem_cons]
      tauto

theorem grants_unionStep (u : List Ace) (ace : Ace) (hu : ∀ e ∈ u, validMode e.Mode = true)
    (ha : validMode ace.Mode = true) (g : String) (i : Nat) (c : Char)
    (hic : (i, c) ∈ modeBits) :
    grants (unionStep u ace) g i c =
      (grants u g i c || (decide (ace.Group = g) && hasBit ace.Mode i c)) := by
  unfold unionStep
  split
  · rename_i hany
    rw [Bool.eq_iff_iff]
    simp only [grants, List.any_map, List.any_eq_true, Function.comp, Bool.and_eq_true,
      decide_eq_true_eq, Bool.or_eq_true]
    rw [List.any_eq_true] at hany
    obtain ⟨e0, he0, hge0⟩ := hany
    have hge0' : e0.Group = ace.Group := by simpa using hge0
    constructor
    · rintro ⟨x, hx, hxg, hbit⟩
      by_cases hxa : x.Group = ace.Group
      · rw [if_pos hxa] at hxg hbit
        simp only at hxg hbit
        rw [modeBits_orModes _ _ (hu x hx) ha i c hic, Bool.or_eq_true] at hbit
        rcases hbit with hbit | hbit
        · exact Or.inl ⟨x, hx, hxg, hbit⟩
        · exact Or.inr ⟨hxa ▸ hxg, hbit⟩
      · rw [if_neg hxa] at hxg hbit
        exact Or.inl ⟨x, hx, hxg, hbit⟩
    · rintro (⟨x, hx, hxg, hbit⟩ | ⟨hag, hbit⟩)
      · refine ⟨x, hx, ?_⟩
        by_cases hxa : x.Group = ace.Group
        · rw [if_pos hxa]
          simp only
          rw [modeBits_orModes _ _ (hu x hx) ha i c hic, hbit]
          exact ⟨hxg, rfl⟩
        · rw [if_neg hxa]
          exact ⟨hxg, hbit⟩
      · refine ⟨e0, he0, ?_⟩
        rw [if_pos hge0']
        simp only
        rw [modeBits_orModes _ _ (hu e0 he0) ha i c hic, hbit, Bool.or_true]
        exact ⟨hge0'.trans hag, rfl⟩
  · simp [grants, List.any_append]

theorem grants_unionSpec (a b : List Ace) (ha : ∀ e ∈ a, validMode e.Mode = true)
    (hb : ∀ e ∈ b, validMode e.Mode = true) (g : String) (i : Nat) (c : Char)
    (hic : (i, c) ∈ modeBits) :
    grants (unionSpec a b) g i c = (grants a g i c || grants b g i c) := by
  unfold unionSpec
  induction b generalizing a with
  | nil => simp [grants]
  | cons ace rest ih =>
    have hace := hb ace (List.mem_cons_self _ _)
    rw [List.foldl_cons, ih _ (unionStep_valid a ace ha hace)
      (fun e he => hb e (List.mem_cons_of_mem _ he)),
      grants_unionStep a ace ha hace g i c hic]
    simp [grants, Bool.or_assoc]

end bcpsharing

namespace bcpsharing

theorem unionClosed_groups (a b : List Ace) :
    (unionClosed a b).map (fun e => e.Group) =
      a.map (fun e => e.Group) ++
        (b.filter (fun x => !a.any (fun e => decide (e.Group = x.Group)))).map
          (fun e => e.Group) := by
  unfold unionClosed
  rw [List.map_append, List.map_map]
  congr 1
  apply List.map_congr_left
  intro e _
  simp only [Function.comp]
  split <;> rfl

theorem unionSpec_eq_closed (a b : List Ace) (hb : (b.map (fun e => e.Group)).Nodup) :
    unionSpec a b = unionClosed a b := by
  induction b using List.reverseRecOn with
  | nil => simp [unionSpec, unionClosed]
  | append_singleton l x ih =>
    rw [List.map_append, List.nodup_append] at hb
    obtain ⟨hl, -, hdis⟩ := hb
    have hxl : ∀ y ∈ l, ¬ y.Group = x.Group := fun y hy e =>
      hdis (List.mem_map.mpr ⟨y, hy, e⟩) (by simp)
    have ih' := ih hl
    unfold unionSpec at ih' ⊢
    rw [List.foldl_append, List.foldl_cons, List.foldl_nil, ih']
    have hfindl : l.find? (fun y => decide (y.Group = x.Group)) = none := by
      rw [List.find?_eq_none]
      intro y hy
      simpa using hxl y hy
    cases hxa : a.any (fun e => decide (e.Group = x.Group)) with
    | true =>
      have hany : (unionClosed a l).any (fun e => decide (e.Group = x.Group)) = true := by
        rw [List.any_eq_true] at hxa ⊢
        obtain ⟨e, he, hge⟩ := hxa
        have : x.Group ∈ (unionClosed a l).map (fun e => e.Group) := by
          rw [unionClosed_groups]
          exact List.mem_append_left _ (List.mem_map.mpr ⟨e, he, by simpa using hge⟩)
        obtain ⟨e', he', hge'⟩ := List.mem_map.mp this
        exact ⟨e', he', by simpa using hge'⟩
      unfold unionStep
      rw [hany]
      simp only [if_true]
      unfold unionClosed
      rw [List.map_append, List.map_map, List.filter_append]
      have hfx : [x].filter (fun x => !a.any (fun e => decide (e.Group = x.Group))) = [] := by
        simp [hxa]
      rw [hfx, List.append_nil]
      congr 1
      · apply List.map_congr_left
        intro e _
        simp only [Function.comp, List.find?_append]
        by_cases hex : e.Group = x.Group
        · have hfl : l.find? (fun y => decide (y.Group = e.Group)) = none := by
            rw [hex]
            exact hfindl
          have hfx' : [x].find? (fun y => decide (y.Group = e.Group)) = some x := by
            simp [hex]
          rw [hfl, hfx']
          simp [hex]
        · have hxe : ¬ x.Group = e.Group := fun h => hex h.symm
          have hfx' : [x].find? (fun y => decide (y.Group = e.Group)) = none := by
            simp [hxe]
          rw [hfx', Option.or_none]
          cases l.find? (fun y => decide (y.Group = e.Group)) with
          | none => simp [hex]
          | some y => simp [hex]
      · have : ∀ y ∈ l.filter (fun x => !a.any (fun e => decide (e.Group = x.Group))),
            (if y.Group = x.Group then { y with Mode := orModes y.Mode x.Mode } else y) = y := by
          intro y hy
          rw [if_neg (hxl y (List.mem_filter.mp hy).1)]
        rw [List.map_congr_left this, List.map_id']
    | false =>
      have hany : (unionClosed a l).any (fun e => decide (e.Group = x.Group)) = false := by
        rw [List.any_eq_false]
        intro e he hge
        have hmem : x.Group ∈ (unionClosed a l).map (fun e => e.Group) :=
          List.mem_map.mpr ⟨e, he, by simpa using hge⟩
        rw [unionClosed_groups, List.mem_append] at hmem
        rcases hmem with h | h
        · rw [List.any_eq_false] at hxa
          obtain ⟨e', he', hge'⟩ := List.mem_map.mp h
          exact hxa e' he' (by simpa using hge')
        · obtain ⟨y, hy, hgy⟩ := List.mem_map.mp h
          exact hxl y (List.mem_filter.mp hy).1 hgy
      unfold unionStep
      rw [hany]
      simp only [Bool.false_eq_true, if_false]
      unfold unionClosed
      rw [List.filter_append]
      have hfx : [x].filter (fun x => !a.any (fun e => decide (e.Group = x.Group))) = [x] := by
        simp [hxa]
      rw [hfx, ← List.append_assoc]
      congr 2
      apply List.map_congr_left
      intro e he
      have hxe : ¬ x.Group = e.Group := by
        intro h
        rw [List.any_eq_false] at hxa
        exact hxa e he (by simpa using h.symm)
      have hfx' : [x].find? (fun y => decide (y.Group = e.Group)) = none := by
        simp [hxe]
      rw [List.find?_append, hfx', Option.or_none]

end bcpsharing

/-! ### Real shares -/

namespace bcpsharing

theorem upsertSpec_wf (entries : List ExportEntry) (path : String) (acl : List Ace)
    (mg : List Group) (hwf : ∀ e ∈ entries, WellFormedAcl e.Acl) (hacl : WellFormedAcl acl) :
    ∀ e ∈ upsertSpec entries path acl mg, WellFormedAcl e.Acl := by
  intro e he
  unfold upsertSpec at he
  split at he
  · rw [List.mem_map] at he
    obtain ⟨x, hx, rfl⟩ := he
    split
    · exact unionSpec_wf _ _ (hwf x hx) hacl.2
    · exact hwf x hx
  · rcases List.mem_append.mp he with h | h
    · exact hwf e h
    · rw [List.mem_singleton] at h
      rw [h]
      exact hacl

theorem upsertByRealpath_eq (entries : List ExportEntry) (m : GoMap String Nat)
    (path : String) (acl : List Ace) (mg : List Group)
    (hm : MapIdx (fun e : ExportEntry => e.Path) entries m)
    (hwf : ∀ e ∈ entries, WellFormedAcl e.Acl)
    (hacl : ∀ x ∈ acl, validMode x.Mode = true) :
    ∃ m', upsertByRealpath entries m path acl mg =
        Result.ok (upsertSpec entries path acl mg, m') ∧
      MapIdx (fun e : ExportEntry => e.Path) (upsertSpec entries path acl mg) m' := by
  have hany := MapIdx_any hm path
  unfold upsertByRealpath
  cases hget : GoMap.get m path with
  | none =>
    rw [hget] at hany
    have hstep : upsertSpec entries path acl mg =
        entries ++ [{ Path := path, Acl := acl, ManagingGroups := mg }] := by
      unfold upsertSpec
      rw [hany]
      rfl
    rw [hstep]
    exact ⟨_, rfl, MapIdx_append hm { Path := path, Acl := acl, ManagingGroups := mg } hget⟩
  | some idx =>
    rw [hget] at hany
    obtain ⟨e, he, hk⟩ := MapIdx_get_some hm hget
    have hk' : e.Path = path := hk
    have hemem : e ∈ entries := List.mem_iff_getElem?.mpr ⟨idx, he⟩
    have hunion := Union_eq e.Acl acl (hwf e hemem) hacl
    have hstep : upsertSpec entries path acl mg =
        entries.set idx { e with Acl := unionSpec e.Acl acl } := by
      unfold upsertSpec
      rw [hany]
      simp only [Option.isSome_some, if_true]
      rw [MapIdx_set_eq_map hm he (fun x => { x with Acl := unionSpec x.Acl acl })]
      simp only [hk']
    simp only [he, hunion]
    rw [hstep]
    exact ⟨_, rfl, MapIdx_set hm he rfl⟩

theorem compileRealSharesLoop_eq (fs : Bcpfs) (rest reals : List ExportEntry)
    (m : GoMap String Nat)
    (hm : MapIdx (fun e : ExportEntry => e.Path) reals m)
    (hwf : ∀ e ∈ reals, WellFormedAcl e.Acl)
    (hrest : ∀ s ∈ rest, WellFormedAcl s.Acl) :
    compileRealSharesLoop fs rest reals m =
      Result.ok
        (rest.foldl (fun l s => upsertSpec l (fs.Realpath s.Path) s.Acl s.ManagingGroups)
          reals) := by
  induction rest generalizing reals m with
  | nil => rfl
  | cons s rest ih =>
    have hs := hrest s (List.mem_cons_self _ _)
    obtain ⟨m', hup, hm'⟩ :=
      upsertByRealpath_eq reals m (fs.Realpath s.Path) s.Acl s.ManagingGroups hm hwf hs.2
    unfold compileRealSharesLoop
    simp only [hup, List.foldl_cons]
    exact ih _ _ hm' (upsertSpec_wf _ _ _ _ hwf hs)
      (fun x hx => hrest x (List.mem_cons_of_mem _ hx))

theorem firstOccurrences_snoc (l : List String) (x : String) :
    firstOccurrences (l ++ [x]) =
      if x ∈ l then firstOccurrences l else firstOccurrences l ++ [x] := by
  induction l with
  | nil => simp [firstOccurrences]
  | cons y l ih =>
    have e : firstOccurrences (y :: l ++ [x]) =
        y :: (firstOccurrences (l ++ [x])).filter (fun z => decide (z ≠ y)) := rfl
    rw [e, ih]
    simp only [firstOccurrences]
    by_cases hx : x = y
    · subst hx
      by_cases hm : x ∈ l <;> simp [hm, List.filter_append]
    · by_cases hm : x ∈ l <;> simp [hm, hx, List.filter_append]

theorem mem_firstOccurrences (l : List String) (x : String) :
    x ∈ firstOccurrences l ↔ x ∈ l := by
  induction l with
  | nil => simp [firstOccurrences]
  | cons y l ih =>
    simp only [firstOccurrences, List.mem_cons, List.mem_filter, ih, decide_eq_true_eq]
    by_cases h : x = y <;> simp [h]

theorem firstOccurrences_nodup (l : List String) : (firstOccurrences l).Nodup := by
  induction l with
  | nil => simp [firstOccurrences]
  | cons y l ih =>
    simp only [firstOccurrences, List.nodup_cons, List.mem_filter, decide_eq_true_eq, ne_eq,
      not_true_eq_false, and_false, not_false_eq_true, true_and]
    exact ih.filter _

theorem unionAll_snoc (A : List (List Ace)) (b : List Ace) (hA : A ≠ []) :
    unionAll (A ++ [b]) = unionSpec (unionAll A) b := by
  cases A with
  | nil => exact absurd rfl hA
  | cons a rest =>
    simp only [List.cons_append, unionAll, List.foldl_append, List.foldl_cons, List.foldl_nil]

end bcpsharing

namespace bcpsharing

theorem realSharesSpec_snoc (fs : Bcpfs) (l : List ExportEntry) (s : ExportEntry) :
    realSharesSpec fs (l ++ [s]) =
      upsertSpec (realSharesSpec fs l) (fs.Realpath s.Path) s.Acl s.ManagingGroups := by
  have hpaths : (realSharesSpec fs l).map (fun e => e.Path) =
      firstOccurrences (l.map (fun s => fs.Realpath s.Path)) := by
    unfold realSharesSpec
    rw [List.map_map]
    exact List.map_id'' (fun _ => rfl) _
  have hany : (realSharesSpec fs l).any (fun e => decide (e.Path = fs.Realpath s.Path)) =
      decide (fs.Realpath s.Path ∈ l.map (fun s => fs.Realpath s.Path)) := by
    rw [Bool.eq_iff_iff, List.any_eq_true, decide_eq_true_eq,
      ← mem_firstOccurrences, ← hpaths, List.mem_map]
    simp only [decide_eq_true_eq]
  unfold upsertSpec
  rw [hany]
  by_cases hmem : fs.Realpath s.Path ∈ l.map (fun s => fs.Realpath s.Path)
  · simp only [hmem, decide_True, if_true]
    unfold realSharesSpec
    rw [List.map_append, List.map_cons, List.map_nil, firstOccurrences_snoc, if_pos hmem,
      List.map_map]
    apply List.map_congr_left
    intro p hp
    simp only [Function.comp]
    by_cases hps : p = fs.Realpath s.Path
    · subst hps
      have hne : (l.filter (fun x => decide (fs.Realpath x.Path = fs.Realpath s.Path))).map
          (fun s => s.Acl) ≠ [] := by
        obtain ⟨x, hx, hxp⟩ := List.mem_map.mp hmem
        intro hnil
        have : x ∈ l.filter (fun x => decide (fs.Realpath x.Path = fs.Realpath s.Path)) :=
          List.mem_filter.mpr ⟨hx, by simpa using hxp⟩
        rw [List.map_eq_nil_iff] at hnil
        rw [hnil] at this
        cases this
      have hfind : (l.find? (fun x => decide (fs.Realpath x.Path = fs.Realpath s.Path))).isSome
          = true := by
        obtain ⟨x, hx, hxp⟩ := List.mem_map.mp hmem
        exact List.find?_isSome.mpr ⟨x, hx, by simpa using hxp⟩
      obtain ⟨x0, hx0⟩ := Option.isSome_iff_exists.mp hfind
      simp only [if_true, List.filter_append, List.find?_append, hx0]
      have hfs : [s].filter (fun x => decide (fs.Realpath x.Path = fs.Realpath s.Path)) = [s] := by
        simp
      rw [hfs, List.map_append, List.map_cons, List.map_nil, unionAll_snoc _ _ hne]
      rfl
    · have hps' : ¬ fs.Realpath s.Path = p := fun h => hps h.symm
      have hfs : [s].filter (fun x => decide (fs.Realpath x.Path = p)) = [] := by
        simp [hps']
      have hfd : [s].find? (fun x => decide (fs.Realpath x.Path = p)) = none := by
        simp [hps']
      simp only [hps, if_false, List.filter_append, List.find?_append, hfs, hfd,
        List.append_nil, Option.or_none]
  · simp only [hmem, decide_False, Bool.false_eq_true, if_false]
    unfold realSharesSpec
    rw [List.map_append, List.map_cons, List.map_nil, firstOccurrences_snoc, if_neg hmem,
      List.map_append, List.map_cons, List.map_nil]
    have hfl : l.filter (fun x => decide (fs.Realpath x.Path = fs.Realpath s.Path)) = [] := by
      rw [List.filter_eq_nil_iff]
      intro x hx hxp
      exact hmem (List.mem_map.mpr ⟨x, hx, by simpa using hxp⟩)
    have hfd : l.find? (fun x => decide (fs.Realpath x.Path = fs.Realpath s.Path)) = none := by
      rw [List.find?_eq_none]
      intro x hx hxp
      exact hmem (List.mem_map.mpr ⟨x, hx, by simpa using hxp⟩)
    congr 1
    · apply List.map_congr_left
      intro p hp
      have hpl : p ∈ l.map (fun s => fs.Realpath s.Path) := (mem_firstOccurrences _ _).mp hp
      have hps' : ¬ fs.Realpath s.Path = p := fun h => hmem (h ▸ hpl)
      have hfs : [s].filter (fun x => decide (fs.Realpath x.Path = p)) = [] := by
        simp [hps']
      have hfd' : [s].find? (fun x => decide (fs.Realpath x.Path = p)) = none := by
        simp [hps']
      simp only [List.filter_append, List.find?_append, hfs, hfd', List.append_nil,
        Option.or_none]
    · simp [List.filter_append, List.find?_append, hfl, hfd, unionAll, unionSpec]

theorem foldl_upsertSpec_eq (fs : Bcpfs) (shares : List ExportEntry) :
    shares.foldl (fun l s => upsertSpec l (fs.Realpath s.Path) s.Acl s.ManagingGroups) [] =
      realSharesSpec fs shares := by
  induction shares using List.reverseRecOn with
  | nil => rfl
  | append_singleton l s ih =>
    rw [List.foldl_append, List.foldl_cons, List.foldl_nil, ih, realSharesSpec_snoc]

theorem compileRealShares_eq (fs : Bcpfs) (shares : List ExportEntry)
    (hwf : ∀ s ∈ shares, WellFormedAcl s.Acl) :
    compileRealShares fs shares = Result.ok (realSharesSpec fs shares) := by
  unfold compileRealShares
  rw [compileRealSharesLoop_eq fs shares [] [] (MapIdx_nil _)
    (fun e he => absurd he (List.not_mem_nil e)) hwf, foldl_upsertSpec_eq]

end bcpsharing

namespace bcpsharing

theorem foldl_unionSpec_wf (rest : List (List Ace)) (a : List Ace) (ha : WellFormedAcl a)
    (hrest : ∀ b ∈ rest, WellFormedAcl b) : WellFormedAcl (rest.foldl unionSpec a) := by
  induction rest generalizing a with
  | nil => exact ha
  | cons b rest ih =>
    rw [List.foldl_cons]
    exact ih _ (unionSpec_wf a b ha (hrest b (List.mem_cons_self _ _)).2)
      (fun x hx => hrest x (List.mem_cons_of_mem _ hx))

theorem unionAll_wf (A : List (List Ace)) (hA : ∀ a ∈ A, WellFormedAcl a) :
    WellFormedAcl (unionAll A) := by
  cases A with
  | nil => exact ⟨List.nodup_nil, fun e he => absurd he (List.not_mem_nil e)⟩
  | cons a rest =>
    exact foldl_unionSpec_wf rest a (hA a (List.mem_cons_self _ _))
      (fun x hx => hA x (List.mem_cons_of_mem _ hx))

theorem foldl_unionSpec_groups (rest : List (List Ace)) (a : List Ace) (g : String) :
    g ∈ (rest.foldl unionSpec a).map (fun e => e.Group) ↔
      ∃ b ∈ a :: rest, g ∈ b.map (fun e => e.Group) := by
  induction rest generalizing a with
  | nil => simp
  | cons b rest ih =>
    rw [List.foldl_cons, ih]
    simp only [List.mem_cons, exists_eq_or_imp, unionSpec_groups]
    tauto

theorem unionAll_groups (A : List (List Ace)) (g : String) :
    g ∈ (unionAll A).map (fun e => e.Group) ↔ ∃ a ∈ A, g ∈ a.map (fun e => e.Group) := by
  cases A with
  | nil => simp [unionAll]
  | cons a rest => exact foldl_unionSpec_groups rest a g

theorem foldl_unionSpec_grants (rest : List (List Ace)) (a : List Ace)
    (ha : WellFormedAcl a) (hrest : ∀ b ∈ rest, WellFormedAcl b) (g : String) (i : Nat)
    (c : Char) (hic : (i, c) ∈ modeBits) :
    grants (rest.foldl unionSpec a) g i c = (a :: rest).any (fun b => grants b g i c) := by
  induction rest generalizing a with
  | nil => simp
  | cons b rest ih =>
    have hb := hrest b (List.mem_cons_self _ _)
    rw [List.foldl_cons, ih _ (unionSpec_wf a b ha hb.2)
      (fun x hx => hrest x (List.mem_cons_of_mem _ hx))]
    simp only [List.any_cons, grants_unionSpec a b ha.2 hb.2 g i c hic, Bool.or_assoc]

theorem grants_unionAll (A : List (List Ace)) (hA : ∀ a ∈ A, WellFormedAcl a) (g : String)
    (i : Nat) (c : Char) (hic : (i, c) ∈ modeBits) :
    grants (unionAll A) g i c = A.any (fun b => grants b g i c) := by
  cases A with
  | nil => rfl
  | cons a rest =>
    exact foldl_unionSpec_grants rest a (hA a (List.mem_cons_self _ _))
      (fun x hx => hA x (List.mem_cons_of_mem _ hx)) g i c hic

theorem hasBit_iff_grants (acl : List Ace) (hacl : WellFormedAcl acl) (ace : Ace)
    (hace : ace ∈ acl) (i : Nat) (c : Char) :
    hasBit ace.Mode i c = true ↔ grants acl ace.Group i c = true := by
  unfold grants
  rw [List.any_eq_true]
  constructor
  · intro h
    exact ⟨ace, hace, by simp [h]⟩
  · rintro ⟨x, hx, hxb⟩
    simp only [Bool.and_eq_true, decide_eq_true_eq] at hxb
    have : x = ace := List.inj_on_of_nodup_map hacl.1 hx hace hxb.1
    rw [← this]
    exact hxb.2

end bcpsharing

/-- C24: for every list of shares whose ACLs each name pairwise distinct
groups with modes of the form `[r-][w-][x-]`, `compileRealShares` returns the
list `realSharesSpec`: exactly one entry per distinct real path, in order of
first occurrence; the ACL of each entry names pairwise distinct groups, a
group is named if and only if some share that translates to that real path
names it, and each of the bits `r`, `w`, `x` of its mode is set if and only if
some such share sets it for the group. `Acl.Union a b` returns the entries of
`a` in their order, each with the mode of the entry of `b` for the same group
merged into it (an entry of a group only in `a` keeps its mode), followed by
the entries of `b` for the groups that `a` does not name. -/
theorem compileRealShares_spec (fs : bcpsharing.Bcpfs) (shares : List bcpsharing.ExportEntry)
    (hwf : ∀ s ∈ shares, bcpsharing.WellFormedAcl s.Acl) :
    bcpsharing.compileRealShares fs shares =
      Result.ok (bcpsharing.realSharesSpec fs shares) ∧
    (bcpsharing.realSharesSpec fs shares).map (fun e => e.Path) =
      bcpsharing.firstOccurrences (shares.map (fun s => fs.Realpath s.Path)) ∧
    ((bcpsharing.realSharesSpec fs shares).map (fun e => e.Path)).Nodup ∧
    (∀ p, p ∈ (bcpsharing.realSharesSpec fs shares).map (fun e => e.Path) ↔
      ∃ s ∈ shares, fs.Realpath s.Path = p) ∧
    (∀ e ∈ bcpsharing.realSharesSpec fs shares,
      bcpsharing.WellFormedAcl e.Acl ∧
      (∀ g, g ∈ e.Acl.map (fun x => x.Group) ↔
        ∃ s ∈ shares, fs.Realpath s.Path = e.Path ∧ g ∈ s.Acl.map (fun x => x.Group)) ∧
      (∀ ace ∈ e.Acl, ∀ i c, (i, c) ∈ bcpsharing.modeBits →
        (bcpsharing.hasBit ace.Mode i c = true ↔
          ∃ s ∈ shares, fs.Realpath s.Path = e.Path ∧
            ∃ x ∈ s.Acl, x.Group = ace.Group ∧ bcpsharing.hasBit x.Mode i c = true))) ∧
    (∀ a b, bcpsharing.WellFormedAcl a → bcpsharing.WellFormedAcl b →
      bcpsharing.Acl.Union a b = Result.ok (bcpsharing.unionClosed a b)) := by
  have hpaths : (bcpsharing.realSharesSpec fs shares).map (fun e => e.Path) =
      bcpsharing.firstOccurrences (shares.map (fun s => fs.Realpath s.Path)) := by
    unfold bcpsharing.realSharesSpec
    rw [List.map_map]
    exact List.map_id'' (fun _ => rfl) _
  refine ⟨bcpsharing.compileRealShares_eq fs shares hwf, hpaths, ?_, ?_, ?_, ?_⟩
  · rw [hpaths]
    exact bcpsharing.firstOccurrences_nodup _
  · intro p
    rw [hpaths, bcpsharing.mem_firstOccurrences, List.mem_map]
  · intro e he
    unfold bcpsharing.realSharesSpec at he
    rw [List.mem_map] at he
    obtain ⟨rp, -, rfl⟩ := he
    have hA : ∀ a ∈ (shares.filter (fun s => decide (fs.Realpath s.Path = rp))).map
        (fun s => s.Acl), bcpsharing.WellFormedAcl a := by
      intro a ha
      obtain ⟨s, hs, rfl⟩ := List.mem_map.mp ha
      exact hwf s (List.mem_filter.mp hs).1
    have hwfu := bcpsharing.unionAll_wf _ hA
    refine ⟨hwfu, ?_, ?_⟩
    · intro g
      simp only
      rw [bcpsharing.unionAll_groups]
      constructor
      · rintro ⟨a, ha, hg⟩
        obtain ⟨s, hs, rfl⟩ := List.mem_map.mp ha
        obtain ⟨hs1, hs2⟩ := List.mem_filter.mp hs
        exact ⟨s, hs1, by simpa using hs2, hg⟩
      · rintro ⟨s, hs, hsp, hg⟩
        exact ⟨s.Acl, List.mem_map.mpr ⟨s, List.mem_filter.mpr ⟨hs, by simpa using hsp⟩, rfl⟩,
          hg⟩
    · intro ace hace i c hic
      simp only at hace ⊢
      rw [bcpsharing.hasBit_iff_grants _ hwfu ace hace, bcpsharing.grants_unionAll _ hA _ _ _ hic,
        List.any_eq_true]
      constructor
      · rintro ⟨a, ha, hg⟩
        obtain ⟨s, hs, rfl⟩ := List.mem_map.mp ha
        obtain ⟨hs1, hs2⟩ := List.mem_filter.mp hs
        unfold bcpsharing.grants at hg
        rw [List.any_eq_true] at hg
        obtain ⟨x, hx, hxb⟩ := hg
        simp only [Bool.and_eq_true, decide_eq_true_eq] at hxb
        exact ⟨s, hs1, by simpa using hs2, x, hx, hxb.1, hxb.2⟩
      · rintro ⟨s, hs, hsp, x, hx, hxg, hxb⟩
        refine ⟨s.Acl, List.mem_map.mpr ⟨s, List.mem_filter.mpr ⟨hs, by simpa using hsp⟩, rfl⟩,
          ?_⟩
        unfold bcpsharing.grants
        rw [List.any_eq_true]
        exact ⟨x, hx, by simp [hxg, hxb]⟩
  · intro a b ha hb
    rw [bcpsharing.Union_eq a b ha hb.2, bcpsharing.unionSpec_eq_closed a b hb.1]

theorem compileRealShares_spec_witness :
    bcpsharing.compileRealShares (bcpsharing.NewBcpfs S1.cfg) Examples.sharesS5 =
      Result.ok Examples.realSharesS5 ∧
    bcpsharing.compileRealShares (bcpsharing.NewBcpfs S1.cfg) Examples.sharesS5 =
      Result.ok (bcpsharing.realSharesSpec (bcpsharing.NewBcpfs S1.cfg) Examples.sharesS5) :=
  ⟨rfl,
    (compileRealShares_spec (bcpsharing.NewBcpfs S1.cfg) Examples.sharesS5 (by decide)).1⟩

/-! ### Paths of clean components -/

namespace filepath

theorem splitOnChar_no_sep (sep : Char) (l : List Char) :
    ∀ c ∈ splitOnChar sep l, sep ∉ c := by
  induction l with
  | nil =>
    intro c hc
    simp only [splitOnChar, List.mem_singleton] at hc
    subst hc
    simp
  | cons x xs ih =>
    intro c hc
    unfold splitOnChar at hc
    by_cases hx : x = sep
    · simp only [hx, if_true, List.mem_cons] at hc
      rcases hc with rfl | hc
      · simp
      · exact ih c hc
    · simp only [hx, if_false] at hc
      cases hs : splitOnChar sep xs with
      | nil => exact absurd hs (splitOnChar_ne_nil sep xs)
      | cons w ws =>
        rw [hs] at hc ih
        simp only [List.mem_cons] at hc
        rcases hc with rfl | hc
        · intro hmem
          rcases List.mem_cons.mp hmem with h | h
          · exact hx h.symm
          · exact ih w (List.mem_cons_self _ _) h
        · exact ih c (List.mem_cons_of_mem _ hc)

theorem joinData_splitOnChar (sep : Char) (l : List Char) :
    joinData [sep] (splitOnChar sep l) = l := by
  induction l with
  | nil => rfl
  | cons x xs ih =>
    unfold splitOnChar
    by_cases hx : x = sep
    · simp only [hx, if_true]
      cases hs : splitOnChar sep xs with
      | nil => exact absurd hs (splitOnChar_ne_nil sep xs)
      | cons w ws =>
        rw [hs] at ih
        simp only [joinData, List.nil_append, List.singleton_append, ih]
    · simp only [hx, if_false]
      cases hs : splitOnChar sep xs with
      | nil => exact absurd hs (splitOnChar_ne_nil sep xs)
      | cons w ws =>
        rw [hs] at ih
        simp only
        rw [joinData_cons] at ih ⊢
        rw [List.cons_append, ih]

theorem joinElems_Split (p : String) : joinElems (strings.Split p '/') = p := by
  unfold joinElems strings.Split
  rw [List.map_map]
  have : (String.data ∘ String.mk) = id := rfl
  rw [this, List.map_id, joinData_splitOnChar]

theorem Split_joinElems (l : List String) (hne : l ≠ []) (h : ∀ c ∈ l, '/' ∉ c.data) :
    strings.Split (joinElems l) '/' = l := by
  unfold strings.Split joinElems
  simp only
  rw [splitOnChar_joinData '/' _ (by simpa using hne)
    (by
      intro c hc
      obtain ⟨s, hs, rfl⟩ := List.mem_map.mp hc
      exact h s hs)]
  rw [List.map_map]
  exact List.map_id'' (fun _ => rfl) _

theorem Split_no_slash (p : String) : ∀ c ∈ strings.Split p '/', '/' ∉ c.data := by
  intro c hc
  unfold strings.Split at hc
  obtain ⟨d, hd, rfl⟩ := List.mem_map.mp hc
  exact splitOnChar_no_sep '/' p.data d hd

theorem cleanStep_dotdots (k : Nat) :
    cleanStep false (List.replicate k ['.', '.']) ['.', '.'] =
      List.replicate (k + 1) ['.', '.'] := by
  cases k with
  | zero => rfl
  | succ k => simp [cleanStep, List.replicate_succ]

theorem foldl_cleanStep_dotdots (k n : Nat) :
    (List.replicate n ['.', '.']).foldl (cleanStep false) (List.replicate k ['.', '.']) =
      List.replicate (k + n) ['.', '.'] := by
  induction n generalizing k with
  | zero => rfl
  | succ n ih =>
    rw [List.replicate_succ, List.foldl_cons, cleanStep_dotdots, ih]
    congr 1
    omega

/-- A relative path of `k` elements `..` followed by clean elements is its
own cleaned form. -/
theorem Join_dotdots_elems (k : Nat) (elems : List String)
    (h : ∀ e ∈ elems, isElem e = true) (hne : List.replicate k ".." ++ elems ≠ []) :
    Join (List.replicate k ".." ++ elems) = joinElems (List.replicate k ".." ++ elems) := by
  have hslash : ∀ c ∈ List.replicate k ".." ++ elems, '/' ∉ c.data := by
    intro c hc
    rcases List.mem_append.mp hc with hc | hc
    · rw [List.eq_of_mem_replicate hc]
      decide
    · exact ((isElem_iff c).mp (h c hc)).2.1
  have hnonempty : ∀ c ∈ List.replicate k ".." ++ elems, c ≠ "" := by
    intro c hc
    rcases List.mem_append.mp hc with hc | hc
    · rw [List.eq_of_mem_replicate hc]
      decide
    · intro he
      have := ((isElem_iff c).mp (h c hc)).1
      rw [he] at this
      exact this rfl
  obtain ⟨e0, rest, hl⟩ : ∃ e0 rest, List.replicate k ".." ++ elems = e0 :: rest := by
    cases hl : List.replicate k ".." ++ elems with
    | nil => exact absurd hl hne
    | cons a b => exact ⟨a, b, rfl⟩
  have he0 : e0 ≠ "" := hnonempty e0 (by rw [hl]; exact List.mem_cons_self _ _)
  have hjoin : Bcpfs.Join (List.replicate k ".." ++ elems) "/" =
      joinElems (List.replicate k ".." ++ elems) := by
    apply String.ext
    rw [Join_data]
    rfl
  rw [hl, Join_cons_ne e0 rest he0, ← hl, hjoin]
  have hdata : (joinElems (List.replicate k ".." ++ elems)).data =
      joinData ['/'] ((List.replicate k ".." ++ elems).map String.data) := rfl
  have hsplit : splitSlash (joinElems (List.replicate k ".." ++ elems)).data =
      (List.replicate k ".." ++ elems).map String.data := by
    rw [hdata]
    unfold splitSlash
    apply splitOnChar_joinData
    · intro hnil
      exact hne (List.map_eq_nil_iff.mp hnil)
    · intro c hc
      obtain ⟨s, hs, rfl⟩ := List.mem_map.mp hc
      exact hslash s hs
  have hfold : (splitSlash (joinElems (List.replicate k ".." ++ elems)).data).foldl
      (cleanStep false) [] = ((List.replicate k ".." ++ elems).map String.data).reverse := by
    rw [hsplit, List.map_append, List.foldl_append, List.map_replicate]
    have h0 := foldl_cleanStep_dotdots 0 k
    simp only [List.replicate_zero, Nat.zero_add] at h0
    have hdd : ("..".data) = ['.', '.'] := rfl
    rw [hdd, h0, foldl_cleanStep_elems false elems h, List.reverse_append,
      List.reverse_replicate]
  have hd0 : (joinElems (List.replicate k ".." ++ elems)).data ≠ [] := by
    rw [hdata, hl, List.map_cons, joinData_cons]
    intro hnil
    have := (List.append_eq_nil.mp hnil).1
    exact he0 (String.ext this)
  have hhead : (joinElems (List.replicate k ".." ++ elems)).data.head? ≠ some '/' := by
    rw [hdata, hl, List.map_cons, joinData_cons]
    have hs0 : '/' ∉ e0.data := hslash e0 (by rw [hl]; exact List.mem_cons_self _ _)
    cases hd : e0.data with
    | nil => exact absurd (String.ext hd) he0
    | cons c cs =>
      rw [hd] at hs0
      simp only [List.cons_append, List.head?_cons, ne_eq, Option.some.injEq]
      intro hc
      exact hs0 (by rw [hc]; exact List.mem_cons_self _ _)
  unfold Clean
  simp only [hfold, hd0, if_false, hhead, decide_False, Bool.false_eq_true]
  have hstack : ((List.replicate k ".." ++ elems).map String.data).reverse ≠ [] := by
    intro hnil
    exact hne (List.map_eq_nil_iff.mp (List.reverse_eq_nil_iff.mp hnil))
  simp only [hstack, if_false, List.reverse_reverse]
  rfl

theorem Join_elems (elems : List String) (h : ∀ e ∈ elems, isElem e = true)
    (hne : elems ≠ []) : Join elems = joinElems elems := by
  have := Join_dotdots_elems 0 elems h (by simpa using hne)
  simpa using this

end filepath

/-! ### Nesting of exports -/

namespace bcpsharing

theorem treeGet_set (tree : GoMap String NodeType) (k : String) (v : NodeType) (k' : String) :
    treeGet (tree.set k v) k' = if k = k' then v else treeGet tree k' := by
  unfold treeGet
  rw [GoMap_get_set_key]
  split <;> rfl

theorem joinElems_inj (a b : List String) (ha : a ≠ []) (hb : b ≠ [])
    (hac : ∀ c ∈ a, filepath.isElem c = true) (hbc : ∀ c ∈ b, filepath.isElem c = true)
    (h : filepath.joinElems a = filepath.joinElems b) : a = b := by
  rw [← filepath.Split_joinElems a ha (fun c hc => ((filepath.isElem_iff c).mp (hac c hc)).2.1),
    ← filepath.Split_joinElems b hb (fun c hc => ((filepath.isElem_iff c).mp (hbc c hc)).2.1), h]

theorem properPrefix_iff (a b : List String) :
    properPrefix a b = true ↔ a <+: b ∧ a ≠ b := by
  simp [properPrefix]

theorem properPrefix_take (parts : List String) (j : Nat) (hj : j < parts.length) :
    properPrefix (parts.take j) parts = true := by
  rw [properPrefix_iff]
  refine ⟨List.take_prefix _ _, ?_⟩
  intro h
  have := congrArg List.length h
  rw [List.length_take] at this
  omega

theorem properPrefix_eq_take (cs parts : List String) (h : properPrefix cs parts = true) :
    cs.length < parts.length ∧ cs = parts.take cs.length := by
  rw [properPrefix_iff] at h
  obtain ⟨hp, hne⟩ := h
  have hle := hp.length_le
  have htake := List.prefix_iff_eq_take.mp hp
  refine ⟨?_, htake⟩
  rcases Nat.lt_or_eq_of_le hle with hlt | heq
  · exact hlt
  · exfalso
    apply hne
    rw [htake, heq, List.take_length]

theorem properPrefix_irrefl (a : List String) : properPrefix a a = false := by
  simp [properPrefix]

theorem properPrefix_trans_prefix (a b c : List String) (h1 : properPrefix a b = true)
    (h2 : b <+: c) : properPrefix a c = true := by
  rw [properPrefix_iff] at h1 ⊢
  refine ⟨h1.1.trans h2, ?_⟩
  intro h
  subst h
  exact h1.2 (List.IsPrefix.eq_of_length_le h1.1 h2.length_le)

theorem nodeOf_leaf (done : List (List String)) (cs : List String) :
    nodeOf done cs = NodeType.LeafNode ↔ cs ∈ done := by
  unfold nodeOf
  by_cases h : cs ∈ done
  · simp [h]
  · simp only [h, if_false, iff_false]
    split <;> intro h' <;> cases h'

theorem nodeOf_inner (done : List (List String)) (cs : List String) :
    nodeOf done cs = NodeType.InnerNode ↔
      cs ∉ done ∧ ∃ d ∈ done, properPrefix cs d = true := by
  unfold nodeOf
  by_cases h : cs ∈ done
  · simp [h]
  · simp only [h, if_false, not_false_eq_true, true_and]
    by_cases h2 : done.any (fun d => properPrefix cs d) = true
    · simp only [h2, if_true, true_iff]
      simpa using h2
    · simp only [h2, if_false]
      constructor
      · intro h'
        cases h'
      · intro h'
        exact absurd (by simpa using h') h2

theorem nodeOf_unspecified (done : List (List String)) (cs : List String) :
    nodeOf done cs = NodeType.UnspecifiedNode ↔
      cs ∉ done ∧ ∀ d ∈ done, properPrefix cs d = false := by
  unfold nodeOf
  by_cases h : cs ∈ done
  · simp [h]
  · simp only [h, if_false, not_false_eq_true, true_and]
    by_cases h2 : done.any (fun d => properPrefix cs d) = true
    · simp only [h2, if_true]
      constructor
      · intro h'
        cases h'
      · intro h'
        rw [List.any_eq_true] at h2
        obtain ⟨d, hd, hpd⟩ := h2
        rw [h' d hd] at hpd
        cases hpd
    · rw [Bool.not_eq_true] at h2
      simp only [h2, Bool.false_eq_true, if_false, true_iff]
      intro d hd
      rw [List.any_eq_false] at h2
      simpa using h2 d hd

end bcpsharing

namespace bcpsharing

theorem take_clean (parts : List String) (hclean : ∀ c ∈ parts, filepath.isElem c = true)
    (j : Nat) (hj : 1 ≤ j) (hparts : parts ≠ []) :
    parts.take j ≠ [] ∧ ∀ c ∈ parts.take j, filepath.isElem c = true := by
  refine ⟨?_, fun c hc => hclean c (List.mem_of_mem_take hc)⟩
  intro h
  rw [List.take_eq_nil_iff] at h
  rcases h with h | h
  · omega
  · exact hparts h

theorem take_ne_take (parts : List String) (i j : Nat) (hi : i < parts.length)
    (hj : j ≤ parts.length) (hij : i ≠ j) : parts.take j ≠ parts.take i := by
  intro h
  have := congrArg List.length h
  rw [List.length_take, List.length_take] at this
  omega

theorem TreeInv_final (tree : GoMap String NodeType) (done : List (List String))
    (parts : List String)
    (h1 : treeGet tree (filepath.joinElems parts) = NodeType.LeafNode)
    (h2 : ∀ cs : List String, cs ≠ [] → (∀ c ∈ cs, filepath.isElem c = true) → cs ≠ parts →
      treeGet tree (filepath.joinElems cs) =
        if properPrefix cs parts = true then NodeType.InnerNode else nodeOf done cs)
    (hno : ∀ cs ∈ done, properPrefix cs parts = false) :
    TreeInv tree (done ++ [parts]) := by
  intro cs hne hclean
  by_cases hcs : cs = parts
  · subst hcs
    rw [h1]
    exact ((nodeOf_leaf _ _).mpr (by simp)).symm
  · rw [h2 cs hne hclean hcs]
    have hmem : cs ∈ done ++ [parts] ↔ cs ∈ done := by simp [hcs]
    by_cases hp : properPrefix cs parts = true
    · rw [if_pos hp]
      symm
      rw [nodeOf_inner]
      refine ⟨?_, parts, by simp, hp⟩
      rw [hmem]
      intro hin
      rw [hno cs hin] at hp
      cases hp
    · rw [if_neg hp]
      have hp' : properPrefix cs parts = false := by
        cases h : properPrefix cs parts with
        | false => rfl
        | true => exact absurd h hp
      unfold nodeOf
      simp only [hmem, List.any_append, List.any_cons, List.any_nil, Bool.or_false, hp']

theorem checkPrefixes_spec (err : String) (parts : List String) (done : List (List String))
    (hparts : parts ≠ []) (hclean : ∀ c ∈ parts, filepath.isElem c = true)
    (hdone : DoneOk done) (i : Nat) (tree : GoMap String NodeType) (hi : i < parts.length)
    (h1 : treeGet tree (filepath.joinElems parts) = NodeType.LeafNode)
    (h2 : ∀ j, i < j → j < parts.length →
      treeGet tree (filepath.joinElems (parts.take j)) = NodeType.InnerNode)
    (h3 : ∀ cs : List String, cs ≠ [] → (∀ c ∈ cs, filepath.isElem c = true) → cs ≠ parts →
      (∀ j, i < j → j < parts.length → cs ≠ parts.take j) →
      treeGet tree (filepath.joinElems cs) = nodeOf done cs)
    (hU : ∀ j, i < j → j < parts.length →
      nodeOf done (parts.take j) = NodeType.UnspecifiedNode) :
    ((∃ j, 1 ≤ j ∧ j ≤ i ∧ parts.take j ∈ done) →
      (checkPrefixes err parts i tree).1 = some err) ∧
    ((¬ ∃ j, 1 ≤ j ∧ j ≤ i ∧ parts.take j ∈ done) →
      (checkPrefixes err parts i tree).1 = none ∧
        TreeInv (checkPrefixes err parts i tree).2 (done ++ [parts])) := by
  induction i generalizing tree with
  | zero =>
    refine ⟨?_, ?_⟩
    · rintro ⟨j, hj1, hj0, -⟩
      omega
    · intro _
      refine ⟨rfl, ?_⟩
      show TreeInv tree (done ++ [parts])
      apply TreeInv_final tree done parts h1
      · intro cs hne hcl hcs
        by_cases hp : properPrefix cs parts = true
        · rw [if_pos hp]
          obtain ⟨hlen, htake⟩ := properPrefix_eq_take cs parts hp
          have hpos : 0 < cs.length := List.length_pos.mpr hne
          rw [htake]
          exact h2 _ hpos hlen
        · rw [if_neg hp]
          apply h3 cs hne hcl hcs
          intro j hj0 hjn heq
          apply hp
          rw [heq]
          exact properPrefix_take parts j hjn
      · intro cs hcs
        cases hp : properPrefix cs parts with
        | false => rfl
        | true =>
          exfalso
          obtain ⟨hlen, htake⟩ := properPrefix_eq_take cs parts hp
          have hpos : 0 < cs.length := List.length_pos.mpr (hdone.1 cs hcs).1
          have := hU _ hpos hlen
          rw [← htake, nodeOf_unspecified] at this
          exact this.1 hcs
  | succ i ih =>
    obtain ⟨hpne, hpcl⟩ := take_clean parts hclean (i + 1) (by omega) hparts
    have hjoin : slashpath.Join (parts.take (i + 1)) =
        filepath.joinElems (parts.take (i + 1)) := filepath.Join_elems _ hpcl hpne
    have hpre_ne : parts.take (i + 1) ≠ parts := by
      intro h
      have := congrArg List.length h
      rw [List.length_take] at this
      omega
    have hget : treeGet tree (filepath.joinElems (parts.take (i + 1))) =
        nodeOf done (parts.take (i + 1)) := by
      apply h3 _ hpne hpcl hpre_ne
      intro j hj hjn
      exact (take_ne_take parts (i + 1) j hi (by omega) (by omega)).symm
    unfold checkPrefixes
    rw [hjoin, hget]
    cases hnode : nodeOf done (parts.take (i + 1)) with
    | LeafNode =>
      have hmem := (nodeOf_leaf _ _).mp hnode
      refine ⟨fun _ => rfl, ?_⟩
      intro hno
      exact absurd ⟨i + 1, by omega, le_refl _, hmem⟩ hno
    | InnerNode =>
      obtain ⟨hnmem, d, hd, hpd⟩ := (nodeOf_inner _ _).mp hnode
      have hsmall : ∀ j, 1 ≤ j → j ≤ i + 1 → parts.take j ∉ done := by
        intro j hj1 hj hin
        rcases Nat.lt_or_eq_of_le hj with hlt | heq
        · have hpp : properPrefix (parts.take j) (parts.take (i + 1)) = true := by
            rw [properPrefix_iff]
            refine ⟨?_, take_ne_take parts j (i + 1) (by omega) (by omega) (by omega) |>.symm⟩
            rw [List.prefix_iff_eq_take, List.length_take, List.take_take]
            congr 1
            omega
          have := properPrefix_trans_prefix _ _ _ hpp ((properPrefix_iff _ _).mp hpd).1
          rw [hdone.2 _ hin _ hd] at this
          cases this
        · rw [heq] at hin
          exact hnmem hin
      refine ⟨?_, ?_⟩
      · rintro ⟨j, hj1, hj, hin⟩
        exact absurd hin (hsmall j hj1 hj)
      · intro _
        refine ⟨rfl, ?_⟩
        show TreeInv tree (done ++ [parts])
        apply TreeInv_final tree done parts h1
        · intro cs hne hcl hcs
          by_cases hp : properPrefix cs parts = true
          · rw [if_pos hp]
            obtain ⟨hlen, htake⟩ := properPrefix_eq_take cs parts hp
            have hpos : 0 < cs.length := List.length_pos.mpr hne
            by_cases hbig : i + 1 < cs.length
            · rw [htake]
              exact h2 _ hbig hlen
            · have hh3 : treeGet tree (filepath.joinElems cs) = nodeOf done cs := by
                apply h3 cs hne hcl hcs
                intro j hj hjn heq
                have := congrArg List.length heq
                rw [List.length_take] at this
                omega
              rw [hh3, nodeOf_inner]
              have hcsd : properPrefix cs d = true := by
                have hle : cs <+: parts.take (i + 1) := by
                  rw [htake, List.prefix_iff_eq_take, List.length_take, List.take_take]
                  congr 1
                  omega
                by_cases heq : cs = parts.take (i + 1)
                · rw [heq]
                  exact hpd
                · exact properPrefix_trans_prefix _ _ _
                    ((properPrefix_iff _ _).mpr ⟨hle, heq⟩) ((properPrefix_iff _ _).mp hpd).1
              refine ⟨?_, d, hd, hcsd⟩
              intro hin
              rw [hdone.2 _ hin _ hd] at hcsd
              cases hcsd
          · rw [if_neg hp]
            apply h3 cs hne hcl hcs
            intro j hj0 hjn heq
            apply hp
            rw [heq]
            exact properPrefix_take parts j hjn
        · intro cs hcs
          cases hp : properPrefix cs parts with
          | false => rfl
          | true =>
            exfalso
            obtain ⟨hlen, htake⟩ := properPrefix_eq_take cs parts hp
            have hpos : 0 < cs.length := List.length_pos.mpr (hdone.1 cs hcs).1
            by_cases hbig : i + 1 < cs.length
            · have := hU _ hbig hlen
              rw [← htake, nodeOf_unspecified] at this
              exact this.1 hcs
            · exact hsmall cs.length hpos (by omega) (htake ▸ hcs)
    | UnspecifiedNode =>
      obtain ⟨hnmem, -⟩ := (nodeOf_unspecified _ _).mp hnode
      have hinj : ∀ cs : List String, cs ≠ [] → (∀ c ∈ cs, filepath.isElem c = true) →
          cs ≠ parts.take (i + 1) →
          ¬ filepath.joinElems (parts.take (i + 1)) = filepath.joinElems cs := by
        intro cs hne hcl hcs heq
        exact hcs (joinElems_inj _ _ hpne hne hpcl hcl heq).symm
      have ih' := ih (tree.set (filepath.joinElems (parts.take (i + 1))) NodeType.InnerNode)
        (by omega)
        (by
          rw [treeGet_set, if_neg (hinj parts hparts hclean hpre_ne.symm)]
          exact h1)
        (by
          intro j hj hjn
          rw [treeGet_set]
          by_cases hje : j = i + 1
          · rw [hje, if_pos rfl]
          · obtain ⟨hjne, hjcl⟩ := take_clean parts hclean j (by omega) hparts
            rw [if_neg (hinj _ hjne hjcl (take_ne_take parts (i + 1) j hi (by omega)
              (by omega)))]
            exact h2 j (by omega) hjn)
        (by
          intro cs hne hcl hcs hall
          rw [treeGet_set, if_neg (hinj cs hne hcl (hall (i + 1) (by omega) hi))]
          apply h3 cs hne hcl hcs
          intro j hj hjn
          exact hall j (by omega) hjn)
        (by
          intro j hj hjn
          by_cases hje : j = i + 1
          · rw [hje]
            exact hnode
          · exact hU j (by omega) hjn)
      have hiff : (∃ j, 1 ≤ j ∧ j ≤ i + 1 ∧ parts.take j ∈ done) ↔
          (∃ j, 1 ≤ j ∧ j ≤ i ∧ parts.take j ∈ done) := by
        constructor
        · rintro ⟨j, hj1, hj, hin⟩
          by_cases hje : j = i + 1
          · rw [hje] at hin
            exact absurd hin hnmem
          · exact ⟨j, hj1, by omega, hin⟩
        · rintro ⟨j, hj1, hj, hin⟩
          exact ⟨j, hj1, by omega, hin⟩
      rw [hiff]
      exact ih'

end bcpsharing

namespace bcpsharing

theorem cleanComponents_iff (p : String) :
    cleanComponents p = true ↔ ∀ c ∈ strings.Split p '/', filepath.isElem c = true := by
  unfold cleanComponents
  rw [List.all_eq_true]

theorem DoneOk_nil : DoneOk [] :=
  ⟨fun d hd => absurd hd (List.not_mem_nil d), fun a ha => absurd ha (List.not_mem_nil a)⟩

theorem TreeInv_nil : TreeInv [] [] := by
  intro cs _ _
  rfl

/-- The branch of `checkPath` for a path that the tree does not hold yet. -/
theorem checkPath_unspecified (err : String) (tree : GoMap String NodeType)
    (done : List (List String)) (p : String) (hinv : TreeInv tree done) (hdone : DoneOk done)
    (hp : cleanComponents p = true)
    (hnode : nodeOf done (strings.Split p '/') = NodeType.UnspecifiedNode) :
    (checkPrefixes err (strings.Split p '/') ((strings.Split p '/').length - 1)
        (tree.set p NodeType.LeafNode)).1 =
      (if done.any (fun d => properPrefix d (strings.Split p '/')) = true then some err
        else none) ∧
    (done.any (fun d => properPrefix d (strings.Split p '/')) = false →
      TreeInv
        (checkPrefixes err (strings.Split p '/') ((strings.Split p '/').length - 1)
          (tree.set p NodeType.LeafNode)).2 (done ++ [strings.Split p '/']) ∧
      DoneOk (done ++ [strings.Split p '/'])) := by
  have hparts : strings.Split p '/' ≠ [] := Split_ne_nil p '/'
  have hclean := (cleanComponents_iff p).mp hp
  have hlen : 0 < (strings.Split p '/').length := List.length_pos.mpr hparts
  have hkey : filepath.joinElems (strings.Split p '/') = p := filepath.joinElems_Split p
  obtain ⟨hnmem, hnpre⟩ := (nodeOf_unspecified _ _).mp hnode
  have hspec := checkPrefixes_spec err (strings.Split p '/') done hparts hclean hdone
    ((strings.Split p '/').length - 1) (tree.set p NodeType.LeafNode) (by omega)
    (by rw [treeGet_set, hkey, if_pos rfl])
    (by
      intro j hj hjn
      omega)
    (by
      intro cs hne hcl hcs _
      have hk : ¬ p = filepath.joinElems cs := by
        intro h
        rw [← hkey] at h
        exact hcs (joinElems_inj _ _ hparts hne hclean hcl h).symm
      rw [treeGet_set, if_neg hk]
      exact hinv cs hne hcl)
    (by
      intro j hj hjn
      omega)
  have hiff : (∃ j, 1 ≤ j ∧ j ≤ (strings.Split p '/').length - 1 ∧
      (strings.Split p '/').take j ∈ done) ↔
      done.any (fun d => properPrefix d (strings.Split p '/')) = true := by
    rw [List.any_eq_true]
    constructor
    · rintro ⟨j, hj1, hj, hin⟩
      exact ⟨_, hin, properPrefix_take _ j (by omega)⟩
    · rintro ⟨d, hd, hpd⟩
      obtain ⟨hl, htake⟩ := properPrefix_eq_take d _ hpd
      have hpos : 0 < d.length := List.length_pos.mpr (hdone.1 d hd).1
      exact ⟨d.length, hpos, by omega, htake ▸ hd⟩
  rw [hiff] at hspec
  by_cases hany : done.any (fun d => properPrefix d (strings.Split p '/')) = true
  · refine ⟨?_, ?_⟩
    · rw [if_pos hany]
      exact hspec.1 hany
    · intro hf
      rw [hf] at hany
      cases hany
  · obtain ⟨hnone, hinv'⟩ := hspec.2 hany
    refine ⟨?_, ?_⟩
    · rw [if_neg hany]
      exact hnone
    · intro hf
      refine ⟨hinv', ?_, ?_⟩
      · intro d hd
        rcases List.mem_append.mp hd with h | h
        · exact hdone.1 d h
        · rw [List.mem_singleton] at h
          rw [h]
          exact ⟨hparts, hclean⟩
      · intro a ha b hb
        rcases List.mem_append.mp ha with ha | ha <;> rcases List.mem_append.mp hb with hb | hb
        · exact hdone.2 a ha b hb
        · rw [List.mem_singleton] at hb
          rw [hb]
          rw [List.any_eq_false] at hf
          simpa using hf a ha
        · rw [List.mem_singleton] at ha
          rw [ha]
          exact hnpre b hb
        · rw [List.mem_singleton] at ha hb
          rw [ha, hb]
          exact properPrefix_irrefl _

theorem treeGet_path (tree : GoMap String NodeType) (done : List (List String)) (p : String)
    (hinv : TreeInv tree done) (hp : cleanComponents p = true) :
    treeGet tree p = nodeOf done (strings.Split p '/') := by
  have := hinv (strings.Split p '/') (Split_ne_nil p '/') ((cleanComponents_iff p).mp hp)
  rw [filepath.joinElems_Split] at this
  exact this

theorem checkNoNesting_checkPath_spec (tree : GoMap String NodeType)
    (done : List (List String)) (p : String) (hinv : TreeInv tree done) (hdone : DoneOk done)
    (hp : cleanComponents p = true) :
    (checkNoNesting_checkPath tree p).1 = nestingError done p ∧
    (nestingError done p = none →
      TreeInv (checkNoNesting_checkPath tree p).2 (done ++ [strings.Split p '/']) ∧
      DoneOk (done ++ [strings.Split p '/'])) := by
  unfold checkNoNesting_checkPath nestingError
  rw [treeGet_path tree done p hinv hp]
  cases hnode : nodeOf done (strings.Split p '/') with
  | LeafNode =>
    have hmem := (nodeOf_leaf _ _).mp hnode
    simp [hmem]
  | InnerNode =>
    obtain ⟨hnmem, d, hd, hpd⟩ := (nodeOf_inner _ _).mp hnode
    have hany : done.any (fun d => properPrefix (strings.Split p '/') d) = true :=
      List.any_eq_true.mpr ⟨d, hd, hpd⟩
    simp [hnmem, hany]
  | UnspecifiedNode =>
    obtain ⟨hnmem, hnpre⟩ := (nodeOf_unspecified _ _).mp hnode
    have hany : done.any (fun d => properPrefix (strings.Split p '/') d) = false := by
      rw [List.any_eq_false]
      intro d hd
      simpa using hnpre d hd
    obtain ⟨h1, h2⟩ := checkPath_unspecified ("nested export suffix `" ++ p ++ "`") tree done p
      hinv hdone hp hnode
    simp only [hnmem, if_false, hany, Bool.false_eq_true]
    refine ⟨h1, ?_⟩
    intro hnone
    apply h2
    by_cases hs : done.any (fun d => properPrefix d (strings.Split p '/')) = true
    · rw [if_pos hs] at hnone
      cases hnone
    · simpa using hs

theorem checkNoRealpathNesting_checkPath_spec (tree : GoMap String NodeType)
    (done : List (List String)) (p : String) (hinv : TreeInv tree done) (hdone : DoneOk done)
    (hp : cleanComponents p = true) :
    (checkNoRealpathNesting_checkPath tree p).1 = realpathNestingError done p ∧
    (realpathNestingError done p = none →
      TreeInv (checkNoRealpathNesting_checkPath tree p).2 (done ++ [strings.Split p '/']) ∧
      DoneOk (done ++ [strings.Split p '/'])) := by
  unfold checkNoRealpathNesting_checkPath realpathNestingError
  rw [treeGet_path tree done p hinv hp]
  cases hnode : nodeOf done (strings.Split p '/') with
  | LeafNode =>
    have hmem := (nodeOf_leaf _ _).mp hnode
    simp only [hmem, if_true, true_and]
    intro _
    refine ⟨?_, ?_, ?_⟩
    · intro cs hne hcl
      rw [hinv cs hne hcl]
      unfold nodeOf
      have hm : cs ∈ done ++ [strings.Split p '/'] ↔ cs ∈ done := by
        simp only [List.mem_append, List.mem_singleton]
        constructor
        · rintro (h | h)
          · exact h
          · exact h ▸ hmem
        · exact Or.inl
      have ha : (done ++ [strings.Split p '/']).any (fun d => properPrefix cs d) =
          done.any (fun d => properPrefix cs d) := by
        rw [List.any_append, List.any_cons, List.any_nil, Bool.or_false]
        cases hpp : properPrefix cs (strings.Split p '/') with
        | false => simp
        | true =>
          have : done.any (fun d => properPrefix cs d) = true :=
            List.any_eq_true.mpr ⟨_, hmem, hpp⟩
          simp [this]
      simp only [hm, ha]
    · intro d hd
      rcases List.mem_append.mp hd with h | h
      · exact hdone.1 d h
      · rw [List.mem_singleton] at h
        rw [h]
        exact hdone.1 _ hmem
    · intro a ha b hb
      have ha' : a ∈ done := by
        rcases List.mem_append.mp ha with h | h
        · exact h
        · rw [List.mem_singleton] at h
          exact h ▸ hmem
      have hb' : b ∈ done := by
        rcases List.mem_append.mp hb with h | h
        · exact h
        · rw [List.mem_singleton] at h
          exact h ▸ hmem
      exact hdone.2 a ha' b hb'
  | InnerNode =>
    obtain ⟨hnmem, d, hd, hpd⟩ := (nodeOf_inner _ _).mp hnode
    have hany : done.any (fun d => properPrefix (strings.Split p '/') d) = true :=
      List.any_eq_true.mpr ⟨d, hd, hpd⟩
    simp [hnmem, hany]
  | UnspecifiedNode =>
    obtain ⟨hnmem, hnpre⟩ := (nodeOf_unspecified _ _).mp hnode
    have hany : done.any (fun d => properPrefix (strings.Split p '/') d) = false := by
      rw [List.any_eq_false]
      intro d hd
      simpa using hnpre d hd
    obtain ⟨h1, h2⟩ := checkPath_unspecified ("nested realpath suffix `" ++ p ++ "`") tree
      done p hinv hdone hp hnode
    simp only [hnmem, if_false, hany, Bool.false_eq_true]
    refine ⟨h1, ?_⟩
    intro hnone
    apply h2
    by_cases hs : done.any (fun d => properPrefix d (strings.Split p '/')) = true
    · rw [if_pos hs] at hnone
      cases hnone
    · simpa using hs

theorem checkNoNestingLoop_eq (exps : List ExportEntry) (tree : GoMap String NodeType)
    (done : List (List String)) (hinv : TreeInv tree done) (hdone : DoneOk done)
    (hclean : ∀ e ∈ exps, cleanComponents e.Path = true) :
    checkNoNestingLoop exps tree =
      firstError nestingError (exps.map (fun e => e.Path)) done := by
  induction exps generalizing tree done with
  | nil => rfl
  | cons e rest ih =>
    obtain ⟨h1, h2⟩ := checkNoNesting_checkPath_spec tree done e.Path hinv hdone
      (hclean e (List.mem_cons_self _ _))
    unfold checkNoNestingLoop
    rw [List.map_cons]
    unfold firstError
    cases hres : checkNoNesting_checkPath tree e.Path with
    | mk err tree' =>
      rw [hres] at h1 h2
      simp only at h1 h2
      rw [← h1]
      cases err with
      | some msg => rfl
      | none =>
        obtain ⟨hi, hd⟩ := h2 h1.symm
        exact ih tree' _ hi hd (fun x hx => hclean x (List.mem_cons_of_mem _ hx))

theorem checkNoRealpathNestingLoop_eq (fs : Bcpfs) (exps : List ExportEntry)
    (tree : GoMap String NodeType) (done : List (List String)) (hinv : TreeInv tree done)
    (hdone : DoneOk done)
    (hclean : ∀ e ∈ exps, cleanComponents (fs.Realpath e.Path) = true) :
    checkNoRealpathNestingLoop fs exps tree =
      firstError realpathNestingError (exps.map (fun e => fs.Realpath e.Path)) done := by
  induction exps generalizing tree done with
  | nil => rfl
  | cons e rest ih =>
    obtain ⟨h1, h2⟩ := checkNoRealpathNesting_checkPath_spec tree done (fs.Realpath e.Path)
      hinv hdone (hclean e (List.mem_cons_self _ _))
    unfold checkNoRealpathNestingLoop
    rw [List.map_cons]
    unfold firstError
    cases hres : checkNoRealpathNesting_checkPath tree (fs.Realpath e.Path) with
    | mk err tree' =>
      rw [hres] at h1 h2
      simp only at h1 h2
      rw [← h1]
      cases err with
      | some msg => rfl
      | none =>
        obtain ⟨hi, hd⟩ := h2 h1.symm
        exact ih tree' _ hi hd (fun x hx => hclean x (List.mem_cons_of_mem _ hx))

end bcpsharing

namespace bcpsharing

theorem firstError_append (err : List (List String) → String → Option String)
    (pre rest : List String) (done : List (List String))
    (h : firstError err pre done = none) :
    firstError err (pre ++ rest) done =
      firstError err rest (done ++ pre.map (fun p => strings.Split p '/')) := by
  induction pre generalizing done with
  | nil => simp
  | cons p pre ih =>
    have e1 : ∀ l, firstError err (p :: l) done =
        (match err done p with
          | some e => some e
          | none => firstError err l (done ++ [strings.Split p '/'])) := fun _ => rfl
    rw [e1] at h
    rw [List.cons_append, e1]
    cases he : err done p with
    | some e =>
      rw [he] at h
      cases h
    | none =>
      rw [he] at h
      simp only at h ⊢
      rw [ih _ h, List.map_cons, List.append_assoc]
      rfl

theorem firstError_none_iff (err : List (List String) → String → Option String)
    (R : List String → List String → Prop) (I : List (List String) → Prop)
    (herr : ∀ done p, I done →
      (err done p = none ↔ ∀ d ∈ done, R d (strings.Split p '/')))
    (hI : ∀ done p, I done → (∀ d ∈ done, R d (strings.Split p '/')) →
      I (done ++ [strings.Split p '/']))
    (paths : List String) (done : List (List String)) (hdone : I done) :
    firstError err paths done = none ↔
      (∀ p ∈ paths, ∀ d ∈ done, R d (strings.Split p '/')) ∧
        (paths.map (fun p => strings.Split p '/')).Pairwise R := by
  induction paths generalizing done with
  | nil => simp [firstError]
  | cons p rest ih =>
    unfold firstError
    cases he : err done p with
    | some e =>
      simp only [false_iff, reduceCtorEq]
      intro h
      have := (herr done p hdone).mpr (h.1 p (List.mem_cons_self _ _))
      rw [he] at this
      cases this
    | none =>
      have hd := (herr done p hdone).mp he
      simp only
      rw [ih _ (hI done p hdone hd), List.map_cons, List.pairwise_cons]
      constructor
      · rintro ⟨h1, h2⟩
        refine ⟨?_, ?_, h2⟩
        · intro q hq d hdm
          rcases List.mem_cons.mp hq with rfl | hq
          · exact hd d hdm
          · exact h1 q hq d (List.mem_append_left _ hdm)
        · intro x hx
          obtain ⟨q, hq, rfl⟩ := List.mem_map.mp hx
          exact h1 q hq _ (by simp)
      · rintro ⟨h1, h2, h3⟩
        refine ⟨?_, h3⟩
        intro q hq d hdm
        rcases List.mem_append.mp hdm with hdm | hdm
        · exact h1 q (List.mem_cons_of_mem _ hq) d hdm
        · rw [List.mem_singleton] at hdm
          rw [hdm]
          exact h2 _ (List.mem_map.mpr ⟨q, hq, rfl⟩)

theorem prefix_iff_eq_or_proper (a b : List String) :
    a <+: b ↔ a = b ∨ properPrefix a b = true := by
  rw [properPrefix_iff]
  constructor
  · intro h
    by_cases he : a = b
    · exact Or.inl he
    · exact Or.inr ⟨h, he⟩
  · rintro (h | h)
    · rw [h]
    · exact h.1

theorem nestingError_none_iff (done : List (List String)) (p : String) :
    nestingError done p = none ↔ ∀ d ∈ done, ¬ nested d (strings.Split p '/') := by
  unfold nestingError nested
  by_cases h1 : strings.Split p '/' ∈ done
  · simp only [h1, if_true, false_iff, reduceCtorEq]
    intro h
    exact h _ h1 (Or.inl (List.prefix_refl _))
  · cases h2 : done.any (fun d => properPrefix (strings.Split p '/') d) with
    | true =>
      simp only [h1, if_false, if_true, false_iff, reduceCtorEq]
      intro h
      rw [List.any_eq_true] at h2
      obtain ⟨d, hd, hpd⟩ := h2
      exact h d hd (Or.inr ((properPrefix_iff _ _).mp hpd).1)
    | false =>
      cases h3 : done.any (fun d => properPrefix d (strings.Split p '/')) with
      | true =>
        simp only [h1, if_false, if_true, Bool.false_eq_true, false_iff, reduceCtorEq]
        intro h
        rw [List.any_eq_true] at h3
        obtain ⟨d, hd, hpd⟩ := h3
        exact h d hd (Or.inl ((properPrefix_iff _ _).mp hpd).1)
      | false =>
        simp only [h1, if_false, Bool.false_eq_true, true_iff]
        intro d hd hn
        rw [List.any_eq_false] at h2 h3
        rcases hn with hn | hn
        · rcases (prefix_iff_eq_or_proper _ _).mp hn with he | hp
          · exact h1 (he ▸ hd)
          · exact h3 d hd hp
        · rcases (prefix_iff_eq_or_proper _ _).mp hn with he | hp
          · exact h1 (he ▸ hd)
          · exact h2 d hd hp

theorem realpathNestingError_none_iff (done : List (List String)) (p : String)
    (hdone : ∀ a ∈ done, ∀ b ∈ done, properPrefix a b = false) :
    realpathNestingError done p = none ↔
      ∀ d ∈ done, properPrefix d (strings.Split p '/') = false ∧
        properPrefix (strings.Split p '/') d = false := by
  unfold realpathNestingError
  by_cases h1 : strings.Split p '/' ∈ done
  · simp only [h1, if_true, true_iff]
    intro d hd
    exact ⟨hdone d hd _ h1, hdone _ h1 d hd⟩
  · cases h2 : done.any (fun d => properPrefix (strings.Split p '/') d) with
    | true =>
      simp only [h1, if_false, if_true, false_iff, reduceCtorEq]
      intro h
      rw [List.any_eq_true] at h2
      obtain ⟨d, hd, hpd⟩ := h2
      rw [(h d hd).2] at hpd
      cases hpd
    | false =>
      cases h3 : done.any (fun d => properPrefix d (strings.Split p '/')) with
      | true =>
        simp only [h1, if_false, if_true, Bool.false_eq_true, false_iff, reduceCtorEq]
        intro h
        rw [List.any_eq_true] at h3
        obtain ⟨d, hd, hpd⟩ := h3
        rw [(h d hd).1] at hpd
        cases hpd
      | false =>
        simp only [h1, if_false, Bool.false_eq_true, true_iff]
        intro d hd
        rw [List.any_eq_false] at h2 h3
        exact ⟨by simpa using h3 d hd, by simpa using h2 d hd⟩

theorem checkNoNesting_eq (exps : List ExportEntry)
    (hclean : ∀ e ∈ exps, cleanComponents e.Path = true) :
    checkNoNesting exps = firstError nestingError (exps.map (fun e => e.Path)) [] :=
  checkNoNestingLoop_eq exps [] [] TreeInv_nil DoneOk_nil hclean

theorem checkNoRealpathNesting_eq (fs : Bcpfs) (exps : List ExportEntry)
    (hclean : ∀ e ∈ exps, cleanComponents (fs.Realpath e.Path) = true) :
    checkNoRealpathNesting fs exps =
      firstError realpathNestingError (exps.map (fun e => fs.Realpath e.Path)) [] :=
  checkNoRealpathNestingLoop_eq fs exps [] [] TreeInv_nil DoneOk_nil hclean

theorem checkNoNesting_none_iff (exps : List ExportEntry)
    (hclean : ∀ e ∈ exps, cleanComponents e.Path = true) :
    checkNoNesting exps = none ↔
      (exps.map (fun e => strings.Split e.Path '/')).Pairwise (fun a b => ¬ nested a b) := by
  rw [checkNoNesting_eq exps hclean,
    firstError_none_iff nestingError (fun a b => ¬ nested a b) (fun _ => True)
      (fun done p _ => nestingError_none_iff done p) (fun _ _ _ _ => trivial) _ [] trivial,
    List.map_map]
  simp only [List.not_mem_nil, false_implies, implies_true, true_and]
  rfl

theorem checkNoRealpathNesting_none_iff (fs : Bcpfs) (exps : List ExportEntry)
    (hclean : ∀ e ∈ exps, cleanComponents (fs.Realpath e.Path) = true) :
    checkNoRealpathNesting fs exps = none ↔
      (exps.map (fun e => strings.Split (fs.Realpath e.Path) '/')).Pairwise
        (fun a b => properPrefix a b = false ∧ properPrefix b a = false) := by
  rw [checkNoRealpathNesting_eq fs exps hclean,
    firstError_none_iff realpathNestingError
      (fun a b => properPrefix a b = false ∧ properPrefix b a = false)
      (fun done => ∀ a ∈ done, ∀ b ∈ done, properPrefix a b = false)
      (fun done p hd => realpathNestingError_none_iff done p hd)
      (by
        intro done p hd hR a ha b hb
        rcases List.mem_append.mp ha with ha | ha <;>
          rcases List.mem_append.mp hb with hb | hb
        · exact hd a ha b hb
        · rw [List.mem_singleton] at hb
          rw [hb]
          exact (hR a ha).1
        · rw [List.mem_singleton] at ha
          rw [ha]
          exact (hR b hb).2
        · rw [List.mem_singleton] at ha hb
          rw [ha, hb]
          exact properPrefix_irrefl _)
      _ [] (fun a ha => absurd ha (List.not_mem_nil a)),
    List.map_map]
  simp only [List.not_mem_nil, false_implies, implies_true, true_and]
  rfl

end bcpsharing

/-- C21: for every list of exports whose paths consist of clean components
(not empty, neither `.` nor `..`), `checkNoNesting` succeeds if and only if no
two exports of the list have component lists of which one is a prefix of the
other or which are equal. At the first export `b` that is nested with an
export before it, the error is `duplicate export` naming `b` if an earlier
export has the same path, `nested export prefix` naming `b` if `b` is a
proper prefix of an earlier (longer) path, and `nested export suffix` naming
`b` if an earlier (shorter) path is a proper prefix of `b`. -/
theorem checkNoNesting_spec (exps : List bcpsharing.ExportEntry)
    (hclean : ∀ e ∈ exps, bcpsharing.cleanComponents e.Path = true) :
    (bcpsharing.checkNoNesting exps = none ↔
      (exps.map (fun e => strings.Split e.Path '/')).Pairwise
        (fun a b => ¬ bcpsharing.nested a b)) ∧
    ((∃ msg, bcpsharing.checkNoNesting exps = some msg) ↔
      ¬ (exps.map (fun e => strings.Split e.Path '/')).Pairwise
        (fun a b => ¬ bcpsharing.nested a b)) ∧
    (∀ a b : List String, bcpsharing.nested a b ↔
      a = b ∨ bcpsharing.properPrefix a b = true ∨ bcpsharing.properPrefix b a = true) ∧
    (∀ pre b post, exps = pre ++ b :: post → bcpsharing.checkNoNesting pre = none →
      ((∃ a ∈ pre, a.Path = b.Path) →
        bcpsharing.checkNoNesting exps = some ("duplicate export `" ++ b.Path ++ "`")) ∧
      ((∃ a ∈ pre, bcpsharing.properPrefix (strings.Split b.Path '/')
          (strings.Split a.Path '/') = true) →
        bcpsharing.checkNoNesting exps =
          some ("nested export prefix `" ++ b.Path ++ "`")) ∧
      ((∃ a ∈ pre, bcpsharing.properPrefix (strings.Split a.Path '/')
          (strings.Split b.Path '/') = true) →
        bcpsharing.checkNoNesting exps =
          some ("nested export suffix `" ++ b.Path ++ "`"))) := by
  have hiff := bcpsharing.checkNoNesting_none_iff exps hclean
  refine ⟨hiff, ?_, ?_, ?_⟩
  · rw [← hiff]
    cases bcpsharing.checkNoNesting exps with
    | none => simp
    | some msg => simp
  · intro a b
    unfold bcpsharing.nested
    rw [bcpsharing.prefix_iff_eq_or_proper, bcpsharing.prefix_iff_eq_or_proper]
    constructor
    · rintro ((h | h) | (h | h))
      · exact Or.inl h
      · exact Or.inr (Or.inl h)
      · exact Or.inl h.symm
      · exact Or.inr (Or.inr h)
    · rintro (h | h | h)
      · exact Or.inl (Or.inl h)
      · exact Or.inl (Or.inr h)
      · exact Or.inr (Or.inr h)
  · intro pre b post hexps hpre
    have hcpre : ∀ e ∈ pre, bcpsharing.cleanComponents e.Path = true := by
      intro e he
      exact hclean e (by rw [hexps]; exact List.mem_append_left _ he)
    have hpw := (bcpsharing.checkNoNesting_none_iff pre hcpre).mp hpre
    have hpp : ∀ x ∈ pre, ∀ y ∈ pre,
        bcpsharing.properPrefix (strings.Split x.Path '/') (strings.Split y.Path '/') =
          false := by
      intro x hx y hy
      by_cases hxy : strings.Split x.Path '/' = strings.Split y.Path '/'
      · rw [hxy]
        exact bcpsharing.properPrefix_irrefl _
      · have hsym : Symmetric (fun a b : List String => ¬ bcpsharing.nested a b) := by
          intro a b h hn
          exact h (Or.symm hn)
        have := hpw.forall hsym (List.mem_map.mpr ⟨x, hx, rfl⟩)
          (List.mem_map.mpr ⟨y, hy, rfl⟩) hxy
        cases hp : bcpsharing.properPrefix (strings.Split x.Path '/')
            (strings.Split y.Path '/') with
        | false => rfl
        | true => exact absurd (Or.inl ((bcpsharing.properPrefix_iff _ _).mp hp).1) this
    have hfe : bcpsharing.firstError bcpsharing.nestingError (pre.map (fun e => e.Path)) [] =
        none := by
      rw [← bcpsharing.checkNoNesting_eq pre hcpre]
      exact hpre
    have hrun : bcpsharing.checkNoNesting exps =
        match bcpsharing.nestingError (pre.map (fun e => strings.Split e.Path '/')) b.Path with
        | some e => some e
        | none =>
          bcpsharing.firstError bcpsharing.nestingError (post.map (fun e => e.Path))
            (pre.map (fun e => strings.Split e.Path '/') ++ [strings.Split b.Path '/']) := by
      rw [bcpsharing.checkNoNesting_eq exps hclean, hexps, List.map_append, List.map_cons,
        bcpsharing.firstError_append _ _ _ _ hfe, List.nil_append, List.map_map]
      rfl
    have hmemS : ∀ a ∈ pre, strings.Split a.Path '/' ∈
        pre.map (fun e => strings.Split e.Path '/') :=
      fun a ha => List.mem_map.mpr ⟨a, ha, rfl⟩
    refine ⟨?_, ?_, ?_⟩
    · rintro ⟨a, ha, hab⟩
      have hmem : strings.Split b.Path '/' ∈ pre.map (fun e => strings.Split e.Path '/') := by
        rw [← hab]
        exact hmemS a ha
      rw [hrun]
      unfold bcpsharing.nestingError
      rw [if_pos hmem]
    · rintro ⟨a, ha, hab⟩
      have hnmem : strings.Split b.Path '/' ∉
          pre.map (fun e => strings.Split e.Path '/') := by
        intro hmem
        obtain ⟨a', ha', heq⟩ := List.mem_map.mp hmem
        rw [← heq, hpp a' ha' a ha] at hab
        cases hab
      have hany : (pre.map (fun e => strings.Split e.Path '/')).any
          (fun d => bcpsharing.properPrefix (strings.Split b.Path '/') d) = true :=
        List.any_eq_true.mpr ⟨_, hmemS a ha, hab⟩
      rw [hrun]
      unfold bcpsharing.nestingError
      rw [if_neg hnmem, if_pos hany]
    · rintro ⟨a, ha, hab⟩
      have hnmem : strings.Split b.Path '/' ∉
          pre.map (fun e => strings.Split e.Path '/') := by
        intro hmem
        obtain ⟨a', ha', heq⟩ := List.mem_map.mp hmem
        rw [← heq, hpp a ha a' ha'] at hab
        cases hab
      have hany1 : ¬ (pre.map (fun e => strings.Split e.Path '/')).any
          (fun d => bcpsharing.properPrefix (strings.Split b.Path '/') d) = true := by
        intro h
        obtain ⟨d, hd, hpd⟩ := List.any_eq_true.mp h
        obtain ⟨a', ha', heq⟩ := List.mem_map.mp hd
        have := bcpsharing.properPrefix_trans_prefix _ _ _ hab
          ((bcpsharing.properPrefix_iff _ _).mp hpd).1
        rw [← heq, hpp a ha a' ha'] at this
        cases this
      have hany2 : (pre.map (fun e => strings.Split e.Path '/')).any
          (fun d => bcpsharing.properPrefix d (strings.Split b.Path '/')) = true :=
        List.any_eq_true.mpr ⟨_, hmemS a ha, hab⟩
      rw [hrun]
      unfold bcpsharing.nestingError
      rw [if_neg hnmem, if_neg hany1, if_pos hany2]

theorem checkNoNesting_spec_witness :
    bcpsharing.checkNoNesting Examples.exportsNested =
      some "nested export suffix `a/b/c`" ∧
    bcpsharing.checkNoNesting Examples.exportsNested.reverse =
      some "nested export prefix `a/b`" ∧
    bcpsharing.checkNoNesting [⟨"a/b", [], []⟩, ⟨"a/b", [], []⟩] =
      some "duplicate export `a/b`" ∧
    ((∃ msg, bcpsharing.checkNoNesting Examples.exportsNested = some msg) ↔
      ¬ (Examples.exportsNested.map (fun e => strings.Split e.Path '/')).Pairwise
        (fun a b => ¬ bcpsharing.nested a b)) :=
  ⟨rfl, rfl, rfl, (checkNoNesting_spec Examples.exportsNested (by decide)).2.1⟩

/-- C22: for every list of exports whose real paths consist of clean
components, `checkNoRealpathNesting` succeeds if and only if no real path of
an export is a proper component-wise prefix of the real path of another
export; in particular exports that all translate to the same real path are
accepted. -/
theorem checkNoRealpathNesting_spec (fs : bcpsharing.Bcpfs)
    (exps : List bcpsharing.ExportEntry)
    (hclean : ∀ e ∈ exps, bcpsharing.cleanComponents (fs.Realpath e.Path) = true) :
    (bcpsharing.checkNoRealpathNesting fs exps = none ↔
      (exps.map (fun e => strings.Split (fs.Realpath e.Path) '/')).Pairwise
        (fun a b => bcpsharing.properPrefix a b = false ∧
          bcpsharing.properPrefix b a = false)) ∧
    ((∃ msg, bcpsharing.checkNoRealpathNesting fs exps = some msg) ↔
      ¬ (exps.map (fun e => strings.Split (fs.Realpath e.Path) '/')).Pairwise
        (fun a b => bcpsharing.properPrefix a b = false ∧
          bcpsharing.properPrefix b a = false)) ∧
    ((∀ a ∈ exps, ∀ b ∈ exps, fs.Realpath a.Path = fs.Realpath b.Path) →
      bcpsharing.checkNoRealpathNesting fs exps = none) := by
  have hiff := bcpsharing.checkNoRealpathNesting_none_iff fs exps hclean
  refine ⟨hiff, ?_, ?_⟩
  · rw [← hiff]
    cases bcpsharing.checkNoRealpathNesting fs exps with
    | none => simp
    | some msg => simp
  · intro hall
    rw [hiff]
    apply List.pairwise_of_forall_mem_list
    intro x hx y hy
    obtain ⟨a, ha, rfl⟩ := List.mem_map.mp hx
    obtain ⟨b, hb, rfl⟩ := List.mem_map.mp hy
    rw [hall a ha b hb]
    exact ⟨bcpsharing.properPrefix_irrefl _, bcpsharing.properPrefix_irrefl _⟩

theorem checkNoRealpathNesting_spec_witness :
    bcpsharing.checkNoRealpathNesting (bcpsharing.NewBcpfs S1.cfg) Examples.sharesS5 = none ∧
    bcpsharing.checkNoRealpathNesting (bcpsharing.NewBcpfs S1.cfg)
      [⟨"alice/mic1/foo", [], []⟩, ⟨"em-facility/mic1/alice/foo/bar", [], []⟩] =
        some "nested realpath suffix `srv/mic1/alice/foo/bar`" ∧
    (bcpsharing.checkNoRealpathNesting (bcpsharing.NewBcpfs S1.cfg) Examples.sharesS5 =
        none ↔
      (Examples.sharesS5.map
        (fun e => strings.Split ((bcpsharing.NewBcpfs S1.cfg).Realpath e.Path) '/')).Pairwise
        (fun a b => bcpsharing.properPrefix a b = false ∧
          bcpsharing.properPrefix b a = false)) :=
  ⟨rfl, rfl,
    (checkNoRealpathNesting_spec (bcpsharing.NewBcpfs S1.cfg) Examples.sharesS5
      (by decide)).1⟩

/-! ### Traversal ACLs -/

namespace bcpsharing

theorem GroupIdx_append (u : List Ace) (m : GoMap String Nat) (h : GroupIdx u m) (e : Ace) :
    GroupIdx (u ++ [e]) (m.set e.Group u.length) := by
  refine ⟨?_, ?_⟩
  · intro k i hget
    rw [GoMap_get_set_key] at hget
    by_cases hk : e.Group = k
    · rw [if_pos hk] at hget
      injection hget with hi
      subst hi
      exact ⟨e, by simp, hk⟩
    · rw [if_neg hk] at hget
      obtain ⟨x, hx, hxk⟩ := h.1 k i hget
      refine ⟨x, ?_, hxk⟩
      rw [List.getElem?_append_left (List.getElem?_eq_some.mp hx).1]
      exact hx
  · intro k hget x hx
    rw [GoMap_get_set_key] at hget
    by_cases hk : e.Group = k
    · rw [if_pos hk] at hget
      cases hget
    · rw [if_neg hk] at hget
      rcases List.mem_append.mp hx with hx | hx
      · exact h.2 k hget x hx
      · rw [List.mem_singleton] at hx
        subst hx
        exact hk

theorem indexByGroup_GroupIdx (u : List Ace) : GroupIdx u (Acl.indexByGroup u) := by
  induction u using List.reverseRecOn with
  | nil =>
    refine ⟨?_, ?_⟩
    · intro k i h
      simp [Acl.indexByGroup, GoMap.get] at h
    · intro k _ e he
      cases he
  | append_singleton l e ih =>
    have hfold : Acl.indexByGroup (l ++ [e]) = (Acl.indexByGroup l).set e.Group l.length := by
      unfold Acl.indexByGroup
      rw [List.enum_append, List.foldl_append]
      rfl
    rw [hfold]
    exact GroupIdx_append l _ ih e

theorem UnionMode_x (e ace : Ace) (he : e.Mode = "--x") (ha : ace.Mode = "--x") :
    e.UnionMode ace = Result.ok "--x" := by
  have h := (UnionMode_valid e ace (by rw [he]; rfl) (by rw [ha]; rfl)).1
  rw [h, he, ha]
  rfl

theorem UnionLoop_x (b u : List Ace) (m : GoMap String Nat) (hm : GroupIdx u m)
    (hu : ∀ e ∈ u, e.Mode = "--x") (hb : ∀ e ∈ b, e.Mode = "--x") :
    ∃ r, Acl.UnionLoop b u m = Result.ok r ∧ (∀ e ∈ r, e.Mode = "--x") ∧
      ∀ g, g ∈ r.map (fun e => e.Group) ↔
        g ∈ u.map (fun e => e.Group) ∨ g ∈ b.map (fun e => e.Group) := by
  induction b generalizing u m with
  | nil => exact ⟨u, rfl, hu, by simp⟩
  | cons ace rest ih =>
    have ha := hb ace (List.mem_cons_self _ _)
    have hrest : ∀ e ∈ rest, e.Mode = "--x" := fun e he => hb e (List.mem_cons_of_mem _ he)
    unfold Acl.UnionLoop
    cases hget : GoMap.get m ace.Group with
    | none =>
      simp only []
      have hu' : ∀ e ∈ u ++ [ace], e.Mode = "--x" := by
        intro e he
        rcases List.mem_append.mp he with he | he
        · exact hu e he
        · rw [List.mem_singleton] at he
          rw [he]
          exact ha
      obtain ⟨r, hr, hrx, hrg⟩ := ih (u ++ [ace]) _ (GroupIdx_append u m hm ace) hu' hrest
      refine ⟨r, hr, hrx, ?_⟩
      intro g
      rw [hrg g]
      simp only [List.map_append, List.map_cons, List.map_nil, List.mem_append,
        List.mem_singleton, List.mem_cons]
      tauto
    | some idx =>
      obtain ⟨e, he, hk⟩ := hm.1 _ _ hget
      have hemem : e ∈ u := List.mem_iff_getElem?.mpr ⟨idx, he⟩
      have hmode := UnionMode_x e ace (hu e hemem) ha
      have hself : ({ e with Mode := "--x" } : Ace) = e := by
        have := hu e hemem
        cases e
        simp only at this
        subst this
        rfl
      have hset : u.set idx { e with Mode := "--x" } = u := by
        rw [hself]
        apply List.ext_getElem?
        intro j
        rw [List.getElem?_set]
        by_cases hj : idx = j
        · subst hj
          simp [he, (List.getElem?_eq_some.mp he).1]
        · simp [hj]
      simp only [he, hmode]
      rw [hset]
      obtain ⟨r, hr, hrx, hrg⟩ := ih u m hm hu hrest
      refine ⟨r, hr, hrx, ?_⟩
      intro g
      rw [hrg g]
      simp only [List.map_cons, List.mem_cons]
      constructor
      · tauto
      · rintro (h | h | h)
        · exact Or.inl h
        · exact Or.inl (List.mem_map.mpr ⟨e, hemem, by rw [hk, h]⟩)
        · exact Or.inr h

theorem Union_x (a b : List Ace) (ha : ∀ e ∈ a, e.Mode = "--x")
    (hb : ∀ e ∈ b, e.Mode = "--x") :
    ∃ r, Acl.Union a b = Result.ok r ∧ (∀ e ∈ r, e.Mode = "--x") ∧
      ∀ g, g ∈ r.map (fun e => e.Group) ↔
        g ∈ a.map (fun e => e.Group) ∨ g ∈ b.map (fun e => e.Group) :=
  UnionLoop_x b a _ (indexByGroup_GroupIdx a) ha hb

theorem NewTraversalAcl_x (gs : List String) :
    (∀ e ∈ NewTraversalAclWithGroups gs, e.Mode = "--x") ∧
      (NewTraversalAclWithGroups gs).map (fun e => e.Group) = gs := by
  unfold NewTraversalAclWithGroups
  refine ⟨?_, ?_⟩
  · intro e he
    obtain ⟨g, -, rfl⟩ := List.mem_map.mp he
    rfl
  · rw [List.map_map]
    exact List.map_id _

end bcpsharing

namespace bcpsharing

theorem TravInv_nil : TravInv [] [] [] := by
  refine ⟨MapIdx_nil _, ?_, ?_, ?_⟩
  · intro e he
    cases he
  · intro p
    simp
  · intro e he
    cases he

theorem upsert_TravInv (cs : List (String × List String)) (travs : List ExportEntry)
    (m : GoMap String Nat) (path : String) (acl : List Ace) (mg : List Group)
    (h : TravInv cs travs m) (hacl : ∀ e ∈ acl, e.Mode = "--x") :
    ∃ t m', upsertByRealpath travs m path acl mg = Result.ok (t, m') ∧
      TravInv (cs ++ [(path, acl.map (fun e => e.Group))]) t m' := by
  obtain ⟨hm, hx, hp, hg⟩ := h
  unfold upsertByRealpath
  cases hget : GoMap.get m path with
  | none =>
    have hnone := MapIdx_get_none hm hget
    have hnc : ∀ c ∈ cs, c.1 ≠ path := by
      intro c hc hcp
      obtain ⟨e, he, hep⟩ := List.mem_map.mp ((hp path).mpr ⟨c, hc, hcp⟩)
      exact hnone e he hep
    refine ⟨_, _, rfl, ?_, ?_, ?_, ?_⟩
    · exact MapIdx_append hm ⟨path, acl, mg⟩ hget
    · intro e he
      rcases List.mem_append.mp he with he | he
      · exact hx e he
      · rw [List.mem_singleton] at he
        subst he
        exact hacl
    · intro p
      simp only [List.map_append, List.map_cons, List.map_nil, List.mem_append,
        List.mem_singleton]
      rw [hp p]
      constructor
      · rintro (⟨c, hc, hcp⟩ | h)
        · exact ⟨c, Or.inl hc, hcp⟩
        · exact ⟨_, Or.inr rfl, h.symm⟩
      · rintro ⟨c, hc | hc, hcp⟩
        · exact Or.inl ⟨c, hc, hcp⟩
        · subst hc
          exact Or.inr hcp.symm
    · intro e he g
      rcases List.mem_append.mp he with he | he
      · rw [hg e he g]
        constructor
        · rintro ⟨c, hc, hcp⟩
          exact ⟨c, List.mem_append_left _ hc, hcp⟩
        · rintro ⟨c, hc, hcp, hcg⟩
          rcases List.mem_append.mp hc with hc | hc
          · exact ⟨c, hc, hcp, hcg⟩
          · rw [List.mem_singleton] at hc
            subst hc
            exact absurd hcp.symm (hnone e he)
      · rw [List.mem_singleton] at he
        subst he
        constructor
        · intro h
          exact ⟨_, List.mem_append_right _ (List.mem_singleton_self _), rfl, h⟩
        · rintro ⟨c, hc, hcp, hcg⟩
          rcases List.mem_append.mp hc with hc | hc
          · exact absurd hcp (hnc c hc)
          · rw [List.mem_singleton] at hc
            subst hc
            exact hcg
  | some idx =>
    obtain ⟨e, he, hk⟩ := MapIdx_get_some hm hget
    have hk' : e.Path = path := hk
    have hemem : e ∈ travs := List.mem_iff_getElem?.mpr ⟨idx, he⟩
    obtain ⟨u, hu, hux, hug⟩ := Union_x e.Acl acl (hx e hemem) hacl
    simp only [he, hu]
    have hset := MapIdx_set_eq_map hm he (fun x => { x with Acl := u })
    have hmem : ∀ e' ∈ travs.set idx { e with Acl := u },
        (e' ∈ travs ∧ e'.Path ≠ path) ∨ e' = { e with Acl := u } := by
      intro e' he'
      rw [hset] at he'
      obtain ⟨x, hxm, hxe⟩ := List.mem_map.mp he'
      by_cases hxp : x.Path = e.Path
      · rw [if_pos hxp] at hxe
        obtain ⟨j, hj⟩ := List.mem_iff_getElem?.mp hxm
        have hji := MapIdx_unique hm hj he hxp
        subst hji
        rw [he] at hj
        injection hj with hj
        subst hj
        exact Or.inr hxe.symm
      · rw [if_neg hxp] at hxe
        subst hxe
        exact Or.inl ⟨hxm, by rw [← hk']; exact hxp⟩
    refine ⟨_, _, rfl, ?_, ?_, ?_, ?_⟩
    · exact MapIdx_set hm he rfl
    · intro e' he'
      rcases hmem e' he' with ⟨h1, -⟩ | h1
      · exact hx e' h1
      · subst h1
        exact hux
    · intro p
      have hpaths : (travs.set idx { e with Acl := u }).map (fun e => e.Path) =
          travs.map (fun e => e.Path) := by
        rw [hset, List.map_map]
        apply List.map_congr_left
        intro x _
        simp only [Function.comp]
        split <;> rfl
      rw [hpaths, hp p]
      constructor
      · rintro ⟨c, hc, hcp⟩
        exact ⟨c, List.mem_append_left _ hc, hcp⟩
      · rintro ⟨c, hc, hcp⟩
        rcases List.mem_append.mp hc with hc | hc
        · exact ⟨c, hc, hcp⟩
        · rw [List.mem_singleton] at hc
          subst hc
          exact (hp p).mp (List.mem_map.mpr ⟨e, hemem, hk'.trans hcp⟩)
    · intro e' he' g
      rcases hmem e' he' with ⟨h1, h2⟩ | h1
      · rw [hg e' h1 g]
        constructor
        · rintro ⟨c, hc, hcp⟩
          exact ⟨c, List.mem_append_left _ hc, hcp⟩
        · rintro ⟨c, hc, hcp, hcg⟩
          rcases List.mem_append.mp hc with hc | hc
          · exact ⟨c, hc, hcp, hcg⟩
          · rw [List.mem_singleton] at hc
            subst hc
            exact absurd hcp.symm h2
      · subst h1
        simp only
        rw [hug g, hg e hemem g]
        constructor
        · rintro (⟨c, hc, hcp⟩ | h)
          · exact ⟨c, List.mem_append_left _ hc, hcp⟩
          · exact ⟨_, List.mem_append_right _ (List.mem_singleton_self _), hk'.symm, h⟩
        · rintro ⟨c, hc, hcp, hcg⟩
          rcases List.mem_append.mp hc with hc | hc
          · exact Or.inl ⟨c, hc, hcp, hcg⟩
          · rw [List.mem_singleton] at hc
            subst hc
            exact Or.inr hcg

theorem compileTraversalPrefixes_inv (acl : List Ace) (mg : List Group) (parts : List String)
    (hacl : ∀ e ∈ acl, e.Mode = "--x") (is : List Nat) (cs : List (String × List String))
    (travs : List ExportEntry) (m : GoMap String Nat) (h : TravInv cs travs m) :
    ∃ t m', compileTraversalPrefixes acl mg parts is travs m = Result.ok (t, m') ∧
      TravInv
        (cs ++ is.map (fun i => (slashpath.Join (parts.take i), acl.map (fun e => e.Group))))
        t m' := by
  induction is generalizing cs travs m with
  | nil => exact ⟨travs, m, rfl, by simpa using h⟩
  | cons i rest ih =>
    obtain ⟨t, m', hup, hinv⟩ :=
      upsert_TravInv cs travs m (slashpath.Join (parts.take i)) acl mg h hacl
    obtain ⟨t2, m2, hrun, hinv2⟩ := ih _ t m' hinv
    refine ⟨t2, m2, ?_, ?_⟩
    · unfold compileTraversalPrefixes
      rw [hup]
      exact hrun
    · rw [List.map_cons, List.append_cons]
      exact hinv2

end bcpsharing

namespace bcpsharing

theorem compileTraversalReals_inv (fs : Bcpfs) (reals : List ExportEntry)
    (cs : List (String × List String)) (travs : List ExportEntry) (m : GoMap String Nat)
    (h : TravInv cs travs m) :
    ∃ t m', compileTraversalReals fs reals travs m = Result.ok (t, m') ∧
      TravInv (cs ++ traversalContribs fs [] reals) t m' := by
  induction reals generalizing cs travs m with
  | nil => exact ⟨travs, m, rfl, by simpa [traversalContribs] using h⟩
  | cons r rest ih =>
    obtain ⟨hx, hgs⟩ := NewTraversalAcl_x (Acl.Groups r.Acl)
    obtain ⟨t, m', hrun, hinv⟩ :=
      compileTraversalPrefixes_inv (NewTraversalAclWithGroups (Acl.Groups r.Acl))
        r.ManagingGroups (strings.Split r.Path '/') hx
        (List.range' (traversalBegin fs r)
          ((strings.Split r.Path '/').length - traversalBegin fs r)) cs travs m h
    obtain ⟨t2, m2, hrun2, hinv2⟩ := ih _ t m' hinv
    refine ⟨t2, m2, ?_, ?_⟩
    · unfold compileTraversalReals
      simp only [hrun]
      exact hrun2
    · rw [hgs] at hinv2
      have e : cs ++ traversalContribs fs [] (r :: rest) =
          cs ++ List.map
            (fun i => (slashpath.Join (List.take i (strings.Split r.Path '/')),
              Acl.Groups r.Acl))
            (List.range' (traversalBegin fs r)
              ((strings.Split r.Path '/').length - traversalBegin fs r)) ++
            traversalContribs fs [] rest := by
        simp [traversalContribs, List.flatMap_cons, List.append_assoc]
      rw [e]
      exact hinv2

theorem compileTraversalShares_inv (fs : Bcpfs) (shares : List ExportEntry)
    (cs : List (String × List String)) (travs : List ExportEntry) (m : GoMap String Nat)
    (h : TravInv cs travs m) :
    ∃ t m', compileTraversalShares fs shares travs m = Result.ok (t, m') ∧
      TravInv (cs ++ traversalContribs fs shares []) t m' := by
  induction shares generalizing cs travs m with
  | nil => exact ⟨travs, m, rfl, by simpa [traversalContribs] using h⟩
  | cons s rest ih =>
    obtain ⟨hx, hgs⟩ := NewTraversalAcl_x (Acl.Groups s.Acl)
    obtain ⟨t, m', hrun, hinv⟩ :=
      upsert_TravInv cs travs m
        (slashpath.Join [fs.OrgUnitDir, (strings.Split s.Path '/').getD 0 ""])
        (NewTraversalAclWithGroups (Acl.Groups s.Acl)) [] h hx
    obtain ⟨t2, m2, hrun2, hinv2⟩ := ih _ t m' hinv
    refine ⟨t2, m2, ?_, ?_⟩
    · unfold compileTraversalShares
      simp only [hrun]
      exact hrun2
    · rw [hgs] at hinv2
      have e : cs ++ traversalContribs fs (s :: rest) [] =
          cs ++ [(slashpath.Join [fs.OrgUnitDir, (strings.Split s.Path '/').getD 0 ""],
            Acl.Groups s.Acl)] ++ traversalContribs fs rest [] := by
        simp [traversalContribs, List.append_assoc]
      rw [e]
      exact hinv2

theorem traversalContribs_split (fs : Bcpfs) (shares reals : List ExportEntry) :
    traversalContribs fs shares reals =
      traversalContribs fs [] reals ++ traversalContribs fs shares [] := by
  simp [traversalContribs]

theorem compileTraversal_inv (fs : Bcpfs) (shares reals : List ExportEntry) :
    ∃ t m, compileTraversal fs shares reals = Result.ok t ∧
      TravInv (traversalContribs fs shares reals) t m := by
  obtain ⟨t, m, hrun, hinv⟩ := compileTraversalReals_inv fs reals [] [] [] TravInv_nil
  obtain ⟨t2, m2, hrun2, hinv2⟩ := compileTraversalShares_inv fs shares _ t m hinv
  refine ⟨t2, m2, ?_, ?_⟩
  · unfold compileTraversal
    simp only [hrun, hrun2]
  · rw [traversalContribs_split]
    simpa using hinv2

theorem mem_traversalContribs (fs : Bcpfs) (shares reals : List ExportEntry)
    (c : String × List String) :
    c ∈ traversalContribs fs shares reals ↔
      (∃ r ∈ reals, ∃ i, traversalBegin fs r ≤ i ∧ i < (strings.Split r.Path '/').length ∧
        c = (slashpath.Join ((strings.Split r.Path '/').take i), Acl.Groups r.Acl)) ∨
      (∃ s ∈ shares,
        c = (slashpath.Join [fs.OrgUnitDir, (strings.Split s.Path '/').getD 0 ""],
          Acl.Groups s.Acl)) := by
  unfold traversalContribs
  rw [List.mem_append, List.mem_flatMap]
  constructor
  · rintro (⟨r, hr, hc⟩ | hc)
    · obtain ⟨i, hi, rfl⟩ := List.mem_map.mp hc
      rw [List.mem_range'_1] at hi
      exact Or.inl ⟨r, hr, i, hi.1, by omega, rfl⟩
    · obtain ⟨s, hs, rfl⟩ := List.mem_map.mp hc
      exact Or.inr ⟨s, hs, rfl⟩
  · rintro (⟨r, hr, i, h1, h2, rfl⟩ | ⟨s, hs, rfl⟩)
    · refine Or.inl ⟨r, hr, List.mem_map.mpr ⟨i, ?_, rfl⟩⟩
      rw [List.mem_range'_1]
      omega
    · exact Or.inr (List.mem_map.mpr ⟨s, hs, rfl⟩)

end bcpsharing

/-- C26: `compileTraversal` returns entries with pairwise distinct paths.
The paths are exactly: for each real share `r` with components `p1 ... pn`,
the join of `p1 ... pi` for `begin <= i < n`, where `begin` is 3 when `p1` is
the service dir and 2 otherwise; together with the join of the org unit dir
and the first component of each logical share. Every entry mode is `--x`,
and the ACL of an entry names exactly the grantee groups of the real shares
and logical shares that contribute its path. For a real share of clean
components the join of `p1 ... pi` is `p1/.../pi` and differs from the path
of the real share; for clean elements the join of the org unit dir and `ou`
is `<org_unit_dir>/<ou>`. For scenario S5 the entries are `srv/mic1/alice`,
`org/em-facility` and `org/alice`, each with `bob` `--x`. -/
theorem compileTraversal_spec (fs : bcpsharing.Bcpfs)
    (shares reals : List bcpsharing.ExportEntry) :
    (∃ travs, bcpsharing.compileTraversal fs shares reals = Result.ok travs ∧
      (travs.map (fun e => e.Path)).Nodup ∧
      (∀ p, p ∈ travs.map (fun e => e.Path) ↔
        (∃ r ∈ reals, ∃ i, bcpsharing.traversalBegin fs r ≤ i ∧
          i < (strings.Split r.Path '/').length ∧
          p = slashpath.Join ((strings.Split r.Path '/').take i)) ∨
        (∃ s ∈ shares,
          p = slashpath.Join [fs.OrgUnitDir, (strings.Split s.Path '/').getD 0 ""])) ∧
      (∀ e ∈ travs,
        (∀ ace ∈ e.Acl, ace.Mode = "--x") ∧
        (∀ g, g ∈ e.Acl.map (fun x => x.Group) ↔
          (∃ r ∈ reals, g ∈ r.Acl.map (fun x => x.Group) ∧
            ∃ i, bcpsharing.traversalBegin fs r ≤ i ∧
              i < (strings.Split r.Path '/').length ∧
              e.Path = slashpath.Join ((strings.Split r.Path '/').take i)) ∨
          (∃ s ∈ shares, g ∈ s.Acl.map (fun x => x.Group) ∧
            e.Path =
              slashpath.Join [fs.OrgUnitDir, (strings.Split s.Path '/').getD 0 ""])))) ∧
    (∀ r : bcpsharing.ExportEntry,
      (bcpsharing.traversalBegin fs r =
        if (strings.Split r.Path '/').getD 0 "" = fs.ServiceDir then 3 else 2) ∧
      (bcpsharing.cleanComponents r.Path = true →
        ∀ i, 1 ≤ i → i < (strings.Split r.Path '/').length →
          slashpath.Join ((strings.Split r.Path '/').take i) =
              filepath.joinElems ((strings.Split r.Path '/').take i) ∧
            slashpath.Join ((strings.Split r.Path '/').take i) ≠ r.Path)) ∧
    (∀ ou : String, filepath.isElem fs.OrgUnitDir = true → filepath.isElem ou = true →
      slashpath.Join [fs.OrgUnitDir, ou] = fs.OrgUnitDir ++ "/" ++ ou) ∧
    bcpsharing.compileTraversal (bcpsharing.NewBcpfs S1.cfg) Examples.sharesS5
      Examples.realSharesS5 = Result.ok Examples.traversalS5 := by
  refine ⟨?_, ?_, ?_, rfl⟩
  · obtain ⟨t, m, hrun, hm, hx, hp, hg⟩ := bcpsharing.compileTraversal_inv fs shares reals
    refine ⟨t, hrun, MapIdx_nodup hm, ?_, ?_⟩
    · intro p
      rw [hp p]
      constructor
      · rintro ⟨c, hc, rfl⟩
        rcases (bcpsharing.mem_traversalContribs fs shares reals c).mp hc with
          ⟨r, hr, i, h1, h2, rfl⟩ | ⟨s, hs, rfl⟩
        · exact Or.inl ⟨r, hr, i, h1, h2, rfl⟩
        · exact Or.inr ⟨s, hs, rfl⟩
      · rintro (⟨r, hr, i, h1, h2, rfl⟩ | ⟨s, hs, rfl⟩)
        · exact ⟨_, (bcpsharing.mem_traversalContribs fs shares reals _).mpr
            (Or.inl ⟨r, hr, i, h1, h2, rfl⟩), rfl⟩
        · exact ⟨_, (bcpsharing.mem_traversalContribs fs shares reals _).mpr
            (Or.inr ⟨s, hs, rfl⟩), rfl⟩
    · intro e he
      refine ⟨hx e he, ?_⟩
      intro g
      rw [hg e he g]
      constructor
      · rintro ⟨c, hc, hcp, hcg⟩
        rcases (bcpsharing.mem_traversalContribs fs shares reals c).mp hc with
          ⟨r, hr, i, h1, h2, rfl⟩ | ⟨s, hs, rfl⟩
        · exact Or.inl ⟨r, hr, hcg, i, h1, h2, hcp.symm⟩
        · exact Or.inr ⟨s, hs, hcg, hcp.symm⟩
      · rintro (⟨r, hr, hgr, i, h1, h2, hpe⟩ | ⟨s, hs, hgs, hpe⟩)
        · exact ⟨_, (bcpsharing.mem_traversalContribs fs shares reals _).mpr
            (Or.inl ⟨r, hr, i, h1, h2, rfl⟩), hpe.symm, hgr⟩
        · exact ⟨_, (bcpsharing.mem_traversalContribs fs shares reals _).mpr
            (Or.inr ⟨s, hs, rfl⟩), hpe.symm, hgs⟩
  · intro r
    refine ⟨?_, ?_⟩
    · unfold bcpsharing.traversalBegin bcpsharing.Bcpfs.IsServiceRealpath
      by_cases h : (strings.Split r.Path '/').getD 0 "" = fs.ServiceDir
      · rw [if_pos h, if_pos (decide_eq_true h)]
      · rw [if_neg h, if_neg (by simpa using h)]
    · intro hclean i h1 h2
      have hall : ∀ c ∈ strings.Split r.Path '/', filepath.isElem c = true := by
        unfold bcpsharing.cleanComponents at hclean
        exact List.all_eq_true.mp hclean
      have hne : strings.Split r.Path '/' ≠ [] := by
        intro h
        rw [h] at h2
        cases h2
      obtain ⟨htne, htall⟩ := bcpsharing.take_clean _ hall i h1 hne
      have hj : slashpath.Join ((strings.Split r.Path '/').take i) =
          filepath.joinElems ((strings.Split r.Path '/').take i) :=
        filepath.Join_elems _ htall htne
      refine ⟨hj, ?_⟩
      rw [hj]
      intro heq
      have hp : filepath.joinElems (strings.Split r.Path '/') = r.Path :=
        filepath.joinElems_Split r.Path
      have := bcpsharing.joinElems_inj _ _ htne hne htall hall (heq.trans hp.symm)
      have hlen := congrArg List.length this
      rw [List.length_take] at hlen
      omega
  · intro ou ho hu
    have hall : ∀ c ∈ [fs.OrgUnitDir, ou], filepath.isElem c = true := by
      intro c hc
      rcases List.mem_cons.mp hc with rfl | hc
      · exact ho
      · rw [List.mem_singleton] at hc
        subst hc
        exact hu
    have hj : slashpath.Join [fs.OrgUnitDir, ou] = filepath.joinElems [fs.OrgUnitDir, ou] :=
      filepath.Join_elems _ hall (by simp)
    rw [hj]
    apply String.ext
    simp [filepath.joinElems, joinData, String.data_append]

/-! ### Shape of cleaned relative paths -/

namespace filepath

theorem cleanStep_relStack (stack : List (List Char)) (comp : List Char)
    (hs : relStack stack) (hc : '/' ∉ comp) : relStack (cleanStep false stack comp) := by
  obtain ⟨k, elems, rfl, he⟩ := hs
  unfold cleanStep
  by_cases h1 : comp = [] ∨ comp = ['.']
  · rw [if_pos h1]
    exact ⟨k, elems, rfl, he⟩
  · rw [if_neg h1]
    by_cases h2 : comp = ['.', '.']
    · rw [if_pos h2]
      cases elems with
      | nil =>
        cases k with
        | zero => exact ⟨1, [], by simp [h2], by simp⟩
        | succ k =>
          refine ⟨k + 2, [], ?_, by simp⟩
          simp [List.replicate_succ, h2]
      | cons e es =>
        have hne := (he e (List.mem_cons_self _ _)).2.2.2
        refine ⟨k, es, ?_, fun x hx => he x (List.mem_cons_of_mem _ hx)⟩
        simp [hne]
    · rw [if_neg h2]
      refine ⟨k, comp :: elems, rfl, ?_⟩
      intro e hmem
      rcases List.mem_cons.mp hmem with rfl | hmem
      · exact ⟨fun h => h1 (Or.inl h), hc, fun h => h1 (Or.inr h), h2⟩
      · exact he e hmem

theorem foldl_cleanStep_relStack (comps : List (List Char)) (stack : List (List Char))
    (hs : relStack stack) (hc : ∀ c ∈ comps, '/' ∉ c) :
    relStack (comps.foldl (cleanStep false) stack) := by
  induction comps generalizing stack with
  | nil => exact hs
  | cons c rest ih =>
    rw [List.foldl_cons]
    exact ih _ (cleanStep_relStack stack c hs (hc c (List.mem_cons_self _ _)))
      (fun x hx => hc x (List.mem_cons_of_mem _ hx))

theorem Clean_rel (p : String) (hd : p.data ≠ []) (hrel : p.data.head? ≠ some '/') :
    Clean p =
      if (splitSlash p.data).foldl (cleanStep false) [] = [] then "."
      else String.mk (joinData ['/'] ((splitSlash p.data).foldl (cleanStep false) []).reverse) := by
  unfold Clean
  simp only [hd, if_false, hrel, decide_False, Bool.false_eq_true]

theorem Join_rel (x : String) (rest : List String) (hx : isElem x = true) :
    Join (x :: rest) =
      if (splitSlash (joinData ['/'] (x.data :: rest.map String.data))).foldl
          (cleanStep false) [] = [] then "."
      else String.mk (joinData ['/']
        ((splitSlash (joinData ['/'] (x.data :: rest.map String.data))).foldl
          (cleanStep false) []).reverse) := by
  obtain ⟨h1, h2, -, -⟩ := (isElem_iff x).mp hx
  have hx0 : x ≠ "" := by
    intro h
    rw [h] at h1
    exact h1 rfl
  have hdata : (Bcpfs.Join (x :: rest) "/").data =
      joinData ['/'] (x.data :: rest.map String.data) := by
    rw [Join_data]
    rfl
  rw [Join_cons_ne x rest hx0, Clean_rel, hdata]
  · rw [hdata, joinData_cons]
    intro hnil
    exact h1 (List.append_eq_nil.mp hnil).1
  · rw [hdata, joinData_cons]
    cases hd : x.data with
    | nil => exact absurd hd h1
    | cons c cs =>
      rw [hd] at h2
      simp only [List.cons_append, List.head?_cons, ne_eq, Option.some.injEq]
      intro hc
      exact h2 (by rw [hc]; exact List.mem_cons_self _ _)

theorem relStack_joinElems (stack : List (List Char)) (hs : relStack stack)
    (hne : stack ≠ []) :
    ∃ k elems, (∀ e ∈ elems, isElem e = true) ∧ List.replicate k ".." ++ elems ≠ [] ∧
      String.mk (joinData ['/'] stack.reverse) = joinElems (List.replicate k ".." ++ elems) := by
  obtain ⟨k, es, rfl, he⟩ := hs
  refine ⟨k, es.reverse.map String.mk, ?_, ?_, ?_⟩
  · intro e hmem
    obtain ⟨d, hd, rfl⟩ := List.mem_map.mp hmem
    rw [isElem_iff]
    exact he d (List.mem_reverse.mp hd)
  · intro h
    obtain ⟨h1, h2⟩ := List.append_eq_nil.mp h
    apply hne
    have hk : k = 0 := by
      cases k with
      | zero => rfl
      | succ k => simp [List.replicate_succ] at h1
    have hes : es = [] := by
      have := List.map_eq_nil_iff.mp h2
      exact List.reverse_eq_nil_iff.mp this
    rw [hk, hes]
    rfl
  · unfold joinElems
    congr 2
    rw [List.reverse_append, List.reverse_replicate, List.map_append, List.map_replicate,
      List.map_map]
    have : (String.data ∘ String.mk) = id := rfl
    rw [this, List.map_id]

theorem Join_shape (x : String) (rest : List String) (hx : isElem x = true) :
    Join (x :: rest) = "." ∨
      ∃ k elems, (∀ e ∈ elems, isElem e = true) ∧ List.replicate k ".." ++ elems ≠ [] ∧
        Join (x :: rest) = joinElems (List.replicate k ".." ++ elems) := by
  rw [Join_rel x rest hx]
  by_cases h : (splitSlash (joinData ['/'] (x.data :: rest.map String.data))).foldl
      (cleanStep false) [] = []
  · rw [if_pos h]
    exact Or.inl rfl
  · rw [if_neg h]
    refine Or.inr (relStack_joinElems _ ?_ h)
    apply foldl_cleanStep_relStack
    · exact ⟨0, [], rfl, by simp⟩
    · intro c hc
      exact splitOnChar_no_sep '/' _ c hc

theorem dotdots_elems_no_slash (k : Nat) (elems : List String)
    (h : ∀ e ∈ elems, isElem e = true) :
    ∀ c ∈ List.replicate k ".." ++ elems, '/' ∉ c.data := by
  intro c hc
  rcases List.mem_append.mp hc with hc | hc
  · rw [List.eq_of_mem_replicate hc]
    decide
  · exact ((isElem_iff c).mp (h c hc)).2.1

theorem take_dotdots_elems (k : Nat) (elems : List String)
    (h : ∀ e ∈ elems, isElem e = true) (i : Nat) (hi : 1 ≤ i)
    (hne : List.replicate k ".." ++ elems ≠ []) :
    Join ((List.replicate k ".." ++ elems).take i) =
        joinElems ((List.replicate k ".." ++ elems).take i) ∧
      strings.Split (joinElems ((List.replicate k ".." ++ elems).take i)) '/' =
        (List.replicate k ".." ++ elems).take i := by
  have htake : (List.replicate k ".." ++ elems).take i =
      List.replicate (min i k) ".." ++ elems.take (i - k) := by
    rw [List.take_append_eq_append_take, List.take_replicate, List.length_replicate]
  have hne2 : (List.replicate k ".." ++ elems).take i ≠ [] := by
    intro hnil
    rw [List.take_eq_nil_iff] at hnil
    rcases hnil with hnil | hnil
    · omega
    · exact hne hnil
  have hall : ∀ e ∈ elems.take (i - k), isElem e = true :=
    fun e he => h e (List.mem_of_mem_take he)
  refine ⟨?_, ?_⟩
  · rw [htake]
    rw [htake] at hne2
    exact Join_dotdots_elems _ _ hall hne2
  · apply Split_joinElems _ hne2
    intro c hc
    exact dotdots_elems_no_slash k elems h c (List.mem_of_mem_take hc)

end filepath

namespace filepath

theorem joinElems_singleton (x : String) : joinElems [x] = x := rfl

theorem joinElems_pair (a b : String) : joinElems [a, b] = a ++ "/" ++ b := by
  apply String.ext
  simp [joinElems, joinData, String.data_append]

theorem Join_elem_noslash (x ou : String) (hx : isElem x = true) (hou : '/' ∉ ou.data) :
    Join [x, ou] = x ∨ Join [x, ou] = "." ∨ Join [x, ou] = joinElems [x, ou] := by
  have hxs : '/' ∉ x.data := ((isElem_iff x).mp hx).2.1
  have hsplit : splitSlash (joinData ['/'] (x.data :: [ou].map String.data)) =
      [x.data, ou.data] := by
    unfold splitSlash
    apply splitOnChar_joinData
    · simp
    · intro l hl
      simp only [List.map_cons, List.map_nil, List.mem_cons, List.mem_singleton,
        List.not_mem_nil, or_false] at hl
      rcases hl with rfl | rfl
      · exact hxs
      · exact hou
  rw [Join_rel x [ou] hx, hsplit]
  simp only [List.foldl_cons, List.foldl_nil]
  rw [cleanStep_elem false [] x hx]
  unfold cleanStep
  by_cases h1 : ou.data = [] ∨ ou.data = ['.']
  · rw [if_pos h1]
    left
    simp [joinData]
  · rw [if_neg h1]
    by_cases h2 : ou.data = ['.', '.']
    · rw [if_pos h2]
      have hx2 : x.data ≠ ['.', '.'] := ((isElem_iff x).mp hx).2.2.2
      right; left
      simp [hx2]
    · rw [if_neg h2]
      right; right
      simp [joinElems, joinData]

end filepath

namespace bcpsharing

theorem Realpath_shape (fs : Bcpfs) (hs : filepath.isElem fs.ServiceDir = true)
    (ho : filepath.isElem fs.OrgUnitDir = true) (p : String) :
    fs.Realpath p = "" ∨ fs.Realpath p = "." ∨
      ∃ k elems, (∀ e ∈ elems, filepath.isElem e = true) ∧
        List.replicate k ".." ++ elems ≠ [] ∧
        fs.Realpath p = filepath.joinElems (List.replicate k ".." ++ elems) := by
  unfold Bcpfs.Realpath
  by_cases h1 : (!fs.IsServicePath p) = true
  · rw [if_pos h1]
    exact Or.inr (filepath.Join_shape _ _ ho)
  · rw [if_neg h1]
    simp only []
    by_cases h2 : (strings.Split p '/').length < 2
    · rw [if_pos h2]
      exact Or.inl rfl
    · rw [if_neg h2]
      by_cases h3 : fs.IsFacilityPath p = true
      · rw [if_pos h3]
        exact Or.inr (filepath.Join_shape _ _ hs)
      · rw [if_neg h3]
        exact Or.inr (filepath.Join_shape fs.ServiceDir _ hs)

theorem traversal_prefix_split (P : String)
    (hP : P = "" ∨ P = "." ∨
      ∃ k elems, (∀ e ∈ elems, filepath.isElem e = true) ∧
        List.replicate k ".." ++ elems ≠ [] ∧
        P = filepath.joinElems (List.replicate k ".." ++ elems))
    (i : Nat) (h1 : 1 ≤ i) (h2 : i < (strings.Split P '/').length) :
    strings.Split (slashpath.Join ((strings.Split P '/').take i)) '/' =
      (strings.Split P '/').take i := by
  rcases hP with rfl | rfl | ⟨k, elems, hall, hne, rfl⟩
  · have : (strings.Split "" '/').length = 1 := rfl
    omega
  · have : (strings.Split "." '/').length = 1 := rfl
    omega
  · rw [filepath.Split_joinElems _ hne (filepath.dotdots_elems_no_slash k elems hall)]
    obtain ⟨e1, e2⟩ := filepath.take_dotdots_elems k elems hall i h1 hne
    have e1' : slashpath.Join ((List.replicate k ".." ++ elems).take i) =
        filepath.joinElems ((List.replicate k ".." ++ elems).take i) := e1
    rw [e1', e2]

theorem upsertByRealpath_paths (entries : List ExportEntry) (m : GoMap String Nat)
    (path : String) (acl : List Ace) (mg : List Group) (t : List ExportEntry)
    (m' : GoMap String Nat)
    (h : upsertByRealpath entries m path acl mg = Result.ok (t, m')) :
    ∀ e ∈ t, e.Path = path ∨ ∃ e0 ∈ entries, e0.Path = e.Path := by
  unfold upsertByRealpath at h
  cases hget : GoMap.get m path with
  | none =>
    simp only [hget, Result.ok.injEq, Prod.mk.injEq] at h
    obtain ⟨ht, -⟩ := h
    subst ht
    intro e he
    rcases List.mem_append.mp he with he | he
    · exact Or.inr ⟨e, he, rfl⟩
    · rw [List.mem_singleton] at he
      subst he
      exact Or.inl rfl
  | some idx =>
    cases hl : entries[idx]? with
    | none => simp [hget, hl] at h
    | some e0 =>
      cases hu : Acl.Union e0.Acl acl with
      | panic msg => simp [hget, hl, hu] at h
      | error msg => simp [hget, hl, hu] at h
      | ok u =>
        simp only [hget, hl, hu, Result.ok.injEq, Prod.mk.injEq] at h
        obtain ⟨ht, -⟩ := h
        subst ht
        intro e he
        rcases List.mem_or_eq_of_mem_set he with he | he
        · exact Or.inr ⟨e, he, rfl⟩
        · subst he
          exact Or.inr ⟨e0, List.mem_iff_getElem?.mpr ⟨idx, hl⟩, rfl⟩

theorem compileRealSharesLoop_paths (fs : Bcpfs) (rest reals : List ExportEntry)
    (m : GoMap String Nat) (out : List ExportEntry)
    (h : compileRealSharesLoop fs rest reals m = Result.ok out) :
    ∀ e ∈ out, (∃ s ∈ rest, e.Path = fs.Realpath s.Path) ∨ ∃ e0 ∈ reals, e0.Path = e.Path := by
  induction rest generalizing reals m with
  | nil =>
    unfold compileRealSharesLoop at h
    injection h with h
    subst h
    intro e he
    exact Or.inr ⟨e, he, rfl⟩
  | cons s rest ih =>
    unfold compileRealSharesLoop at h
    cases hu : upsertByRealpath reals m (fs.Realpath s.Path) s.Acl s.ManagingGroups with
    | panic msg => simp [hu] at h
    | error msg => simp [hu] at h
    | ok tm =>
      obtain ⟨t, m'⟩ := tm
      simp only [hu] at h
      intro e he
      rcases ih t m' h e he with ⟨s', hs', hp⟩ | ⟨e0, he0, hp⟩
      · exact Or.inl ⟨s', List.mem_cons_of_mem _ hs', hp⟩
      · rcases upsertByRealpath_paths _ _ _ _ _ _ _ hu e0 he0 with h0 | ⟨e1, he1, hp1⟩
        · exact Or.inl ⟨s, List.mem_cons_self _ _, by rw [← hp, h0]⟩
        · exact Or.inr ⟨e1, he1, hp1.trans hp⟩

theorem compileRealShares_paths (fs : Bcpfs) (shares out : List ExportEntry)
    (h : compileRealShares fs shares = Result.ok out) :
    ∀ e ∈ out, ∃ s ∈ shares, e.Path = fs.Realpath s.Path := by
  intro e he
  rcases compileRealSharesLoop_paths fs shares [] [] out h e he with h1 | ⟨e0, he0, -⟩
  · exact h1
  · cases he0

end bcpsharing

namespace bcpsharing

theorem Split_single (x : String) (hx : '/' ∉ x.data) : strings.Split x '/' = [x] := by
  have := filepath.Split_joinElems [x] (by simp) (by
    intro c hc
    rw [List.mem_singleton] at hc
    subst hc
    exact hx)
  rw [filepath.joinElems_singleton] at this
  exact this

theorem Split_pair (a b : String) (ha : '/' ∉ a.data) (hb : '/' ∉ b.data) :
    strings.Split (a ++ "/" ++ b) '/' = [a, b] := by
  rw [← filepath.joinElems_pair]
  apply filepath.Split_joinElems _ (by simp)
  intro c hc
  rcases List.mem_cons.mp hc with rfl | hc
  · exact ha
  · rw [List.mem_singleton] at hc
    subst hc
    exact hb

theorem Split_head_no_slash (p : String) : '/' ∉ ((strings.Split p '/').getD 0 "").data := by
  cases h : strings.Split p '/' with
  | nil => simp
  | cons a t =>
    have := filepath.Split_no_slash p a (by rw [h]; exact List.mem_cons_self _ _)
    simpa using this

theorem traversal_real_path_split (fs : Bcpfs) (hs : filepath.isElem fs.ServiceDir = true)
    (ho : filepath.isElem fs.OrgUnitDir = true) (r : ExportEntry) (p : String)
    (hr : r.Path = fs.Realpath p) (i : Nat) (h1 : traversalBegin fs r ≤ i)
    (h2 : i < (strings.Split r.Path '/').length) :
    strings.Split (slashpath.Join ((strings.Split r.Path '/').take i)) '/' ≠
        [fs.ServiceDir] ∧
      ∀ s, strings.Split (slashpath.Join ((strings.Split r.Path '/').take i)) '/' ≠
        [fs.ServiceDir, s] := by
  have hb : 2 ≤ traversalBegin fs r := by
    unfold traversalBegin
    split <;> omega
  have hsplit := traversal_prefix_split r.Path (hr ▸ Realpath_shape fs hs ho p) i
    (by omega) h2
  rw [hsplit]
  have hlen : ((strings.Split r.Path '/').take i).length = i := by
    rw [List.length_take]
    omega
  refine ⟨?_, ?_⟩
  · intro h
    rw [h] at hlen
    simp only [List.length_singleton] at hlen
    omega
  · intro s h
    have hi : i = 2 := by
      rw [h] at hlen
      simpa using hlen.symm
    subst hi
    have hsrv : (strings.Split r.Path '/').getD 0 "" = fs.ServiceDir := by
      cases hp : strings.Split r.Path '/' with
      | nil => rw [hp] at h; cases h
      | cons a t =>
        rw [hp] at h
        simp only [List.take_succ_cons, List.cons.injEq] at h
        simpa using h.1
    have : traversalBegin fs r = 3 := by
      unfold traversalBegin Bcpfs.IsServiceRealpath
      rw [if_pos (decide_eq_true hsrv)]
    omega

theorem traversal_share_path_split (fs : Bcpfs) (hs : filepath.isElem fs.ServiceDir = true)
    (ho : filepath.isElem fs.OrgUnitDir = true) (hne : fs.ServiceDir ≠ fs.OrgUnitDir)
    (p : String) :
    strings.Split
        (slashpath.Join [fs.OrgUnitDir, (strings.Split p '/').getD 0 ""]) '/' ≠
        [fs.ServiceDir] ∧
      ∀ s, strings.Split
        (slashpath.Join [fs.OrgUnitDir, (strings.Split p '/').getD 0 ""]) '/' ≠
        [fs.ServiceDir, s] := by
  have hou := Split_head_no_slash p
  have hos : '/' ∉ fs.OrgUnitDir.data := ((filepath.isElem_iff _).mp ho).2.1
  have hdot : fs.ServiceDir ≠ "." := by
    intro h
    have := ((filepath.isElem_iff _).mp hs).2.2.1
    rw [h] at this
    exact this rfl
  have hj : slashpath.Join [fs.OrgUnitDir, (strings.Split p '/').getD 0 ""] =
        fs.OrgUnitDir ∨
      slashpath.Join [fs.OrgUnitDir, (strings.Split p '/').getD 0 ""] = "." ∨
      slashpath.Join [fs.OrgUnitDir, (strings.Split p '/').getD 0 ""] =
        filepath.joinElems [fs.OrgUnitDir, (strings.Split p '/').getD 0 ""] :=
    filepath.Join_elem_noslash _ _ ho hou
  rcases hj with hj | hj | hj
  · rw [hj, Split_single _ hos]
    refine ⟨?_, ?_⟩
    · intro h
      injection h with h
      exact hne h.symm
    · intro s h
      injection h with _ h
      cases h
  · rw [hj]
    have e : strings.Split "." '/' = ["."] := rfl
    rw [e]
    refine ⟨?_, ?_⟩
    · intro h
      injection h with h
      exact hdot h.symm
    · intro s h
      injection h with _ h
      cases h
  · rw [hj, filepath.joinElems_pair, Split_pair _ _ hos hou]
    refine ⟨?_, ?_⟩
    · intro h
      injection h with _ h
      cases h
    · intro s h
      injection h with h
      exact hne h.symm

end bcpsharing

/-- C27: for every configuration whose service dir and org unit dir are
distinct single path components and every list of shares, with `reals` the
real shares that `compileRealShares` returns for them, `compileTraversal`
returns entries of which none has the path `<service_dir>` or a path
`<service_dir>/<s>` of two components: the components of the path of an entry
are never the service dir alone, nor the service dir followed by one other
component. -/
theorem compileTraversal_no_service_toplevel (fs : bcpsharing.Bcpfs)
    (shares reals : List bcpsharing.ExportEntry)
    (hs : filepath.isElem fs.ServiceDir = true) (ho : filepath.isElem fs.OrgUnitDir = true)
    (hne : fs.ServiceDir ≠ fs.OrgUnitDir)
    (hreals : bcpsharing.compileRealShares fs shares = Result.ok reals) :
    ∃ travs, bcpsharing.compileTraversal fs shares reals = Result.ok travs ∧
      ∀ e ∈ travs,
        e.Path ≠ fs.ServiceDir ∧
        (∀ s : String, '/' ∉ s.data → e.Path ≠ fs.ServiceDir ++ "/" ++ s) ∧
        strings.Split e.Path '/' ≠ [fs.ServiceDir] ∧
        ∀ s, strings.Split e.Path '/' ≠ [fs.ServiceDir, s] := by
  obtain ⟨t, m, hrun, -, -, hp, -⟩ := bcpsharing.compileTraversal_inv fs shares reals
  refine ⟨t, hrun, ?_⟩
  intro e he
  have hsrv : '/' ∉ fs.ServiceDir.data := ((filepath.isElem_iff _).mp hs).2.1
  have hsplit : strings.Split e.Path '/' ≠ [fs.ServiceDir] ∧
      ∀ s, strings.Split e.Path '/' ≠ [fs.ServiceDir, s] := by
    obtain ⟨c, hc, hcp⟩ := (hp e.Path).mp (List.mem_map.mpr ⟨e, he, rfl⟩)
    rcases (bcpsharing.mem_traversalContribs fs shares reals c).mp hc with
      ⟨r, hr, i, h1, h2, rfl⟩ | ⟨s, hs', rfl⟩
    · obtain ⟨s, -, hrs⟩ := bcpsharing.compileRealShares_paths fs shares reals hreals r hr
      rw [← hcp]
      exact bcpsharing.traversal_real_path_split fs hs ho r s.Path hrs i h1 h2
    · rw [← hcp]
      exact bcpsharing.traversal_share_path_split fs hs ho hne s.Path
  refine ⟨?_, ?_, hsplit.1, hsplit.2⟩
  · intro h
    apply hsplit.1
    rw [h]
    exact bcpsharing.Split_single _ hsrv
  · intro s hsl h
    apply hsplit.2 s
    rw [h]
    exact bcpsharing.Split_pair _ _ hsrv hsl

theorem compileTraversal_no_service_toplevel_witness :
    ∃ travs, bcpsharing.compileTraversal (bcpsharing.NewBcpfs S1.cfg) Examples.sharesS5
        Examples.realSharesS5 = Result.ok travs ∧
      ∀ e ∈ travs,
        e.Path ≠ (bcpsharing.NewBcpfs S1.cfg).ServiceDir ∧
        (∀ s : String, '/' ∉ s.data →
          e.Path ≠ (bcpsharing.NewBcpfs S1.cfg).ServiceDir ++ "/" ++ s) ∧
        strings.Split e.Path '/' ≠ [(bcpsharing.NewBcpfs S1.cfg).ServiceDir] ∧
        ∀ s, strings.Split e.Path '/' ≠ [(bcpsharing.NewBcpfs S1.cfg).ServiceDir, s] :=
  compileTraversal_no_service_toplevel (bcpsharing.NewBcpfs S1.cfg) Examples.sharesS5
    Examples.realSharesS5 (by decide) (by decide) (by decide) rfl

/-! ### Paths below a common prefix -/

namespace filepath

theorem joinData_append (sep : List Char) (a b : List (List Char)) (ha : a ≠ [])
    (hb : b ≠ []) : joinData sep (a ++ b) = joinData sep a ++ sep ++ joinData sep b := by
  cases a with
  | nil => exact absurd rfl ha
  | cons x xs =>
    cases b with
    | nil => exact absurd rfl hb
    | cons y ys =>
      rw [List.cons_append, joinData_cons, joinData_cons, joinData_cons]
      simp [List.append_assoc]

theorem cleanStep_mem (rooted : Bool) (stack : List (List Char)) (comp : List Char) :
    ∀ y ∈ cleanStep rooted stack comp, y = comp ∨ y ∈ stack := by
  intro y hy
  unfold cleanStep at hy
  by_cases h1 : comp = [] ∨ comp = ['.']
  · rw [if_pos h1] at hy
    exact Or.inr hy
  · rw [if_neg h1] at hy
    by_cases h2 : comp = ['.', '.']
    · rw [if_pos h2] at hy
      cases stack with
      | nil =>
        cases rooted with
        | true => simp at hy
        | false =>
          simp only [Bool.false_eq_true, if_false, List.mem_singleton] at hy
          exact Or.inl hy
      | cons top rest =>
        simp only at hy
        by_cases h3 : top = ['.', '.']
        · rw [if_pos h3] at hy
          cases rooted with
          | true =>
            simp only [if_true] at hy
            exact Or.inr hy
          | false =>
            simp only [Bool.false_eq_true, if_false] at hy
            rcases List.mem_cons.mp hy with hy | hy
            · exact Or.inl hy
            · exact Or.inr hy
        · rw [if_neg h3] at hy
          exact Or.inr (List.mem_cons_of_mem _ hy)
    · rw [if_neg h2] at hy
      rcases List.mem_cons.mp hy with hy | hy
      · exact Or.inl hy
      · exact Or.inr hy

theorem foldl_cleanStep_no_slash (rooted : Bool) (comps : List (List Char))
    (stack : List (List Char)) (hs : ∀ y ∈ stack, '/' ∉ y) (hc : ∀ c ∈ comps, '/' ∉ c) :
    ∀ y ∈ comps.foldl (cleanStep rooted) stack, '/' ∉ y := by
  induction comps generalizing stack with
  | nil => exact hs
  | cons c rest ih =>
    rw [List.foldl_cons]
    apply ih
    · intro y hy
      rcases cleanStep_mem rooted stack c y hy with rfl | hy
      · exact hc _ (List.mem_cons_self _ _)
      · exact hs y hy
    · exact fun x hx => hc x (List.mem_cons_of_mem _ hx)

theorem Join_drop_empty (pre rest : List String) :
    Join (pre ++ rest) = Join (pre.dropWhile (fun e => decide (e = "")) ++ rest) := by
  induction pre with
  | nil => rfl
  | cons x xs ih =>
    by_cases hx : x = ""
    · have e1 : Join (x :: xs ++ rest) = Join (xs ++ rest) := by
        unfold Join
        rw [List.cons_append, List.dropWhile_cons]
        simp [hx]
      rw [e1, ih]
      simp [List.dropWhile_cons, hx]
    · simp [List.dropWhile_cons, hx]

end filepath

namespace filepath

theorem Clean_data_nonempty (p : String) (hd : p.data ≠ [])
    (hs : (splitSlash p.data).foldl (cleanStep (decide (p.data.head? = some '/'))) [] ≠ []) :
    (Clean p).data =
      (if p.data.head? = some '/' then ['/'] else []) ++
        joinData ['/']
          ((splitSlash p.data).foldl (cleanStep (decide (p.data.head? = some '/'))) []).reverse := by
  unfold Clean
  simp only [hd, if_false]
  by_cases hr : p.data.head? = some '/'
  · simp only [hr, decide_True, if_true, String.data_append]
  · simp only [hr, decide_False, Bool.false_eq_true, if_false] at hs ⊢
    simp only [hs, if_false, List.nil_append]

theorem dropWhile_head_not {α : Type} (p : α → Bool) (l : List α) (x : α) (xs : List α)
    (h : l.dropWhile p = x :: xs) : p x = false := by
  induction l with
  | nil => simp at h
  | cons a rest ih =>
    rw [List.dropWhile_cons] at h
    cases hp : p a with
    | true =>
      rw [hp] at h
      exact ih h
    | false =>
      rw [hp] at h
      simp only [Bool.false_eq_true, if_false, List.cons.injEq] at h
      rw [← h.1]
      exact hp

/-- The join of a fixed list of elements followed by clean elements is a
fixed lead and the fixed components followed by the clean elements. -/
theorem Join_prefix_clean (pre : List String) :
    ∃ (lead : List Char) (Y : List (List Char)), (∀ y ∈ Y, '/' ∉ y) ∧
      ∀ parts : List String, parts ≠ [] → (∀ c ∈ parts, isElem c = true) →
        (Join (pre ++ parts)).data = lead ++ joinData ['/'] (Y ++ parts.map String.data) := by
  cases hL : pre.dropWhile (fun e => decide (e = "")) with
  | nil =>
    refine ⟨[], [], by simp, ?_⟩
    intro parts hne hall
    rw [Join_drop_empty, hL, List.nil_append, Join_elems parts hall hne]
    rfl
  | cons x xs =>
    have hx : x ≠ "" := by
      have := dropWhile_head_not _ pre x xs hL
      simpa using this
    have hxd : x.data ≠ [] := fun h => hx (String.ext h)
    refine ⟨if x.data.head? = some '/' then ['/'] else [],
      ((splitSlash (joinData ['/'] ((x :: xs).map String.data))).foldl
        (cleanStep (decide (x.data.head? = some '/'))) []).reverse, ?_, ?_⟩
    · intro y hy
      rw [List.mem_reverse] at hy
      refine foldl_cleanStep_no_slash _ _ [] (by simp) ?_ y hy
      intro c hc
      exact splitOnChar_no_sep '/' _ c hc
    · intro parts hne hall
      have hB : parts.map String.data ≠ [] := fun h => hne (List.map_eq_nil_iff.mp h)
      have hdata : (Bcpfs.Join (x :: (xs ++ parts)) "/").data =
          joinData ['/'] ((x :: xs).map String.data) ++ '/' ::
            joinData ['/'] (parts.map String.data) := by
        rw [Join_data]
        have e : (x :: (xs ++ parts)).map String.data =
            (x :: xs).map String.data ++ parts.map String.data := by simp
        have e2 : ("/" : String).data = ['/'] := rfl
        rw [e, e2, joinData_append ['/'] _ _ (by simp) hB]
        simp
      have hhead : (Bcpfs.Join (x :: (xs ++ parts)) "/").data.head? = x.data.head? := by
        rw [hdata, List.map_cons, joinData_cons]
        cases hd : x.data with
        | nil => exact absurd hd hxd
        | cons c cs => rfl
      have hne0 : (Bcpfs.Join (x :: (xs ++ parts)) "/").data ≠ [] := by
        intro h
        rw [h] at hhead
        cases hd : x.data with
        | nil => exact absurd hd hxd
        | cons c cs => rw [hd] at hhead; cases hhead
      have hsplit : splitSlash (Bcpfs.Join (x :: (xs ++ parts)) "/").data =
          splitSlash (joinData ['/'] ((x :: xs).map String.data)) ++
            parts.map String.data := by
        rw [hdata]
        unfold splitSlash
        rw [splitOnChar_append, splitOnChar_joinData '/' _ hB]
        intro l hl
        obtain ⟨e, he, rfl⟩ := List.mem_map.mp hl
        exact ((isElem_iff e).mp (hall e he)).2.1
      have hfold : (splitSlash (Bcpfs.Join (x :: (xs ++ parts)) "/").data).foldl
          (cleanStep (decide (x.data.head? = some '/'))) [] =
          (parts.map String.data).reverse ++
            (splitSlash (joinData ['/'] ((x :: xs).map String.data))).foldl
              (cleanStep (decide (x.data.head? = some '/'))) [] := by
        rw [hsplit, List.foldl_append, foldl_cleanStep_elems _ parts hall]
      rw [Join_drop_empty, hL, List.cons_append, Join_cons_ne x _ hx,
        Clean_data_nonempty _ hne0]
      · rw [hhead, hfold, List.reverse_append, List.reverse_reverse]
      · rw [hhead, hfold]
        intro h
        exact hB (List.reverse_eq_nil_iff.mp (List.append_eq_nil.mp h).1)

theorem Join_prefix_inj (pre a b : List String) (ha : a ≠ []) (hb : b ≠ [])
    (hac : ∀ c ∈ a, isElem c = true) (hbc : ∀ c ∈ b, isElem c = true)
    (h : Join (pre ++ a) = Join (pre ++ b)) : a = b := by
  obtain ⟨lead, Y, hY, hform⟩ := Join_prefix_clean pre
  have h1 := hform a ha hac
  have h2 := hform b hb hbc
  rw [h, h2] at h1
  have h3 := List.append_cancel_left h1
  have hns : ∀ (l : List String), (∀ c ∈ l, isElem c = true) →
      ∀ y ∈ Y ++ l.map String.data, '/' ∉ y := by
    intro l hl y hy
    rcases List.mem_append.mp hy with hy | hy
    · exact hY y hy
    · obtain ⟨e, he, rfl⟩ := List.mem_map.mp hy
      exact ((isElem_iff e).mp (hl e he)).2.1
  have h4 := congrArg (splitOnChar '/') h3
  rw [splitOnChar_joinData '/' _ (by
      intro hn
      exact ha (List.map_eq_nil_iff.mp (List.append_eq_nil.mp hn).2)) (hns a hac),
    splitOnChar_joinData '/' _ (by
      intro hn
      exact hb (List.map_eq_nil_iff.mp (List.append_eq_nil.mp hn).2)) (hns b hbc)] at h4
  have h5 := List.append_cancel_left h4
  have hinj : Function.Injective String.data := fun s t hst => String.ext hst
  exact ((List.map_injective_iff.mpr hinj) h5).symm

end filepath

/-! ### Shared trees -/

namespace bcpsharing

theorem lastWrite_append (ws : List (String × String × String)) (w : String × String × String)
    (ou p : String) :
    lastWrite (ws ++ [w]) ou p =
      if w.1 = ou ∧ w.2.1 = p then some w.2.2 else lastWrite ws ou p := by
  unfold lastWrite
  rw [List.foldl_append]
  rfl

theorem TreesInv_nil : TreesInv [] [] := by
  refine ⟨?_, ?_⟩
  · intro ou
    simp [GoMap.get]
  · intro ou p
    rfl

theorem TreesInv_write (ws : List (String × String × String))
    (m m' : GoMap String (GoMap String String)) (ou p t : String) (h : TreesInv ws m)
    (hget : ∀ ou', GoMap.get m' ou' =
      if ou = ou' then some (((GoMap.get m ou).getD []).set p t) else GoMap.get m ou') :
    TreesInv (ws ++ [(ou, p, t)]) m' := by
  obtain ⟨h1, h2⟩ := h
  refine ⟨?_, ?_⟩
  · intro ou'
    rw [hget ou']
    by_cases hou : ou = ou'
    · rw [if_pos hou]
      simp only [Option.isSome_some, true_iff]
      exact ⟨(ou, p, t), List.mem_append_right _ (List.mem_singleton_self _), hou⟩
    · rw [if_neg hou, h1 ou']
      constructor
      · rintro ⟨w, hw, hwo⟩
        exact ⟨w, List.mem_append_left _ hw, hwo⟩
      · rintro ⟨w, hw, hwo⟩
        rcases List.mem_append.mp hw with hw | hw
        · exact ⟨w, hw, hwo⟩
        · rw [List.mem_singleton] at hw
          subst hw
          exact absurd hwo hou
  · intro ou' p'
    rw [hget ou', lastWrite_append]
    by_cases hou : ou = ou'
    · subst hou
      rw [if_pos rfl]
      simp only [Option.some_bind, true_and]
      rw [GoMap_get_set_key]
      by_cases hp : p = p'
      · rw [if_pos hp, if_pos hp]
      · rw [if_neg hp, if_neg hp, ← h2 ou p']
        cases GoMap.get m ou with
        | none => rfl
        | some tr => rfl
    · rw [if_neg hou, if_neg (fun hc => hou hc.1)]
      exact h2 ou' p'

theorem addDir_get (fs : Bcpfs) (m : GoMap String (GoMap String String)) (ou : String)
    (parts : List String) (ou' : String) :
    GoMap.get (compileShareTrees_addDir fs m ou parts) ou' =
      if ou = ou' then
        some (((GoMap.get m ou).getD []).set (compileShareTrees_realpath fs ou parts) "")
      else GoMap.get m ou' := by
  unfold compileShareTrees_addDir compileShareTrees_getTree
  cases h : GoMap.get m ou with
  | none =>
    simp only [GoMap_get_set_key, Option.getD_none]
    by_cases hou : ou = ou'
    · simp only [if_pos hou]
    · simp only [if_neg hou]
  | some tr => simp only [GoMap_get_set_key, Option.getD_some]

theorem addLink_get (fs : Bcpfs) (m : GoMap String (GoMap String String)) (ou : String)
    (parts : List String) (ou' : String) :
    GoMap.get (compileShareTrees_addLink fs m ou parts) ou' =
      if ou = ou' then
        some (((GoMap.get m ou).getD []).set (compileShareTrees_realpath fs ou parts)
          (slashpath.Join (List.replicate (parts.length + 1) ".." ++ parts)))
      else GoMap.get m ou' := by
  unfold compileShareTrees_addLink compileShareTrees_getTree
  cases h : GoMap.get m ou with
  | none =>
    simp only [GoMap_get_set_key, Option.getD_none]
    by_cases hou : ou = ou'
    · simp only [if_pos hou]
    · simp only [if_neg hou]
  | some tr => simp only [GoMap_get_set_key, Option.getD_some]

theorem addDirs_inv (fs : Bcpfs) (ou : String) (parts : List String) (is : List Nat)
    (ws : List (String × String × String)) (m : GoMap String (GoMap String String))
    (h : TreesInv ws m) :
    TreesInv
      (ws ++ is.map (fun i => (ou, compileShareTrees_realpath fs ou (parts.take i), "")))
      (is.foldl (fun m i => compileShareTrees_addDir fs m ou (parts.take i)) m) := by
  induction is generalizing ws m with
  | nil => simpa using h
  | cons i rest ih =>
    rw [List.foldl_cons, List.map_cons, List.append_cons]
    exact ih _ _ (TreesInv_write ws m _ ou _ "" h (addDir_get fs m ou (parts.take i)))

theorem addShare_inv (fs : Bcpfs) (ou path : String) (ws : List (String × String × String))
    (m : GoMap String (GoMap String String)) (h : TreesInv ws m) :
    TreesInv (ws ++ shareWritesOf fs ou path) (compileShareTrees_addShare fs m ou path) := by
  unfold compileShareTrees_addShare shareWritesOf
  rw [← List.append_assoc]
  exact TreesInv_write _ _ _ ou _ _ (addDirs_inv fs ou _ _ ws m h) (addLink_get fs _ ou _)

theorem selfShares_inv (fs : Bcpfs) (shares : List ExportEntry)
    (ws : List (String × String × String)) (m : GoMap String (GoMap String String))
    (h : TreesInv ws m) :
    TreesInv
      (ws ++ shares.flatMap
        (fun s => shareWritesOf fs ((strings.Split s.Path '/').getD 0 "") s.Path))
      (shares.foldl
        (fun m shr =>
          compileShareTrees_addShare fs m ((strings.Split shr.Path '/').getD 0 "") shr.Path)
        m) := by
  induction shares generalizing ws m with
  | nil => simpa using h
  | cons s rest ih =>
    rw [List.foldl_cons, List.flatMap_cons, ← List.append_assoc]
    exact ih _ _ (addShare_inv fs _ s.Path ws m h)

theorem groupShares_inv (fs : Bcpfs) (path : String) (gs : List String)
    (ws : List (String × String × String)) (m : GoMap String (GoMap String String))
    (h : TreesInv ws m) :
    TreesInv (ws ++ gs.flatMap (fun ou => shareWritesOf fs ou path))
      (gs.foldl (fun m ou => compileShareTrees_addShare fs m ou path) m) := by
  induction gs generalizing ws m with
  | nil => simpa using h
  | cons g rest ih =>
    rw [List.foldl_cons, List.flatMap_cons, ← List.append_assoc]
    exact ih _ _ (addShare_inv fs g path ws m h)

theorem otherShares_inv (fs : Bcpfs) (shares : List ExportEntry)
    (ws : List (String × String × String)) (m : GoMap String (GoMap String String))
    (h : TreesInv ws m) :
    TreesInv
      (ws ++ shares.flatMap
        (fun s => (Acl.Groups s.Acl).flatMap (fun ou => shareWritesOf fs ou s.Path)))
      (shares.foldl
        (fun m shr =>
          (Acl.Groups shr.Acl).foldl
            (fun m ou => compileShareTrees_addShare fs m ou shr.Path) m)
        m) := by
  induction shares generalizing ws m with
  | nil => simpa using h
  | cons s rest ih =>
    rw [List.foldl_cons, List.flatMap_cons, ← List.append_assoc]
    exact ih _ _ (groupShares_inv fs s.Path _ ws m h)

theorem treesM_inv (fs : Bcpfs) (shares : List ExportEntry) :
    TreesInv (shareWrites fs shares) (compileShareTrees_treesM fs shares) := by
  unfold shareWrites compileShareTrees_treesM
  have h1 := selfShares_inv fs shares [] [] TreesInv_nil
  rw [List.nil_append] at h1
  exact otherShares_inv fs shares _ _ h1

end bcpsharing

theorem GoMap_mem_entries {K V : Type} [DecidableEq K] (m : GoMap K V) (k : K) (v : V) :
    (k, v) ∈ m.entries ↔ GoMap.get m k = some v := by
  unfold GoMap.entries
  rw [List.mem_filterMap]
  constructor
  · rintro ⟨a, -, ha⟩
    cases hg : GoMap.get m a with
    | none => rw [hg] at ha; cases ha
    | some x =>
      rw [hg] at ha
      simp only [Option.map_some', Option.some.injEq, Prod.mk.injEq] at ha
      rw [← ha.1, ← ha.2]
      exact hg
  · intro h
    refine ⟨k, (GoMap_mem_keys m k).mpr (by rw [h]; rfl), ?_⟩
    rw [h]
    rfl

theorem GoMap_entries_keys_nodup {K V : Type} [DecidableEq K] (m : GoMap K V) :
    (m.entries.map Prod.fst).Nodup := by
  unfold GoMap.entries
  rw [List.map_filterMap]
  apply List.Nodup.filterMap _ (GoMap_keys_nodup m)
  intro a a' b hb hb'
  have e : ∀ x : K, b ∈ Option.map Prod.fst
      (Option.map (fun v => (x, v)) (GoMap.get m x)) → b = x := by
    intro x hx
    cases hg : GoMap.get m x with
    | none => rw [hg] at hx; cases hx
    | some v =>
      rw [hg] at hx
      simp only [Option.map_some', Option.mem_def, Option.some.injEq] at hx
      exact hx.symm
  rw [← e a hb, ← e a' hb']

namespace bcpsharing

theorem lastWrite_eq_some_iff (ws : List (String × String × String))
    (hcons : ∀ w ∈ ws, ∀ w' ∈ ws, w.1 = w'.1 → w.2.1 = w'.2.1 → w.2.2 = w'.2.2)
    (ou p t : String) : lastWrite ws ou p = some t ↔ (ou, p, t) ∈ ws := by
  induction ws using List.reverseRecOn with
  | nil => simp [lastWrite]
  | append_singleton l w ih =>
    have hl : ∀ x ∈ l, ∀ x' ∈ l, x.1 = x'.1 → x.2.1 = x'.2.1 → x.2.2 = x'.2.2 :=
      fun x hx x' hx' => hcons x (List.mem_append_left _ hx) x' (List.mem_append_left _ hx')
    have hw : w ∈ l ++ [w] := List.mem_append_right _ (List.mem_singleton_self _)
    rw [lastWrite_append, List.mem_append, List.mem_singleton]
    by_cases hm : w.1 = ou ∧ w.2.1 = p
    · rw [if_pos hm]
      obtain ⟨h1, h2⟩ := hm
      constructor
      · intro h
        injection h with h
        right
        rw [← h1, ← h2, ← h]
      · rintro (h | h)
        · have := hcons (ou, p, t) (List.mem_append_left _ h) w hw h1.symm h2.symm
          simp only at this
          rw [this]
        · rw [← h]
    · rw [if_neg hm, ih hl]
      constructor
      · exact Or.inl
      · rintro (h | h)
        · exact h
        · exfalso
          apply hm
          rw [← h]
          exact ⟨rfl, rfl⟩

theorem mem_shareWritesOf (fs : Bcpfs) (ou path : String) (w : String × String × String) :
    w ∈ shareWritesOf fs ou path ↔
      (∃ i, 1 ≤ i ∧ i < (strings.Split path '/').length ∧
        w = (ou, compileShareTrees_realpath fs ou ((strings.Split path '/').take i), "")) ∨
      w = (ou, compileShareTrees_realpath fs ou (strings.Split path '/'),
        slashpath.Join
          (List.replicate ((strings.Split path '/').length + 1) ".." ++
            strings.Split path '/')) := by
  unfold shareWritesOf
  rw [List.mem_append, List.mem_singleton, List.mem_map]
  constructor
  · rintro (⟨i, hi, rfl⟩ | h)
    · rw [List.mem_range'_1] at hi
      exact Or.inl ⟨i, hi.1, by omega, rfl⟩
    · exact Or.inr h
  · rintro (⟨i, h1, h2, rfl⟩ | h)
    · refine Or.inl ⟨i, ?_, rfl⟩
      rw [List.mem_range'_1]
      omega
    · exact Or.inr h

theorem shareWritesOf_ou (fs : Bcpfs) (ou path : String) (w : String × String × String)
    (h : w ∈ shareWritesOf fs ou path) : w.1 = ou := by
  rcases (mem_shareWritesOf fs ou path w).mp h with ⟨i, -, -, rfl⟩ | rfl <;> rfl

theorem mem_shareWrites (fs : Bcpfs) (shares : List ExportEntry)
    (w : String × String × String) :
    w ∈ shareWrites fs shares ↔
      ∃ s ∈ shares,
        ((strings.Split s.Path '/').getD 0 "" = w.1 ∨ w.1 ∈ s.Acl.map (fun x => x.Group)) ∧
        w ∈ shareWritesOf fs w.1 s.Path := by
  unfold shareWrites
  rw [List.mem_append, List.mem_flatMap, List.mem_flatMap]
  constructor
  · rintro (⟨s, hs, hw⟩ | ⟨s, hs, hw⟩)
    · have := shareWritesOf_ou fs _ _ w hw
      exact ⟨s, hs, Or.inl this.symm, by rw [this]; exact hw⟩
    · obtain ⟨g, hg, hw⟩ := List.mem_flatMap.mp hw
      have := shareWritesOf_ou fs _ _ w hw
      exact ⟨s, hs, Or.inr (by rw [this]; exact hg), by rw [this]; exact hw⟩
  · rintro ⟨s, hs, h | h, hw⟩
    · exact Or.inl ⟨s, hs, by rw [h]; exact hw⟩
    · exact Or.inr ⟨s, hs, List.mem_flatMap.mpr ⟨w.1, h, hw⟩⟩

theorem realpath_inj (fs : Bcpfs) (ou : String) (a b : List String) (ha : a ≠ [])
    (hb : b ≠ []) (hac : ∀ c ∈ a, filepath.isElem c = true)
    (hbc : ∀ c ∈ b, filepath.isElem c = true)
    (h : compileShareTrees_realpath fs ou a = compileShareTrees_realpath fs ou b) : a = b :=
  filepath.Join_prefix_inj [fs.OrgUnitDir, ou, "shared"] a b ha hb hac hbc h

theorem shareWrites_consistent (fs : Bcpfs) (shares : List ExportEntry)
    (hclean : ∀ s ∈ shares, cleanComponents s.Path = true)
    (hnn : ∀ a ∈ shares, ∀ b ∈ shares,
      properPrefix (strings.Split a.Path '/') (strings.Split b.Path '/') = false) :
    ∀ w ∈ shareWrites fs shares, ∀ w' ∈ shareWrites fs shares,
      w.1 = w'.1 → w.2.1 = w'.2.1 → w.2.2 = w'.2.2 := by
  have key : ∀ s ∈ shares, ∀ s' ∈ shares, ∀ ou i, 1 ≤ i →
      i < (strings.Split s.Path '/').length →
      compileShareTrees_realpath fs ou ((strings.Split s.Path '/').take i) =
        compileShareTrees_realpath fs ou (strings.Split s'.Path '/') → False := by
    intro s hs s' hs' ou i h1 h2 heq
    have hall : ∀ c ∈ strings.Split s.Path '/', filepath.isElem c = true :=
      List.all_eq_true.mp (hclean s hs)
    have hall' : ∀ c ∈ strings.Split s'.Path '/', filepath.isElem c = true :=
      List.all_eq_true.mp (hclean s' hs')
    obtain ⟨htne, htall⟩ := take_clean _ hall i h1 (Split_ne_nil _ _)
    have := realpath_inj fs ou _ _ htne (Split_ne_nil _ _) htall hall' heq
    have hpp := properPrefix_take (strings.Split s.Path '/') i h2
    rw [this, hnn s' hs' s hs] at hpp
    cases hpp
  intro w hw w' hw' hou hp
  obtain ⟨s, hs, -, hws⟩ := (mem_shareWrites fs shares w).mp hw
  obtain ⟨s', hs', -, hws'⟩ := (mem_shareWrites fs shares w').mp hw'
  have hall : ∀ c ∈ strings.Split s.Path '/', filepath.isElem c = true :=
    List.all_eq_true.mp (hclean s hs)
  have hall' : ∀ c ∈ strings.Split s'.Path '/', filepath.isElem c = true :=
    List.all_eq_true.mp (hclean s' hs')
  rcases (mem_shareWritesOf fs _ _ w).mp hws with ⟨i, h1, h2, hw1⟩ | hw1 <;>
    rcases (mem_shareWritesOf fs _ _ w').mp hws' with ⟨i', h1', h2', hw2⟩ | hw2
  · rw [hw1, hw2]
  · exfalso
    apply key s hs s' hs' w.1 i h1 h2
    have e1 : w.2.1 = compileShareTrees_realpath fs w.1 ((strings.Split s.Path '/').take i) := by
      conv => lhs; rw [hw1]
    have e2 : w'.2.1 = compileShareTrees_realpath fs w'.1 (strings.Split s'.Path '/') := by
      conv => lhs; rw [hw2]
    rw [← e1, hp, e2, hou]
  · exfalso
    apply key s' hs' s hs w.1 i' h1' h2'
    have e1 : w.2.1 = compileShareTrees_realpath fs w.1 (strings.Split s.Path '/') := by
      conv => lhs; rw [hw1]
    have e2 : w'.2.1 =
        compileShareTrees_realpath fs w'.1 ((strings.Split s'.Path '/').take i') := by
      conv => lhs; rw [hw2]
    rw [← e1, hp, e2, hou]
  · have e1 : w.2.1 = compileShareTrees_realpath fs w.1 (strings.Split s.Path '/') := by
      conv => lhs; rw [hw1]
    have e2 : w'.2.1 = compileShareTrees_realpath fs w'.1 (strings.Split s'.Path '/') := by
      conv => lhs; rw [hw2]
    have hparts : strings.Split s.Path '/' = strings.Split s'.Path '/' := by
      apply realpath_inj fs w.1 _ _ (Split_ne_nil _ _) (Split_ne_nil _ _) hall hall'
      rw [← e1, hp, e2, hou]
    have t1 : w.2.2 = slashpath.Join
        (List.replicate ((strings.Split s.Path '/').length + 1) ".." ++
          strings.Split s.Path '/') := by
      conv => lhs; rw [hw1]
    have t2 : w'.2.2 = slashpath.Join
        (List.replicate ((strings.Split s'.Path '/').length + 1) ".." ++
          strings.Split s'.Path '/') := by
      conv => lhs; rw [hw2]
    rw [t1, t2, hparts]

end bcpsharing

namespace filepath

theorem joinElems_cons (x : String) (l : List String) (hl : l ≠ []) :
    joinElems (x :: l) = x ++ "/" ++ joinElems l := by
  cases l with
  | nil => exact absurd rfl hl
  | cons y ys =>
    apply String.ext
    simp [joinElems, joinData, String.data_append]

theorem joinElems_dotdots (k : Nat) (l : List String) (hl : l ≠ []) :
    joinElems (List.replicate k ".." ++ l) = bcpsharing.dotdotSlash k ++ joinElems l := by
  induction k with
  | zero =>
    apply String.ext
    simp [bcpsharing.dotdotSlash]
  | succ k ih =>
    rw [List.replicate_succ, List.cons_append, joinElems_cons _ _ (by simp [hl]), ih]
    apply String.ext
    simp [bcpsharing.dotdotSlash, String.data_append]

end filepath

namespace bcpsharing

theorem link_target_eq (p : String) (hclean : cleanComponents p = true) :
    slashpath.Join
        (List.replicate ((strings.Split p '/').length + 1) ".." ++ strings.Split p '/') =
      dotdotSlash ((strings.Split p '/').length + 1) ++ p := by
  have hall : ∀ c ∈ strings.Split p '/', filepath.isElem c = true :=
    List.all_eq_true.mp hclean
  have h1 : slashpath.Join
      (List.replicate ((strings.Split p '/').length + 1) ".." ++ strings.Split p '/') =
      filepath.joinElems
        (List.replicate ((strings.Split p '/').length + 1) ".." ++ strings.Split p '/') :=
    filepath.Join_dotdots_elems _ _ hall (by simp [List.replicate_succ])
  rw [h1, filepath.joinElems_dotdots _ _ (Split_ne_nil _ _), filepath.joinElems_Split]

theorem mem_compileShareTrees (fs : Bcpfs) (shares : List ExportEntry) (t : ShareTree) :
    t ∈ compileShareTrees fs shares ↔
      ∃ tr, GoMap.get (compileShareTrees_treesM fs shares) t.OrgUnit = some tr ∧
        t.Files = compileShareTrees_files tr.entries := by
  unfold compileShareTrees
  rw [(sortByKey_perm _ _).mem_iff, List.mem_map]
  constructor
  · rintro ⟨⟨ou, tr⟩, he, rfl⟩
    exact ⟨tr, (GoMap_mem_entries _ ou tr).mp he, rfl⟩
  · rintro ⟨tr, hg, hf⟩
    refine ⟨(t.OrgUnit, tr), (GoMap_mem_entries _ _ tr).mpr hg, ?_⟩
    cases t
    simp only at hf
    simp only [hf]

theorem mem_compileShareTrees_files (tr : GoMap String String) (f : ShareFile) :
    f ∈ compileShareTrees_files tr.entries ↔ GoMap.get tr f.Path = some f.Target := by
  unfold compileShareTrees_files
  rw [(sortByKey_perm _ _).mem_iff, List.mem_map, ← GoMap_mem_entries]
  constructor
  · rintro ⟨⟨p, t⟩, he, rfl⟩
    exact he
  · intro h
    exact ⟨(f.Path, f.Target), h, rfl⟩

theorem compileShareTrees_files_strict (range : List (String × String))
    (hnd : (range.map Prod.fst).Nodup) :
    (compileShareTrees_files range).Pairwise
      (fun a b => stringLess a.Path b.Path = true) := by
  unfold compileShareTrees_files
  apply sortByKey_strict
  rw [List.map_map]
  exact hnd

theorem compileShareTrees_files_perm (range₁ range₂ : List (String × String))
    (hp : range₁.Perm range₂) (hnd : (range₂.map Prod.fst).Nodup) :
    compileShareTrees_files range₁ = compileShareTrees_files range₂ := by
  unfold compileShareTrees_files
  apply sortByKey_eq_of_perm _ _ _ (hp.map _)
  rw [List.map_map]
  exact hnd

theorem shareWritesOf_has_ou (fs : Bcpfs) (ou path : String) :
    ∃ w ∈ shareWritesOf fs ou path, w.1 = ou :=
  ⟨_, (mem_shareWritesOf fs ou path _).mpr (Or.inr rfl), rfl⟩

theorem treesM_get_isSome (fs : Bcpfs) (shares : List ExportEntry) (ou : String) :
    (GoMap.get (compileShareTrees_treesM fs shares) ou).isSome = true ↔
      ∃ s ∈ shares,
        (strings.Split s.Path '/').getD 0 "" = ou ∨ ou ∈ s.Acl.map (fun x => x.Group) := by
  rw [(treesM_inv fs shares).1 ou]
  constructor
  · rintro ⟨w, hw, rfl⟩
    obtain ⟨s, hs, h, -⟩ := (mem_shareWrites fs shares w).mp hw
    exact ⟨s, hs, h⟩
  · rintro ⟨s, hs, h⟩
    obtain ⟨w, hw, hwo⟩ := shareWritesOf_has_ou fs ou s.Path
    refine ⟨w, (mem_shareWrites fs shares w).mpr ⟨s, hs, ?_, ?_⟩, hwo⟩
    · rw [hwo]
      exact h
    · rw [hwo]
      exact hw

end bcpsharing

/-- C28 (as stated, refuted): for the single share `a/b/.` the directory of
the components `a`, `b` and the symlink of the share have the same path
`org/a/shared/a/b`; `compileShareTrees` returns the directory `org/a/shared/a`
and the symlink `org/a/shared/a/b` only, so the directory `org/a/shared/a/b`
with an empty target is not among the files. -/
theorem compileShareTrees_dot_component :
    bcpsharing.compileShareTrees (bcpsharing.NewBcpfs S1.cfg) Examples.sharesDot =
      [⟨"a", [⟨"org/a/shared/a", ""⟩, ⟨"org/a/shared/a/b", "../../../../a/b"⟩]⟩] ∧
    strings.Split "a/b/." '/' = ["a", "b", "."] ∧
    bcpsharing.compileShareTrees_realpath (bcpsharing.NewBcpfs S1.cfg) "a"
      ((strings.Split "a/b/." '/').take 2) = "org/a/shared/a/b" ∧
    (∀ t ∈ bcpsharing.compileShareTrees (bcpsharing.NewBcpfs S1.cfg) Examples.sharesDot,
      (⟨"org/a/shared/a/b", ""⟩ : bcpsharing.ShareFile) ∉ t.Files) ∧
    bcpsharing.cleanComponents "a/b/." = false :=
  ⟨rfl, rfl, rfl, by decide, rfl⟩

/-- C28 (amended): for every list of shares whose paths consist of non-empty
components other than `.` and `..` and of which no path is a proper
component-wise prefix of another, `compileShareTrees` returns one tree per org
unit that is the first path component of a share or a grantee group of a
share, strictly ascending by org unit; the files of the tree of `ou` are
strictly ascending by path and are exactly: for every share with components
`c1 ... cn` of which `ou` is the first component or a grantee, the directories
`realpath(ou, c1 ... ci)` for `1 <= i < n` with an empty target and the symlink
`realpath(ou, c1 ... cn)` whose target is `n + 1` repetitions of `../`
followed by the path of the share, where `realpath(ou, parts)` is the join of
the org unit dir, `ou`, `shared` and `parts`, which is
`<org_unit_dir>/<ou>/shared/c1/.../ci` when the org unit dir and `ou` are
clean elements. The result is the same for every order in which the two maps
are iterated. -/
theorem compileShareTrees_spec (fs : bcpsharing.Bcpfs) (shares : List bcpsharing.ExportEntry)
    (hclean : ∀ s ∈ shares, bcpsharing.cleanComponents s.Path = true)
    (hnn : ∀ a ∈ shares, ∀ b ∈ shares,
      bcpsharing.properPrefix (strings.Split a.Path '/') (strings.Split b.Path '/') = false) :
    (bcpsharing.compileShareTrees fs shares).Pairwise
      (fun a b => stringLess a.OrgUnit b.OrgUnit = true) ∧
    (∀ ou, ou ∈ (bcpsharing.compileShareTrees fs shares).map (fun t => t.OrgUnit) ↔
      ∃ s ∈ shares,
        (strings.Split s.Path '/').getD 0 "" = ou ∨ ou ∈ s.Acl.map (fun x => x.Group)) ∧
    (∀ t ∈ bcpsharing.compileShareTrees fs shares,
      t.Files.Pairwise (fun a b => stringLess a.Path b.Path = true) ∧
      (t.Files.map (fun f => f.Path)).Nodup ∧
      ∀ f, f ∈ t.Files ↔
        ∃ s ∈ shares,
          ((strings.Split s.Path '/').getD 0 "" = t.OrgUnit ∨
            t.OrgUnit ∈ s.Acl.map (fun x => x.Group)) ∧
          ((∃ i, 1 ≤ i ∧ i < (strings.Split s.Path '/').length ∧
              f = ⟨bcpsharing.compileShareTrees_realpath fs t.OrgUnit
                ((strings.Split s.Path '/').take i), ""⟩) ∨
            f = ⟨bcpsharing.compileShareTrees_realpath fs t.OrgUnit
                (strings.Split s.Path '/'),
              bcpsharing.dotdotSlash ((strings.Split s.Path '/').length + 1) ++ s.Path⟩)) ∧
    (∀ (ou : String) (parts : List String), filepath.isElem fs.OrgUnitDir = true →
      filepath.isElem ou = true → (∀ c ∈ parts, filepath.isElem c = true) →
      bcpsharing.compileShareTrees_realpath fs ou parts =
        filepath.joinElems ([fs.OrgUnitDir, ou, "shared"] ++ parts)) ∧
    (∀ (range : List (String × GoMap String String))
      (inner : GoMap String String → List (String × String)),
      range.Perm (bcpsharing.compileShareTrees_treesM fs shares).entries →
      (∀ tr, (inner tr).Perm tr.entries) →
      sortByKey (fun t : bcpsharing.ShareTree => t.OrgUnit)
          (range.map
            (fun e => { OrgUnit := e.1, Files := bcpsharing.compileShareTrees_files (inner e.2) })) =
        bcpsharing.compileShareTrees fs shares) := by
  refine ⟨?_, ?_, ?_, ?_, ?_⟩
  · unfold bcpsharing.compileShareTrees
    apply sortByKey_strict
    rw [List.map_map]
    exact GoMap_entries_keys_nodup _
  · intro ou
    rw [← bcpsharing.treesM_get_isSome, List.mem_map]
    constructor
    · rintro ⟨t, ht, rfl⟩
      obtain ⟨tr, hg, -⟩ := (bcpsharing.mem_compileShareTrees fs shares t).mp ht
      rw [hg]
      rfl
    · intro h
      cases hg : GoMap.get (bcpsharing.compileShareTrees_treesM fs shares) ou with
      | none => rw [hg] at h; cases h
      | some tr =>
        exact ⟨⟨ou, bcpsharing.compileShareTrees_files tr.entries⟩,
          (bcpsharing.mem_compileShareTrees fs shares _).mpr ⟨tr, hg, rfl⟩, rfl⟩
  · intro t ht
    obtain ⟨tr, hg, hf⟩ := (bcpsharing.mem_compileShareTrees fs shares t).mp ht
    have hstrict := bcpsharing.compileShareTrees_files_strict tr.entries
      (GoMap_entries_keys_nodup tr)
    rw [← hf] at hstrict
    refine ⟨hstrict, ?_, ?_⟩
    · rw [List.Nodup, List.pairwise_map]
      apply hstrict.imp
      intro a b hab heq
      rw [heq, stringLess_iff_lt] at hab
      exact lt_irrefl _ hab
    · intro f
      have hcons := bcpsharing.shareWrites_consistent fs shares hclean hnn
      have hlook := (bcpsharing.treesM_inv fs shares).2 t.OrgUnit f.Path
      rw [hg] at hlook
      simp only [Option.some_bind] at hlook
      rw [hf, bcpsharing.mem_compileShareTrees_files, hlook,
        bcpsharing.lastWrite_eq_some_iff _ hcons, bcpsharing.mem_shareWrites]
      constructor
      · rintro ⟨s, hs, hou, hw⟩
        refine ⟨s, hs, hou, ?_⟩
        rcases (bcpsharing.mem_shareWritesOf fs _ _ _).mp hw with ⟨i, h1, h2, he⟩ | he
        · left
          refine ⟨i, h1, h2, ?_⟩
          simp only [Prod.mk.injEq, true_and] at he
          cases f
          simp only at he
          simp only [he.1, he.2]
        · right
          simp only [Prod.mk.injEq, true_and] at he
          rw [bcpsharing.link_target_eq _ (hclean s hs)] at he
          cases f
          simp only at he
          simp only [he.1, he.2]
      · rintro ⟨s, hs, hou, hw⟩
        refine ⟨s, hs, hou, (bcpsharing.mem_shareWritesOf fs _ _ _).mpr ?_⟩
        rcases hw with ⟨i, h1, h2, he⟩ | he
        · left
          refine ⟨i, h1, h2, ?_⟩
          rw [he]
        · right
          rw [he, bcpsharing.link_target_eq _ (hclean s hs)]
  · intro ou parts ho hu hp
    unfold bcpsharing.compileShareTrees_realpath
    apply filepath.Join_elems _ _ (by simp)
    intro c hc
    rcases List.mem_append.mp hc with hc | hc
    · simp only [List.mem_cons, List.mem_singleton, List.not_mem_nil, or_false] at hc
      rcases hc with rfl | rfl | rfl
      · exact ho
      · exact hu
      · decide
    · exact hp c hc
  · intro range inner hr hin
    unfold bcpsharing.compileShareTrees
    have hfun : (fun e : String × GoMap String String =>
        ({ OrgUnit := e.1, Files := bcpsharing.compileShareTrees_files (inner e.2) } :
          bcpsharing.ShareTree)) =
        (fun e => { OrgUnit := e.1, Files := bcpsharing.compileShareTrees_files e.2.entries }) := by
      funext e
      rw [bcpsharing.compileShareTrees_files_perm _ _ (hin e.2) (GoMap_entries_keys_nodup e.2)]
    rw [hfun]
    apply sortByKey_eq_of_perm _ _ _ (hr.map _)
    rw [List.map_map]
    exact GoMap_entries_keys_nodup _

theorem compileShareTrees_spec_witness :
    bcpsharing.compileShareTrees (bcpsharing.NewBcpfs S1.cfg) Examples.sharesS5 =
      Examples.shareTreesS5 ∧
    (∀ ou, ou ∈ (bcpsharing.compileShareTrees (bcpsharing.NewBcpfs S1.cfg)
        Examples.sharesS5).map (fun t => t.OrgUnit) ↔
      ∃ s ∈ Examples.sharesS5,
        (strings.Split s.Path '/').getD 0 "" = ou ∨ ou ∈ s.Acl.map (fun x => x.Group)) :=
  ⟨rfl,
    (compileShareTrees_spec (bcpsharing.NewBcpfs S1.cfg) Examples.sharesS5 (by decide)
      (by decide)).2.1⟩

/-- C40: the field `4294967296` does not fit in 32 bits, but
`uint32List.Set` accepts it and appends the uid 0: `strconv.Atoi` returns the
64-bit `int` 4294967296, which is not negative, and the conversion `uint32(i)`
keeps its low 32 bits. The authorizer built from the list then authorizes the
uid 0. A field that fits is stored as written, and a negative field is
rejected. -/
theorem uint32List_Set_wraps_large_uid :
    bcpsucd.uint32List.Set [] "4294967296" = ([0], none) ∧
    bcpsucd.uint32List.Set [] "1000,4294968296" = ([1000, 1000], none) ∧
    ucred.UidAuthorizer.AuthorizeInfo
      (ucred.NewUidAuthorizer (bcpsucd.uint32List.Set [] "4294967296").1) 0 = none ∧
    bcpsucd.uint32List.Set [] "4294967295" = ([4294967295], none) ∧
    bcpsucd.uint32List.Set [] "-1" = ([], some bcpsucd.SetError.negativeInt) ∧
    ucred.UidAuthorizer.AuthorizeInfo
      (ucred.NewUidAuthorizer (bcpsucd.uint32List.Set [] "1000").1) 0 =
        some "denied uid:0" := by
  refine ⟨by decide, by decide, by decide, by decide, by decide, by decide⟩

/-- C32: the sharing helper does not read the configured suffixes.  For the
configuration of scenario S1 with ops suffix `admins` and facility suffix
`core`, `Bcpfs.FsGroups` maps the ops-type group `em` to `sv_em-ops`, while
`bcp.GroupMap.FindServiceOpsGroup` looks up `sv_em-admins`; and
`Bcpfs.IsFacilityPath` takes `em-facility` for a facility directory and
`em-core` for none, while `bcp.parseFacilityNames` finds the facility `em` in
the group `og_em-core`. `NewBcpfs` returns the same helper for every pair of
suffixes. The ou-type mapping has no suffix and is as configured. -/
theorem Bcpfs_ignores_configured_suffixes :
    (bcpsharing.NewBcpfs Examples.cfgSuffixes).FsGroups
        [⟨bcpsharing.GroupType.GroupTypeOps, "em"⟩] = Result.ok ["sv_em-ops"] ∧
    bcp.GroupMap.FindServiceOpsGroup
        (bcp.NewGroupMap [⟨"sv_em-admins", 400⟩, ⟨"sv_em-ops", 401⟩] Examples.cfgSuffixes)
        S1.mic1 = some ⟨"sv_em-admins", 400⟩ ∧
    (bcpsharing.NewBcpfs Examples.cfgSuffixes).IsFacilityPath "em-core/mic1/alice" = false ∧
    (bcpsharing.NewBcpfs Examples.cfgSuffixes).IsFacilityPath "em-facility/mic1/alice" =
      true ∧
    bcp.parseFacilityNames [⟨"og_em-core", 200⟩] Examples.cfgSuffixes = ["em"] ∧
    (bcpsharing.NewBcpfs Examples.cfgSuffixes).FsGroups
        [⟨bcpsharing.GroupType.GroupTypeOu, "alice"⟩] = Result.ok ["og_alice"] ∧
    (∀ (cfg : bcpcfg.Root) (ops fac : String),
      bcpsharing.NewBcpfs { cfg with OpsSuffix := ops, FacilitySuffix := fac } =
        bcpsharing.NewBcpfs cfg) := by
  refine ⟨rfl, rfl, rfl, rfl, rfl, rfl, fun _ _ _ => rfl⟩

/-- C39: for the configured export path `/alice/mic1/foo`, `compileExports`
stores the path `alice/mic1/foo` and, as managing groups, those of the
configured path with its leading slash: the ou-type group with the empty
name. `ManagingGroupsOfPath` of the stored path gives the ou-type group
`alice` and the ops-type group `em`. With the stored groups,
`faclGroupsToRemove` removes the entries of `og_alice` and `sv_em-ops` from
the realpath; with the groups of the stored path it removes none. For the
configured path without the slash the two agree. -/
theorem compileExports_managing_groups_of_untrimmed_path :
    bcpsharing.compileExports (bcpsharing.NewBcpfs S1.cfg) [Examples.exportLeadingSlash] =
      Except.ok
        [⟨"alice/mic1/foo", [⟨"bob", "r-x"⟩], [⟨bcpsharing.GroupType.GroupTypeOu, ""⟩]⟩] ∧
    (bcpsharing.NewBcpfs S1.cfg).ManagingGroupsOfPath "alice/mic1/foo" =
      Except.ok
        [⟨bcpsharing.GroupType.GroupTypeOu, "alice"⟩,
          ⟨bcpsharing.GroupType.GroupTypeOps, "em"⟩] ∧
    (bcpsharing.NewBcpfs S1.cfg).FsGroups [⟨bcpsharing.GroupType.GroupTypeOu, ""⟩] =
      Result.ok ["og_"] ∧
    bcpsharingapply.faclGroupsToRemove Examples.faclAliceMic1
        (bcpsharing.Acl.AsFacl [⟨"bob", "r-x"⟩] (bcpsharing.NewBcpfs S1.cfg)) ["og_"] =
      ["og_alice", "sv_em-ops"] ∧
    bcpsharingapply.faclGroupsToRemove Examples.faclAliceMic1
        (bcpsharing.Acl.AsFacl [⟨"bob", "r-x"⟩] (bcpsharing.NewBcpfs S1.cfg))
        ["og_alice", "sv_em-ops"] = [] ∧
    bcpsharing.compileExports (bcpsharing.NewBcpfs S1.cfg)
        [⟨"alice/mic1/foo", ["group:bob:r-x"]⟩] =
      Except.ok
        [⟨"alice/mic1/foo", [⟨"bob", "r-x"⟩],
          [⟨bcpsharing.GroupType.GroupTypeOu, "alice"⟩,
            ⟨bcpsharing.GroupType.GroupTypeOps, "em"⟩]⟩] := by
  refine ⟨rfl, rfl, rfl, rfl, rfl, rfl⟩

/-! ### Regular expressions: the matcher accepts strings of the language only -/

namespace regexp

theorem Matches_of_nullable (r : Rgx) (h : r.nullable = true) : Rgx.Matches r [] := by
  induction r with
  | fail => simp [Rgx.nullable] at h
  | eps => exact Rgx.Matches.eps
  | cls p => simp [Rgx.nullable] at h
  | seq a b iha ihb =>
    simp only [Rgx.nullable, Bool.and_eq_true] at h
    exact Rgx.Matches.seq a b [] [] (iha h.1) (ihb h.2)
  | alt a b iha ihb =>
    simp only [Rgx.nullable, Bool.or_eq_true] at h
    rcases h with h | h
    · exact Rgx.Matches.altL a b [] (iha h)
    · exact Rgx.Matches.altR a b [] (ihb h)
  | star a _ => exact Rgx.Matches.starNil a

theorem Matches_seq_inv (a b : Rgx) (s : List Char) (h : Rgx.Matches (Rgx.seq a b) s) :
    ∃ s1 s2, s = s1 ++ s2 ∧ Rgx.Matches a s1 ∧ Rgx.Matches b s2 := by
  cases h with
  | seq _ _ s1 s2 ha hb => exact ⟨s1, s2, rfl, ha, hb⟩

theorem Matches_alt_inv (a b : Rgx) (s : List Char) (h : Rgx.Matches (Rgx.alt a b) s) :
    Rgx.Matches a s ∨ Rgx.Matches b s := by
  cases h with
  | altL _ _ _ ha => exact Or.inl ha
  | altR _ _ _ hb => exact Or.inr hb

theorem Matches_cls_inv (p : Char → Bool) (s : List Char) (h : Rgx.Matches (Rgx.cls p) s) :
    ∃ c, s = [c] ∧ p c = true := by
  cases h with
  | cls _ c hc => exact ⟨c, rfl, hc⟩

theorem Matches_eps_inv (s : List Char) (h : Rgx.Matches Rgx.eps s) : s = [] := by
  cases h
  rfl

theorem Matches_fail_inv (s : List Char) (h : Rgx.Matches Rgx.fail s) : False := by
  cases h

theorem Matches_of_deriv (r : Rgx) (c : Char) (s : List Char)
    (h : Rgx.Matches (r.deriv c) s) : Rgx.Matches r (c :: s) := by
  induction r generalizing s with
  | fail => exact absurd h (fun h => Matches_fail_inv s h)
  | eps => exact absurd h (fun h => Matches_fail_inv s h)
  | cls p =>
    unfold Rgx.deriv at h
    by_cases hp : p c = true
    · rw [if_pos hp] at h
      rw [Matches_eps_inv s h]
      exact Rgx.Matches.cls p c hp
    · rw [if_neg hp] at h
      exact absurd h (fun h => Matches_fail_inv s h)
  | seq a b iha ihb =>
    unfold Rgx.deriv at h
    by_cases hn : a.nullable = true
    · rw [if_pos hn] at h
      rcases Matches_alt_inv _ _ s h with h | h
      · obtain ⟨s1, s2, rfl, h1, h2⟩ := Matches_seq_inv _ _ s h
        exact Rgx.Matches.seq a b (c :: s1) s2 (iha s1 h1) h2
      · exact Rgx.Matches.seq a b [] (c :: s) (Matches_of_nullable a hn) (ihb s h)
    · rw [if_neg hn] at h
      obtain ⟨s1, s2, rfl, h1, h2⟩ := Matches_seq_inv _ _ s h
      exact Rgx.Matches.seq a b (c :: s1) s2 (iha s1 h1) h2
  | alt a b iha ihb =>
    unfold Rgx.deriv at h
    rcases Matches_alt_inv _ _ s h with h | h
    · exact Rgx.Matches.altL a b _ (iha s h)
    · exact Rgx.Matches.altR a b _ (ihb s h)
  | star a iha =>
    unfold Rgx.deriv at h
    obtain ⟨s1, s2, rfl, h1, h2⟩ := Matches_seq_inv _ _ s h
    exact Rgx.Matches.starCons a (c :: s1) s2 (iha s1 h1) h2

theorem Matches_of_foldl (s : List Char) (r : Rgx)
    (h : (s.foldl Rgx.deriv r).nullable = true) : Rgx.Matches r s := by
  induction s generalizing r with
  | nil => exact Matches_of_nullable r h
  | cons c cs ih => exact Matches_of_deriv r c cs (ih (r.deriv c) h)

theorem Matches_of_MatchString (r : Rgx) (s : String) (h : r.MatchString s = true) :
    Rgx.Matches r s.data :=
  Matches_of_foldl s.data r h

end regexp

namespace bcpsharing

theorem rgxGetfaclAce_shape (s : List Char) (h : regexp.Rgx.Matches rgxGetfaclAce s) :
    ∃ t a b c, s = t ++ [':', a, b, c] ∧ (a = 'r' ∨ a = '-') ∧ (b = 'w' ∨ b = '-') ∧
      (c = 'x' ∨ c = '-') := by
  have e : rgxGetfaclAce =
      regexp.Rgx.seq (regexp.opt (regexp.lit "default:"))
        (regexp.Rgx.seq
          (regexp.alts
            [regexp.lit "user", regexp.lit "group", regexp.lit "mask", regexp.lit "other:"])
          (regexp.Rgx.seq (regexp.Rgx.star regexp.notSpace)
            (regexp.Rgx.seq
              (regexp.Rgx.seq (regexp.Rgx.cls (fun x => decide (x = ':'))) regexp.Rgx.eps)
              (regexp.Rgx.seq (regexp.oneOf "r-")
                (regexp.Rgx.seq (regexp.oneOf "w-")
                  (regexp.Rgx.seq (regexp.oneOf "x-") regexp.Rgx.eps)))))) := rfl
  rw [e] at h
  obtain ⟨s1, r1, rfl, -, h⟩ := regexp.Matches_seq_inv _ _ _ h
  obtain ⟨s2, r2, rfl, -, h⟩ := regexp.Matches_seq_inv _ _ _ h
  obtain ⟨s3, r3, rfl, -, h⟩ := regexp.Matches_seq_inv _ _ _ h
  obtain ⟨s4, r4, rfl, h4, h⟩ := regexp.Matches_seq_inv _ _ _ h
  obtain ⟨s5, r5, rfl, h5, h⟩ := regexp.Matches_seq_inv _ _ _ h
  obtain ⟨s6, r6, rfl, h6, h⟩ := regexp.Matches_seq_inv _ _ _ h
  obtain ⟨s7, r7, rfl, h7, h⟩ := regexp.Matches_seq_inv _ _ _ h
  rw [regexp.Matches_eps_inv _ h]
  obtain ⟨u, v, rfl, hu, hv⟩ := regexp.Matches_seq_inv _ _ _ h4
  rw [regexp.Matches_eps_inv _ hv]
  obtain ⟨c0, rfl, hc0⟩ := regexp.Matches_cls_inv _ _ hu
  obtain ⟨a, rfl, ha⟩ := regexp.Matches_cls_inv _ _ h5
  obtain ⟨b, rfl, hb⟩ := regexp.Matches_cls_inv _ _ h6
  obtain ⟨c, rfl, hc⟩ := regexp.Matches_cls_inv _ _ h7
  have hc0' : c0 = ':' := by simpa using hc0
  subst hc0'
  refine ⟨s1 ++ s2 ++ s3, a, b, c, by simp, ?_, ?_, ?_⟩
  · simpa [regexp.oneOf] using ha
  · simpa [regexp.oneOf] using hb
  · simpa [regexp.oneOf] using hc

theorem parseGetfaclAceLine_ok_shape (line : String) (ace : FaclAce)
    (h : parseGetfaclAceLine line = Except.ok ace) :
    ∃ t a b c, line.data = t ++ [':', a, b, c] ∧ ace = ⟨String.mk t, String.mk [a, b, c]⟩ ∧
      (a = 'r' ∨ a = '-') ∧ (b = 'w' ∨ b = '-') ∧ (c = 'x' ∨ c = '-') := by
  unfold parseGetfaclAceLine at h
  cases hm : rgxGetfaclAce.MatchString line with
  | false => simp [hm] at h
  | true =>
    simp only [hm, Bool.not_true, Bool.false_eq_true, if_false, Except.ok.injEq] at h
    obtain ⟨t, a, b, c, hs, ha, hb, hc⟩ :=
      rgxGetfaclAce_shape _ (regexp.Matches_of_MatchString _ _ hm)
    refine ⟨t, a, b, c, hs, ?_, ha, hb, hc⟩
    rw [← h]
    unfold sliceDropRight sliceFrom
    rw [hs]
    simp

end bcpsharing

/-- C31: for every line that `parseGetfaclAceLine` accepts, stringifying the
parsed entry with `FaclAce.String` gives back the line, the parsed mode is
the last three characters of the line and has the form `[r-][w-][x-]`, the
parsed tag is the line without its last four characters, and parsing the
string form of the parsed entry gives back the entry; and for every entry
whose string form is accepted, parsing the string form gives back the entry.
An entry has a mode in chmod `rwx` format, of three characters: the code
forms an entry in `AsFacl` (the mode of a parsed ACL item), in `WithoutX` and
in `parseGetfaclAceLine` only. -/
theorem parseGetfaclAceLine_roundtrip (line : String) (ace : bcpsharing.FaclAce)
    (h : bcpsharing.parseGetfaclAceLine line = Except.ok ace) :
    ace.String = line ∧
    ace.Mode = sliceFrom line (line.data.length - 3) ∧
    bcpsharing.validMode ace.Mode = true ∧
    ace.Tag = sliceDropRight line 4 ∧
    bcpsharing.parseGetfaclAceLine ace.String = Except.ok ace ∧
    (∀ e e' : bcpsharing.FaclAce, e.Mode.data.length = 3 →
      bcpsharing.parseGetfaclAceLine e.String = Except.ok e' → e' = e) := by
  obtain ⟨t, a, b, c, hs, hace, ha, hb, hc⟩ :=
    bcpsharing.parseGetfaclAceLine_ok_shape line ace h
  have hstr : ace.String = line := by
    apply String.ext
    rw [hs, hace]
    simp [bcpsharing.FaclAce.String, String.data_append]
  refine ⟨hstr, ?_, ?_, ?_, ?_, ?_⟩
  · rw [hace]
    apply String.ext
    simp [sliceFrom, hs]
  · rw [hace]
    rcases ha with rfl | rfl <;> rcases hb with rfl | rfl <;> rcases hc with rfl | rfl <;> rfl
  · rw [hace]
    apply String.ext
    simp [sliceDropRight, hs]
  · rw [hstr]
    exact h
  · intro e e' hlen he
    obtain ⟨m0, m1, m2, hm⟩ : ∃ m0 m1 m2, e.Mode.data = [m0, m1, m2] := by
      match hd : e.Mode.data, hlen with
      | [m0, m1, m2], _ => exact ⟨m0, m1, m2, rfl⟩
    have hdata : e.String.data = e.Tag.data ++ [':', m0, m1, m2] := by
      simp [bcpsharing.FaclAce.String, String.data_append, hm]
    unfold bcpsharing.parseGetfaclAceLine at he
    cases hmatch : bcpsharing.rgxGetfaclAce.MatchString e.String with
    | false => simp [hmatch] at he
    | true =>
      simp only [hmatch, Bool.not_true, Bool.false_eq_true, if_false, Except.ok.injEq] at he
      rw [← he]
      cases e with
      | mk tag mode =>
        simp only at hm hdata
        congr 1
        · apply String.ext
          simp [sliceDropRight, hdata]
        · apply String.ext
          have e : tag.data ++ [':', m0, m1, m2] = (tag.data ++ [':']) ++ [m0, m1, m2] := by
            simp
          simp only [sliceFrom, hdata, hm]
          rw [e]
          exact List.drop_left' (by simp)

theorem parseGetfaclAceLine_roundtrip_witness :
    bcpsharing.parseGetfaclAceLine "default:group:foo:r-x" =
      Except.ok ⟨"default:group:foo", "r-x"⟩ ∧
    (⟨"default:group:foo", "r-x"⟩ : bcpsharing.FaclAce).String = "default:group:foo:r-x" ∧
    bcpsharing.parseGetfaclAceLine
      (⟨"default:group:foo", "r-x"⟩ : bcpsharing.FaclAce).String =
        Except.ok ⟨"default:group:foo", "r-x"⟩ :=
  ⟨rfl,
    (parseGetfaclAceLine_roundtrip "default:group:foo:r-x" ⟨"default:group:foo", "r-x"⟩
      rfl).1,
    (parseGetfaclAceLine_roundtrip "default:group:foo:r-x" ⟨"default:group:foo", "r-x"⟩
      rfl).2.2.2.2.1⟩

/-! ### Resolution of relative symlink targets -/

namespace filepath

theorem foldl_cleanStep_pop (rooted : Bool) (top : List String)
    (h : ∀ e ∈ top, isElem e = true) (stack : List (List Char)) :
    (List.replicate top.length ['.', '.']).foldl (cleanStep rooted)
      ((top.map String.data).reverse ++ stack) = stack := by
  induction top using List.reverseRecOn with
  | nil => rfl
  | append_singleton l e ih =>
    have he := (isElem_iff e).mp (h e (List.mem_append_right _ (List.mem_singleton_self _)))
    rw [List.length_append, List.length_singleton, List.replicate_succ, List.foldl_cons,
      List.map_append, List.reverse_append]
    have hstep : cleanStep rooted
        (([e].map String.data).reverse ++ (l.map String.data).reverse ++ stack) ['.', '.'] =
        (l.map String.data).reverse ++ stack := by
      simp [cleanStep, he.2.2.2]
    rw [hstep]
    exact ih (fun x hx => h x (List.mem_append_left _ hx))

theorem joinElems_data_ne_nil (l : List String) (hne : l ≠ [])
    (h : ∀ e ∈ l, isElem e = true) :
    (joinElems l).data ≠ [] ∧ (joinElems l).data.head? ≠ some '/' := by
  cases l with
  | nil => exact absurd rfl hne
  | cons x xs =>
    obtain ⟨h1, h2, -, -⟩ := (isElem_iff x).mp (h x (List.mem_cons_self _ _))
    have hd : (joinElems (x :: xs)).data =
        x.data ++ ((xs.map String.data).map (fun l => ['/'] ++ l)).flatten := by
      unfold joinElems
      rw [List.map_cons, joinData_cons]
    rw [hd]
    cases hx : x.data with
    | nil => exact absurd hx h1
    | cons c cs =>
      rw [hx] at h2
      refine ⟨by simp, ?_⟩
      simp only [List.cons_append, List.head?_cons, ne_eq, Option.some.injEq]
      intro hc
      exact h2 (by rw [hc]; exact List.mem_cons_self _ _)

theorem Dir_joinElems_snoc (l : List String) (x : String) (hne : l ≠ [])
    (h : ∀ e ∈ l, isElem e = true) (hx : '/' ∉ x.data) :
    Dir (joinElems (l ++ [x])) = joinElems l := by
  have hl : l.map String.data ≠ [] := fun hn => hne (List.map_eq_nil_iff.mp hn)
  have hdata : (joinElems (l ++ [x])).data =
      joinData ['/'] (l.map String.data) ++ '/' :: x.data := by
    unfold joinElems
    rw [List.map_append, joinData_append ['/'] _ _ hl (by simp)]
    simp [joinData]
  have hdrop : ((joinElems (l ++ [x])).data.reverse.dropWhile
      (fun c => decide (c ≠ '/'))).reverse = joinData ['/'] (l.map String.data) ++ ['/'] := by
    rw [hdata, List.reverse_append, List.reverse_cons, List.append_assoc,
      List.dropWhile_append_of_pos]
    · simp
    · intro c hc
      rw [List.mem_reverse] at hc
      simp only [ne_eq, decide_not, Bool.not_eq_true', decide_eq_false_iff_not]
      intro hcs
      exact hx (hcs ▸ hc)
  obtain ⟨hd0, hhead⟩ := joinElems_data_ne_nil l hne h
  have hd0' : joinData ['/'] (l.map String.data) ≠ [] := hd0
  unfold Dir
  rw [hdrop, Clean_rel]
  · have hsplit : splitSlash (joinData ['/'] (l.map String.data) ++ ['/']) =
        l.map String.data ++ [[]] := by
      unfold splitSlash
      rw [splitOnChar_append, splitOnChar_joinData '/' _ hl]
      · rfl
      · intro c hc
        obtain ⟨e, he, rfl⟩ := List.mem_map.mp hc
        exact ((isElem_iff e).mp (h e he)).2.1
    simp only [hsplit, List.foldl_append, foldl_cleanStep_elems false l h, List.append_nil,
      List.foldl_cons, List.foldl_nil]
    have hnil : cleanStep false (l.map String.data).reverse [] = (l.map String.data).reverse := by
      simp [cleanStep]
    rw [hnil, if_neg (by
      intro hn
      exact hl (List.reverse_eq_nil_iff.mp hn)), List.reverse_reverse]
    rfl
  · simp
  · show (joinData ['/'] (l.map String.data) ++ ['/']).head? ≠ some '/'
    cases hj : joinData ['/'] (l.map String.data) with
    | nil => exact absurd hj hd0'
    | cons c cs =>
      have : (joinElems l).data.head? = some c := by
        show (joinData ['/'] (l.map String.data)).head? = some c
        rw [hj]
        rfl
      rw [this] at hhead
      simpa using hhead

/-- A target that climbs out of the last elements of a directory and
descends again: the join keeps the elements before them. -/
theorem Join_pop (base top parts : List String) (hbase : base ≠ [])
    (hb : ∀ e ∈ base, isElem e = true) (ht : ∀ e ∈ top, isElem e = true)
    (hp : ∀ e ∈ parts, isElem e = true)
    (hne : List.replicate top.length ".." ++ parts ≠ []) :
    Join [joinElems (base ++ top), joinElems (List.replicate top.length ".." ++ parts)] =
      joinElems (base ++ parts) := by
  have hbt : ∀ e ∈ base ++ top, isElem e = true := by
    intro e he
    rcases List.mem_append.mp he with he | he
    · exact hb e he
    · exact ht e he
  have hbtne : base ++ top ≠ [] := by simp [hbase]
  obtain ⟨hd0, hhead⟩ := joinElems_data_ne_nil (base ++ top) hbtne hbt
  have hx0 : joinElems (base ++ top) ≠ "" := fun hn => hd0 (by rw [hn])
  have hdata : (Bcpfs.Join
      [joinElems (base ++ top), joinElems (List.replicate top.length ".." ++ parts)] "/").data =
      joinData ['/'] ((base ++ top).map String.data ++
        (List.replicate top.length ".." ++ parts).map String.data) := by
    rw [Join_data, joinData_append ['/'] _ _
      (fun hn => hbtne (List.map_eq_nil_iff.mp hn))
      (fun hn => hne (List.map_eq_nil_iff.mp hn))]
    simp [joinData, joinElems]
  have hsplit : splitSlash (Bcpfs.Join
      [joinElems (base ++ top), joinElems (List.replicate top.length ".." ++ parts)] "/").data =
      (base ++ top).map String.data ++
        (List.replicate top.length ".." ++ parts).map String.data := by
    rw [hdata]
    unfold splitSlash
    apply splitOnChar_joinData
    · simp [hbase]
    · intro c hc
      rcases List.mem_append.mp hc with hc | hc
      · obtain ⟨e, he, rfl⟩ := List.mem_map.mp hc
        exact ((isElem_iff e).mp (hbt e he)).2.1
      · obtain ⟨e, he, rfl⟩ := List.mem_map.mp hc
        exact dotdots_elems_no_slash _ parts hp e he
  have hfold : (splitSlash (Bcpfs.Join
      [joinElems (base ++ top), joinElems (List.replicate top.length ".." ++ parts)] "/").data).foldl
      (cleanStep false) [] = ((base ++ parts).map String.data).reverse := by
    have hdd : ("..".data) = ['.', '.'] := rfl
    rw [hsplit, List.foldl_append, foldl_cleanStep_elems false _ hbt, List.append_nil]
    simp only [List.map_append, List.map_replicate, hdd, List.foldl_append,
      List.reverse_append]
    rw [foldl_cleanStep_pop false top ht, foldl_cleanStep_elems false parts hp]
  have hdata2 : (Bcpfs.Join
      [joinElems (base ++ top), joinElems (List.replicate top.length ".." ++ parts)] "/").data =
      (joinElems (base ++ top)).data ++
        '/' :: (joinElems (List.replicate top.length ".." ++ parts)).data := by
    rw [Join_data]
    simp [joinData]
  have hne0 : (Bcpfs.Join
      [joinElems (base ++ top), joinElems (List.replicate top.length ".." ++ parts)] "/").data ≠
      [] := by
    rw [hdata2]
    simp
  have hhead' : (Bcpfs.Join
      [joinElems (base ++ top), joinElems (List.replicate top.length ".." ++ parts)] "/").data.head? ≠
      some '/' := by
    rw [hdata2]
    cases hj : (joinElems (base ++ top)).data with
    | nil => exact absurd hj hd0
    | cons c cs =>
      rw [hj] at hhead
      simpa using hhead
  rw [Join_cons_ne _ _ hx0, Clean_rel _ hne0 hhead', hfold]
  rw [if_neg (by
    intro hn
    have := List.map_eq_nil_iff.mp (List.reverse_eq_nil_iff.mp hn)
    simp [hbase] at this), List.reverse_reverse]
  rfl

end filepath

namespace bcpsharing

theorem lastWrite_mem (ws : List (String × String × String)) (ou p t : String)
    (h : lastWrite ws ou p = some t) : (ou, p, t) ∈ ws := by
  induction ws using List.reverseRecOn with
  | nil => simp [lastWrite] at h
  | append_singleton l w ih =>
    rw [lastWrite_append] at h
    by_cases hm : w.1 = ou ∧ w.2.1 = p
    · rw [if_pos hm] at h
      injection h with h
      apply List.mem_append_right
      rw [List.mem_singleton, ← hm.1, ← hm.2, ← h]
    · rw [if_neg hm] at h
      exact List.mem_append_left _ (ih h)

theorem resolve_share_link (fs : Bcpfs) (ou p : String)
    (ho : filepath.isElem fs.OrgUnitDir = true) (hu : filepath.isElem ou = true)
    (hclean : cleanComponents p = true) :
    filepath.resolveLink (compileShareTrees_realpath fs ou (strings.Split p '/'))
        (slashpath.Join
          (List.replicate ((strings.Split p '/').length + 1) ".." ++ strings.Split p '/')) =
      fs.OrgUnitDir ++ "/" ++ p := by
  have hall : ∀ c ∈ strings.Split p '/', filepath.isElem c = true :=
    List.all_eq_true.mp hclean
  rcases List.eq_nil_or_concat (strings.Split p '/') with hnil | ⟨init, last, hparts'⟩
  · exact absurd hnil (Split_ne_nil _ _)
  have hparts : strings.Split p '/' = init ++ [last] := by
    rw [hparts', List.concat_eq_append]
  have hinit : ∀ c ∈ init, filepath.isElem c = true := by
    intro c hc
    exact hall c (by rw [hparts]; exact List.mem_append_left _ hc)
  have hlast : filepath.isElem last = true :=
    hall last (by rw [hparts]; exact List.mem_append_right _ (List.mem_singleton_self _))
  have hshared : filepath.isElem "shared" = true := by decide
  have htop : ∀ e ∈ [ou, "shared"] ++ init, filepath.isElem e = true := by
    intro e he
    rcases List.mem_append.mp he with he | he
    · simp only [List.mem_cons, List.mem_singleton, List.not_mem_nil, or_false] at he
      rcases he with rfl | rfl
      · exact hu
      · exact hshared
    · exact hinit e he
  have hbase : ∀ e ∈ [fs.OrgUnitDir], filepath.isElem e = true := by
    intro e he
    rw [List.mem_singleton] at he
    rw [he]
    exact ho
  have hlink : compileShareTrees_realpath fs ou (strings.Split p '/') =
      filepath.joinElems (([fs.OrgUnitDir] ++ ([ou, "shared"] ++ init)) ++ [last]) := by
    unfold compileShareTrees_realpath
    rw [hparts]
    have e : [fs.OrgUnitDir, ou, "shared"] ++ (init ++ [last]) =
        ([fs.OrgUnitDir] ++ ([ou, "shared"] ++ init)) ++ [last] := by simp
    rw [e]
    apply filepath.Join_elems _ _ (by simp)
    intro c hc
    rcases List.mem_append.mp hc with hc | hc
    · rcases List.mem_append.mp hc with hc | hc
      · exact hbase c hc
      · exact htop c hc
    · rw [List.mem_singleton] at hc
      rw [hc]
      exact hlast
  have hdir : filepath.Dir (compileShareTrees_realpath fs ou (strings.Split p '/')) =
      filepath.joinElems ([fs.OrgUnitDir] ++ ([ou, "shared"] ++ init)) := by
    rw [hlink]
    apply filepath.Dir_joinElems_snoc _ _ (by simp)
    · intro c hc
      rcases List.mem_append.mp hc with hc | hc
      · exact hbase c hc
      · exact htop c hc
    · exact ((filepath.isElem_iff last).mp hlast).2.1
  have hlen : (strings.Split p '/').length + 1 = ([ou, "shared"] ++ init).length := by
    rw [hparts]
    simp
  have htarget : slashpath.Join
      (List.replicate ((strings.Split p '/').length + 1) ".." ++ strings.Split p '/') =
      filepath.joinElems
        (List.replicate ([ou, "shared"] ++ init).length ".." ++ strings.Split p '/') := by
    rw [hlen]
    exact filepath.Join_dotdots_elems _ _ hall (by simp)
  unfold filepath.resolveLink
  rw [hdir, htarget,
    filepath.Join_pop [fs.OrgUnitDir] ([ou, "shared"] ++ init) (strings.Split p '/')
      (by simp) hbase htop hall (by simp),
    List.singleton_append, filepath.joinElems_cons _ _ (Split_ne_nil _ _),
    filepath.joinElems_Split]

end bcpsharing

namespace filepath

theorem Clean_rooted (p : String) (hhead : p.data.head? = some '/') :
    Clean p =
      "/" ++ String.mk
        (joinData ['/'] ((splitSlash p.data).foldl (cleanStep true) []).reverse) := by
  have hd : p.data ≠ [] := by
    intro h
    rw [h] at hhead
    cases hhead
  unfold Clean
  simp only [hd, if_false, hhead, decide_True, if_true]

theorem absPath_data (l : List String) :
    (absPath l).data = '/' :: joinData ['/'] (l.map String.data) := rfl

theorem splitOnChar_sep_cons (sep : Char) (l : List Char) :
    splitOnChar sep (sep :: l) = [] :: splitOnChar sep l := by
  simp [splitOnChar]

theorem cleanStep_empty (rooted : Bool) (stack : List (List Char)) :
    cleanStep rooted stack [] = stack := by
  simp [cleanStep]

theorem Dir_absPath_snoc (l : List String) (x : String) (hne : l ≠ [])
    (h : ∀ e ∈ l, isElem e = true) (hx : '/' ∉ x.data) :
    Dir (absPath (l ++ [x])) = absPath l := by
  have hl : l.map String.data ≠ [] := fun hn => hne (List.map_eq_nil_iff.mp hn)
  have hdata : (absPath (l ++ [x])).data =
      ('/' :: joinData ['/'] (l.map String.data)) ++ '/' :: x.data := by
    rw [absPath_data, List.map_append, joinData_append ['/'] _ _ hl (by simp)]
    simp [joinData]
  have hdrop : ((absPath (l ++ [x])).data.reverse.dropWhile
      (fun c => decide (c ≠ '/'))).reverse =
      '/' :: (joinData ['/'] (l.map String.data) ++ ['/']) := by
    rw [hdata, List.reverse_append, List.reverse_cons, List.append_assoc,
      List.dropWhile_append_of_pos]
    · simp
    · intro c hc
      rw [List.mem_reverse] at hc
      simp only [ne_eq, decide_not, Bool.not_eq_true', decide_eq_false_iff_not]
      intro hcs
      exact hx (hcs ▸ hc)
  unfold Dir
  rw [hdrop, Clean_rooted (String.mk ('/' :: (joinData ['/'] (l.map String.data) ++ ['/']))) rfl]
  have hsplit : splitSlash ('/' :: (joinData ['/'] (l.map String.data) ++ ['/'])) =
      [] :: (l.map String.data ++ [[]]) := by
    unfold splitSlash
    rw [splitOnChar_sep_cons, splitOnChar_append, splitOnChar_joinData '/' _ hl]
    · rfl
    · intro c hc
      obtain ⟨e, he, rfl⟩ := List.mem_map.mp hc
      exact ((isElem_iff e).mp (h e he)).2.1
  simp only [hsplit, List.foldl_cons, List.foldl_append, cleanStep_empty,
    foldl_cleanStep_elems true l h, List.append_nil, List.foldl_nil, List.reverse_reverse]
  apply String.ext
  rw [String.data_append, absPath_data]
  rfl

/-- A target that climbs out of the last elements of an absolute directory
and descends again. -/
theorem Join_pop_abs (base top parts : List String) (hbt : base ++ top ≠ [])
    (hb : ∀ e ∈ base, isElem e = true) (ht : ∀ e ∈ top, isElem e = true)
    (hp : ∀ e ∈ parts, isElem e = true)
    (hne : List.replicate top.length ".." ++ parts ≠ []) :
    Join [absPath (base ++ top), joinElems (List.replicate top.length ".." ++ parts)] =
      absPath (base ++ parts) := by
  have hall : ∀ e ∈ base ++ top, isElem e = true := by
    intro e he
    rcases List.mem_append.mp he with he | he
    · exact hb e he
    · exact ht e he
  have hA : (base ++ top).map String.data ≠ [] := fun hn => hbt (List.map_eq_nil_iff.mp hn)
  have hB : (List.replicate top.length ".." ++ parts).map String.data ≠ [] :=
    fun hn => hne (List.map_eq_nil_iff.mp hn)
  have hdata : (Bcpfs.Join
      [absPath (base ++ top), joinElems (List.replicate top.length ".." ++ parts)] "/").data =
      '/' :: joinData ['/'] ((base ++ top).map String.data ++
        (List.replicate top.length ".." ++ parts).map String.data) := by
    rw [Join_data, joinData_append ['/'] _ _ hA hB]
    simp [joinData, joinElems, absPath_data]
  have hsplit : splitSlash (Bcpfs.Join
      [absPath (base ++ top), joinElems (List.replicate top.length ".." ++ parts)] "/").data =
      [] :: ((base ++ top).map String.data ++
        (List.replicate top.length ".." ++ parts).map String.data) := by
    rw [hdata]
    unfold splitSlash
    rw [splitOnChar_sep_cons, splitOnChar_joinData]
    · intro hn
      exact hA (List.append_eq_nil.mp hn).1
    · intro c hc
      rcases List.mem_append.mp hc with hc | hc
      · obtain ⟨e, he, rfl⟩ := List.mem_map.mp hc
        exact ((isElem_iff e).mp (hall e he)).2.1
      · obtain ⟨e, he, rfl⟩ := List.mem_map.mp hc
        exact dotdots_elems_no_slash _ parts hp e he
  have hdd : ("..".data) = ['.', '.'] := rfl
  rw [Join_cons_ne _ _ (absPath_ne_empty _), Clean_rooted _ (by rw [hdata]; rfl), hsplit,
    List.foldl_cons, cleanStep_empty, List.foldl_append, foldl_cleanStep_elems true _ hall,
    List.append_nil]
  simp only [List.map_append, List.map_replicate, hdd, List.foldl_append, List.reverse_append]
  rw [foldl_cleanStep_pop true top ht, foldl_cleanStep_elems true parts hp]
  apply String.ext
  rw [String.data_append, absPath_data]
  simp

end filepath

namespace fsck

theorem mem_OrgUnitServiceLinksList (ot : OrgUnitTreePaths) (e : Entry) :
    e ∈ ot.OrgUnitServiceLinksList ↔
      ∃ ou ∈ ot.orgUnits, ∃ s ∈ ot.services,
        (ot.filter.Accept s ou).1 = true ∧ e = ot.ouslnEntry ou s := by
  unfold OrgUnitTreePaths.OrgUnitServiceLinksList
  have hinner : ∀ (ou : bcp.OrgUnit) (list : List Entry),
      ot.services.foldl
          (fun list s =>
            if (ot.filter.Accept s ou).1 then list ++ [ot.ouslnEntry ou s] else list)
          list =
        list ++ (ot.services.filter (fun s => (ot.filter.Accept s ou).1)).map
          (fun s => ot.ouslnEntry ou s) := by
    intro ou list
    exact foldl_append_if (fun s => (ot.filter.Accept s ou).1)
      (fun s => ot.ouslnEntry ou s) ot.services list
  simp only [hinner]
  rw [foldl_append_flatMap, List.nil_append, List.mem_flatMap]
  constructor
  · rintro ⟨ou, hou, he⟩
    obtain ⟨s, hs, rfl⟩ := List.mem_map.mp he
    rw [List.mem_filter] at hs
    exact ⟨ou, hou, s, hs.1, hs.2, rfl⟩
  · rintro ⟨ou, hou, s, hs, hacc, rfl⟩
    exact ⟨ou, hou, List.mem_map.mpr ⟨s, List.mem_filter.mpr ⟨hs, hacc⟩, rfl⟩⟩

theorem mem_ServiceOrgUnitDirsList (st : ServiceTreePaths) (e : Entry) :
    e ∈ st.ServiceOrgUnitDirsList ↔
      ∃ s ∈ st.services, ∃ ou ∈ st.orgUnits,
        (st.filter.Accept s ou).1 = true ∧ e = st.souEntry s ou := by
  unfold ServiceTreePaths.ServiceOrgUnitDirsList
  have hinner : ∀ (s : bcp.Service) (list : List Entry),
      st.orgUnits.foldl
          (fun list ou =>
            if (st.filter.Accept s ou).1 then list ++ [st.souEntry s ou] else list)
          list =
        list ++ (st.orgUnits.filter (fun ou => (st.filter.Accept s ou).1)).map
          (fun ou => st.souEntry s ou) := by
    intro s list
    exact foldl_append_if (fun ou => (st.filter.Accept s ou).1)
      (fun ou => st.souEntry s ou) st.orgUnits list
  simp only [hinner]
  rw [foldl_append_flatMap, List.nil_append, List.mem_flatMap]
  constructor
  · rintro ⟨s, hs, he⟩
    obtain ⟨ou, hou, rfl⟩ := List.mem_map.mp he
    rw [List.mem_filter] at hou
    exact ⟨s, hs, ou, hou.1, hou.2, rfl⟩
  · rintro ⟨s, hs, ou, hou, hacc, rfl⟩
    exact ⟨s, hs, List.mem_map.mpr ⟨ou, List.mem_filter.mpr ⟨hou, hacc⟩, rfl⟩⟩

theorem ServiceDirsList_has (st : ServiceTreePaths) (s : bcp.Service) (hs : s ∈ st.services) :
    ∃ e ∈ st.ServiceDirsList,
      e.Path = filepath.Join [st.root, s.Name] ∧ e.IsSymlink = false := by
  unfold ServiceTreePaths.ServiceDirsList
  rw [foldl_append_flatMap, List.nil_append]
  exact ⟨_, List.mem_flatMap.mpr ⟨s, hs, List.mem_singleton_self _⟩, rfl, rfl⟩

theorem upup_eq_joinElems (a b : String) :
    "../../" ++ a ++ "/" ++ b = filepath.joinElems (List.replicate 2 ".." ++ [a, b]) := by
  apply String.ext
  simp [filepath.joinElems, joinData, String.data_append, List.replicate]

theorem upup3_eq_joinElems (a b c : String) :
    "../../" ++ a ++ "/" ++ b ++ "/" ++ c =
      filepath.joinElems (List.replicate 2 ".." ++ [a, b, c]) := by
  apply String.ext
  simp [filepath.joinElems, joinData, String.data_append, List.replicate]

/-- The target of a planned service link, resolved against the directory of
the link, is the path of the service directory, or of the directory of the
org unit below it. -/
theorem ouslnEntry_resolves (elems : List String) (srvDir orgDir : String)
    (services : List bcp.Service) (orgUnits : List bcp.OrgUnit)
    (filter : bcpfilter.OrgServiceFilter)
    (helems : ∀ e ∈ elems, filepath.isElem e = true)
    (hsd : filepath.isElem srvDir = true) (hod : filepath.isElem orgDir = true)
    (ou : bcp.OrgUnit) (s : bcp.Service) (hou : filepath.isElem ou.Name = true)
    (hs : filepath.isElem s.Name = true) :
    filepath.resolveLink
        (OrgUnitTreePaths.ouslnEntry
          ⟨filepath.absPath (elems ++ [orgDir]), srvDir, services, orgUnits, filter⟩ ou s).Path
        (OrgUnitTreePaths.ouslnEntry
          ⟨filepath.absPath (elems ++ [orgDir]), srvDir, services, orgUnits, filter⟩ ou
          s).LinkDest =
      if serviceIsOfFacility ou s then
        filepath.Join [filepath.absPath (elems ++ [srvDir]), s.Name]
      else filepath.Join [filepath.absPath (elems ++ [srvDir]), s.Name, ou.Name] := by
  have htop : ∀ e ∈ [orgDir, ou.Name], filepath.isElem e = true := by
    intro e he
    simp only [List.mem_cons, List.mem_singleton, List.not_mem_nil, or_false] at he
    rcases he with rfl | rfl
    · exact hod
    · exact hou
  have hroot : ∀ (d : String), filepath.isElem d = true →
      ∀ e ∈ elems ++ [d], filepath.isElem e = true := by
    intro d hd e he
    rcases List.mem_append.mp he with he | he
    · exact helems e he
    · rw [List.mem_singleton] at he
      rw [he]
      exact hd
  have hpath : filepath.Join [filepath.absPath (elems ++ [orgDir]), ou.Name, s.Name] =
      filepath.absPath ((elems ++ [orgDir, ou.Name]) ++ [s.Name]) := by
    rw [filepath.Join_absPath _ (by simp) (hroot orgDir hod) [ou.Name, s.Name] (by
      intro e he
      simp only [List.mem_cons, List.mem_singleton, List.not_mem_nil, or_false] at he
      rcases he with rfl | rfl
      · exact hou
      · exact hs)]
    simp
  have hdir : filepath.Dir
      (filepath.Join [filepath.absPath (elems ++ [orgDir]), ou.Name, s.Name]) =
      filepath.absPath (elems ++ [orgDir, ou.Name]) := by
    rw [hpath]
    apply filepath.Dir_absPath_snoc _ _ (by simp)
    · intro e he
      rcases List.mem_append.mp he with he | he
      · exact helems e he
      · exact htop e he
    · exact ((filepath.isElem_iff s.Name).mp hs).2.1
  have hsrv2 : filepath.Join [filepath.absPath (elems ++ [srvDir]), s.Name] =
      filepath.absPath (elems ++ [srvDir, s.Name]) := by
    rw [filepath.Join_absPath _ (by simp) (hroot srvDir hsd) [s.Name] (by
      intro e he
      rw [List.mem_singleton] at he
      rw [he]
      exact hs)]
    simp
  have hsrv3 : filepath.Join [filepath.absPath (elems ++ [srvDir]), s.Name, ou.Name] =
      filepath.absPath (elems ++ [srvDir, s.Name, ou.Name]) := by
    rw [filepath.Join_absPath _ (by simp) (hroot srvDir hsd) [s.Name, ou.Name] (by
      intro e he
      simp only [List.mem_cons, List.mem_singleton, List.not_mem_nil, or_false] at he
      rcases he with rfl | rfl
      · exact hs
      · exact hou)]
    simp
  unfold filepath.resolveLink OrgUnitTreePaths.ouslnEntry
  simp only []
  rw [hdir, hsrv2, hsrv3]
  cases hfac : serviceIsOfFacility ou s with
  | true =>
    simp only [Bool.not_true, Bool.false_eq_true, if_false, if_true]
    rw [filepath.Join_upup2 srvDir s.Name hsd hs, upup_eq_joinElems]
    exact filepath.Join_pop_abs elems [orgDir, ou.Name] [srvDir, s.Name] (by simp) helems
      htop (by
        intro e he
        simp only [List.mem_cons, List.mem_singleton, List.not_mem_nil, or_false] at he
        rcases he with rfl | rfl
        · exact hsd
        · exact hs) (by simp)
  | false =>
    simp only [Bool.not_false, if_true, Bool.false_eq_true, if_false]
    rw [filepath.Join_upup2 srvDir s.Name hsd hs,
      filepath.Join_upup3 srvDir s.Name ou.Name hsd hs hou, upup3_eq_joinElems]
    exact filepath.Join_pop_abs elems [orgDir, ou.Name] [srvDir, s.Name, ou.Name] (by simp)
      helems htop (by
        intro e he
        simp only [List.mem_cons, List.mem_singleton, List.not_mem_nil, or_false] at he
        rcases he with rfl | rfl | rfl
        · exact hsd
        · exact hs
        · exact hou) (by simp)

end fsck

/-- C36: for every organization whose service and org unit names are single
clean path components, every filter, and the roots `<root>/<service_dir>` and
`<root>/<org_unit_dir>` of an absolute root with single-component directory
names: every entry of `OrgUnitServiceLinksList` is a symlink of an org unit
and a service, and its target, resolved against the directory that contains
the symlink, is the path of a planned directory entry: of an entry of
`ServiceDirsList` for a facility shortcut and of an entry of
`ServiceOrgUnitDirsList` otherwise. -/
theorem planned_service_links_resolve (elems : List String) (srvDir orgDir : String)
    (services : List bcp.Service) (orgUnits : List bcp.OrgUnit)
    (filter : bcpfilter.OrgServiceFilter)
    (helems : ∀ e ∈ elems, filepath.isElem e = true)
    (hsd : filepath.isElem srvDir = true) (hod : filepath.isElem orgDir = true)
    (hs : ∀ s ∈ services, filepath.isElem s.Name = true)
    (hou : ∀ ou ∈ orgUnits, filepath.isElem ou.Name = true) :
    (∀ l ∈ fsck.OrgUnitTreePaths.OrgUnitServiceLinksList
        ⟨filepath.absPath (elems ++ [orgDir]), srvDir, services, orgUnits, filter⟩,
      l.IsSymlink = true ∧
      ∃ ou ∈ orgUnits, ∃ s ∈ services,
        l.Path = filepath.Join [filepath.absPath (elems ++ [orgDir]), ou.Name, s.Name] ∧
        ∃ d : fsck.Entry, d.IsSymlink = false ∧
          d.Path = filepath.resolveLink l.Path l.LinkDest ∧
          if fsck.serviceIsOfFacility ou s then
            d ∈ fsck.ServiceTreePaths.ServiceDirsList
              ⟨filepath.absPath (elems ++ [srvDir]), services, orgUnits, filter⟩
          else
            d ∈ fsck.ServiceTreePaths.ServiceOrgUnitDirsList
              ⟨filepath.absPath (elems ++ [srvDir]), services, orgUnits, filter⟩) ∧
    (∀ d : String, filepath.isElem d = true → elems ≠ [] →
      filepath.Join [filepath.absPath elems, d] = filepath.absPath (elems ++ [d])) := by
  refine ⟨?_, ?_⟩
  · intro l hl
    obtain ⟨ou, hou', s, hs', hacc, rfl⟩ := (fsck.mem_OrgUnitServiceLinksList _ l).mp hl
    refine ⟨rfl, ou, hou', s, hs', rfl, ?_⟩
    have hres := fsck.ouslnEntry_resolves elems srvDir orgDir services orgUnits filter helems
      hsd hod ou s (hou ou hou') (hs s hs')
    cases hfac : fsck.serviceIsOfFacility ou s with
    | true =>
      rw [hfac, if_pos rfl] at hres
      obtain ⟨d, hd, hdp, hds⟩ := fsck.ServiceDirsList_has
        ⟨filepath.absPath (elems ++ [srvDir]), services, orgUnits, filter⟩ s hs'
      refine ⟨d, hds, ?_, ?_⟩
      · rw [hres, hdp]
      · simp only [if_true]
        exact hd
    | false =>
      rw [hfac] at hres
      simp only [Bool.false_eq_true, if_false] at hres
      refine ⟨fsck.ServiceTreePaths.souEntry
        ⟨filepath.absPath (elems ++ [srvDir]), services, orgUnits, filter⟩ s ou, rfl, ?_, ?_⟩
      · rw [hres]
        rfl
      · simp only [Bool.false_eq_true, if_false]
        exact (fsck.mem_ServiceOrgUnitDirsList _ _).mpr ⟨s, hs', ou, hou', hacc, rfl⟩
  · intro d hd hne
    exact filepath.Join_absPath elems hne helems [d] (by
      intro e he
      rw [List.mem_singleton] at he
      rw [he]
      exact hd)

theorem planned_service_links_resolve_witness :
    (∀ l ∈ S1.ouTree.OrgUnitServiceLinksList,
      l.IsSymlink = true ∧
      ∃ ou ∈ [S1.alice, S1.emFacility], ∃ s ∈ [S1.mic1],
        l.Path = filepath.Join ["/fs/org", ou.Name, s.Name] ∧
        ∃ d : fsck.Entry, d.IsSymlink = false ∧
          d.Path = filepath.resolveLink l.Path l.LinkDest ∧
          if fsck.serviceIsOfFacility ou s then d ∈ S1.srvTree.ServiceDirsList
          else d ∈ S1.srvTree.ServiceOrgUnitDirsList) ∧
    filepath.resolveLink "/fs/org/alice/mic1" "../../srv/mic1/alice" = "/fs/srv/mic1/alice" ∧
    filepath.resolveLink "/fs/org/em-facility/mic1" "../../srv/mic1" = "/fs/srv/mic1" :=
  ⟨(planned_service_links_resolve ["fs"] "srv" "org" [S1.mic1] [S1.alice, S1.emFacility]
      S1.filter (by decide) (by decide) (by decide) (by decide) (by decide)).1,
    rfl, rfl⟩

/-! ## `quota.Parse` and the lines that the scanner cannot hold -/

namespace bufio

theorem utf8Len_replicate_x (n : Nat) : utf8Len (List.replicate n 'x') = n := by
  induction n with
  | zero => rfl
  | succ n ih =>
    have hx : Char.utf8Size 'x' = 1 := by decide
    simp only [utf8Len, List.replicate_succ, List.map_cons, List.sum_cons, hx] at ih ⊢
    omega

theorem fits_replicate_x (n : Nat) (h : 65536 ≤ n) : fits (List.replicate n 'x') = false := by
  simp only [fits, utf8Len_replicate_x, MaxScanTokenSize, decide_eq_false_iff_not]
  omega

theorem newline_not_mem_replicate_x (n : Nat) : '\n' ∉ List.replicate n 'x' := by
  intro h
  have := List.eq_of_mem_replicate h
  exact absurd this (by decide)

/-- A text that is one line too long for the buffer gives no token. -/
theorem scanLines_long (long : List Char) (hn : '\n' ∉ long) (hl : fits long = false) :
    scanLines (String.mk long) = [] := by
  have hs : splitOnChar '\n' long = [long] := splitOnChar_of_not_mem _ _ hn
  have hne : long ≠ [] := by
    intro h
    rw [h] at hl
    exact absurd hl (by decide)
  simp [scanLines, linePieces, hs, hne, List.takeWhile, hl]

/-- The scan ends before a line that is too long for the buffer. -/
theorem scanLines_before_long (a long r : List Char) (ha : '\n' ∉ a) (hn : '\n' ∉ long)
    (hfa : fits a = true) (hl : fits long = false) :
    scanLines (String.mk (a ++ '\n' :: (long ++ '\n' :: r))) = [String.mk (dropCR a)] := by
  have hs : splitOnChar '\n' (a ++ '\n' :: (long ++ '\n' :: r)) =
      a :: long :: splitOnChar '\n' r := by
    rw [splitOnChar_append_sep _ _ _ ha, splitOnChar_append_sep _ _ _ hn]
  obtain ⟨x, xs, hx⟩ : ∃ x xs, splitOnChar '\n' r = x :: xs := by
    cases h : splitOnChar '\n' r with
    | nil => exact absurd h (splitOnChar_ne_nil _ _)
    | cons x xs => exact ⟨x, xs, rfl⟩
  simp only [scanLines, linePieces, hs, hx]
  split
  · simp [List.dropLast, List.takeWhile, hfa, hl]
  · simp [List.takeWhile, hfa, hl]

end bufio

/-- A text that is one line too long for the buffer leaves the error
`ErrTooLong` in the scanner. -/
theorem bufio.scanErr_long (long : List Char) (hn : '\n' ∉ long)
    (hl : bufio.fits long = false) :
    bufio.scanErr (String.mk long) = some "bufio.Scanner: token too long" := by
  have hs : splitOnChar '\n' long = [long] := splitOnChar_of_not_mem _ _ hn
  have hne : long ≠ [] := by
    intro h
    rw [h] at hl
    exact absurd hl (by decide)
  simp [bufio.scanErr, bufio.linePieces, hs, hne, hl]

theorem strings.fieldsLoop_replicate_x (n : Nat) (cur : List Char) (h : cur ≠ []) :
    (strings.fieldsLoop (List.replicate n 'x') cur).length = 1 := by
  induction n generalizing cur with
  | zero => simp [strings.fieldsLoop, h]
  | succ n ih =>
    have hx : isSpace 'x' = false := by decide
    rw [List.replicate_succ, strings.fieldsLoop]
    simp only [hx, Bool.false_eq_true, if_false]
    exact ih _ (List.cons_ne_nil _ _)

/-- C34 (code): `quota.Parse` returns what it has parsed when the scanner
stops at a line of 65536 bytes, because it does not read the error of the
scanner: the text of one such line, which has one field, gives no quota and
no error; the lines that follow such a line are not read, neither a valid one
nor one with a wrong number of fields; the same line of one character and the
cases of the tests of the package are parsed as the tests say. -/
theorem Parse_stops_at_long_line :
    quota.Parse (String.mk Examples.longLine) = Except.ok [] ∧
    bufio.scanErr (String.mk Examples.longLine) = some "bufio.Scanner: token too long" ∧
    (String.mk Examples.longLine ≠ "" ∧ HasPrefix (String.mk Examples.longLine) "#" = false ∧
      (strings.Fields (String.mk Examples.longLine)).length = 1) ∧
    quota.Parse (String.mk ("alice 1 2 3 4".data ++ '\n' ::
        (Examples.longLine ++ '\n' :: "bob 5 6 7 8\n".data))) =
      Except.ok [⟨"alice", 1, 2, 3, 4⟩] ∧
    quota.Parse (String.mk ("alice 1 2 3 4".data ++ '\n' ::
        (Examples.longLine ++ '\n' :: "bob 5 6\n".data))) =
      Except.ok [⟨"alice", 1, 2, 3, 4⟩] ∧
    quota.Parse "alice 1 2 3 4\nx\nbob 5 6 7 8\n" =
      Except.error (quota.ParseError.wrongNumberOfFields 2) ∧
    quota.Parse "alice 1 2 3 4\nbob 5 6 7 8\n" =
      Except.ok [⟨"alice", 1, 2, 3, 4⟩, ⟨"bob", 5, 6, 7, 8⟩] ∧
    quota.Parse "\n\n# comment\n    # ignored indented comment\n" =
      Except.error (quota.ParseError.wrongNumberOfFields 4) ∧
    quota.Parse "a\n" = Except.error (quota.ParseError.wrongNumberOfFields 1) ∧
    quota.Parse "a -2 3 4 5\n" = Except.error
      (quota.ParseError.invalidField 1 2 ⟨"ParseUint", "-2", strconv.NumErr.ErrSyntax⟩) := by
  have hn := bufio.newline_not_mem_replicate_x 65536
  have hl := bufio.fits_replicate_x 65536 (le_refl _)
  have hx : Examples.longLine = 'x' :: List.replicate 65535 'x' := by
    show List.replicate (65535 + 1) 'x' = _
    rw [List.replicate_succ]
  refine ⟨?_, ?_, ⟨?_, ?_, ?_⟩, ?_, ?_, rfl, rfl, rfl, rfl, rfl⟩
  · show quota.parseLoop (bufio.scanLines (String.mk (List.replicate 65536 'x'))) 0 [] = _
    rw [bufio.scanLines_long _ hn hl]
    rfl
  · exact bufio.scanErr_long _ hn hl
  · rw [hx]
    intro h
    exact List.cons_ne_nil _ _ (congrArg String.data h)
  · rw [hx]
    rfl
  · show (strings.fieldsLoop Examples.longLine []).length = 1
    rw [hx, strings.fieldsLoop]
    have hsp : isSpace 'x' = false := by decide
    simp only [hsp, Bool.false_eq_true, if_false]
    exact strings.fieldsLoop_replicate_x _ _ (List.cons_ne_nil _ _)
  · show quota.parseLoop (bufio.scanLines (String.mk ("alice 1 2 3 4".data ++ '\n' ::
        (List.replicate 65536 'x' ++ '\n' :: "bob 5 6 7 8\n".data)))) 0 [] = _
    rw [bufio.scanLines_before_long _ _ _ (by decide) hn (by decide) hl]
    rfl
  · show quota.parseLoop (bufio.scanLines (String.mk ("alice 1 2 3 4".data ++ '\n' ::
        (List.replicate 65536 'x' ++ '\n' :: "bob 5 6\n".data)))) 0 [] = _
    rw [bufio.scanLines_before_long _ _ _ (by decide) hn (by decide) hl]
    rfl

/-! ## Substrings, and the decimal form of a number -/

namespace strings

theorem containsData_of_not_mem (sub s : List Char) (c : Char) (hc : c ∈ sub) (hs : c ∉ s) :
    containsData sub s = false := by
  induction s with
  | nil =>
    cases sub with
    | nil => simp at hc
    | cons x xs => rfl
  | cons x xs ih =>
    have hxs : c ∉ xs := fun h => hs (List.mem_cons_of_mem _ h)
    have hp : sub.isPrefixOf (x :: xs) = false := by
      cases h : sub.isPrefixOf (x :: xs) with
      | false => rfl
      | true =>
        have := (List.isPrefixOf_iff_prefix.mp h).subset hc
        exact absurd this hs
    simp only [containsData, hp, ih hxs, Bool.or_self]

/-- A substring whose first character occurs once in the text can only stand
at that place. -/
theorem containsData_unique (g : Char) (sub pre post : List Char)
    (hpre : g ∉ pre) (hpost : g ∉ post) :
    containsData (g :: sub) (pre ++ g :: post) = sub.isPrefixOf post := by
  induction pre with
  | nil =>
    have h2 := containsData_of_not_mem (g :: sub) post g (List.mem_cons_self _ _) hpost
    simp [containsData, h2, List.isPrefixOf]
  | cons x xs ih =>
    have hx : ¬ g = x := fun h => hpre (by rw [h]; exact List.mem_cons_self _ _)
    have hxs : g ∉ xs := fun h => hpre (List.mem_cons_of_mem _ h)
    simp [containsData, List.isPrefixOf, hx, ih hxs]

/-- Two fields that end at the same separator are equal when the one is a
prefix of the other. -/
theorem isPrefixOf_terminated (t : Char) (A D P : List Char) (hA : t ∉ A) (hD : t ∉ D) :
    (A ++ [t]).isPrefixOf (D ++ t :: P) = decide (A = D) := by
  induction A generalizing D with
  | nil =>
    cases D with
    | nil => simp [List.isPrefixOf]
    | cons d ds =>
      have hd : ¬ t = d := fun h => hD (by rw [h]; exact List.mem_cons_self _ _)
      simp [List.isPrefixOf, hd]
  | cons a as ih =>
    have ha : ¬ a = t := fun h => hA (by rw [h]; exact List.mem_cons_self _ _)
    have has : t ∉ as := fun h => hA (List.mem_cons_of_mem _ h)
    cases D with
    | nil => simp [List.isPrefixOf, ha]
    | cons d ds =>
      have hds : t ∉ ds := fun h => hD (List.mem_cons_of_mem _ h)
      have := ih ds has hds
      simp only [List.cons_append, List.isPrefixOf, this]
      by_cases hade : a = d
      · subst hade
        by_cases hasds : as = ds
        · simp [hasds, this]
        · simp [hasds, this]
      · simp [hade]

end strings

theorem digitChar_val (k : Nat) (h : k < 10) : (Nat.digitChar k).toNat - 48 = k := by
  interval_cases k <;> rfl

theorem toDigitsCore_val (fuel : Nat) : ∀ (n : Nat) (ds : List Char), n < fuel →
    (Nat.toDigitsCore 10 fuel n ds).foldl (fun acc c => acc * 10 + (c.toNat - 48)) 0 =
      ds.foldl (fun acc c => acc * 10 + (c.toNat - 48)) n := by
  induction fuel with
  | zero => intro n ds h; omega
  | succ fuel ih =>
    intro n ds h
    unfold Nat.toDigitsCore
    simp only
    split
    · rename_i h0
      simp only [List.foldl_cons, Nat.zero_mul, Nat.zero_add]
      rw [digitChar_val _ (Nat.mod_lt _ (by decide))]
      have : n % 10 = n := by omega
      rw [this]
    · rename_i h0
      rw [ih (n / 10) _ (by omega)]
      simp only [List.foldl_cons]
      rw [digitChar_val _ (Nat.mod_lt _ (by decide))]
      have : n / 10 * 10 + n % 10 = n := by omega
      rw [this]

theorem toDigits_injective (m n : Nat) (h : Nat.toDigits 10 m = Nat.toDigits 10 n) : m = n := by
  have hm := toDigitsCore_val (m + 1) m [] (by omega)
  have hn := toDigitsCore_val (n + 1) n [] (by omega)
  simp only [List.foldl_nil] at hm hn
  rw [← hm, ← hn]
  show (Nat.toDigits 10 m).foldl _ 0 = (Nat.toDigits 10 n).foldl _ 0
  rw [h]

/-- Different numbers have different decimal forms. -/
theorem fmtInt_injective (a b : Int) (h : fmtInt a = fmtInt b) : a = b := by
  have hd : ∀ m : Nat, ∀ cs, Nat.toDigits 10 m ≠ '-' :: cs := by
    intro m cs hm
    have := toDigits_chars m '-' (by rw [hm]; exact List.mem_cons_self _ _)
    exact absurd this (by decide)
  cases a with
  | ofNat m =>
    cases b with
    | ofNat n =>
      have := toDigits_injective m n (congrArg String.data h)
      rw [this]
    | negSucc n => exact absurd (congrArg String.data h) (hd _ _)
  | negSucc m =>
    cases b with
    | ofNat n => exact absurd (congrArg String.data h).symm (hd _ _)
    | negSucc n =>
      have h1 : '-' :: Nat.toDigits 10 (m + 1) = '-' :: Nat.toDigits 10 (n + 1) :=
        congrArg String.data h
      simp only [List.cons.injEq, true_and] at h1
      have := toDigits_injective _ _ h1
      have : m = n := by omega
      rw [this]

/-! ## The filter of `CheckACLs` on the lines of a getfacl text -/

namespace fsck

/-- The characters of the numeric id of an entry. -/
theorem qualifier_chars (q : Option Nat) :
    ∀ c ∈ (qualifierText q).data, c.isDigit = true := by
  intro c hc
  cases q with
  | none => exact absurd hc (List.not_mem_nil _)
  | some n => exact toDigits_chars n c hc

theorem entry_data (dflt : Bool) (tag : FaclTag) (q : Option Nat) (perms : String) :
    (FaclLine.render (FaclLine.entry dflt tag q perms)).data =
      (defaultText dflt).data ++ (tag.text.data ++ ':' ::
        ((qualifierText q).data ++ ':' :: perms.data)) := by
  simp only [FaclLine.render, String.data_append, List.append_assoc]
  rfl

theorem permChar_ne (c : Char) (h : isPermChar c = true) :
    c ≠ '#' ∧ c ≠ 'g' ∧ c ≠ ':' ∧ c ≠ '\n' := by
  simp only [isPermChar, Bool.or_eq_true, decide_eq_true_eq] at h
  rcases h with ((h | h) | h) | h <;> subst h <;> decide

theorem digit_ne (c : Char) (h : c.isDigit = true) :
    c ≠ '#' ∧ c ≠ 'g' ∧ c ≠ ':' ∧ c ≠ '\n' ∧ c ≠ '-' := by
  refine ⟨?_, ?_, ?_, ?_, ?_⟩ <;> intro hc <;> rw [hc] at h <;> exact absurd h (by decide)

theorem default_chars (dflt : Bool) (c : Char)
    (hc : c ∈ (defaultText dflt).data) : c ≠ '#' ∧ c ≠ 'g' ∧ c ≠ '\n' := by
  cases dflt with
  | false => exact absurd hc (List.not_mem_nil _)
  | true =>
    have : c ∈ ['d', 'e', 'f', 'a', 'u', 'l', 't', ':'] := hc
    simp only [List.mem_cons, List.mem_singleton, List.not_mem_nil, or_false] at this
    rcases this with h | h | h | h | h | h | h | h <;> subst h <;> decide

theorem tag_chars (tag : FaclTag) (c : Char) (hc : c ∈ tag.text.data) :
    c ≠ '#' ∧ c ≠ '\n' ∧ (tag ≠ FaclTag.group → c ≠ 'g') := by
  cases tag with
  | user =>
    have : c ∈ ['u', 's', 'e', 'r'] := hc
    simp only [List.mem_cons, List.mem_singleton, List.not_mem_nil, or_false] at this
    rcases this with h | h | h | h <;> subst h <;> decide
  | group =>
    have : c ∈ ['g', 'r', 'o', 'u', 'p'] := hc
    simp only [List.mem_cons, List.mem_singleton, List.not_mem_nil, or_false] at this
    rcases this with h | h | h | h | h <;> subst h <;> simp
  | mask =>
    have : c ∈ ['m', 'a', 's', 'k'] := hc
    simp only [List.mem_cons, List.mem_singleton, List.not_mem_nil, or_false] at this
    rcases this with h | h | h | h <;> subst h <;> decide
  | other =>
    have : c ∈ ['o', 't', 'h', 'e', 'r'] := hc
    simp only [List.mem_cons, List.mem_singleton, List.not_mem_nil, or_false] at this
    rcases this with h | h | h | h | h <;> subst h <;> decide

/-- A character of an entry line is one of its prefix, tag, id or permission
field, or a colon. -/
theorem entry_mem (dflt : Bool) (tag : FaclTag) (q : Option Nat) (perms : String) (c : Char)
    (hc : c ∈ (FaclLine.render (FaclLine.entry dflt tag q perms)).data) :
    c ∈ (defaultText dflt).data ∨ c ∈ tag.text.data ∨ c = ':' ∨
      c ∈ (qualifierText q).data ∨ c ∈ perms.data := by
  rw [entry_data] at hc
  simp only [List.mem_append, List.mem_cons] at hc
  rcases hc with h | h | h | h | h | h
  · exact Or.inl h
  · exact Or.inr (Or.inl h)
  · exact Or.inr (Or.inr (Or.inl h))
  · exact Or.inr (Or.inr (Or.inr (Or.inl h)))
  · exact Or.inr (Or.inr (Or.inl h))
  · exact Or.inr (Or.inr (Or.inr (Or.inr h)))

theorem entry_no_hash_newline (dflt : Bool) (tag : FaclTag) (q : Option Nat) (perms : String)
    (hw : perms.data.all isPermChar = true) (c : Char)
    (hc : c ∈ (FaclLine.render (FaclLine.entry dflt tag q perms)).data) :
    c ≠ '#' ∧ c ≠ '\n' := by
  rw [List.all_eq_true] at hw
  rcases entry_mem dflt tag q perms c hc with h | h | h | h | h
  · exact ⟨(default_chars dflt c h).1, (default_chars dflt c h).2.2⟩
  · exact ⟨(tag_chars tag c h).1, (tag_chars tag c h).2.1⟩
  · subst h; decide
  · have := digit_ne c (qualifier_chars q c h)
    exact ⟨this.1, this.2.2.2.1⟩
  · have := permChar_ne c (hw c h)
    exact ⟨this.1, this.2.2.2⟩

end fsck

namespace fsck

/-- In a group entry a text that starts with `group:` can only stand at the
tag. -/
theorem group_contains (dflt : Bool) (q : Option Nat) (perms : String)
    (hw : perms.data.all isPermChar = true) (sub : List Char) :
    strings.containsData ('g' :: 'r' :: 'o' :: 'u' :: 'p' :: ':' :: sub)
        (FaclLine.render (FaclLine.entry dflt FaclTag.group q perms)).data =
      sub.isPrefixOf ((qualifierText q).data ++ ':' :: perms.data) := by
  rw [List.all_eq_true] at hw
  rw [entry_data]
  show strings.containsData _ ((defaultText dflt).data ++
    'g' :: ('r' :: 'o' :: 'u' :: 'p' :: ':' ::
      ((qualifierText q).data ++ ':' :: perms.data))) = _
  rw [strings.containsData_unique]
  · simp [List.isPrefixOf]
  · intro h
    exact (default_chars dflt _ h).2.1 rfl
  · intro h
    simp only [List.mem_cons, List.mem_append] at h
    rcases h with h | h | h | h | h | h | h | h
    · exact absurd h (by decide)
    · exact absurd h (by decide)
    · exact absurd h (by decide)
    · exact absurd h (by decide)
    · exact absurd h (by decide)
    · exact (digit_ne _ (qualifier_chars q _ h)).2.1 rfl
    · exact absurd h (by decide)
    · exact (permChar_ne _ (hw _ h)).2.1 rfl

/-- A line without the letter `g` contains no text that starts with it. -/
theorem other_tag_contains (dflt : Bool) (tag : FaclTag) (q : Option Nat) (perms : String)
    (hw : perms.data.all isPermChar = true) (ht : tag ≠ FaclTag.group) (sub : List Char) :
    strings.containsData ('g' :: sub)
        (FaclLine.render (FaclLine.entry dflt tag q perms)).data = false := by
  rw [List.all_eq_true] at hw
  apply strings.containsData_of_not_mem _ _ 'g' (List.mem_cons_self _ _)
  intro h
  rcases entry_mem dflt tag q perms _ h with h | h | h | h | h
  · exact (default_chars dflt _ h).2.1 rfl
  · exact (tag_chars tag _ h).2.2 ht rfl
  · exact absurd h (by decide)
  · exact (digit_ne _ (qualifier_chars q _ h)).2.1 rfl
  · exact (permChar_ne _ (hw _ h)).2.1 rfl

theorem entry_no_header (dflt : Bool) (tag : FaclTag) (q : Option Nat) (perms : String)
    (hw : perms.data.all isPermChar = true) :
    strings.Contains (FaclLine.render (FaclLine.entry dflt tag q perms)) "# " = false := by
  apply strings.containsData_of_not_mem _ _ '#' (List.mem_cons_self _ _)
  intro h
  exact (entry_no_hash_newline dflt tag q perms hw _ h).1 rfl

/-- The loop over the gids on a named group entry. -/
theorem loop_group_entry (dflt : Bool) (n : Nat) (perms : String)
    (hw : perms.data.all isPermChar = true) (gids : List Int) :
    isOtherNamedGroupEntryLoop
        (FaclLine.render (FaclLine.entry dflt FaclTag.group (some n) perms)) gids =
      !gids.contains (Int.ofNat n) := by
  induction gids with
  | nil => rfl
  | cons gid rest ih =>
    have hc : strings.Contains
        (FaclLine.render (FaclLine.entry dflt FaclTag.group (some n) perms))
        ("group:" ++ fmtInt gid ++ ":") = decide (gid = Int.ofNat n) := by
      have hd : ("group:" ++ fmtInt gid ++ ":").data =
          'g' :: 'r' :: 'o' :: 'u' :: 'p' :: ':' :: ((fmtInt gid).data ++ [':']) := by
        simp only [String.data_append]
        rfl
      unfold strings.Contains
      rw [hd, group_contains dflt (some n) perms hw, strings.isPrefixOf_terminated]
      · by_cases hg : gid = Int.ofNat n
        · subst hg
          simp [qualifierText]
        · have : (fmtInt gid).data ≠ (qualifierText (some n)).data := by
            intro h
            exact hg (fmtInt_injective _ _ (String.ext h))
          simp only [Int.ofNat_eq_coe] at hg
          simp [this, hg]
      · intro h
        rcases (fmtInt_chars gid).2 _ h with h1 | h1
        · exact absurd h1 (by decide)
        · exact absurd h1 (by decide)
      · intro h
        exact (digit_ne _ (qualifier_chars (some n) _ h)).2.2.1 rfl
    rw [isOtherNamedGroupEntryLoop, hc, ih]
    by_cases hg : gid = (n : Int)
    · simp [hg]
    · have hg2 : ¬ (n : Int) = gid := fun h => hg h.symm
      simp [hg, hg2, List.contains_cons]

/-- The filter of the code removes a line of a getfacl text exactly if the
line is a named group entry of a gid that is not in the list. -/
theorem isOther_render (l : FaclLine) (hw : l.WellFormed = true) (gids : List Int) :
    isOtherNamedGroupEntry l.render gids = l.isOtherNamedGroup gids := by
  cases l with
  | header text =>
    have : strings.Contains (FaclLine.render (FaclLine.header text)) "# " = true := by
      simp [strings.Contains, FaclLine.render, String.data_append, strings.containsData,
        List.isPrefixOf]
    simp [isOtherNamedGroupEntry, isNamedGroupEntry, this, FaclLine.isOtherNamedGroup]
  | blank =>
    have : isNamedGroupEntry "" = false := by decide
    simp [isOtherNamedGroupEntry, FaclLine.render, this, FaclLine.isOtherNamedGroup]
  | entry dflt tag q perms =>
    have hw2 : perms.data.all isPermChar = true := hw
    have hh := entry_no_header dflt tag q perms hw2
    by_cases ht : tag = FaclTag.group
    · subst ht
      cases q with
      | none =>
        have h1 : strings.Contains
            (FaclLine.render (FaclLine.entry dflt FaclTag.group none perms)) "group::" = true := by
          unfold strings.Contains
          show strings.containsData ('g' :: 'r' :: 'o' :: 'u' :: 'p' :: ':' :: [':']) _ = _
          rw [group_contains dflt none perms hw2]
          simp [qualifierText, List.isPrefixOf]
        simp [isOtherNamedGroupEntry, isNamedGroupEntry, hh, h1, FaclLine.isOtherNamedGroup]
      | some n =>
        have h1 : strings.Contains
            (FaclLine.render (FaclLine.entry dflt FaclTag.group (some n) perms)) "group::" =
              false := by
          unfold strings.Contains
          show strings.containsData ('g' :: 'r' :: 'o' :: 'u' :: 'p' :: ':' :: [':']) _ = _
          rw [group_contains dflt (some n) perms hw2]
          obtain ⟨c, cs, hcs, hne⟩ := fmtInt_head (Int.ofNat n)
          show List.isPrefixOf [':'] ((fmtInt (Int.ofNat n)).data ++ ':' :: perms.data) = false
          rw [hcs]
          have : ¬ ':' = c := fun h => hne h.symm
          simp [List.isPrefixOf, this]
        have h2 : strings.Contains
            (FaclLine.render (FaclLine.entry dflt FaclTag.group (some n) perms)) "group:" =
              true := by
          unfold strings.Contains
          show strings.containsData ('g' :: 'r' :: 'o' :: 'u' :: 'p' :: ':' :: []) _ = _
          rw [group_contains dflt (some n) perms hw2]
          cases (qualifierText (some n)).data ++ ':' :: perms.data <;> rfl
        simp only [isOtherNamedGroupEntry, isNamedGroupEntry, hh, h1, h2,
          FaclLine.isOtherNamedGroup, Bool.false_eq_true, if_false, Bool.not_true]
        exact loop_group_entry dflt n perms hw2 gids
    · have h2 : strings.Contains
          (FaclLine.render (FaclLine.entry dflt tag q perms)) "group:" = false :=
        other_tag_contains dflt tag q perms hw2 ht _
      have h3 : FaclLine.isOtherNamedGroup gids (FaclLine.entry dflt tag q perms) = false := by
        cases tag with
        | group => exact absurd rfl ht
        | user => rfl
        | mask => rfl
        | other => rfl
      simp [isOtherNamedGroupEntry, isNamedGroupEntry, hh, h2, h3]

end fsck

namespace fsck

theorem render_noNewline (l : FaclLine) (hw : l.WellFormed = true) : '\n' ∉ l.render.data := by
  cases l with
  | header text =>
    have ht : noNewline text = true := hw
    simp only [noNewline, Bool.not_eq_true', List.contains_eq_any_beq, List.any_eq_false,
      beq_iff_eq] at ht
    intro h
    simp only [FaclLine.render, String.data_append, List.mem_append] at h
    rcases h with h | h
    · exact absurd h (by decide)
    · exact ht _ h rfl
  | blank => exact List.not_mem_nil _
  | entry dflt tag q perms =>
    intro h
    exact (entry_no_hash_newline dflt tag q perms hw _ h).2 rfl

/-- The lines of a text of lines without a newline. -/
theorem Split_Join_lines (xs : List String) (hne : xs ≠ []) (h : ∀ x ∈ xs, '\n' ∉ x.data) :
    strings.Split (Join xs "\n") '\n' = xs := by
  unfold strings.Split
  rw [Join_data]
  have hsep : ("\n" : String).data = ['\n'] := rfl
  rw [hsep, splitOnChar_joinData '\n' (xs.map String.data) (by simpa using hne)]
  · rw [List.map_map]
    have : (String.mk ∘ String.data) = id := by
      funext s
      rfl
    rw [this, List.map_id]
  · intro l hl
    obtain ⟨x, hx, rfl⟩ := List.mem_map.mp hl
    exact h x hx

theorem reject_empty (gids : List Int) : rejectOtherNamedGroupEntries "" gids = "" := by
  have h1 : strings.Split "" '\n' = [""] := by decide
  have h2 : isNamedGroupEntry "" = false := by decide
  simp only [rejectOtherNamedGroupEntries, h1, List.filter, isOtherNamedGroupEntry, h2,
    Bool.not_false, if_true]
  rfl

/-- Filtering a filtered text changes nothing. -/
theorem reject_idem (text : String) (gids : List Int) :
    rejectOtherNamedGroupEntries (rejectOtherNamedGroupEntries text gids) gids =
      rejectOtherNamedGroupEntries text gids := by
  by_cases hk : (strings.Split text '\n').filter
      (fun line => !isOtherNamedGroupEntry line gids) = []
  · have : rejectOtherNamedGroupEntries text gids = "" := by
      unfold rejectOtherNamedGroupEntries
      rw [hk]
      rfl
    rw [this, reject_empty]
  · have hno : ∀ x ∈ (strings.Split text '\n').filter
        (fun line => !isOtherNamedGroupEntry line gids), '\n' ∉ x.data := by
      intro x hx
      have hx2 := (List.mem_filter.mp hx).1
      obtain ⟨l, hl, rfl⟩ := List.mem_map.mp hx2
      exact filepath.splitOnChar_no_sep _ _ l hl
    conv_lhs => unfold rejectOtherNamedGroupEntries
    rw [show rejectOtherNamedGroupEntries text gids = Join ((strings.Split text '\n').filter
      (fun line => !isOtherNamedGroupEntry line gids)) "\n" from rfl]
    rw [Split_Join_lines _ hk hno, List.filter_filter]
    simp only [Bool.and_self]

/-- The filter on a text of lines in numeric format. -/
theorem reject_render (ls : List FaclLine) (gids : List Int)
    (hw : ∀ l ∈ ls, l.WellFormed = true) :
    rejectOtherNamedGroupEntries (renderFacl ls) gids =
      renderFacl (ls.filter (fun l => !l.isOtherNamedGroup gids)) := by
  cases hls : ls with
  | nil => exact reject_empty gids
  | cons a rest =>
    rw [← hls]
    unfold rejectOtherNamedGroupEntries renderFacl
    rw [Split_Join_lines (ls.map FaclLine.render) (by simp [hls])]
    · rw [List.filter_map]
      congr 2
      apply List.filter_congr
      intro l hl
      simp only [Function.comp]
      rw [isOther_render l (hw l hl)]
    · intro x hx
      obtain ⟨l, hl, rfl⟩ := List.mem_map.mp hx
      exact render_noNewline l (hw l hl)

end fsck

/-- C33: on a getfacl text in numeric format, `rejectOtherNamedGroupEntries`
returns the lines in their order without exactly the named group entries,
normal or default, whose gid is not in the list; header lines, empty lines,
user, mask and other entries, the anonymous group entries and the named group
entries of listed gids are kept unchanged; with gids `[10]` the entry
`group:10:r-x` is kept and `group:110:r-x` is removed; and on every text,
applying the function twice gives the same as applying it once. -/
theorem rejectOtherNamedGroupEntries_spec (ls : List fsck.FaclLine) (gids : List Int)
    (hw : ∀ l ∈ ls, l.WellFormed = true) :
    fsck.rejectOtherNamedGroupEntries (fsck.renderFacl ls) gids =
      fsck.renderFacl (ls.filter (fun l => !l.isOtherNamedGroup gids)) ∧
    (∀ l : fsck.FaclLine, l.isOtherNamedGroup gids = true ↔
      ∃ dflt n perms, l = fsck.FaclLine.entry dflt fsck.FaclTag.group (some n) perms ∧
        Int.ofNat n ∉ gids) ∧
    fsck.rejectOtherNamedGroupEntries "user::rwx\ngroup:10:r-x\ngroup:110:r-x\nother::---"
      [10] = "user::rwx\ngroup:10:r-x\nother::---" ∧
    (∀ text : String,
      fsck.rejectOtherNamedGroupEntries (fsck.rejectOtherNamedGroupEntries text gids) gids =
        fsck.rejectOtherNamedGroupEntries text gids) := by
  refine ⟨fsck.reject_render ls gids hw, ?_, by decide, fun text => fsck.reject_idem text gids⟩
  intro l
  constructor
  · intro h
    cases l with
    | header text => exact absurd h (by simp [fsck.FaclLine.isOtherNamedGroup])
    | blank => exact absurd h (by simp [fsck.FaclLine.isOtherNamedGroup])
    | entry dflt tag q perms =>
      cases tag with
      | group =>
        cases q with
        | none => exact absurd h (by simp [fsck.FaclLine.isOtherNamedGroup])
        | some n =>
          refine ⟨dflt, n, perms, rfl, ?_⟩
          simpa [fsck.FaclLine.isOtherNamedGroup] using h
      | user => exact absurd h (by simp [fsck.FaclLine.isOtherNamedGroup])
      | mask => exact absurd h (by simp [fsck.FaclLine.isOtherNamedGroup])
      | other => exact absurd h (by simp [fsck.FaclLine.isOtherNamedGroup])
  · rintro ⟨dflt, n, perms, rfl, hn⟩
    simpa [fsck.FaclLine.isOtherNamedGroup] using hn

theorem rejectOtherNamedGroupEntries_spec_witness :
    fsck.rejectOtherNamedGroupEntries
        "# file: /x\nuser::rwx\ngroup::r-x\ngroup:10:r-x\ngroup:110:r-x\ndefault:group:110:rwx\n"
        [10] =
      "# file: /x\nuser::rwx\ngroup::r-x\ngroup:10:r-x\n" :=
  (rejectOtherNamedGroupEntries_spec
    [fsck.FaclLine.header "file: /x",
     fsck.FaclLine.entry false fsck.FaclTag.user none "rwx",
     fsck.FaclLine.entry false fsck.FaclTag.group none "r-x",
     fsck.FaclLine.entry false fsck.FaclTag.group (some 10) "r-x",
     fsck.FaclLine.entry false fsck.FaclTag.group (some 110) "r-x",
     fsck.FaclLine.entry true fsck.FaclTag.group (some 110) "rwx",
     fsck.FaclLine.blank] [10] (by decide)).1

/-! ## A leftover entry of the service or super group on a service directory of an org unit -/

namespace strings

theorem containsData_mid (sub pre post : List Char) :
    containsData sub (pre ++ (sub ++ post)) = true := by
  induction pre with
  | nil =>
    cases hsp : sub ++ post with
    | nil =>
      have : sub = [] := (List.append_eq_nil.mp hsp).1
      rw [this]
      rfl
    | cons c cs =>
      have hp : sub.isPrefixOf (c :: cs) = true := by
        rw [← hsp]
        exact List.isPrefixOf_iff_prefix.mpr (List.prefix_append _ _)
      simp [containsData, hp]
  | cons x xs ih =>
    show (sub.isPrefixOf (x :: (xs ++ (sub ++ post))) ||
      containsData sub (xs ++ (sub ++ post))) = true
    rw [ih, Bool.or_true]

/-- Equal lines have equal first fields. -/
theorem field_eq_of_terminated (t : Char) (A D P Q : List Char) (hA : t ∉ A) (hD : t ∉ D)
    (h : A ++ t :: P = D ++ t :: Q) : A = D := by
  have h1 := isPrefixOf_terminated t A D Q hA hD
  have h2 : (A ++ [t]).isPrefixOf (D ++ t :: Q) = true := by
    rw [← h]
    apply List.isPrefixOf_iff_prefix.mpr
    exact ⟨P, by simp⟩
  rw [h2] at h1
  exact of_decide_eq_true h1.symm

end strings

namespace fsck

theorem expectedFacl_Join (path b : String) (rest : List String) :
    expectedFacl path (Join (b :: rest) "\n") =
      Join (("# file: " ++ path) :: b :: rest) "\n" := by
  apply String.ext
  simp only [expectedFacl, String.data_append, Join_data, List.map_cons, joinData,
    List.append_assoc]

theorem sortInts_pair (x y : Int) :
    ((sortInts [x, y]).getD 0 0 = x ∨ (sortInts [x, y]).getD 0 0 = y) ∧
    ((sortInts [x, y]).getD 1 0 = x ∨ (sortInts [x, y]).getD 1 0 = y) := by
  by_cases h : x ≤ y
  · simp [sortInts, List.insertionSort, List.orderedInsert, h]
  · simp [sortInts, List.insertionSort, List.orderedInsert, h]

/-- The lines of the expected ACL text of a service directory of an org
unit. -/
theorem ServiceOrgUnitACL_text (a : ServiceOrgUnitACL) :
    ∃ g0 g1 : Int, (g0 = a.OrgUnitGid ∨ g0 = a.ServiceOpsGid) ∧
      (g1 = a.OrgUnitGid ∨ g1 = a.ServiceOpsGid) ∧
      a.FACLString = Join
        [ "# owner: " ++ fmtInt a.Uid,
          "# group: " ++ fmtInt a.OrgUnitGid,
          "# flags: -s-",
          "user::rwx",
          "group::---",
          "group:" ++ fmtInt g0 ++ ":rwx",
          "group:" ++ fmtInt g1 ++ ":rwx",
          "mask::rwx",
          "other::---",
          "default:user::rwx",
          "default:group::---",
          "default:group:" ++ fmtInt g0 ++ ":rwx",
          "default:group:" ++ fmtInt g1 ++ ":rwx",
          "default:mask::rwx",
          "default:other::---" ] "\n" := by
  refine ⟨(sortInts [a.OrgUnitGid, a.ServiceOpsGid]).getD 0 0,
    (sortInts [a.OrgUnitGid, a.ServiceOpsGid]).getD 1 0, (sortInts_pair _ _).1,
    (sortInts_pair _ _).2, ?_⟩
  unfold ServiceOrgUnitACL.FACLString
  simp only
  generalize (sortInts [a.OrgUnitGid, a.ServiceOpsGid]).getD 0 0 = g0
  generalize (sortInts [a.OrgUnitGid, a.ServiceOpsGid]).getD 1 0 = g1
  have hc : ("# owner: " ++ fmtInt a.Uid).data.head? = some '#' := by
    rw [String.data_append]; rfl
  exact (aclLines_template
    [ "# owner: " ++ fmtInt a.Uid,
      "# group: " ++ fmtInt a.OrgUnitGid,
      "# flags: -s-",
      "user::rwx",
      "group::---",
      "group:" ++ fmtInt g0 ++ ":rwx",
      "group:" ++ fmtInt g1 ++ ":rwx",
      "mask::rwx",
      "other::---",
      "default:user::rwx",
      "default:group::---",
      "default:group:" ++ fmtInt g0 ++ ":rwx",
      "default:group:" ++ fmtInt g1 ++ ":rwx",
      "default:mask::rwx",
      "default:other::---" ]
    ("# owner: " ++ fmtInt a.Uid) "default:other::---" '#' '-' rfl rfl hc
    (by decide) (by decide) (by decide)
    (by simp only [List.all_cons, List.all_nil, closedLines_noNewline,
          headerLines_noNewline, namedGroupLine_rwx, namedGroupLine_rx, Bool.and_self])).1

theorem loop_false_of_contains (l : String) (gids : List Int) (gid : Int) (hg : gid ∈ gids)
    (hc : strings.Contains l ("group:" ++ fmtInt gid ++ ":") = true) :
    isOtherNamedGroupEntryLoop l gids = false := by
  induction gids with
  | nil => exact absurd hg (List.not_mem_nil _)
  | cons x xs ih =>
    rw [isOtherNamedGroupEntryLoop]
    by_cases hx : strings.Contains l ("group:" ++ fmtInt x ++ ":") = true
    · simp [hx]
    · rcases List.mem_cons.mp hg with h | h
      · rw [h] at hc
        exact absurd hc hx
      · simp only [hx, Bool.false_eq_true, if_false]
        exact ih h

/-- An entry of a gid of the list is not removed. -/
theorem leftover_kept (pre : String) (gid : Int) (perms : String) (gids : List Int)
    (hg : gid ∈ gids) :
    isOtherNamedGroupEntry (pre ++ "group:" ++ fmtInt gid ++ ":" ++ perms) gids = false := by
  have hc : strings.Contains (pre ++ "group:" ++ fmtInt gid ++ ":" ++ perms)
      ("group:" ++ fmtInt gid ++ ":") = true := by
    unfold strings.Contains
    simp only [String.data_append, List.append_assoc]
    have := strings.containsData_mid
      (("group:" : String).data ++ ((fmtInt gid).data ++ (":" : String).data)) pre.data perms.data
    simpa only [List.append_assoc] using this
  unfold isOtherNamedGroupEntry
  split
  · rfl
  · exact loop_false_of_contains _ gids gid hg hc

end fsck

namespace fsck

theorem fmtInt_no_colon (g : Int) : ':' ∉ (fmtInt g).data := by
  intro h
  rcases (fmtInt_chars g).2 _ h with h1 | h1
  · exact absurd h1 (by decide)
  · exact absurd h1 (by decide)

/-- A named group entry of a gid is none of the lines of the expected text of
a `ServiceOrgUnitACL` with other gids. -/
theorem leftover_not_expected (dflt : Bool) (gid : Int) (perms path : String)
    (uid ou g0 g1 : Int) (h0 : gid ≠ g0) (h1 : gid ≠ g1) :
    (defaultText dflt ++ "group:" ++ fmtInt gid ++ ":" ++ perms) ∉
      [ "# file: " ++ path,
        "# owner: " ++ fmtInt uid,
        "# group: " ++ fmtInt ou,
        "# flags: -s-",
        "user::rwx",
        "group::---",
        "group:" ++ fmtInt g0 ++ ":rwx",
        "group:" ++ fmtInt g1 ++ ":rwx",
        "mask::rwx",
        "other::---",
        "default:user::rwx",
        "default:group::---",
        "default:group:" ++ fmtInt g0 ++ ":rwx",
        "default:group:" ++ fmtInt g1 ++ ":rwx",
        "default:mask::rwx",
        "default:other::---" ] := by
  obtain ⟨c, cs, hcs, hne⟩ := fmtInt_head gid
  have hnamed : ∀ g : Int, ∀ m : List Char,
      (fmtInt gid).data ++ ':' :: perms.data = (fmtInt g).data ++ ':' :: m → gid = g := by
    intro g m h
    exact fmtInt_injective _ _ (String.ext
      (strings.field_eq_of_terminated ':' _ _ _ _ (fmtInt_no_colon gid) (fmtInt_no_colon g) h))
  have hanon : ∀ m : List Char, (fmtInt gid).data ++ ':' :: perms.data ≠ ':' :: m := by
    intro m h
    rw [hcs] at h
    exact hne (List.cons.inj h).1
  intro hmem
  simp only [List.mem_cons, List.mem_singleton, List.not_mem_nil, or_false] at hmem
  cases dflt with
  | false =>
    have hL : ∀ s : String, (defaultText false ++ "group:" ++ fmtInt gid ++ ":" ++ perms) = s →
        'g' :: 'r' :: 'o' :: 'u' :: 'p' :: ':' :: ((fmtInt gid).data ++ ':' :: perms.data) =
          s.data := by
      intro s hs
      rw [← hs]
      simp only [String.data_append, List.append_assoc]
      rfl
    rcases hmem with h | h | h | h | h | h | h | h | h | h | h | h | h | h | h | h
    · have hd := hL _ h
      simp only [String.data_append] at hd
      exact absurd (show some 'g' = some '#' from congrArg List.head? hd) (by decide)
    · have hd := hL _ h
      simp only [String.data_append] at hd
      exact absurd (show some 'g' = some '#' from congrArg List.head? hd) (by decide)
    · have hd := hL _ h
      simp only [String.data_append] at hd
      exact absurd (show some 'g' = some '#' from congrArg List.head? hd) (by decide)
    · exact absurd (show some 'g' = some '#' from congrArg List.head? (hL _ h)) (by decide)
    · exact absurd (show some 'g' = some 'u' from congrArg List.head? (hL _ h)) (by decide)
    · exact hanon _ (congrArg (List.drop 6) (hL _ h))
    · have hd := hL _ h
      simp only [String.data_append, List.append_assoc] at hd
      exact h0 (hnamed g0 _ (congrArg (List.drop 6) hd))
    · have hd := hL _ h
      simp only [String.data_append, List.append_assoc] at hd
      exact h1 (hnamed g1 _ (congrArg (List.drop 6) hd))
    · exact absurd (show some 'g' = some 'm' from congrArg List.head? (hL _ h)) (by decide)
    · exact absurd (show some 'g' = some 'o' from congrArg List.head? (hL _ h)) (by decide)
    · exact absurd (show some 'g' = some 'd' from congrArg List.head? (hL _ h)) (by decide)
    · exact absurd (show some 'g' = some 'd' from congrArg List.head? (hL _ h)) (by decide)
    · have hd := hL _ h
      simp only [String.data_append] at hd
      exact absurd (show some 'g' = some 'd' from congrArg List.head? hd) (by decide)
    · have hd := hL _ h
      simp only [String.data_append] at hd
      exact absurd (show some 'g' = some 'd' from congrArg List.head? hd) (by decide)
    · exact absurd (show some 'g' = some 'd' from congrArg List.head? (hL _ h)) (by decide)
    · exact absurd (show some 'g' = some 'd' from congrArg List.head? (hL _ h)) (by decide)
  | true =>
    have hL : ∀ s : String, (defaultText true ++ "group:" ++ fmtInt gid ++ ":" ++ perms) = s →
        'd' :: 'e' :: 'f' :: 'a' :: 'u' :: 'l' :: 't' :: ':' ::
          'g' :: 'r' :: 'o' :: 'u' :: 'p' :: ':' :: ((fmtInt gid).data ++ ':' :: perms.data) =
          s.data := by
      intro s hs
      rw [← hs]
      simp only [String.data_append, List.append_assoc]
      rfl
    rcases hmem with h | h | h | h | h | h | h | h | h | h | h | h | h | h | h | h
    · have hd := hL _ h
      simp only [String.data_append] at hd
      exact absurd (show some 'd' = some '#' from congrArg List.head? hd) (by decide)
    · have hd := hL _ h
      simp only [String.data_append] at hd
      exact absurd (show some 'd' = some '#' from congrArg List.head? hd) (by decide)
    · have hd := hL _ h
      simp only [String.data_append] at hd
      exact absurd (show some 'd' = some '#' from congrArg List.head? hd) (by decide)
    · exact absurd (show some 'd' = some '#' from congrArg List.head? (hL _ h)) (by decide)
    · exact absurd (show some 'd' = some 'u' from congrArg List.head? (hL _ h)) (by decide)
    · exact absurd (show some 'd' = some 'g' from congrArg List.head? (hL _ h)) (by decide)
    · have hd := hL _ h
      simp only [String.data_append] at hd
      exact absurd (show some 'd' = some 'g' from congrArg List.head? hd) (by decide)
    · have hd := hL _ h
      simp only [String.data_append] at hd
      exact absurd (show some 'd' = some 'g' from congrArg List.head? hd) (by decide)
    · exact absurd (show some 'd' = some 'm' from congrArg List.head? (hL _ h)) (by decide)
    · exact absurd (show some 'd' = some 'o' from congrArg List.head? (hL _ h)) (by decide)
    · exact absurd (show some 'g' = some 'u' from
        congrArg (fun l => List.head? (List.drop 8 l)) (hL _ h)) (by decide)
    · exact hanon _ (congrArg (List.drop 14) (hL _ h))
    · have hd := hL _ h
      simp only [String.data_append, List.append_assoc] at hd
      exact h0 (hnamed g0 _ (congrArg (List.drop 14) hd))
    · have hd := hL _ h
      simp only [String.data_append, List.append_assoc] at hd
      exact h1 (hnamed g1 _ (congrArg (List.drop 14) hd))
    · exact absurd (show some 'g' = some 'm' from
        congrArg (fun l => List.head? (List.drop 8 l)) (hL _ h)) (by decide)
    · exact absurd (show some 'g' = some 'o' from
        congrArg (fun l => List.head? (List.drop 8 l)) (hL _ h)) (by decide)

end fsck

theorem fsck.not_mem_of_noNewline (x : String) (h : fsck.noNewline x = true) :
    '\n' ∉ x.data := by
  simp only [fsck.noNewline, Bool.not_eq_true', List.contains_eq_any_beq, List.any_eq_false,
    beq_iff_eq] at h
  intro hm
  exact h _ hm rfl

/-- C35: for a `ServiceOrgUnitACL` whose service gid and super gid differ from
its org unit gid and ops gid, and a getfacl text of the directory (its first
line is `# file: <path>`) with a line that is a named group entry, normal or
default, of the service gid or of the super gid, the text filtered by
`rejectOtherNamedGroupEntries` with the `NamedGids` of the ACL differs from
the expected text of `CheckACLs`, `# file: <path>` followed by `FACLString`. -/
theorem leftover_service_entry_detected (a : fsck.ServiceOrgUnitACL) (path text : String)
    (gid : Int) (dflt : Bool) (perms : String)
    (hs : a.ServiceGid ≠ a.OrgUnitGid ∧ a.ServiceGid ≠ a.ServiceOpsGid)
    (hu : a.SuperGid ≠ a.OrgUnitGid ∧ a.SuperGid ≠ a.ServiceOpsGid)
    (hg : gid = a.ServiceGid ∨ gid = a.SuperGid)
    (hfile : (strings.Split text '\n').head? = some ("# file: " ++ path))
    (hline : (fsck.defaultText dflt ++ "group:" ++ fmtInt gid ++ ":" ++ perms) ∈
      strings.Split text '\n') :
    fsck.rejectOtherNamedGroupEntries text a.NamedGids ≠
      fsck.expectedFacl path a.FACLString := by
  have hgm : gid ∈ a.NamedGids := by
    rcases hg with h | h <;> rw [h] <;> simp [fsck.ServiceOrgUnitACL.NamedGids]
  have hgne : gid ≠ a.OrgUnitGid ∧ gid ≠ a.ServiceOpsGid := by
    rcases hg with h | h
    · rw [h]; exact hs
    · rw [h]; exact hu
  have hsplit : ∀ x ∈ strings.Split text '\n', '\n' ∉ x.data := by
    intro x hx
    obtain ⟨l, hl, rfl⟩ := List.mem_map.mp hx
    exact filepath.splitOnChar_no_sep _ _ l hl
  have hpath : '\n' ∉ path.data := by
    have hm : ("# file: " ++ path) ∈ strings.Split text '\n' := List.mem_of_mem_head? hfile
    intro h
    exact hsplit _ hm (by rw [String.data_append]; exact List.mem_append_right _ h)
  have hkept : (fsck.defaultText dflt ++ "group:" ++ fmtInt gid ++ ":" ++ perms) ∈
      (strings.Split text '\n').filter
        (fun line => !fsck.isOtherNamedGroupEntry line a.NamedGids) := by
    apply List.mem_filter.mpr
    refine ⟨hline, ?_⟩
    rw [fsck.leftover_kept _ _ _ _ hgm]
    rfl
  have hne : (strings.Split text '\n').filter
      (fun line => !fsck.isOtherNamedGroupEntry line a.NamedGids) ≠ [] :=
    List.ne_nil_of_mem hkept
  obtain ⟨g0, g1, hg0, hg1, htext⟩ := fsck.ServiceOrgUnitACL_text a
  have h0 : gid ≠ g0 := by
    rcases hg0 with h | h <;> rw [h]
    · exact hgne.1
    · exact hgne.2
  have h1 : gid ≠ g1 := by
    rcases hg1 with h | h <;> rw [h]
    · exact hgne.1
    · exact hgne.2
  intro heq
  rw [htext, fsck.expectedFacl_Join] at heq
  have hl := congrArg (fun t => strings.Split t '\n') heq
  simp only at hl
  rw [show fsck.rejectOtherNamedGroupEntries text a.NamedGids =
      Join ((strings.Split text '\n').filter
        (fun line => !fsck.isOtherNamedGroupEntry line a.NamedGids)) "\n" from rfl,
    fsck.Split_Join_lines _ hne (fun x hx => hsplit x (List.mem_filter.mp hx).1),
    fsck.Split_Join_lines _ (List.cons_ne_nil _ _)] at hl
  · rw [hl] at hkept
    exact fsck.leftover_not_expected dflt gid perms path a.Uid a.OrgUnitGid g0 g1 h0 h1 hkept
  · intro x hx
    simp only [List.mem_cons, List.mem_singleton, List.not_mem_nil, or_false] at hx
    have hc := fsck.closedLines_noNewline
    rcases hx with h | h | h | h | h | h | h | h | h | h | h | h | h | h | h | h <;> subst h
    · intro h
      rw [String.data_append] at h
      rcases List.mem_append.mp h with h | h
      · exact absurd h (by decide)
      · exact hpath h
    · exact fsck.not_mem_of_noNewline _ (fsck.headerLines_noNewline _).1
    · exact fsck.not_mem_of_noNewline _ (fsck.headerLines_noNewline _).2
    · exact fsck.not_mem_of_noNewline _ (by decide)
    · exact fsck.not_mem_of_noNewline _ (by decide)
    · exact fsck.not_mem_of_noNewline _ (by decide)
    · exact fsck.not_mem_of_noNewline _ (fsck.namedGroupLine_rwx _).1.1
    · exact fsck.not_mem_of_noNewline _ (fsck.namedGroupLine_rwx _).1.1
    · exact fsck.not_mem_of_noNewline _ (by decide)
    · exact fsck.not_mem_of_noNewline _ (by decide)
    · exact fsck.not_mem_of_noNewline _ (by decide)
    · exact fsck.not_mem_of_noNewline _ (by decide)
    · exact fsck.not_mem_of_noNewline _ (fsck.namedGroupLine_rwx _).2.1
    · exact fsck.not_mem_of_noNewline _ (fsck.namedGroupLine_rwx _).2.1
    · exact fsck.not_mem_of_noNewline _ (by decide)
    · exact fsck.not_mem_of_noNewline _ (by decide)

theorem leftover_service_entry_detected_witness :
    fsck.rejectOtherNamedGroupEntries
        "# file: /srv/em/alice\n# owner: 0\nuser::rwx\ngroup::---\ngroup:1001:rwx\ngroup:2000:r-x\ngroup:2001:rwx\nmask::rwx\nother::---"
        [1001, 2000, 2001, 3000] ≠
      fsck.expectedFacl "/srv/em/alice" (fsck.ServiceOrgUnitACL.FACLString
        { Uid := 0, OrgUnitGid := 1001, ServiceOpsGid := 2001, ServiceGid := 2000,
          SuperGid := 3000 }) :=
  leftover_service_entry_detected
    { Uid := 0, OrgUnitGid := 1001, ServiceOpsGid := 2001, ServiceGid := 2000,
      SuperGid := 3000 }
    "/srv/em/alice"
    "# file: /srv/em/alice\n# owner: 0\nuser::rwx\ngroup::---\ngroup:1001:rwx\ngroup:2000:r-x\ngroup:2001:rwx\nmask::rwx\nother::---"
    2000 false "r-x" (by decide) (by decide) (Or.inl rfl) (by decide) (by decide)

/-! ## Real shares and traversal entries of `Compile` -/

namespace bcpsharing

/-- The steps of a successful `Compile`. -/
theorem Compile_ok (E : bcpfilter.RegexpEngine) (cfg : bcpcfg.Root) (sharing : bcpcfg.Sharing)
    (res : Sharing) (h : Compile E cfg sharing = Result.ok res) :
    ∃ (imps : List (ImportRule E)) (exps : List ExportEntry),
      compileExports (NewBcpfs cfg) sharing.Exports = Except.ok exps ∧
      checkNoRealpathNesting (NewBcpfs cfg) exps = none ∧
      selectImportedExports exps imps = Result.ok res.Shares ∧
      compileRealShares (NewBcpfs cfg) res.Shares = Result.ok res.RealShares ∧
      compileTraversal (NewBcpfs cfg) res.Shares res.RealShares = Result.ok res.Traversal ∧
      res.Bcpfs = NewBcpfs cfg := by
  unfold Compile at h
  simp only at h
  split at h
  · cases h
  · rename_i imps himps
    split at h
    · cases h
    · rename_i exps hexps
      split at h
      · cases h
      · split at h
        · cases h
        · cases h
        · split at h
          · cases h
          · split at h
            · cases h
            · split at h
              · cases h
              · rename_i hnest
                split at h
                · cases h
                · cases h
                · rename_i shares hshares
                  split at h
                  · cases h
                  · cases h
                  · rename_i reals hreals
                    split at h
                    · cases h
                    · cases h
                    · rename_i travs htravs
                      injection h with h
                      subst h
                      exact ⟨imps, exps, hexps, hnest, hshares, hreals, htravs, rfl⟩

theorem compileExportsLoop_paths (fs : Bcpfs) (cfgs : List bcpcfg.SharingExport) (i : Int)
    (acc exps : List ExportEntry) (h : compileExportsLoop fs cfgs i acc = Except.ok exps) :
    ∀ e ∈ exps, e ∈ acc ∨ ∃ c ∈ cfgs, e.Path = strings.Trim c.Path '/' := by
  induction cfgs generalizing i acc with
  | nil =>
    simp only [compileExportsLoop] at h
    injection h with h
    subst h
    intro e he
    exact Or.inl he
  | cons c rest ih =>
    simp only [compileExportsLoop] at h
    split at h
    · cases h
    · split at h
      · cases h
      · intro e he
        rcases ih _ _ h e he with h1 | ⟨c', hc', hp⟩
        · rcases List.mem_append.mp h1 with h2 | h2
          · exact Or.inl h2
          · rw [List.mem_singleton] at h2
            exact Or.inr ⟨c, List.mem_cons_self _ _, by rw [h2]⟩
        · exact Or.inr ⟨c', List.mem_cons_of_mem _ hc', hp⟩

/-- The path of a compiled export is the configured path without leading and
trailing slashes. -/
theorem compileExports_paths (fs : Bcpfs) (cfgs : List bcpcfg.SharingExport)
    (exps : List ExportEntry) (h : compileExports fs cfgs = Except.ok exps) :
    ∀ e ∈ exps, ∃ c ∈ cfgs, e.Path = strings.Trim c.Path '/' := by
  intro e he
  rcases compileExportsLoop_paths fs cfgs 0 [] exps h e he with h1 | h1
  · cases h1
  · exact h1

theorem selectImportedExportsLoop_paths {E : bcpfilter.RegexpEngine}
    (imps : List (ImportRule E)) (exps sels out : List ExportEntry)
    (h : selectImportedExportsLoop imps exps sels = Result.ok out) :
    ∀ s ∈ out, s ∈ sels ∨ ∃ e ∈ exps, s.Path = e.Path := by
  induction exps generalizing sels with
  | nil =>
    simp only [selectImportedExportsLoop] at h
    injection h with h
    subst h
    intro s hs
    exact Or.inl hs
  | cons exp rest ih =>
    have hstep : ∀ acl sels', selectImportedExportsLoop imps rest
        (sels ++ [{ Path := exp.Path, Acl := acl, ManagingGroups := exp.ManagingGroups }]) =
          Result.ok out → sels' = sels →
        ∀ s ∈ out, s ∈ sels' ∨ ∃ e ∈ exp :: rest, s.Path = e.Path := by
      intro acl sels' h' hs' s hs
      subst hs'
      rcases ih _ h' s hs with h1 | ⟨e, he, hp⟩
      · rcases List.mem_append.mp h1 with h2 | h2
        · exact Or.inl h2
        · rw [List.mem_singleton] at h2
          exact Or.inr ⟨exp, List.mem_cons_self _ _, by rw [h2]⟩
      · exact Or.inr ⟨e, List.mem_cons_of_mem _ he, hp⟩
    unfold selectImportedExportsLoop at h
    split at h
    · exact hstep _ sels h rfl
    · split at h
      · cases h
      · cases h
      · split at h
        · exact hstep _ sels h rfl
        · intro s hs
          rcases ih _ h s hs with h1 | ⟨e, he, hp⟩
          · exact Or.inl h1
          · exact Or.inr ⟨e, List.mem_cons_of_mem _ he, hp⟩

/-- A share has the path of an export. -/
theorem selectImportedExports_paths {E : bcpfilter.RegexpEngine}
    (imps : List (ImportRule E)) (exps out : List ExportEntry)
    (h : selectImportedExports exps imps = Result.ok out) :
    ∀ s ∈ out, ∃ e ∈ exps, s.Path = e.Path := by
  intro s hs
  rcases selectImportedExportsLoop_paths imps exps [] out h s hs with h1 | h1
  · cases h1
  · exact h1

end bcpsharing

namespace bcpsharing

theorem isElem_no_slash (e : String) (h : filepath.isElem e = true) : '/' ∉ e.data :=
  ((filepath.isElem_iff e).mp h).2.1

theorem getD_mem_of_lt (l : List String) (i : Nat) (h : i < l.length) : l.getD i "" ∈ l := by
  rw [List.getD_eq_getElem _ _ h]
  exact List.getElem_mem _

/-- The real path of a logical path of two or more clean components: the org
unit dir followed by the components, or a path below the service dir. -/
theorem Realpath_clean (fs : Bcpfs) (hs : filepath.isElem fs.ServiceDir = true)
    (ho : filepath.isElem fs.OrgUnitDir = true) (p : String)
    (hp : cleanComponents p = true) (hlen : 2 ≤ (strings.Split p '/').length) :
    ∃ elems, (∀ e ∈ elems, filepath.isElem e = true) ∧
      strings.Split (fs.Realpath p) '/' = elems ∧
      (elems = fs.OrgUnitDir :: strings.Split p '/' ∨ elems.head? = some fs.ServiceDir) := by
  have hpe := (cleanComponents_iff p).mp hp
  have hsplit : ∀ l : List String, l ≠ [] → (∀ e ∈ l, filepath.isElem e = true) →
      strings.Split (filepath.joinElems l) '/' = l := by
    intro l hne hl
    exact filepath.Split_joinElems l hne (fun c hc => isElem_no_slash c (hl c hc))
  unfold Bcpfs.Realpath
  by_cases h1 : (!fs.IsServicePath p) = true
  · rw [if_pos h1]
    have hall : ∀ e ∈ fs.OrgUnitDir :: strings.Split p '/', filepath.isElem e = true := by
      intro e he
      rcases List.mem_cons.mp he with rfl | he
      · exact ho
      · exact hpe e he
    have hj := filepath.Join_pop [fs.OrgUnitDir] [] (strings.Split p '/') (by simp)
      (by
        intro e he
        rw [List.mem_singleton] at he
        rw [he]
        exact ho)
      (by simp) hpe (by simpa using Split_ne_nil p '/')
    simp only [List.append_nil, List.length_nil, List.replicate_zero, List.nil_append,
      filepath.joinElems_singleton, filepath.joinElems_Split, List.singleton_append] at hj
    refine ⟨fs.OrgUnitDir :: strings.Split p '/', hall, ?_, Or.inl rfl⟩
    unfold slashpath.Join
    rw [hj]
    exact hsplit _ (List.cons_ne_nil _ _) hall
  · rw [if_neg h1]
    simp only
    rw [if_neg (by omega)]
    by_cases h2 : fs.IsFacilityPath p = true
    · rw [if_pos h2]
      have hall : ∀ e ∈ fs.ServiceDir :: (strings.Split p '/').drop 1,
          filepath.isElem e = true := by
        intro e he
        rcases List.mem_cons.mp he with rfl | he
        · exact hs
        · exact hpe e (List.mem_of_mem_drop he)
      refine ⟨_, hall, ?_, Or.inr rfl⟩
      unfold slashpath.Join
      rw [filepath.Join_elems _ hall (List.cons_ne_nil _ _)]
      exact hsplit _ (List.cons_ne_nil _ _) hall
    · rw [if_neg h2]
      have hall : ∀ e ∈ [fs.ServiceDir, (strings.Split p '/').getD 1 "",
          (strings.Split p '/').getD 0 ""] ++ (strings.Split p '/').drop 2,
          filepath.isElem e = true := by
        intro e he
        rcases List.mem_append.mp he with he | he
        · simp only [List.mem_cons, List.mem_singleton, List.not_mem_nil, or_false] at he
          rcases he with rfl | rfl | rfl
          · exact hs
          · exact hpe _ (getD_mem_of_lt _ _ (by omega))
          · exact hpe _ (getD_mem_of_lt _ _ (by omega))
        · exact hpe e (List.mem_of_mem_drop he)
      refine ⟨_, hall, ?_, Or.inr rfl⟩
      unfold slashpath.Join
      rw [filepath.Join_elems _ hall (by simp)]
      exact hsplit _ (by simp) hall

end bcpsharing

namespace bcpsharing

/-- No real share has the path of a traversal entry when the exports have
paths of two or more clean components and pass `checkNoRealpathNesting`. -/
theorem realShares_traversal_disjoint (fs : Bcpfs)
    (hs : filepath.isElem fs.ServiceDir = true) (ho : filepath.isElem fs.OrgUnitDir = true)
    (hne : fs.ServiceDir ≠ fs.OrgUnitDir) (exps shares reals travs : List ExportEntry)
    (hexps : ∀ e ∈ exps, cleanComponents e.Path = true ∧ 2 ≤ (strings.Split e.Path '/').length)
    (hnest : checkNoRealpathNesting fs exps = none)
    (hshares : ∀ s ∈ shares, ∃ e ∈ exps, s.Path = e.Path)
    (hreals : compileRealShares fs shares = Result.ok reals)
    (htravs : compileTraversal fs shares reals = Result.ok travs) :
    ∀ r ∈ reals, ∀ t ∈ travs, r.Path ≠ t.Path := by
  obtain ⟨t0, m, hrun, -, -, hp, -⟩ := compileTraversal_inv fs shares reals
  rw [htravs] at hrun
  injection hrun with hrun
  subst hrun
  have hclean : ∀ e ∈ exps, cleanComponents (fs.Realpath e.Path) = true := by
    intro e he
    obtain ⟨elems, hall, hsp, -⟩ := Realpath_clean fs hs ho e.Path (hexps e he).1 (hexps e he).2
    rw [cleanComponents_iff, hsp]
    exact hall
  have hpair := (checkNoRealpathNesting_none_iff fs exps hclean).mp hnest
  have hsym : Symmetric (fun a b : List String =>
      properPrefix a b = false ∧ properPrefix b a = false) := fun a b h => ⟨h.2, h.1⟩
  -- a real share is the real path of an export
  have hreal : ∀ r ∈ reals, ∃ e ∈ exps, r.Path = fs.Realpath e.Path := by
    intro r hr
    obtain ⟨s, hs', hrp⟩ := compileRealShares_paths fs shares reals hreals r hr
    obtain ⟨e, he, hpe⟩ := hshares s hs'
    exact ⟨e, he, by rw [hrp, hpe]⟩
  intro r hr t ht heq
  obtain ⟨er, her, hrp⟩ := hreal r hr
  obtain ⟨elemsr, hallr, hspr, hshape⟩ :=
    Realpath_clean fs hs ho er.Path (hexps er her).1 (hexps er her).2
  obtain ⟨c, hc, hcp⟩ := (hp t.Path).mp (List.mem_map.mpr ⟨t, ht, rfl⟩)
  rcases (mem_traversalContribs fs shares reals c).mp hc with
    ⟨r2, hr2, i, h1, h2, rfl⟩ | ⟨s, hs', rfl⟩
  · obtain ⟨e2, he2, hrp2⟩ := hreal r2 hr2
    have hb : 2 ≤ traversalBegin fs r2 := by
      unfold traversalBegin
      split <;> omega
    have hsplit := traversal_prefix_split r2.Path (hrp2 ▸ Realpath_shape fs hs ho e2.Path) i
      (by omega) h2
    have heq : strings.Split (fs.Realpath er.Path) '/' =
        (strings.Split (fs.Realpath e2.Path) '/').take i := by
      rw [← hrp, heq, ← hcp, ← hrp2]
      exact hsplit
    have hpp : properPrefix (strings.Split (fs.Realpath er.Path) '/')
        (strings.Split (fs.Realpath e2.Path) '/') = true := by
      rw [heq]
      exact properPrefix_take _ i (by rw [← hrp2]; exact h2)
    have hneq : strings.Split (fs.Realpath er.Path) '/' ≠
        strings.Split (fs.Realpath e2.Path) '/' := ((properPrefix_iff _ _).mp hpp).2
    have := hpair.forall hsym
      (List.mem_map.mpr ⟨er, her, rfl⟩) (List.mem_map.mpr ⟨e2, he2, rfl⟩) hneq
    rw [hpp] at this
    exact absurd this.1 (by decide)
  · obtain ⟨e, he, hpe⟩ := hshares s hs'
    have hou : filepath.isElem ((strings.Split s.Path '/').getD 0 "") = true := by
      rw [hpe]
      exact (cleanComponents_iff e.Path).mp (hexps e he).1 _
        (getD_mem_of_lt _ _ (by have := (hexps e he).2; omega))
    have hall : ∀ x ∈ [fs.OrgUnitDir, (strings.Split s.Path '/').getD 0 ""],
        filepath.isElem x = true := by
      intro x hx
      rcases List.mem_cons.mp hx with rfl | hx
      · exact ho
      · rw [List.mem_singleton] at hx
        rw [hx]
        exact hou
    have ht2 : strings.Split t.Path '/' =
        [fs.OrgUnitDir, (strings.Split s.Path '/').getD 0 ""] := by
      rw [← hcp]
      show strings.Split (filepath.Join _) '/' = _
      rw [filepath.Join_elems _ hall (by simp)]
      exact filepath.Split_joinElems _ (by simp)
        (fun x hx => isElem_no_slash x (hall x hx))
    have hr2 : strings.Split r.Path '/' = elemsr := by rw [hrp]; exact hspr
    rw [heq, ht2] at hr2
    rcases hshape with h | h
    · have := congrArg List.length (hr2.trans h)
      simp only [List.length_cons, List.length_nil] at this
      have := (hexps er her).2
      omega
    · rw [← hr2] at h
      simp only [List.head?_cons, Option.some.injEq] at h
      exact hne h.symm

end bcpsharing

/-- C38 (counterexample): the configuration of scenario S1 with a sharing
section that exports the whole directory of the org unit `alice` to `bob`
(the export path `alice` has one component) compiles, and the path
`org/alice` is both a real share, with `bob` `r-x`, and a traversal entry,
with `bob` `--x`. The same holds for the export path `alice/.`, whose second
component is not clean. -/
theorem Compile_org_unit_dir_in_both :
    (∃ res, bcpsharing.Compile bcpfilter.literalEngine S1.cfg Examples.sharingWholeOrgUnit =
        Result.ok res ∧
      res.RealShares =
        [⟨"org/alice", [⟨"bob", "r-x"⟩], [⟨bcpsharing.GroupType.GroupTypeOu, "alice"⟩]⟩] ∧
      res.Traversal = [⟨"org/alice", [⟨"bob", "--x"⟩], []⟩] ∧
      "org/alice" ∈ res.RealShares.map (fun e => e.Path) ∧
      "org/alice" ∈ res.Traversal.map (fun e => e.Path)) ∧
    (∃ res, bcpsharing.Compile bcpfilter.literalEngine S1.cfg
        { NamingPolicies := [⟨"allow", "alice/."⟩]
          Exports := [⟨"alice/.", ["group:bob:r-x"]⟩]
          Imports := [⟨"accept", "bob", "alice/."⟩] } = Result.ok res ∧
      "org/alice" ∈ res.RealShares.map (fun e => e.Path) ∧
      "org/alice" ∈ res.Traversal.map (fun e => e.Path)) :=
  ⟨⟨_, rfl, rfl, rfl, by decide, by decide⟩, ⟨_, rfl, by decide, by decide⟩⟩

/-- C38 (amended): for every configuration whose service dir and org unit dir
are distinct single path components and whose export paths, without leading
and trailing slashes, consist of two or more clean components, if `Compile`
succeeds then no path occurs both in `RealShares` and in `Traversal`. -/
theorem Compile_realShares_traversal_disjoint (E : bcpfilter.RegexpEngine)
    (cfg : bcpcfg.Root) (sharing : bcpcfg.Sharing) (res : bcpsharing.Sharing)
    (hs : filepath.isElem cfg.ServiceDir = true) (ho : filepath.isElem cfg.OrgUnitDir = true)
    (hne : cfg.ServiceDir ≠ cfg.OrgUnitDir)
    (hpaths : ∀ c ∈ sharing.Exports,
      bcpsharing.cleanComponents (strings.Trim c.Path '/') = true ∧
        2 ≤ (strings.Split (strings.Trim c.Path '/') '/').length)
    (hc : bcpsharing.Compile E cfg sharing = Result.ok res) :
    ∀ p, p ∈ res.RealShares.map (fun e => e.Path) →
      p ∉ res.Traversal.map (fun e => e.Path) := by
  obtain ⟨imps, exps, hexps, hnest, hshares, hreals, htravs, -⟩ :=
    bcpsharing.Compile_ok E cfg sharing res hc
  have hclean : ∀ e ∈ exps, bcpsharing.cleanComponents e.Path = true ∧
      2 ≤ (strings.Split e.Path '/').length := by
    intro e he
    obtain ⟨c, hcm, hp⟩ := bcpsharing.compileExports_paths _ _ _ hexps e he
    rw [hp]
    exact hpaths c hcm
  have hd := bcpsharing.realShares_traversal_disjoint (bcpsharing.NewBcpfs cfg) hs ho hne
    exps res.Shares res.RealShares res.Traversal hclean hnest
    (bcpsharing.selectImportedExports_paths imps exps _ hshares) hreals htravs
  intro p hp hpt
  obtain ⟨r, hr, rfl⟩ := List.mem_map.mp hp
  obtain ⟨t, ht, hrt⟩ := List.mem_map.mp hpt
  exact hd r hr t ht hrt.symm

theorem Compile_realShares_traversal_disjoint_witness :
    ∃ res, bcpsharing.Compile bcpfilter.literalEngine S1.cfg Examples.sharingS5 =
        Result.ok res ∧
      res.RealShares = Examples.realSharesS5 ∧
      res.Traversal = Examples.traversalS5 ∧
      ∀ p, p ∈ res.RealShares.map (fun e => e.Path) →
        p ∉ res.Traversal.map (fun e => e.Path) :=
  ⟨_, rfl, rfl, rfl,
    Compile_realShares_traversal_disjoint bcpfilter.literalEngine S1.cfg Examples.sharingS5 _
      (by decide) (by decide) (by decide) (by decide) rfl⟩

/-! ### Cleaning a path that begins with any directory -/

namespace filepath

theorem goodStack_nil (rooted : Bool) : goodStack rooted [] :=
  ⟨fun y hy => absurd hy (List.not_mem_nil y), rfl⟩

/-- A step of `Clean` keeps the stack good. -/
theorem goodStack_step (rooted : Bool) (stack : List (List Char)) (comp : List Char)
    (h : goodStack rooted stack) (hc : '/' ∉ comp) :
    goodStack rooted (cleanStep rooted stack comp) := by
  obtain ⟨hel, hre⟩ := h
  unfold cleanStep
  by_cases h1 : comp = [] ∨ comp = ['.']
  · rw [if_pos h1]
    exact ⟨hel, hre⟩
  · rw [if_neg h1]
    have hc0 : comp ≠ [] := fun e => h1 (Or.inl e)
    have hc1 : comp ≠ ['.'] := fun e => h1 (Or.inr e)
    have hgood_push : comp ≠ ['.', '.'] ∨ (rooted = false ∧
        (stack = [] ∨ ∃ rest, stack = ['.', '.'] :: rest)) →
        goodStack rooted (comp :: stack) := by
      intro hcase
      refine ⟨?_, ?_⟩
      · intro y hy
        rcases List.mem_cons.mp hy with rfl | hy
        · exact ⟨hc0, hc, hc1⟩
        · exact hel y hy
      · rw [List.reverse_cons, List.foldl_append, hre]
        simp only [List.foldl_cons, List.foldl_nil]
        unfold cleanStep
        rw [if_neg h1]
        rcases hcase with h2 | ⟨hr, hs⟩
        · rw [if_neg h2]
        · by_cases h2 : comp = ['.', '.']
          · rw [if_pos h2]
            rcases hs with rfl | ⟨rest, rfl⟩
            · simp [hr]
            · simp [hr, h2]
          · rw [if_neg h2]
    by_cases h2 : comp = ['.', '.']
    · rw [if_pos h2]
      cases hst : stack with
      | nil =>
        cases rooted with
        | true => exact goodStack_nil true
        | false =>
          simp only [Bool.false_eq_true, if_false]
          have := hgood_push (Or.inr ⟨rfl, Or.inl hst⟩)
          rw [hst] at this
          exact this
      | cons top rest =>
        simp only
        by_cases h3 : top = ['.', '.']
        · rw [if_pos h3]
          cases rooted with
          | true =>
            simp only [if_true]
            rw [← hst]
            exact ⟨hel, hre⟩
          | false =>
            simp only [Bool.false_eq_true, if_false]
            have := hgood_push (Or.inr ⟨rfl, Or.inr ⟨rest, by rw [hst, h3]⟩⟩)
            rw [hst] at this
            exact this
        · rw [if_neg h3]
          have htop := hel top (by rw [hst]; exact List.mem_cons_self _ _)
          refine ⟨fun y hy => hel y (by rw [hst]; exact List.mem_cons_of_mem _ hy), ?_⟩
          rw [hst, List.reverse_cons, List.foldl_append] at hre
          simp only [List.foldl_cons, List.foldl_nil] at hre
          have hstep : cleanStep rooted (rest.reverse.foldl (cleanStep rooted) []) top =
              top :: rest.reverse.foldl (cleanStep rooted) [] := by
            unfold cleanStep
            rw [if_neg (by
              rintro (e | e)
              · exact htop.1 e
              · exact htop.2.2 e), if_neg h3]
          rw [hstep] at hre
          exact (List.cons.inj hre).2
    · rw [if_neg h2]
      exact hgood_push (Or.inl h2)

theorem goodStack_foldl (rooted : Bool) (comps : List (List Char)) (stack : List (List Char))
    (h : goodStack rooted stack) (hc : ∀ c ∈ comps, '/' ∉ c) :
    goodStack rooted (comps.foldl (cleanStep rooted) stack) := by
  induction comps generalizing stack with
  | nil => exact h
  | cons c rest ih =>
    rw [List.foldl_cons]
    exact ih _ (goodStack_step rooted stack c h (hc c (List.mem_cons_self _ _)))
      (fun x hx => hc x (List.mem_cons_of_mem _ hx))

/-- The stack of `Clean` on a path is good. -/
theorem goodStack_splitSlash (rooted : Bool) (path : List Char) :
    goodStack rooted ((splitSlash path).foldl (cleanStep rooted) []) :=
  goodStack_foldl rooted _ [] (goodStack_nil rooted)
    (fun c hc => splitOnChar_no_sep '/' _ c hc)

end filepath

namespace filepath

/-- Cleaning the path of a list of components: the components are cleaned one
by one. -/
theorem Clean_lead_joinData (r : Bool) (cs : List (List Char)) (hne : cs ≠ [])
    (hns : ∀ c ∈ cs, '/' ∉ c) (hhead : r = false → cs.head? ≠ some [])
    (hstack : cs.foldl (cleanStep r) [] ≠ []) :
    (Clean (String.mk (leadOf r ++ joinData ['/'] cs))).data =
      leadOf r ++ joinData ['/'] (cs.foldl (cleanStep r) []).reverse := by
  cases r with
  | true =>
    have hdata : (String.mk (leadOf true ++ joinData ['/'] cs)).data =
        '/' :: joinData ['/'] cs := rfl
    have hh : (String.mk (leadOf true ++ joinData ['/'] cs)).data.head? = some '/' := rfl
    have hsplit : splitSlash (String.mk (leadOf true ++ joinData ['/'] cs)).data =
        [] :: cs := by
      rw [hdata]
      unfold splitSlash
      rw [splitOnChar_sep_cons, splitOnChar_joinData '/' cs hne hns]
    have hfold : (splitSlash (String.mk (leadOf true ++ joinData ['/'] cs)).data).foldl
        (cleanStep true) [] = cs.foldl (cleanStep true) [] := by
      rw [hsplit, List.foldl_cons, cleanStep_empty]
    rw [Clean_data_nonempty _ (by rw [hdata]; exact List.cons_ne_nil _ _)]
    · rw [hh]
      simp only [decide_True, if_true, hfold]
      rfl
    · rw [hh]
      simp only [decide_True, hfold]
      exact hstack
  | false =>
    have hdata : (String.mk (leadOf false ++ joinData ['/'] cs)).data =
        joinData ['/'] cs := rfl
    obtain ⟨c0, rest, rfl⟩ : ∃ c0 rest, cs = c0 :: rest := by
      cases cs with
      | nil => exact absurd rfl hne
      | cons c0 rest => exact ⟨c0, rest, rfl⟩
    have hc0 : c0 ≠ [] := by
      intro h
      exact hhead rfl (by rw [h]; rfl)
    obtain ⟨x, xs, rfl⟩ : ∃ x xs, c0 = x :: xs := by
      cases c0 with
      | nil => exact absurd rfl hc0
      | cons x xs => exact ⟨x, xs, rfl⟩
    have hx : x ≠ '/' := by
      intro h
      exact hns (x :: xs) (List.mem_cons_self _ _) (by rw [h]; exact List.mem_cons_self _ _)
    have hh : (String.mk (leadOf false ++ joinData ['/'] ((x :: xs) :: rest))).data.head? ≠
        some '/' := by
      rw [hdata, joinData_cons]
      simpa using hx
    have hsplit : splitSlash
        (String.mk (leadOf false ++ joinData ['/'] ((x :: xs) :: rest))).data =
        (x :: xs) :: rest := by
      rw [hdata]
      unfold splitSlash
      exact splitOnChar_joinData '/' _ hne hns
    rw [Clean_data_nonempty _ (by rw [hdata, joinData_cons]; simp)]
    · simp only [hh, decide_False, if_false, hsplit]
      rfl
    · simp only [hh, decide_False, hsplit]
      exact hstack

/-- The join of a directory and clean elements: a lead and the cleaned
components of the directory, which do not depend on the elements, followed by
the elements. -/
theorem Join_cons_stack (D : String) :
    ∃ (r : Bool) (S : List (List Char)), goodStack r S ∧
      ∀ parts : List String, parts ≠ [] → (∀ c ∈ parts, isElem c = true) →
        (Join (D :: parts)).data =
          leadOf r ++ joinData ['/'] (S.reverse ++ parts.map String.data) := by
  by_cases hD : D = ""
  · refine ⟨false, [], goodStack_nil false, ?_⟩
    intro parts hne hall
    have e : Join (D :: parts) = Join parts := by
      have := Join_drop_empty [D] parts
      simpa [hD, List.dropWhile_cons] using this
    rw [e, Join_elems parts hall hne]
    rfl
  · have hxd : D.data ≠ [] := fun h => hD (String.ext h)
    refine ⟨decide (D.data.head? = some '/'),
      (splitSlash D.data).foldl (cleanStep (decide (D.data.head? = some '/'))) [],
      goodStack_splitSlash _ _, ?_⟩
    intro parts hne hall
    have hB : parts.map String.data ≠ [] := fun h => hne (List.map_eq_nil_iff.mp h)
    have hdata : (Bcpfs.Join (D :: parts) "/").data =
        D.data ++ '/' :: joinData ['/'] (parts.map String.data) := by
      rw [Join_data]
      have e2 : ("/" : String).data = ['/'] := rfl
      rw [e2, List.map_cons, joinData_cons]
      cases hp : parts.map String.data with
      | nil => exact absurd hp hB
      | cons a rest =>
        simp [joinData_cons]
    have hhead : (Bcpfs.Join (D :: parts) "/").data.head? = D.data.head? := by
      rw [hdata]
      cases hd : D.data with
      | nil => exact absurd hd hxd
      | cons c cs => rfl
    have hne0 : (Bcpfs.Join (D :: parts) "/").data ≠ [] := by
      rw [hdata]
      simp
    have hsplit : splitSlash (Bcpfs.Join (D :: parts) "/").data =
        splitSlash D.data ++ parts.map String.data := by
      rw [hdata]
      unfold splitSlash
      rw [splitOnChar_append, splitOnChar_joinData '/' _ hB]
      intro l hl
      obtain ⟨e, he, rfl⟩ := List.mem_map.mp hl
      exact ((isElem_iff e).mp (hall e he)).2.1
    have hfold : (splitSlash (Bcpfs.Join (D :: parts) "/").data).foldl
        (cleanStep (decide (D.data.head? = some '/'))) [] =
        (parts.map String.data).reverse ++
          (splitSlash D.data).foldl (cleanStep (decide (D.data.head? = some '/'))) [] := by
      rw [hsplit, List.foldl_append, foldl_cleanStep_elems _ parts hall]
    rw [Join_cons_ne D _ hD, Clean_data_nonempty _ hne0]
    · rw [hhead, hfold, List.reverse_append, List.reverse_reverse]
      unfold leadOf
      by_cases hr : D.data.head? = some '/'
      · simp [hr]
      · simp [hr]
    · rw [hhead, hfold]
      intro h
      exact hB (List.reverse_eq_nil_iff.mp (List.append_eq_nil.mp h).1)

end filepath

namespace filepath

theorem joinData_Split (p : String) :
    joinData ['/'] ((strings.Split p '/').map String.data) = p.data := by
  have := congrArg String.data (joinElems_Split p)
  exact this

/-- Joining a directory and a path is joining the directory and the
components of the path. -/
theorem Join_pair_split (D p : String) (hp : ∀ c ∈ strings.Split p '/', isElem c = true) :
    Join [D, p] = Join (D :: strings.Split p '/') := by
  obtain ⟨a, rest, hparts⟩ : ∃ a rest, strings.Split p '/' = a :: rest := by
    cases h : strings.Split p '/' with
    | nil => exact absurd h (bcpsharing.Split_ne_nil _ _)
    | cons a rest => exact ⟨a, rest, rfl⟩
  have ha : a ≠ "" := by
    intro h
    have := ((isElem_iff a).mp (hp a (by rw [hparts]; exact List.mem_cons_self _ _))).1
    rw [h] at this
    exact this rfl
  have hpne : p ≠ "" := by
    intro h
    rw [h] at hparts
    have : strings.Split "" '/' = [""] := rfl
    rw [this] at hparts
    exact ha (List.cons.inj hparts).1.symm
  have hjoin : ∀ pre : List String,
      Bcpfs.Join (pre ++ [p]) "/" = Bcpfs.Join (pre ++ strings.Split p '/') "/" := by
    intro pre
    apply String.ext
    rw [Join_data, Join_data]
    have e2 : ("/" : String).data = ['/'] := rfl
    rw [e2, List.map_append, List.map_append]
    cases hpre : pre.map String.data with
    | nil =>
      simp only [List.nil_append, List.map_cons, List.map_nil, joinData]
      exact (joinData_Split p).symm
    | cons x xs =>
      rw [joinData_append ['/'] _ _ (by simp) (by simp),
        joinData_append ['/'] _ _ (by simp) (by
          intro h
          exact bcpsharing.Split_ne_nil p '/' (List.map_eq_nil_iff.mp h)), joinData_Split]
      simp [joinData]
  by_cases hD : D = ""
  · have e1 : Join [D, p] = Join [p] := by
      have := Join_drop_empty [D] [p]
      simpa [hD, List.dropWhile_cons] using this
    have e2 : Join (D :: strings.Split p '/') = Join (strings.Split p '/') := by
      have := Join_drop_empty [D] (strings.Split p '/')
      simpa [hD, List.dropWhile_cons] using this
    rw [e1, e2, hparts, Join_cons_ne p [] hpne, Join_cons_ne a rest ha, ← hparts]
    exact congrArg Clean (hjoin [])
  · rw [Join_cons_ne D _ hD, Join_cons_ne D _ hD]
    exact congrArg Clean (hjoin [D])

end filepath

namespace filepath

theorem dropLast_component (A last : List Char) (h : '/' ∉ last) :
    ((A ++ '/' :: last).reverse.dropWhile (fun c => decide (c ≠ '/'))).reverse =
      A ++ ['/'] := by
  rw [List.reverse_append, List.reverse_cons, List.append_assoc,
    List.dropWhile_append_of_pos]
  · simp
  · intro c hc
    rw [List.mem_reverse] at hc
    simp only [ne_eq, decide_not, Bool.not_eq_true', decide_eq_false_iff_not]
    intro hcs
    exact h (hcs ▸ hc)

theorem head?_ne_nil_of_forall (X Z : List (List Char)) (hX : X ≠ [])
    (h : ∀ x ∈ X, x ≠ []) : (X ++ Z).head? ≠ some [] := by
  cases X with
  | nil => exact absurd rfl hX
  | cons x xs =>
    intro he
    simp only [List.cons_append, List.head?_cons, Option.some.injEq] at he
    exact h x (List.mem_cons_self _ _) he

end filepath

namespace bcpsharing

/-- The target of the link of a share, resolved against the directory of the
link in the tree of an org unit, for every org unit dir. -/
theorem resolve_share_link_any (fs : Bcpfs) (ou p : String)
    (hu : filepath.isElem ou = true) (hclean : cleanComponents p = true) :
    filepath.resolveLink (compileShareTrees_realpath fs ou (strings.Split p '/'))
        (slashpath.Join
          (List.replicate ((strings.Split p '/').length + 1) ".." ++ strings.Split p '/')) =
      slashpath.Join [fs.OrgUnitDir, p] := by
  have hall : ∀ c ∈ strings.Split p '/', filepath.isElem c = true :=
    List.all_eq_true.mp hclean
  rcases List.eq_nil_or_concat (strings.Split p '/') with hnil | ⟨init, last, hparts'⟩
  · exact absurd hnil (Split_ne_nil _ _)
  have hparts : strings.Split p '/' = init ++ [last] := by
    rw [hparts', List.concat_eq_append]
  have hinit : ∀ c ∈ init, filepath.isElem c = true := by
    intro c hc
    exact hall c (by rw [hparts]; exact List.mem_append_left _ hc)
  have hlast : filepath.isElem last = true :=
    hall last (by rw [hparts]; exact List.mem_append_right _ (List.mem_singleton_self _))
  have hlastns : '/' ∉ last.data := ((filepath.isElem_iff last).mp hlast).2.1
  have hshared : filepath.isElem "shared" = true := by decide
  have htop : ∀ e ∈ [ou, "shared"] ++ init, filepath.isElem e = true := by
    intro e he
    rcases List.mem_append.mp he with he | he
    · simp only [List.mem_cons, List.mem_singleton, List.not_mem_nil, or_false] at he
      rcases he with rfl | rfl
      · exact hu
      · exact hshared
    · exact hinit e he
  have hlen : (strings.Split p '/').length + 1 = ([ou, "shared"] ++ init).length := by
    rw [hparts]
    simp
  obtain ⟨r, S, hgood, hform⟩ := filepath.Join_cons_stack fs.OrgUnitDir
  have hSel : ∀ y ∈ S.reverse, y ≠ [] ∧ '/' ∉ y := by
    intro y hy
    have := hgood.1 y (List.mem_reverse.mp hy)
    exact ⟨this.1, this.2.1⟩
  have hrefold : S.reverse.foldl (filepath.cleanStep r) [] = S := hgood.2
  -- the components before the last one
  have hXel : ∀ x ∈ S.reverse ++ ([ou, "shared"] ++ init).map String.data,
      x ≠ [] ∧ '/' ∉ x := by
    intro x hx
    rcases List.mem_append.mp hx with hx | hx
    · exact hSel x hx
    · obtain ⟨e, he, rfl⟩ := List.mem_map.mp hx
      have := (filepath.isElem_iff e).mp (htop e he)
      exact ⟨this.1, this.2.1⟩
  have hXne : S.reverse ++ ([ou, "shared"] ++ init).map String.data ≠ [] := by simp
  have hfoldX : (S.reverse ++ ([ou, "shared"] ++ init).map String.data).foldl
      (filepath.cleanStep r) [] = (([ou, "shared"] ++ init).map String.data).reverse ++ S := by
    rw [List.foldl_append, hrefold, filepath.foldl_cleanStep_elems r _ htop]
  -- the link
  have hlink : (compileShareTrees_realpath fs ou (strings.Split p '/')).data =
      (filepath.leadOf r ++
        joinData ['/'] (S.reverse ++ ([ou, "shared"] ++ init).map String.data)) ++
        '/' :: last.data := by
    unfold compileShareTrees_realpath slashpath.Join
    rw [hparts]
    have h1 := hform (ou :: "shared" :: (init ++ [last])) (by simp) (by
      intro c hc
      rcases List.mem_cons.mp hc with rfl | hc
      · exact hu
      · rcases List.mem_cons.mp hc with rfl | hc
        · exact hshared
        · rcases List.mem_append.mp hc with hc | hc
          · exact hinit c hc
          · rw [List.mem_singleton] at hc
            rw [hc]
            exact hlast)
    have e1 : [fs.OrgUnitDir, ou, "shared"] ++ (init ++ [last]) =
        fs.OrgUnitDir :: ou :: "shared" :: (init ++ [last]) := rfl
    have e2 : S.reverse ++ (ou :: "shared" :: (init ++ [last])).map String.data =
        (S.reverse ++ ([ou, "shared"] ++ init).map String.data) ++ [last.data] := by simp
    rw [e1, h1, e2, filepath.joinData_append ['/'] _ _ hXne (by simp)]
    simp [joinData]
  -- the directory of the link
  have hdir : (filepath.Dir (compileShareTrees_realpath fs ou (strings.Split p '/'))).data =
      filepath.leadOf r ++
        joinData ['/'] (S.reverse ++ ([ou, "shared"] ++ init).map String.data) := by
    unfold filepath.Dir
    rw [hlink, filepath.dropLast_component _ _ hlastns]
    have e : (filepath.leadOf r ++
        joinData ['/'] (S.reverse ++ ([ou, "shared"] ++ init).map String.data)) ++ ['/'] =
        filepath.leadOf r ++ joinData ['/']
          ((S.reverse ++ ([ou, "shared"] ++ init).map String.data) ++ [[]]) := by
      rw [filepath.joinData_append ['/'] _ _ hXne (by simp)]
      simp [joinData]
    have hfold : ((S.reverse ++ ([ou, "shared"] ++ init).map String.data) ++ [[]]).foldl
        (filepath.cleanStep r) [] =
        (([ou, "shared"] ++ init).map String.data).reverse ++ S := by
      rw [List.foldl_append, hfoldX]
      simp [filepath.cleanStep_empty]
    rw [e, filepath.Clean_lead_joinData r _ (by simp)]
    · rw [hfold, List.reverse_append, List.reverse_reverse]
    · intro c hc
      rcases List.mem_append.mp hc with hc | hc
      · exact (hXel c hc).2
      · rw [List.mem_singleton] at hc
        rw [hc]
        exact List.not_mem_nil _
    · intro _
      exact filepath.head?_ne_nil_of_forall _ _ hXne (fun x hx => (hXel x hx).1)
    · rw [hfold]
      simp
  have hdirne : filepath.Dir (compileShareTrees_realpath fs ou (strings.Split p '/')) ≠ "" := by
    intro h
    have hd := hdir
    rw [h] at hd
    have hj : joinData ['/'] (S.reverse ++ ([ou, "shared"] ++ init).map String.data) ≠ [] := by
      cases hX : S.reverse ++ ([ou, "shared"] ++ init).map String.data with
      | nil => exact absurd hX hXne
      | cons x xs =>
        have hx := (hXel x (by rw [hX]; exact List.mem_cons_self _ _)).1
        rw [joinData_cons]
        intro hn
        exact hx (List.append_eq_nil.mp hn).1
    have : ("" : String).data = [] := rfl
    rw [this] at hd
    exact hj (List.append_eq_nil.mp hd.symm).2
  -- the target
  have htarget : slashpath.Join
      (List.replicate ((strings.Split p '/').length + 1) ".." ++ strings.Split p '/') =
      filepath.joinElems
        (List.replicate ([ou, "shared"] ++ init).length ".." ++ strings.Split p '/') := by
    rw [hlen]
    exact filepath.Join_dotdots_elems _ _ hall (by simp)
  have hdd : ("..".data) = ['.', '.'] := rfl
  have htdata : (filepath.joinElems
      (List.replicate ([ou, "shared"] ++ init).length ".." ++ strings.Split p '/')).data =
      joinData ['/'] (List.replicate ([ou, "shared"] ++ init).length ['.', '.'] ++
        (strings.Split p '/').map String.data) := by
    unfold filepath.joinElems
    simp only [List.map_append, List.map_replicate, hdd]
  -- the join of the directory and the target
  have hjoin : (Bcpfs.Join
      [filepath.Dir (compileShareTrees_realpath fs ou (strings.Split p '/')),
        filepath.joinElems
          (List.replicate ([ou, "shared"] ++ init).length ".." ++ strings.Split p '/')]
      "/") =
      String.mk (filepath.leadOf r ++ joinData ['/']
        ((S.reverse ++ ([ou, "shared"] ++ init).map String.data) ++
          (List.replicate ([ou, "shared"] ++ init).length ['.', '.'] ++
            (strings.Split p '/').map String.data))) := by
    apply String.ext
    rw [Join_data]
    have e2 : ("/" : String).data = ['/'] := rfl
    have hjd2 : ∀ a b : List Char, joinData ['/'] [a, b] = a ++ ['/'] ++ b := by
      intro a b
      simp [joinData]
    simp only [List.map_cons, List.map_nil, e2]
    rw [hjd2, hdir, htdata, filepath.joinData_append ['/'] _ _ hXne (by simp)]
    simp only [List.append_assoc]
  have hfold2 : ((S.reverse ++ ([ou, "shared"] ++ init).map String.data) ++
      (List.replicate ([ou, "shared"] ++ init).length ['.', '.'] ++
        (strings.Split p '/').map String.data)).foldl (filepath.cleanStep r) [] =
      ((strings.Split p '/').map String.data).reverse ++ S := by
    rw [List.foldl_append, hfoldX, List.foldl_append,
      filepath.foldl_cleanStep_pop r _ htop, filepath.foldl_cleanStep_elems r _ hall]
  have hpne : (strings.Split p '/').map String.data ≠ [] := fun h =>
    Split_ne_nil p '/' (List.map_eq_nil_iff.mp h)
  unfold filepath.resolveLink
  rw [htarget, filepath.Join_cons_ne _ _ hdirne, hjoin]
  apply String.ext
  rw [filepath.Clean_lead_joinData r _ (by simp)]
  · rw [hfold2, List.reverse_append, List.reverse_reverse]
    unfold slashpath.Join
    rw [filepath.Join_pair_split _ _ hall, hform _ (Split_ne_nil _ _) hall]
  · intro c hc
    rcases List.mem_append.mp hc with hc | hc
    · exact (hXel c hc).2
    · rcases List.mem_append.mp hc with hc | hc
      · rw [List.eq_of_mem_replicate hc]
        decide
      · obtain ⟨e, he, rfl⟩ := List.mem_map.mp hc
        exact ((filepath.isElem_iff e).mp (hall e he)).2.1
  · intro _
    exact filepath.head?_ne_nil_of_forall _ _ hXne (fun x hx => (hXel x hx).1)
  · rw [hfold2]
    intro h
    exact hpne (List.reverse_eq_nil_iff.mp (List.append_eq_nil.mp h).1)

end bcpsharing

/-! ### The group names that `parseAcl` returns -/

namespace regexp

theorem Matches_lit_data (cs t : List Char)
    (h : Rgx.Matches
      (cs.foldr (fun c r => Rgx.seq (Rgx.cls (fun x => decide (x = c))) r) Rgx.eps) t) :
    t = cs := by
  induction cs generalizing t with
  | nil => exact Matches_eps_inv t h
  | cons c rest ih =>
    simp only [List.foldr_cons] at h
    obtain ⟨s1, s2, rfl, h1, h2⟩ := Matches_seq_inv _ _ _ h
    obtain ⟨x, rfl, hx⟩ := Matches_cls_inv _ _ h1
    have hxc : x = c := by simpa using hx
    rw [hxc, ih s2 h2]
    rfl

theorem Matches_lit (s : String) (t : List Char) (h : Rgx.Matches (lit s) t) : t = s.data :=
  Matches_lit_data s.data t h

theorem Matches_star_cls (p : Char → Bool) (t : List Char)
    (h : Rgx.Matches (Rgx.star (Rgx.cls p)) t) : ∀ x ∈ t, p x = true := by
  generalize hr : Rgx.star (Rgx.cls p) = r at h
  induction h with
  | eps => cases hr
  | cls _ _ _ => cases hr
  | seq _ _ _ _ _ _ _ _ => cases hr
  | altL _ _ _ _ _ => cases hr
  | altR _ _ _ _ _ => cases hr
  | starNil a =>
    intro x hx
    cases hx
  | starCons a s t ha ht _ iht =>
    injection hr with hr
    subst hr
    obtain ⟨c, rfl, hc⟩ := Matches_cls_inv _ _ ha
    intro x hx
    rcases List.mem_append.mp hx with hx | hx
    · rw [List.mem_singleton] at hx
      rw [hx]
      exact hc
    · exact iht rfl x hx

end regexp

namespace bcpsharing

/-- A text that `rgxAce` matches: `group:`, a name of one or more of the
characters `a-z`, `0-9` and `-`, a colon and three mode characters. -/
theorem rgxAce_shape (s : List Char) (h : regexp.Rgx.Matches rgxAce s) :
    ∃ g a b c, s = ['g', 'r', 'o', 'u', 'p'] ++ ':' :: (g ++ ':' :: [a, b, c]) ∧ g ≠ [] ∧
      (∀ x ∈ g, ((decide ('a' ≤ x) && decide (x ≤ 'z')) ||
        (decide ('0' ≤ x) && decide (x ≤ '9')) || decide (x = '-')) = true) ∧
      (a = 'r' ∨ a = '-') ∧ (b = 'w' ∨ b = '-') ∧ (c = 'x' ∨ c = '-') := by
  have e : rgxAce =
      regexp.Rgx.seq (regexp.lit "group:")
        (regexp.Rgx.seq groupNameChar
          (regexp.Rgx.seq (regexp.Rgx.star groupNameChar)
            (regexp.Rgx.seq (regexp.lit ":")
              (regexp.Rgx.seq (regexp.oneOf "r-")
                (regexp.Rgx.seq (regexp.oneOf "w-")
                  (regexp.Rgx.seq (regexp.oneOf "x-") regexp.Rgx.eps)))))) := rfl
  rw [e] at h
  obtain ⟨s1, r1, rfl, h1, h⟩ := regexp.Matches_seq_inv _ _ _ h
  obtain ⟨s2, r2, rfl, h2, h⟩ := regexp.Matches_seq_inv _ _ _ h
  obtain ⟨s3, r3, rfl, h3, h⟩ := regexp.Matches_seq_inv _ _ _ h
  obtain ⟨s4, r4, rfl, h4, h⟩ := regexp.Matches_seq_inv _ _ _ h
  obtain ⟨s5, r5, rfl, h5, h⟩ := regexp.Matches_seq_inv _ _ _ h
  obtain ⟨s6, r6, rfl, h6, h⟩ := regexp.Matches_seq_inv _ _ _ h
  obtain ⟨s7, r7, rfl, h7, h⟩ := regexp.Matches_seq_inv _ _ _ h
  rw [regexp.Matches_eps_inv _ h]
  rw [regexp.Matches_lit _ _ h1, regexp.Matches_lit _ _ h4]
  obtain ⟨g0, rfl, hg0⟩ := regexp.Matches_cls_inv _ _ h2
  have hg := regexp.Matches_star_cls _ _ h3
  obtain ⟨a, rfl, ha⟩ := regexp.Matches_cls_inv _ _ h5
  obtain ⟨b, rfl, hb⟩ := regexp.Matches_cls_inv _ _ h6
  obtain ⟨c, rfl, hc⟩ := regexp.Matches_cls_inv _ _ h7
  refine ⟨[g0] ++ s3, a, b, c, ?_, by simp, ?_, ?_, ?_, ?_⟩
  · have e1 : ("group:" : String).data = ['g', 'r', 'o', 'u', 'p', ':'] := rfl
    have e2 : (":" : String).data = [':'] := rfl
    rw [e1, e2]
    simp
  · intro x hx
    rcases List.mem_append.mp hx with hx | hx
    · rw [List.mem_singleton] at hx
      rw [hx]
      exact hg0
    · exact hg x hx
  · simpa [regexp.oneOf] using ha
  · simpa [regexp.oneOf] using hb
  · simpa [regexp.oneOf] using hc

/-- The group name of an item that `rgxAce` matches is a single clean path
component. -/
theorem rgxAce_group_isElem (c : String) (h : rgxAce.MatchString c = true) :
    filepath.isElem ((strings.Split c ':').getD 1 "") = true := by
  obtain ⟨g, a, b, m, hs, hg0, hg, ha, hb, hm⟩ :=
    rgxAce_shape _ (regexp.Matches_of_MatchString _ _ h)
  have hnot : ∀ y : Char, ((decide ('a' ≤ y) && decide (y ≤ 'z')) ||
      (decide ('0' ≤ y) && decide (y ≤ '9')) || decide (y = '-')) = false → y ∉ g := by
    intro y hy hmem
    have := hg y hmem
    rw [hy] at this
    cases this
  have hcolon : ':' ∉ g := hnot ':' (by decide)
  have hslash : '/' ∉ g := hnot '/' (by decide)
  have hdot : '.' ∉ g := hnot '.' (by decide)
  have hmode : ':' ∉ [a, b, m] := by
    intro hmem
    simp only [List.mem_cons, List.mem_singleton, List.not_mem_nil, or_false] at hmem
    rcases hmem with h1 | h1 | h1
    · rcases ha with h2 | h2 <;> rw [h2] at h1 <;> exact absurd h1 (by decide)
    · rcases hb with h2 | h2 <;> rw [h2] at h1 <;> exact absurd h1 (by decide)
    · rcases hm with h2 | h2 <;> rw [h2] at h1 <;> exact absurd h1 (by decide)
  have hsplit : strings.Split c ':' =
      [String.mk ['g', 'r', 'o', 'u', 'p'], String.mk g, String.mk [a, b, m]] := by
    unfold strings.Split
    rw [hs, splitOnChar_append_sep ':' _ _ (by decide),
      splitOnChar_append_sep ':' _ _ hcolon, splitOnChar_of_not_mem ':' _ hmode]
    rfl
  rw [hsplit]
  show filepath.isElem (String.mk g) = true
  rw [filepath.isElem_iff]
  refine ⟨hg0, hslash, ?_, ?_⟩
  · intro h1
    have h2 : g = ['.'] := h1
    exact hdot (by rw [h2]; exact List.mem_cons_self _ _)
  · intro h1
    have h2 : g = ['.', '.'] := h1
    exact hdot (by rw [h2]; exact List.mem_cons_self _ _)

theorem parseAclLoop_groups (cfg : List String) (i : Int) (acc acl : List Ace)
    (h : parseAclLoop cfg i acc = Except.ok acl) :
    ∀ ace ∈ acl, ace ∈ acc ∨ filepath.isElem ace.Group = true := by
  induction cfg generalizing i acc with
  | nil =>
    simp only [parseAclLoop] at h
    injection h with h
    subst h
    intro ace hace
    exact Or.inl hace
  | cons c rest ih =>
    unfold parseAclLoop at h
    by_cases hm : rgxAce.MatchString c = true
    · simp only [hm, Bool.not_true, Bool.false_eq_true, if_false] at h
      intro ace hace
      rcases ih _ _ h ace hace with h1 | h1
      · rcases List.mem_append.mp h1 with h2 | h2
        · exact Or.inl h2
        · rw [List.mem_singleton] at h2
          rw [h2]
          exact Or.inr (rgxAce_group_isElem c hm)
      · exact Or.inr h1
    · simp [hm] at h

/-- The group names that `parseAcl` returns are single clean path
components. -/
theorem parseAcl_groups (cfg : List String) (acl : List Ace)
    (h : parseAcl cfg = Except.ok acl) : ∀ ace ∈ acl, filepath.isElem ace.Group = true := by
  intro ace hace
  rcases parseAclLoop_groups cfg 0 [] acl h ace hace with h1 | h1
  · cases h1
  · exact h1

end bcpsharing

namespace bcpsharing

theorem compileExportsLoop_groups (fs : Bcpfs) (cfgs : List bcpcfg.SharingExport) (i : Int)
    (acc exps : List ExportEntry) (h : compileExportsLoop fs cfgs i acc = Except.ok exps)
    (hacc : ∀ e ∈ acc, ∀ ace ∈ e.Acl, filepath.isElem ace.Group = true) :
    ∀ e ∈ exps, ∀ ace ∈ e.Acl, filepath.isElem ace.Group = true := by
  induction cfgs generalizing i acc with
  | nil =>
    simp only [compileExportsLoop] at h
    injection h with h
    subst h
    exact hacc
  | cons c rest ih =>
    simp only [compileExportsLoop] at h
    split at h
    · cases h
    · rename_i acl hacl
      split at h
      · cases h
      · apply ih _ _ h
        intro e he
        rcases List.mem_append.mp he with he | he
        · exact hacc e he
        · rw [List.mem_singleton] at he
          rw [he]
          exact parseAcl_groups c.Acl acl hacl

theorem selectAclLoop_mem {E : bcpfilter.RegexpEngine} (imps : List (ImportRule E))
    (path : String) (aces acc out : List Ace)
    (h : selectAclLoop imps path aces acc = Result.ok out) :
    ∀ ace ∈ out, ace ∈ acc ∨ ace ∈ aces := by
  induction aces generalizing acc with
  | nil =>
    simp only [selectAclLoop] at h
    injection h with h
    subst h
    intro ace hace
    exact Or.inl hace
  | cons a rest ih =>
    unfold selectAclLoop at h
    split at h
    · cases h
    · cases h
    · split at h
      · intro ace hace
        rcases ih _ h ace hace with h1 | h1
        · rcases List.mem_append.mp h1 with h2 | h2
          · exact Or.inl h2
          · rw [List.mem_singleton] at h2
            exact Or.inr (by rw [h2]; exact List.mem_cons_self _ _)
        · exact Or.inr (List.mem_cons_of_mem _ h1)
      · split at h
        · intro ace hace
          rcases ih _ h ace hace with h1 | h1
          · exact Or.inl h1
          · exact Or.inr (List.mem_cons_of_mem _ h1)
        · cases h

theorem selectImportedExportsLoop_groups {E : bcpfilter.RegexpEngine}
    (imps : List (ImportRule E)) (exps sels out : List ExportEntry)
    (h : selectImportedExportsLoop imps exps sels = Result.ok out)
    (hexps : ∀ e ∈ exps, ∀ ace ∈ e.Acl, filepath.isElem ace.Group = true)
    (hsels : ∀ e ∈ sels, ∀ ace ∈ e.Acl, filepath.isElem ace.Group = true) :
    ∀ e ∈ out, ∀ ace ∈ e.Acl, filepath.isElem ace.Group = true := by
  induction exps generalizing sels with
  | nil =>
    simp only [selectImportedExportsLoop] at h
    injection h with h
    subst h
    exact hsels
  | cons exp rest ih =>
    have hrest : ∀ e ∈ rest, ∀ ace ∈ e.Acl, filepath.isElem ace.Group = true :=
      fun e he => hexps e (List.mem_cons_of_mem _ he)
    have hstep : ∀ acl : List Ace, (∀ ace ∈ acl, ace ∈ exp.Acl) →
        ∀ e ∈ sels ++ [{ Path := exp.Path, Acl := acl, ManagingGroups := exp.ManagingGroups }],
          ∀ ace ∈ e.Acl, filepath.isElem ace.Group = true := by
      intro acl hacl e he
      rcases List.mem_append.mp he with he | he
      · exact hsels e he
      · rw [List.mem_singleton] at he
        rw [he]
        intro ace hace
        exact hexps exp (List.mem_cons_self _ _) ace (hacl ace hace)
    unfold selectImportedExportsLoop at h
    split at h
    · exact ih _ h hrest (hstep [] (fun ace hace => absurd hace (List.not_mem_nil _)))
    · split at h
      · cases h
      · cases h
      · rename_i acl hacl
        split at h
        · apply ih _ h hrest (hstep acl ?_)
          intro ace hace
          rcases selectAclLoop_mem imps exp.Path exp.Acl [] acl hacl ace hace with h1 | h1
          · cases h1
          · exact h1
        · exact ih _ h hrest hsels

/-- The shares and the trees of a successful `Compile`: the shares have the
paths of configured exports and grantee names that `parseAcl` returned. -/
theorem Compile_shareTrees (E : bcpfilter.RegexpEngine) (cfg : bcpcfg.Root)
    (sharing : bcpcfg.Sharing) (res : Sharing) (h : Compile E cfg sharing = Result.ok res) :
    res.ShareTrees = compileShareTrees (NewBcpfs cfg) res.Shares ∧
    (∀ s ∈ res.Shares, ∃ c ∈ sharing.Exports, s.Path = strings.Trim c.Path '/') ∧
    (∀ s ∈ res.Shares, ∀ ace ∈ s.Acl, filepath.isElem ace.Group = true) := by
  have h0 := h
  unfold Compile at h
  simp only at h
  split at h
  · cases h
  · rename_i imps himps
    split at h
    · cases h
    · rename_i exps hexps
      split at h
      · cases h
      · split at h
        · cases h
        · cases h
        · split at h
          · cases h
          · split at h
            · cases h
            · split at h
              · cases h
              · split at h
                · cases h
                · cases h
                · rename_i shares hshares
                  split at h
                  · cases h
                  · cases h
                  · split at h
                    · cases h
                    · cases h
                    · injection h with h
                      subst h
                      refine ⟨rfl, ?_, ?_⟩
                      · intro s hs
                        obtain ⟨e, he, hp⟩ :=
                          selectImportedExports_paths imps exps _ hshares s hs
                        obtain ⟨c, hc, hpc⟩ := compileExports_paths _ _ _ hexps e he
                        exact ⟨c, hc, hp.trans hpc⟩
                      · exact selectImportedExportsLoop_groups imps exps [] _ hshares
                          (compileExportsLoop_groups _ _ 0 [] exps hexps
                            (fun e he => absurd he (List.not_mem_nil _)))
                          (fun e he => absurd he (List.not_mem_nil _))

end bcpsharing

/-- C37: for every configuration (every org unit dir) and every list of shares
whose paths consist of non-empty components other than `.` and `..` and whose
grantee names are single clean path components (as every grantee name that
`parseAcl` returns is: a name of the characters `a-z`, `0-9` and `-`): every
symlink in every tree that `compileShareTrees` returns is the link of a share
with path `p` of `n` components in the tree of its exporting org unit or of
one of its grantees, its target is `n+1` times `../` followed by `p`, and the
target, resolved against the directory that contains the symlink, is the join
of the org unit dir and `p`, the same path for every org unit whose tree
holds the link; this join is `<org_unit_dir>/<p>` when the org unit dir is a
single clean path component. The same holds for the trees of every
successful `Compile` of a configuration whose export paths consist of such
components. -/
theorem shareTree_link_target_resolves (fs : bcpsharing.Bcpfs)
    (shares : List bcpsharing.ExportEntry)
    (hclean : ∀ s ∈ shares, bcpsharing.cleanComponents s.Path = true)
    (hgroups : ∀ s ∈ shares, ∀ ace ∈ s.Acl, filepath.isElem ace.Group = true) :
    (∀ t ∈ bcpsharing.compileShareTrees fs shares, ∀ f ∈ t.Files, f.Target ≠ "" →
      ∃ s ∈ shares,
        ((strings.Split s.Path '/').getD 0 "" = t.OrgUnit ∨
          t.OrgUnit ∈ s.Acl.map (fun x => x.Group)) ∧
        f.Path =
          bcpsharing.compileShareTrees_realpath fs t.OrgUnit (strings.Split s.Path '/') ∧
        f.Target =
          bcpsharing.dotdotSlash ((strings.Split s.Path '/').length + 1) ++ s.Path ∧
        filepath.resolveLink f.Path f.Target = slashpath.Join [fs.OrgUnitDir, s.Path]) ∧
    (∀ s ∈ shares, ∀ ou,
      ((strings.Split s.Path '/').getD 0 "" = ou ∨ ou ∈ s.Acl.map (fun x => x.Group)) →
      filepath.resolveLink
          (bcpsharing.compileShareTrees_realpath fs ou (strings.Split s.Path '/'))
          (bcpsharing.dotdotSlash ((strings.Split s.Path '/').length + 1) ++ s.Path) =
        slashpath.Join [fs.OrgUnitDir, s.Path]) ∧
    (filepath.isElem fs.OrgUnitDir = true →
      ∀ s ∈ shares, slashpath.Join [fs.OrgUnitDir, s.Path] = fs.OrgUnitDir ++ "/" ++ s.Path) ∧
    (∀ (cfg : List String) (acl : List bcpsharing.Ace),
      bcpsharing.parseAcl cfg = Except.ok acl →
        ∀ ace ∈ acl, filepath.isElem ace.Group = true) ∧
    (∀ (E : bcpfilter.RegexpEngine) (cfg : bcpcfg.Root) (sharing : bcpcfg.Sharing)
        (res : bcpsharing.Sharing),
      bcpsharing.Compile E cfg sharing = Result.ok res →
      (∀ c ∈ sharing.Exports,
        bcpsharing.cleanComponents (strings.Trim c.Path '/') = true) →
      ∀ t ∈ res.ShareTrees, ∀ f ∈ t.Files, f.Target ≠ "" →
        ∃ s ∈ res.Shares,
          f.Path = bcpsharing.compileShareTrees_realpath (bcpsharing.NewBcpfs cfg) t.OrgUnit
            (strings.Split s.Path '/') ∧
          filepath.resolveLink f.Path f.Target = slashpath.Join [cfg.OrgUnitDir, s.Path]) := by
  have hkey : ∀ (fs : bcpsharing.Bcpfs) (shares : List bcpsharing.ExportEntry),
      (∀ s ∈ shares, bcpsharing.cleanComponents s.Path = true) →
      (∀ s ∈ shares, ∀ ace ∈ s.Acl, filepath.isElem ace.Group = true) →
      (∀ s ∈ shares, ∀ ou,
        ((strings.Split s.Path '/').getD 0 "" = ou ∨ ou ∈ s.Acl.map (fun x => x.Group)) →
        filepath.resolveLink
            (bcpsharing.compileShareTrees_realpath fs ou (strings.Split s.Path '/'))
            (bcpsharing.dotdotSlash ((strings.Split s.Path '/').length + 1) ++ s.Path) =
          slashpath.Join [fs.OrgUnitDir, s.Path]) := by
    intro fs shares hclean hgroups s hs ou hou
    have hall : ∀ c ∈ strings.Split s.Path '/', filepath.isElem c = true :=
      List.all_eq_true.mp (hclean s hs)
    have hu : filepath.isElem ou = true := by
      rcases hou with h | h
      · rw [← h]
        exact hall _ (bcpsharing.getD_mem_of_lt _ _
          (List.length_pos.mpr (bcpsharing.Split_ne_nil _ _)))
      · obtain ⟨ace, hace, rfl⟩ := List.mem_map.mp h
        exact hgroups s hs ace hace
    rw [← bcpsharing.link_target_eq _ (hclean s hs)]
    exact bcpsharing.resolve_share_link_any fs ou s.Path hu (hclean s hs)
  have htrees : ∀ (fs : bcpsharing.Bcpfs) (shares : List bcpsharing.ExportEntry),
      (∀ s ∈ shares, bcpsharing.cleanComponents s.Path = true) →
      (∀ s ∈ shares, ∀ ace ∈ s.Acl, filepath.isElem ace.Group = true) →
      ∀ t ∈ bcpsharing.compileShareTrees fs shares, ∀ f ∈ t.Files, f.Target ≠ "" →
        ∃ s ∈ shares,
          ((strings.Split s.Path '/').getD 0 "" = t.OrgUnit ∨
            t.OrgUnit ∈ s.Acl.map (fun x => x.Group)) ∧
          f.Path =
            bcpsharing.compileShareTrees_realpath fs t.OrgUnit (strings.Split s.Path '/') ∧
          f.Target =
            bcpsharing.dotdotSlash ((strings.Split s.Path '/').length + 1) ++ s.Path ∧
          filepath.resolveLink f.Path f.Target = slashpath.Join [fs.OrgUnitDir, s.Path] := by
    intro fs shares hclean hgroups t ht f hf hne
    obtain ⟨tr, hg, hfiles⟩ := (bcpsharing.mem_compileShareTrees fs shares t).mp ht
    rw [hfiles, bcpsharing.mem_compileShareTrees_files] at hf
    have hlook := (bcpsharing.treesM_inv fs shares).2 t.OrgUnit f.Path
    rw [hg] at hlook
    simp only [Option.some_bind] at hlook
    rw [hf] at hlook
    have hw := bcpsharing.lastWrite_mem _ _ _ _ hlook.symm
    obtain ⟨s, hs, hou, hws⟩ := (bcpsharing.mem_shareWrites fs shares _).mp hw
    rcases (bcpsharing.mem_shareWritesOf fs _ _ _).mp hws with ⟨i, -, -, he⟩ | he
    · simp only [Prod.mk.injEq, true_and] at he
      exact absurd he.2 hne
    · simp only [Prod.mk.injEq, true_and] at he
      have htgt : f.Target =
          bcpsharing.dotdotSlash ((strings.Split s.Path '/').length + 1) ++ s.Path := by
        rw [he.2, bcpsharing.link_target_eq _ (hclean s hs)]
      refine ⟨s, hs, hou, he.1, htgt, ?_⟩
      rw [he.1, htgt]
      exact hkey fs shares hclean hgroups s hs t.OrgUnit hou
  refine ⟨htrees fs shares hclean hgroups, hkey fs shares hclean hgroups, ?_,
    bcpsharing.parseAcl_groups, ?_⟩
  · intro ho s hs
    have hall : ∀ c ∈ strings.Split s.Path '/', filepath.isElem c = true :=
      List.all_eq_true.mp (hclean s hs)
    have hj := filepath.Join_pop [fs.OrgUnitDir] [] (strings.Split s.Path '/') (by simp)
      (by
        intro e he
        rw [List.mem_singleton] at he
        rw [he]
        exact ho)
      (by simp) hall (by simpa using bcpsharing.Split_ne_nil s.Path '/')
    simp only [List.append_nil, List.length_nil, List.replicate_zero, List.nil_append,
      filepath.joinElems_singleton, filepath.joinElems_Split, List.singleton_append] at hj
    unfold slashpath.Join
    rw [hj, filepath.joinElems_cons _ _ (bcpsharing.Split_ne_nil _ _),
      filepath.joinElems_Split]
  · intro E cfg sharing res hc hpaths t ht f hf hne
    obtain ⟨htr, hsp, hsg⟩ := bcpsharing.Compile_shareTrees E cfg sharing res hc
    have hclean' : ∀ s ∈ res.Shares, bcpsharing.cleanComponents s.Path = true := by
      intro s hs
      obtain ⟨c, hcm, hp⟩ := hsp s hs
      rw [hp]
      exact hpaths c hcm
    rw [htr] at ht
    obtain ⟨s, hs, -, hpath, -, hres⟩ :=
      htrees (bcpsharing.NewBcpfs cfg) res.Shares hclean' hsg t ht f hf hne
    exact ⟨s, hs, hpath, hres⟩

theorem shareTree_link_target_resolves_witness :
    filepath.resolveLink "org/bob/shared/em-facility/mic1/alice/foo"
        "../../../../../em-facility/mic1/alice/foo" = "org/em-facility/mic1/alice/foo" ∧
    bcpsharing.compileShareTrees (bcpsharing.NewBcpfs S1.cfg) Examples.sharesS5 =
      Examples.shareTreesS5 ∧
    (∀ t ∈ bcpsharing.compileShareTrees (bcpsharing.NewBcpfs S1.cfg) Examples.sharesS5,
      ∀ f ∈ t.Files, f.Target ≠ "" →
        ∃ s ∈ Examples.sharesS5,
          ((strings.Split s.Path '/').getD 0 "" = t.OrgUnit ∨
            t.OrgUnit ∈ s.Acl.map (fun x => x.Group)) ∧
          f.Path =
            bcpsharing.compileShareTrees_realpath (bcpsharing.NewBcpfs S1.cfg) t.OrgUnit
              (strings.Split s.Path '/') ∧
          f.Target =
            bcpsharing.dotdotSlash ((strings.Split s.Path '/').length + 1) ++ s.Path ∧
          filepath.resolveLink f.Path f.Target =
            slashpath.Join [(bcpsharing.NewBcpfs S1.cfg).OrgUnitDir, s.Path]) :=
  ⟨rfl, rfl,
    (shareTree_link_target_resolves (bcpsharing.NewBcpfs S1.cfg) Examples.sharesS5
      (by decide) (by decide)).1⟩

end Bcpfs
